import Mathlib

/-!
# CINEBREW: bytecode virtual machine and code generator

A shallow embedding of `src/vm/vm.cpp`, `src/runtime/runtime.cpp`, the expression
nodes of `src/compiler/ast.h` and the expression part of `src/compiler/codegen.cpp`,
followed by the properties proved about them.

Conventions of the embedding.

* A `std::string` is a `List Char` (`Str`); a bytecode program is a list of lines.
* A C++ `int` is an `Int`; results of `+ - * /` are reduced to the signed 32-bit
  range by `wrap32` (two's complement wrap-around).
* The program counter, return addresses and label targets are natural numbers (the
  sources never make them negative); frame bases and argument counts are `Int`.
* `std::vector` keeps its order: the top of the operand stack and the innermost
  call frame are the LAST elements of their lists.
* `std::unordered_map` is an association list with unique keys.
* `std::cout` is the list `out` of the lines written so far; `std::cerr` is not
  modelled.
* A C++ exception leaving `VM::execute` is an `Except.error` carrying the kind of
  the exception and the machine state at the throw.
-/

namespace Cinebrew

/-- A `std::string`. -/
abbrev Str := List Char

/-! ## Library functions used by the sources -/

/-- The C function `isspace` in the default locale. -/
def isspace (c : Char) : Bool :=
  c = ' ' || c = '\t' || c = '\n' || c = '\x0b' || c = '\x0c' || c = '\r'

/-- Decimal digit test (`Lexer::isDigit`, and the digits `std::stoi` accepts). -/
def isDigit (c : Char) : Bool :=
  decide ('0'.toNat ≤ c.toNat) && decide (c.toNat ≤ '9'.toNat)

/-- Value of a decimal digit character. -/
def digitVal (c : Char) : Nat := c.toNat - '0'.toNat

/-- Value of a run of decimal digits, most significant first. -/
def decVal (ds : List Char) : Nat :=
  ds.foldl (fun acc c => 10 * acc + digitVal c) 0

/-- Outcome of `std::stoi`: a value, or one of its two exceptions. -/
inductive StoiResult where
  | value (v : Int)
  | invalid_argument
  | out_of_range
deriving DecidableEq, Repr

/-- Sign prefix accepted by `std::stoi`: returns whether the number is negated and
the text after the sign. -/
def stoiSign : Str → Bool × Str
  | '-' :: r => (true, r)
  | '+' :: r => (false, r)
  | s => (false, s)

/-- The function `std::stoi(s)` (base 10, `int` result): skips leading white space,
reads an optional sign and the longest run of digits; fails with
`invalid_argument` when there is no digit and with `out_of_range` when the value
does not fit an `int`. Characters after the digits are ignored. -/
def stoi (s : Str) : StoiResult :=
  let p := stoiSign (s.dropWhile isspace)
  let ds := p.2.takeWhile isDigit
  if ds.isEmpty then .invalid_argument
  else
    let n : Int := (decVal ds : Nat)
    let v : Int := if p.1 then -n else n
    if v < -2147483648 ∨ 2147483647 < v then .out_of_range else .value v

/-- The character of a decimal digit. -/
def digitChar (d : Nat) : Char := Char.ofNat ('0'.toNat + d)

/-- Decimal digits of a natural number, most significant first (`fuel` bounds the
number of digits). -/
def natDigits : Nat → Nat → Str
  | 0, _ => []
  | fuel + 1, n =>
    if n < 10 then [digitChar n] else natDigits fuel (n / 10) ++ [digitChar (n % 10)]

/-- The function `std::to_string(int)`, also the text `std::cout << int` writes. -/
def to_string (i : Int) : Str :=
  if i < 0 then '-' :: natDigits (i.natAbs + 1) i.natAbs else natDigits (i.natAbs + 1) i.natAbs

/-- Reduction of an integer to the signed 32-bit range: the result of an `int`
operation whose mathematical value is `i` (signed overflow, undefined in C++, is
given its two's complement value). -/
def wrap32 (i : Int) : Int := (i + 2147483648) % 4294967296 - 2147483648

/-- The values an `int` can hold. -/
def isInt32 (i : Int) : Prop := -2147483648 ≤ i ∧ i ≤ 2147483647

instance (i : Int) : Decidable (isInt32 i) := by
  unfold isInt32; infer_instance

/-- Lookup in a `std::unordered_map<std::string, T>`. -/
def mapFind {α : Type} : List (Str × α) → Str → Option α
  | [], _ => none
  | (k, v) :: m, key => if k = key then some v else mapFind m key

/-- The assignment `m[key] = v` on a `std::unordered_map<std::string, T>`. -/
def mapSet {α : Type} : List (Str × α) → Str → α → List (Str × α)
  | [], key, v => [(key, v)]
  | (k, w) :: m, key, v => if k = key then (k, v) :: m else (k, w) :: mapSet m key v

/-! ## The virtual machine (`src/vm/vm.h`, `src/vm/vm.cpp`) -/

/-- Call frame for function calls (`struct Frame`). -/
structure Frame where
  return_pc : Nat
  prev_stack_size : Int
  arg_count : Int
deriving DecidableEq, Repr

/-- The state of `class VM`, with the standard output written so far (`out`) and
the values the environment will hand to the built-ins `input`, `random` and
`time` (`env`, consumed front first). -/
structure VM where
  stack : List Int
  vars : List (Str × Int)
  pc : Nat
  labels : List (Str × Nat)
  callstack : List Frame
  out : List Str
  env : List Int
deriving DecidableEq, Repr

/-- The exceptions (and the one out-of-bounds read) that end `VM::execute`
abnormally, and the signal that ends the process inside it: the `int` division of
-2147483648 by -1 overflows, the division instruction traps and the process is
killed by SIGFPE. -/
inductive Fault where
  | stack_underflow
  | invalid_argument
  | out_of_range
  | length_error
  | out_of_bounds
  | arithmetic_signal
deriving DecidableEq, Repr

/-- Result of one call of `VM::execute`: the next state, or a fault with the
state at the throw (for the signal: at the division). -/
abbrev Result := Except (Fault × VM) VM

/-- The method `VM::push`. -/
def push (vm : VM) (value : Int) : VM :=
  { vm with stack := vm.stack ++ [value] }

/-- The method `VM::pop`: throws `Stack underflow` on an empty stack. -/
def pop (vm : VM) : Except (Fault × VM) (Int × VM) :=
  match vm.stack.getLast? with
  | none => .error (Fault.stack_underflow, vm)
  | some value => .ok (value, { vm with stack := vm.stack.dropLast })

/-- The statement `pc++`. -/
def incPc (vm : VM) : VM := { vm with pc := vm.pc + 1 }

/-- State of the loop of `VM::split`: the text left, the parts found, the current
part and the quote flag. -/
def splitLoop : List Char → List Str → Str → Bool → List Str
  | [], parts, cur, _ => if cur.isEmpty then parts else parts ++ [cur]
  | c :: s, parts, cur, in_quote =>
    if c = '"' then splitLoop s parts (cur ++ [c]) (!in_quote)
    else if isspace c && !in_quote then
      if !cur.isEmpty then splitLoop s (parts ++ [cur]) [] in_quote
      else splitLoop s parts cur in_quote
    else splitLoop s parts (cur ++ [c]) in_quote

/-- The method `VM::split`: white-space separated words; a double quote toggles a
mode in which white space does not separate, and stays part of the word. -/
def split (s : Str) : List Str := splitLoop s [] [] false

/-- A line that `preprocess` and `execute` treat as a label: non-empty and ending
in a colon. -/
def isLabelLine (line : Str) : Bool := line.getLast? = some ':'

/-- Loop of `VM::preprocess` from index `i` on. -/
def preprocessLoop : List Str → Nat → List (Str × Nat) → List (Str × Nat)
  | [], _, labels => labels
  | line :: rest, i, labels =>
    if isLabelLine line then preprocessLoop rest (i + 1) (mapSet labels line.dropLast i)
    else preprocessLoop rest (i + 1) labels

/-- The method `VM::preprocess`: clears the label table and records the index of
every label line. -/
def preprocess (program : List Str) (vm : VM) : VM :=
  { vm with labels := preprocessLoop program 0 [] }

/-! ### The runtime library (`src/runtime/runtime.cpp`)

`Runtime::window_` is a null pointer unless a game loop installs a window; the
embedding covers the machine without a window. -/

/-- The table filled by `Runtime::initializeBuiltins`: name and parameter count. -/
def builtins_ : List (Str × Int) :=
  [("print".toList, 1), ("input".toList, 0), ("random".toList, 1), ("time".toList, 0),
   ("abs".toList, 1), ("min".toList, 2), ("max".toList, 2),
   ("keyPressed".toList, 1), ("getScreenWidth".toList, 0), ("getScreenHeight".toList, 0),
   ("clearScreen".toList, 0), ("setColor".toList, 3), ("drawRectangle".toList, 4),
   ("drawCircle".toList, 3), ("drawLine".toList, 4)]

/-- The method `Runtime::isBuiltin`. -/
def isBuiltin (name : Str) : Bool := (mapFind builtins_ name).isSome

/-- The method `Runtime::getParamCount`. -/
def getParamCount (name : Str) : Int :=
  match mapFind builtins_ name with
  | some n => n
  | none => -1

/-- Next value handed over by the environment (0 when there is none left). -/
def nextEnv (vm : VM) : Int × VM :=
  match vm.env with
  | [] => (0, vm)
  | v :: rest => (v, { vm with env := rest })

/-- The function `Runtime::printImpl`. -/
def printImpl (args : List Int) (vm : VM) : Int × VM :=
  match args with
  | [] => (0, { vm with out := vm.out ++ ["[EMPTY]".toList] })
  | a :: _ => (0, { vm with out := vm.out ++ [to_string a] })

/-- The function `Runtime::randomImpl`; `rand()` is the next environment value. -/
def randomImpl (args : List Int) (vm : VM) : Int × VM :=
  match args with
  | [max] => if max ≤ 0 then (0, vm) else ((nextEnv vm).1.tmod max, (nextEnv vm).2)
  | [min, max] =>
    if max ≤ min then (min, vm)
    else (wrap32 (min + (nextEnv vm).1.tmod (wrap32 (max - min))), (nextEnv vm).2)
  | _ => (0, vm)

/-- The function `Runtime::absImpl`. -/
def absImpl (args : List Int) : Int :=
  match args with
  | [] => 0
  | value :: _ => if value < 0 then wrap32 (-value) else value

/-- The function `Runtime::minImpl`. -/
def minImpl (args : List Int) : Int :=
  match args with
  | a :: b :: _ => if b < a then b else a
  | _ => 0

/-- The function `Runtime::maxImpl`. -/
def maxImpl (args : List Int) : Int :=
  match args with
  | a :: b :: _ => if a < b then b else a
  | _ => 0

/-- The method `Runtime::call`: the result of the built-in and the state after its
effects on standard output and on the environment; 0 for an unknown name. -/
def runtimeCall (name : Str) (args : List Int) (vm : VM) : Int × VM :=
  if name = "print".toList then printImpl args vm
  else if name = "input".toList then nextEnv vm
  else if name = "random".toList then randomImpl args vm
  else if name = "time".toList then (wrap32 (nextEnv vm).1, (nextEnv vm).2)
  else if name = "abs".toList then (absImpl args, vm)
  else if name = "min".toList then (minImpl args, vm)
  else if name = "max".toList then (maxImpl args, vm)
  else if name = "getScreenWidth".toList then (800, vm)
  else if name = "getScreenHeight".toList then (600, vm)
  else (0, vm)

/-! ### `VM::execute`, one definition per opcode branch -/

/-- The pattern shared by ADD, SUB, MUL, EQ, GT, LT and NE:
`int b = pop(); int a = pop(); push(f(a, b)); pc++`. -/
def binop (f : Int → Int → Int) (vm : VM) : Result :=
  match pop vm with
  | .error e => .error e
  | .ok (b, vm1) =>
    match pop vm1 with
    | .error e => .error e
    | .ok (a, vm2) => .ok (incPc (push vm2 (f a b)))

/-- Branch `DIV` of `VM::execute`: `b`, then `a` are popped; only `b == 0` is
guarded before `push(a / b)`. Division of `int` rounds toward zero; the quotient of
two 32-bit values is a 32-bit value except for -2147483648 / -1, where the division
overflows and the process is killed by SIGFPE with both operands popped. -/
def execDIV (vm : VM) : Result :=
  match pop vm with
  | .error e => .error e
  | .ok (b, vm1) =>
    match pop vm1 with
    | .error e => .error e
    | .ok (a, vm2) =>
      if b = 0 then .ok (incPc (push vm2 0))
      else if a = -2147483648 ∧ b = -1 then .error (Fault.arithmetic_signal, vm2)
      else .ok (incPc (push vm2 (a.tdiv b)))

/-- Removal of leading and trailing white space. -/
def trimSpaces (s : Str) : Str :=
  ((s.dropWhile isspace).reverse.dropWhile isspace).reverse

/-- Removal of one pair of surrounding double quotes, if present. -/
def stripQuotes (literal : Str) : Str :=
  if 2 ≤ literal.length ∧ literal.head? = some '"' ∧ literal.getLast? = some '"' then
    (literal.drop 1).take (literal.length - 2)
  else literal

/-- The text of a non-numeric PUSH: everything after the first blank or tab of the
instruction, trimmed (or the second word when there is no blank), without
surrounding quotes. -/
def pushLiteral (instruction : Str) (word : Str) : Str :=
  stripQuotes
    (match instruction.dropWhile (fun c => !(c = ' ' || c = '\t')) with
     | [] => word
     | _ :: rest => trimSpaces rest)

/-- Index of the first line from `start` on that is not a label line. -/
def nextNonLabel (program : List Str) (start : Nat) : Nat :=
  start + ((program.drop start).takeWhile isLabelLine).length

/-- Whether the line at `next_i` exists and its first word is `PRINT`. -/
def isPrintAt (program : List Str) (next_i : Nat) : Bool :=
  match program[next_i]? with
  | none => false
  | some line =>
    match split line with
    | [] => false
    | w :: _ => w = "PRINT".toList

/-- Branch `PUSH` of `VM::execute`. -/
def execPUSH (instruction : Str) (parts : List Str) (program : List Str) (vm : VM) : Result :=
  match parts with
  | _ :: word :: _ =>
    match stoi word with
    | .value value => .ok (incPc (push vm value))
    | .out_of_range => .error (Fault.out_of_range, vm)
    | .invalid_argument =>
      if isPrintAt program (nextNonLabel program (vm.pc + 1)) then
        .ok { vm with out := vm.out ++ [pushLiteral instruction word],
                      pc := nextNonLabel program (vm.pc + 1) + 1 }
      else .ok (incPc (push vm 0))
  | _ => .ok (incPc vm)

/-- Branch `STORE` of `VM::execute`. -/
def execSTORE (parts : List Str) (vm : VM) : Result :=
  match parts with
  | _ :: var_name :: _ =>
    match pop vm with
    | .error e => .error e
    | .ok (value, vm1) => .ok (incPc { vm1 with vars := mapSet vm1.vars var_name value })
  | _ => .ok (incPc vm)

/-- Branch `LOAD` of `VM::execute`. -/
def execLOAD (parts : List Str) (vm : VM) : Result :=
  match parts with
  | _ :: var_name :: _ =>
    match mapFind vm.vars var_name with
    | none => .ok (incPc (push vm 0))
    | some v => .ok (incPc (push vm v))
  | _ => .ok (incPc vm)

/-- The jump `pc = labels[label]`, or `pc++` when the label is not in the table. -/
def jumpTo (label : Str) (vm : VM) : VM :=
  match mapFind vm.labels label with
  | none => incPc vm
  | some target => { vm with pc := target }

/-- Branch `JMP` of `VM::execute`. -/
def execJMP (parts : List Str) (vm : VM) : Result :=
  match parts with
  | _ :: label :: _ => .ok (jumpTo label vm)
  | _ => .ok (incPc vm)

/-- Branch `JZ` of `VM::execute`. -/
def execJZ (parts : List Str) (vm : VM) : Result :=
  match parts with
  | _ :: label :: _ =>
    match pop vm with
    | .error e => .error e
    | .ok (value, vm1) => if value = 0 then .ok (jumpTo label vm1) else .ok (incPc vm1)
  | _ => .ok (incPc vm)

/-- Branch `JNZ` of `VM::execute`. -/
def execJNZ (parts : List Str) (vm : VM) : Result :=
  match parts with
  | _ :: label :: _ =>
    match pop vm with
    | .error e => .error e
    | .ok (value, vm1) => if value ≠ 0 then .ok (jumpTo label vm1) else .ok (incPc vm1)
  | _ => .ok (incPc vm)

/-- The loop of the built-in branch of CALL: pops `n` values, each inserted at the
front of `args`. -/
def popArgs : Nat → List Int → VM → Except (Fault × VM) (List Int × VM)
  | 0, args, vm => .ok (args, vm)
  | n + 1, args, vm =>
    match pop vm with
    | .error e => .error e
    | .ok (arg, vm1) => popArgs n (arg :: args) vm1

/-- Branch `CALL` of `VM::execute` once `argc` is known. -/
def execCALLwith (label : Str) (argc : Int) (vm : VM) : Result :=
  let frame : Frame :=
    { return_pc := vm.pc + 1,
      prev_stack_size := wrap32 ((vm.stack.length : Int) - argc),
      arg_count := argc }
  if isBuiltin label then
    match popArgs argc.toNat [] vm with
    | .error e => .error e
    | .ok (args, vm1) =>
      .ok (incPc (push (runtimeCall label args vm1).2 (runtimeCall label args vm1).1))
  else
    .ok (jumpTo label { vm with callstack := vm.callstack ++ [frame] })

/-- Branch `CALL` of `VM::execute`. -/
def execCALL (parts : List Str) (vm : VM) : Result :=
  match parts with
  | [_] => .ok (incPc vm)
  | [_, label] => execCALLwith label 0 vm
  | _ :: label :: count :: _ =>
    match stoi count with
    | .value argc => execCALLwith label argc vm
    | .invalid_argument => .error (Fault.invalid_argument, vm)
    | .out_of_range => .error (Fault.out_of_range, vm)
  | [] => .ok (incPc vm)

/-- Branch `LOADARG` of `VM::execute`. -/
def execLOADARG (parts : List Str) (vm : VM) : Result :=
  match parts with
  | _ :: word :: _ =>
    match stoi word with
    | .invalid_argument => .error (Fault.invalid_argument, vm)
    | .out_of_range => .error (Fault.out_of_range, vm)
    | .value arg_index =>
      match vm.callstack.getLast? with
      | none => .ok (incPc (push vm 0))
      | some frame =>
        if arg_index < 0 ∨ arg_index ≥ frame.arg_count then .ok (incPc (push vm 0))
        else
          let arg_position := wrap32 (frame.prev_stack_size + arg_index)
          if arg_position < (vm.stack.length : Int) then
            if arg_position < 0 then .error (Fault.out_of_bounds, vm)
            else .ok (incPc (push vm (vm.stack.getD arg_position.toNat 0)))
          else .ok (incPc (push vm 0))
  | _ => .ok (incPc (push vm 0))

/-- The call `stack.resize(n)` for `n ≥ 0`: truncation, or padding with zeros. -/
def resize (stack : List Int) (n : Nat) : List Int :=
  stack.take n ++ List.replicate (n - stack.length) 0

/-- Branch `RET` of `VM::execute`. A negative frame base reaches `resize` as a
huge unsigned size, which throws `length_error`. -/
def execRET (program : List Str) (vm : VM) : Result :=
  match vm.callstack.getLast? with
  | none => .ok { vm with pc := program.length }
  | some frame =>
    let return_value : Int := vm.stack.getLast?.getD 0
    let vm1 : VM := { vm with stack := vm.stack.dropLast, callstack := vm.callstack.dropLast }
    if frame.prev_stack_size < 0 then .error (Fault.length_error, vm1)
    else
      .ok { vm1 with stack := resize vm1.stack frame.prev_stack_size.toNat ++ [return_value],
                     pc := frame.return_pc }

/-- Branch `PRINT` of `VM::execute`. -/
def execPRINT (vm : VM) : Result :=
  match vm.stack.getLast? with
  | none => .ok (incPc { vm with out := vm.out ++ ["[EMPTY_STACK]".toList] })
  | some top => .ok (incPc { vm with out := vm.out ++ [to_string top] })

/-- The method `VM::execute`: one instruction line. -/
def execute (instruction : Str) (program : List Str) (vm : VM) : Result :=
  if instruction.isEmpty then .ok (incPc vm)
  else if isLabelLine instruction then .ok (incPc vm)
  else
    match split instruction with
    | [] => .ok (incPc vm)
    | opcode :: args =>
      if opcode = "PUSH".toList then execPUSH instruction (opcode :: args) program vm
      else if opcode = "ADD".toList then binop (fun a b => wrap32 (a + b)) vm
      else if opcode = "SUB".toList then binop (fun a b => wrap32 (a - b)) vm
      else if opcode = "MUL".toList then binop (fun a b => wrap32 (a * b)) vm
      else if opcode = "DIV".toList then execDIV vm
      else if opcode = "STORE".toList then execSTORE (opcode :: args) vm
      else if opcode = "LOAD".toList then execLOAD (opcode :: args) vm
      else if opcode = "EQ".toList then binop (fun a b => if a = b then 1 else 0) vm
      else if opcode = "GT".toList then binop (fun a b => if a > b then 1 else 0) vm
      else if opcode = "LT".toList then binop (fun a b => if a < b then 1 else 0) vm
      else if opcode = "NE".toList then binop (fun a b => if a ≠ b then 1 else 0) vm
      else if opcode = "JMP".toList then execJMP (opcode :: args) vm
      else if opcode = "JZ".toList then execJZ (opcode :: args) vm
      else if opcode = "JNZ".toList then execJNZ (opcode :: args) vm
      else if opcode = "CALL".toList then execCALL (opcode :: args) vm
      else if opcode = "LOADARG".toList then execLOADARG (opcode :: args) vm
      else if opcode = "RET".toList then execRET program vm
      else if opcode = "PRINT".toList then execPRINT vm
      else .ok (incPc vm)

/-- How a run ends: the program counter left the program, an exception left
`VM::run` (or a signal ended the process), or the step budget of the embedding ran
out. -/
inductive RunResult where
  | finished (vm : VM)
  | aborted (fault : Fault) (vm : VM)
  | out_of_fuel (vm : VM)
deriving DecidableEq, Repr

/-- The loop `while (pc < program.size()) execute(program[pc], program)` of
`VM::run`, with a bound on the number of instructions executed. -/
def runLoop (program : List Str) : Nat → VM → RunResult
  | fuel, vm =>
    match program[vm.pc]? with
    | none => .finished vm
    | some instruction =>
      match fuel with
      | 0 => .out_of_fuel vm
      | fuel + 1 =>
        match execute instruction program vm with
        | .error (fault, vm1) => .aborted fault vm1
        | .ok vm1 => runLoop program fuel vm1

/-- The state `VM::run` starts its loop from: labels rebuilt, stack, variables,
call stack and program counter reset. -/
def runInit (program : List Str) (vm : VM) : VM :=
  { preprocess program vm with pc := 0, stack := [], vars := [], callstack := [] }

/-- The method `VM::run`. -/
def run (fuel : Nat) (program : List Str) (vm : VM) : RunResult :=
  runLoop program fuel (runInit program vm)

/-- A freshly constructed `VM` (the constructor `VM::VM`), reading `env`. -/
def VM.new (env : List Int) : VM :=
  { stack := [], vars := [], pc := 0, labels := [], callstack := [], out := [], env := env }

/-! ## Tokens and expressions (`src/compiler/token.h`, `src/compiler/ast.h`) -/

/-- The enumeration `TokenType`. -/
inductive TokenType where
  | TAKE | POUR | SCENE | SHOT | IF | ELSE | LOOP | BREAK | CONTINUE | TRUE_KW | FALSE_KW
  | IDENTIFIER | NUMBER | STRING
  | EQUAL | PLUS | MINUS | STAR | SLASH
  | EQUAL_EQUAL | BANG_EQUAL | GREATER | LESS | GREATER_EQUAL | LESS_EQUAL
  | SEMICOLON | LBRACE | RBRACE | LPAREN | RPAREN | COMMA
  | END_OF_FILE | ERROR
deriving DecidableEq, Repr

/-- The structure `Token`. -/
structure Token where
  type : TokenType
  lexeme : Str
  literal : Str
  line : Int
deriving DecidableEq, Repr

/-- The expression nodes of `ast.h`: `LiteralExpr`, `VariableExpr`, `BinaryExpr`,
`UnaryExpr` and `CallExpr`. -/
inductive Expr where
  | Literal (token : Token) (value : Str)
  | Variable (name : Token)
  | Binary (left : Expr) (op : Token) (right : Expr)
  | Unary (op : Token) (right : Expr)
  | Call (callee : Token) (arguments : List Expr)

/-! ## The code generator, expressions (`src/compiler/codegen.cpp`) -/

/-- The state of `class CodeGenerator`. -/
structure CodeGenerator where
  bytecode_ : List Str
  labelCounter_ : List (Str × Int)
  hadError_ : Bool
  errorMessage_ : Str
deriving DecidableEq, Repr

/-- The state `CodeGenerator::generate` starts from. -/
def CodeGenerator.new : CodeGenerator :=
  { bytecode_ := [], labelCounter_ := [], hadError_ := false, errorMessage_ := [] }

/-- The method `CodeGenerator::emit`. -/
def emit (g : CodeGenerator) (instruction : Str) : CodeGenerator :=
  { g with bytecode_ := g.bytecode_ ++ [instruction] }

/-- The method `CodeGenerator::error`. -/
def cgError (g : CodeGenerator) (message : Str) : CodeGenerator :=
  { g with hadError_ := true, errorMessage_ := message }

/-- The operator dispatch of `CodeGenerator::visitBinary`, after both operands. -/
def emitBinaryOp (op : Str) (g : CodeGenerator) : CodeGenerator :=
  if op = "+".toList then emit g "ADD".toList
  else if op = "-".toList then emit g "SUB".toList
  else if op = "*".toList then emit g "MUL".toList
  else if op = "/".toList then emit g "DIV".toList
  else if op = "==".toList then emit g "EQ".toList
  else if op = "!=".toList then emit (emit (emit g "EQ".toList) "PUSH 1".toList) "SUB".toList
  else if op = ">".toList then emit g "GT".toList
  else if op = "<".toList then emit g "LT".toList
  else if op = ">=".toList then emit (emit (emit g "LT".toList) "PUSH 1".toList) "SUB".toList
  else if op = "<=".toList then emit (emit (emit g "GT".toList) "PUSH 1".toList) "SUB".toList
  else cgError g ("Unknown binary operator: ".toList ++ op)

/-- The operator dispatch of `CodeGenerator::visitUnary`, after the operand. -/
def emitUnaryOp (op : Str) (g : CodeGenerator) : CodeGenerator :=
  if op = "-".toList then emit (emit g "PUSH 0".toList) "SUB".toList
  else if op = "!".toList then emit (emit g "PUSH 1".toList) "SUB".toList
  else cgError g ("Unknown unary operator: ".toList ++ op)

mutual
/-- The method `CodeGenerator::visitExpr` with `visitLiteral`, `visitVariable`,
`visitBinary`, `visitUnary` and `visitCall`. -/
def visitExpr : Expr → CodeGenerator → CodeGenerator
  | .Literal _ value, g => emit g ("PUSH ".toList ++ value)
  | .Variable name, g => emit g ("LOAD ".toList ++ name.lexeme)
  | .Binary left op right, g => emitBinaryOp op.lexeme (visitExpr right (visitExpr left g))
  | .Unary op right, g => emitUnaryOp op.lexeme (visitExpr right g)
  | .Call callee arguments, g =>
    emit (visitArguments arguments g)
      ("CALL ".toList ++ callee.lexeme ++ " ".toList ++ to_string arguments.length)
/-- The loop over the arguments in `CodeGenerator::visitCall`. -/
def visitArguments : List Expr → CodeGenerator → CodeGenerator
  | [], g => g
  | arg :: rest, g => visitArguments rest (visitExpr arg g)
end

/-- The instruction sequence the code generator emits for an expression. -/
def exprCode (e : Expr) : List Str := (visitExpr e CodeGenerator.new).bytecode_

/-! ## Statements (`src/compiler/ast.h`) -/

/-- The statement nodes of `ast.h`. A `BlockStmt` owned by another node (the
branches of `IfStmt`, the body of `LoopStmt` and `FunctionStmt`) is given by its
list of statements; a null pointer (`elseBranch`, the value of `ReturnStmt`) is
`none`. -/
inductive Stmt where
  | Declaration (keyword : Token) (name : Token) (initializer : Expr)
  | Assignment (name : Token) (value : Expr)
  | Expression (expression : Expr)
  | Print (keyword : Token) (expression : Expr)
  | If (keyword : Token) (condition : Expr) (thenBranch : List Stmt)
      (elseBranch : Option (List Stmt))
  | Loop (keyword : Token) (condition : Expr) (body : List Stmt)
  | Break (keyword : Token)
  | Continue (keyword : Token)
  | Return (keyword : Token) (value : Option Expr)
  | Block (statements : List Stmt)
  | Function (keyword : Token) (name : Token) (parameters : List Token) (body : List Stmt)

/-- The class `Program`: the top-level statements. -/
structure Program where
  statements : List Stmt

/-! ## The code generator, statements (`src/compiler/codegen.cpp`) -/

/-- The method `CodeGenerator::newLabel`: `labelCounter_[stem]++` and the label
`stem_count`. -/
def newLabel (g : CodeGenerator) (stem : Str) : Str × CodeGenerator :=
  ((stem ++ "_".toList ++ to_string ((mapFind g.labelCounter_ stem).getD 0)),
   { g with labelCounter_ :=
       mapSet g.labelCounter_ stem (wrap32 ((mapFind g.labelCounter_ stem).getD 0 + 1)) })

mutual
/-- The method `CodeGenerator::visitStmt` with the visitors of the statement kinds. -/
def visitStmt : Stmt → CodeGenerator → CodeGenerator
  | .Declaration _ name initializer, g =>
    emit (visitExpr initializer g) ("STORE ".toList ++ name.lexeme)
  | .Assignment name value, g =>
    emit (visitExpr value g) ("STORE ".toList ++ name.lexeme)
  | .Print _ expression, g => emit (visitExpr expression g) "PRINT".toList
  | .If _ condition thenBranch elseBranch, g =>
    let g1 := visitExpr condition g
    let elseLabel := newLabel g1 "else".toList
    let endLabel := newLabel elseLabel.2 "end_if".toList
    let g2 := emit endLabel.2 ("JZ ".toList ++ elseLabel.1)
    let g3 := visitBlock thenBranch g2
    let g4 := emit g3 ("JMP ".toList ++ endLabel.1)
    let g5 := emit g4 (elseLabel.1 ++ ":".toList)
    let g6 := visitElse elseBranch g5
    emit g6 (endLabel.1 ++ ":".toList)
  | .Loop _ condition body, g =>
    let loopLabel := newLabel g "loop".toList
    let endLabel := newLabel loopLabel.2 "end_loop".toList
    let g1 := emit endLabel.2 (loopLabel.1 ++ ":".toList)
    let g2 := visitExpr condition g1
    let g3 := emit g2 ("JZ ".toList ++ endLabel.1)
    let g4 := visitBlock body g3
    let g5 := emit g4 ("JMP ".toList ++ loopLabel.1)
    emit g5 (endLabel.1 ++ ":".toList)
  | .Break _, g =>
    let endLabel := newLabel g "end_loop".toList
    emit endLabel.2 ("JMP ".toList ++ endLabel.1)
  | .Continue _, g =>
    let loopLabel := newLabel g "loop".toList
    emit loopLabel.2 ("JMP ".toList ++ loopLabel.1)
  | .Return _ (some value), g => emit (visitExpr value g) "RET".toList
  | .Return _ none, g => emit (emit g "PUSH 0".toList) "RET".toList
  | .Function _ name _ body, g =>
    emit (emit (visitBlock body (emit g (name.lexeme ++ ":".toList))) "PUSH 0".toList)
      "RET".toList
  | .Block statements, g => visitBlock statements g
  | .Expression expression, g => visitExpr expression g
/-- The method `CodeGenerator::visitBlock`: the statements in order. -/
def visitBlock : List Stmt → CodeGenerator → CodeGenerator
  | [], g => g
  | stmt :: rest, g => visitBlock rest (visitStmt stmt g)
/-- The else branch of `CodeGenerator::visitIf`, if there is one. -/
def visitElse : Option (List Stmt) → CodeGenerator → CodeGenerator
  | none, g => g
  | some block, g => visitBlock block g
end

/-- The method `CodeGenerator::visitProgram`. -/
def visitProgram (program : Program) (g : CodeGenerator) : CodeGenerator :=
  emit (visitBlock program.statements g) "HALT:".toList

/-- The method `CodeGenerator::generate`: the generator after the walk; its
`bytecode_` is the value returned. -/
def generate (program : Program) (g : CodeGenerator) : CodeGenerator :=
  visitProgram program
    { g with bytecode_ := [], labelCounter_ := [], hadError_ := false, errorMessage_ := [] }

/-! ## The semantic analyzer (`src/compiler/semantic.h`, `src/compiler/semantic.cpp`) -/

/-- The enumeration `SymbolType`. -/
inductive SymbolType where
  | VARIABLE
  | FUNCTION
deriving DecidableEq, Repr

/-- The structure `Symbol`. -/
structure Symbol where
  type : SymbolType
  name : Str
  line : Int
  paramCount : Int
deriving DecidableEq, Repr

/-- The state of `class SemanticAnalyzer`; its `runtime_` is the fixed table
`builtins_`. -/
structure SemanticAnalyzer where
  symbols_ : List (Str × Symbol)
  errors_ : List Str
  hadError_ : Bool
deriving DecidableEq, Repr

/-- The word `variable` or `function` for a symbol type, as the messages of
`SemanticAnalyzer::resolve` spell it. -/
def symbolTypeName (t : SymbolType) : Str :=
  match t with
  | .VARIABLE => "variable".toList
  | .FUNCTION => "function".toList

/-- The method `SemanticAnalyzer::error`. -/
def SemanticAnalyzer.error (a : SemanticAnalyzer) (token : Token) (message : Str) :
    SemanticAnalyzer :=
  { a with hadError_ := true,
           errors_ := a.errors_ ++ ["Line ".toList ++ to_string token.line ++ ": ".toList ++ message] }

/-- The method `SemanticAnalyzer::declare`. -/
def SemanticAnalyzer.declare (a : SemanticAnalyzer) (name : Token) (type : SymbolType)
    (paramCount : Int) : SemanticAnalyzer :=
  match mapFind a.symbols_ name.lexeme with
  | some existing =>
    a.error name ("Redeclaration of '".toList ++ name.lexeme ++
      "' (first declared at line ".toList ++ to_string existing.line ++ ")".toList)
  | none =>
    { a with symbols_ := mapSet a.symbols_ name.lexeme ⟨type, name.lexeme, name.line, paramCount⟩ }

/-- The method `SemanticAnalyzer::resolve`: the symbol found (a null pointer is
`none`) and the analyzer after the possible error. -/
def SemanticAnalyzer.resolve (a : SemanticAnalyzer) (name : Token) (expectedType : SymbolType) :
    Option Symbol × SemanticAnalyzer :=
  match mapFind a.symbols_ name.lexeme with
  | none =>
    (none, a.error name ("Undefined ".toList ++ symbolTypeName expectedType ++ ": '".toList ++
      name.lexeme ++ "'".toList))
  | some symbol =>
    if symbol.type ≠ expectedType then
      (none, a.error name ("'".toList ++ name.lexeme ++ "' is a ".toList ++
        symbolTypeName symbol.type ++ ", not a ".toList ++ symbolTypeName expectedType))
    else (some symbol, a)

/-- The part of `SemanticAnalyzer::visitCall` before the arguments are visited: the
check of the callee and of the number of arguments. -/
def SemanticAnalyzer.checkCall (a : SemanticAnalyzer) (callee : Token) (actualArgs : Int) :
    SemanticAnalyzer :=
  if isBuiltin callee.lexeme then
    if actualArgs ≠ getParamCount callee.lexeme then
      a.error callee ("Built-in function '".toList ++ callee.lexeme ++ "' expects ".toList ++
        to_string (getParamCount callee.lexeme) ++ " argument(s), but got ".toList ++
        to_string actualArgs)
    else a
  else
    match a.resolve callee .FUNCTION with
    | (none, a1) => a1
    | (some symbol, a1) =>
      if actualArgs ≠ symbol.paramCount then
        a1.error callee ("Function '".toList ++ callee.lexeme ++ "' expects ".toList ++
          to_string symbol.paramCount ++ " argument(s), but got ".toList ++
          to_string actualArgs)
      else a1

mutual
/-- The method `SemanticAnalyzer::visitExpr` with the visitors of the expression
kinds. -/
def SemanticAnalyzer.visitExpr : Expr → SemanticAnalyzer → SemanticAnalyzer
  | .Literal _ _, a => a
  | .Variable name, a => (a.resolve name .VARIABLE).2
  | .Binary left _ right, a =>
    SemanticAnalyzer.visitExpr right (SemanticAnalyzer.visitExpr left a)
  | .Unary _ right, a => SemanticAnalyzer.visitExpr right a
  | .Call callee arguments, a =>
    SemanticAnalyzer.visitArguments arguments (a.checkCall callee arguments.length)
/-- The loop over the arguments in `SemanticAnalyzer::visitCall`. -/
def SemanticAnalyzer.visitArguments : List Expr → SemanticAnalyzer → SemanticAnalyzer
  | [], a => a
  | arg :: rest, a => SemanticAnalyzer.visitArguments rest (SemanticAnalyzer.visitExpr arg a)
end

mutual
/-- The method `SemanticAnalyzer::visitStmt` with the visitors of the statement
kinds. -/
def SemanticAnalyzer.visitStmt : Stmt → SemanticAnalyzer → SemanticAnalyzer
  | .Declaration _ name initializer, a =>
    (SemanticAnalyzer.visitExpr initializer a).declare name .VARIABLE 0
  | .Assignment name value, a =>
    SemanticAnalyzer.visitExpr value (a.resolve name .VARIABLE).2
  | .Print _ expression, a => SemanticAnalyzer.visitExpr expression a
  | .If _ condition thenBranch elseBranch, a =>
    SemanticAnalyzer.visitElse elseBranch
      (SemanticAnalyzer.visitBlock thenBranch (SemanticAnalyzer.visitExpr condition a))
  | .Loop _ condition body, a =>
    SemanticAnalyzer.visitBlock body (SemanticAnalyzer.visitExpr condition a)
  | .Break _, a => a
  | .Continue _, a => a
  | .Return _ (some value), a => SemanticAnalyzer.visitExpr value a
  | .Return _ none, a => a
  | .Function _ _ _ body, a => SemanticAnalyzer.visitBlock body a
  | .Block statements, a => SemanticAnalyzer.visitBlock statements a
  | .Expression expression, a => SemanticAnalyzer.visitExpr expression a
/-- The method `SemanticAnalyzer::visitBlock`. -/
def SemanticAnalyzer.visitBlock : List Stmt → SemanticAnalyzer → SemanticAnalyzer
  | [], a => a
  | stmt :: rest, a => SemanticAnalyzer.visitBlock rest (SemanticAnalyzer.visitStmt stmt a)
/-- The else branch of `SemanticAnalyzer::visitIf`, if there is one. -/
def SemanticAnalyzer.visitElse : Option (List Stmt) → SemanticAnalyzer → SemanticAnalyzer
  | none, a => a
  | some block, a => SemanticAnalyzer.visitBlock block a
end

/-- The first pass of `SemanticAnalyzer::visitProgram`: every top-level function is
declared with its number of parameters. -/
def SemanticAnalyzer.declareFunctions : List Stmt → SemanticAnalyzer → SemanticAnalyzer
  | [], a => a
  | .Function _ name parameters _ :: rest, a =>
    SemanticAnalyzer.declareFunctions rest (a.declare name .FUNCTION parameters.length)
  | _ :: rest, a => SemanticAnalyzer.declareFunctions rest a

/-- The method `SemanticAnalyzer::visitProgram`. -/
def SemanticAnalyzer.visitProgram (program : Program) (a : SemanticAnalyzer) :
    SemanticAnalyzer :=
  SemanticAnalyzer.visitBlock program.statements
    (SemanticAnalyzer.declareFunctions program.statements a)

/-- The method `SemanticAnalyzer::analyze`, from any earlier state of the analyzer. -/
def SemanticAnalyzer.analyze (program : Program) (a : SemanticAnalyzer) : SemanticAnalyzer :=
  SemanticAnalyzer.visitProgram program
    { a with symbols_ := [], errors_ := [], hadError_ := false }

/-- A freshly constructed `SemanticAnalyzer`. -/
def SemanticAnalyzer.new : SemanticAnalyzer :=
  { symbols_ := [], errors_ := [], hadError_ := false }

/-! ## The lexer (`src/compiler/lexer.h`, `src/compiler/lexer.cpp`) -/

/-- The method `Lexer::isAlpha`. -/
def isAlpha (c : Char) : Bool :=
  (decide ('a'.toNat ≤ c.toNat) && decide (c.toNat ≤ 'z'.toNat)) ||
  (decide ('A'.toNat ≤ c.toNat) && decide (c.toNat ≤ 'Z'.toNat)) || c = '_'

/-- The method `Lexer::isAlphaNumeric`. -/
def isAlphaNumeric (c : Char) : Bool := isAlpha c || isDigit c

/-- The state of `class Lexer`: `rest` is `source_` from `current_` on and `lexeme`
the text between `start_` and `current_` (the value of `getCurrentLexeme`). -/
structure Lexer where
  rest : Str
  lexeme : Str
  line_ : Int
  tokens_ : List Token
  hadError_ : Bool
  errorMessage_ : Str
deriving DecidableEq, Repr

/-- The table filled by `Lexer::initializeKeywords`. -/
def keywords_ : List (Str × TokenType) :=
  [("TAKE".toList, .TAKE), ("POUR".toList, .POUR), ("SCENE".toList, .SCENE),
   ("SHOT".toList, .SHOT), ("IF".toList, .IF), ("ELSE".toList, .ELSE),
   ("LOOP".toList, .LOOP), ("BREAK".toList, .BREAK), ("CONTINUE".toList, .CONTINUE),
   ("true".toList, .TRUE_KW), ("false".toList, .FALSE_KW)]

/-- The method `Lexer::peek`: the current character, or NUL at the end. -/
def Lexer.peek (lx : Lexer) : Char := lx.rest.headD '\x00'

/-- The method `Lexer::peekNext`: the character after the current one, or NUL. -/
def Lexer.peekNext (lx : Lexer) : Char := lx.rest.tail.headD '\x00'

/-- The method `Lexer::advance` (its effect on the position; the character returned
is `peek` before the call): no move at the end. -/
def Lexer.advance (lx : Lexer) : Lexer :=
  match lx.rest with
  | [] => lx
  | c :: r => { lx with rest := r, lexeme := lx.lexeme ++ [c] }

/-- The method `Lexer::match`. -/
def Lexer.matchChar (lx : Lexer) (expected : Char) : Bool × Lexer :=
  match lx.rest with
  | [] => (false, lx)
  | c :: r => if c ≠ expected then (false, lx) else (true, { lx with rest := r, lexeme := lx.lexeme ++ [c] })

/-- A loop `while (p(peek())) advance();` for a test `p` that is false on NUL, or
that is guarded by `!isAtEnd()`. -/
def Lexer.advanceWhile (lx : Lexer) (p : Char → Bool) : Lexer :=
  { lx with rest := lx.rest.dropWhile p, lexeme := lx.lexeme ++ lx.rest.takeWhile p }

/-- The method `Lexer::addToken(type)`. -/
def Lexer.addToken (lx : Lexer) (type : TokenType) : Lexer :=
  { lx with tokens_ := lx.tokens_ ++ [⟨type, lx.lexeme, [], lx.line_⟩] }

/-- The method `Lexer::addToken(type, literal)`. -/
def Lexer.addTokenLiteral (lx : Lexer) (type : TokenType) (literal : Str) : Lexer :=
  { lx with tokens_ := lx.tokens_ ++ [⟨type, lx.lexeme, literal, lx.line_⟩] }

/-- The method `Lexer::error`. -/
def Lexer.error (lx : Lexer) (message : Str) : Lexer :=
  { lx with hadError_ := true,
            errorMessage_ := "Line ".toList ++ to_string lx.line_ ++ ": ".toList ++ message }

/-- The method `Lexer::scanString`, after the opening quote. -/
def Lexer.scanString (lx : Lexer) : Lexer :=
  let lx1 : Lexer :=
    { lx with rest := lx.rest.dropWhile (fun c => c ≠ '"'),
              lexeme := lx.lexeme ++ lx.rest.takeWhile (fun c => c ≠ '"'),
              line_ := lx.line_ + ((lx.rest.takeWhile (fun c => c ≠ '"')).count '\n' : Nat) }
  if lx1.rest.isEmpty then lx1.error "Unterminated string literal".toList
  else
    let lx2 := lx1.advance
    lx2.addTokenLiteral .STRING ((lx2.lexeme.drop 1).take (lx2.lexeme.length - 2))

/-- The method `Lexer::scanNumber`, after the first digit or the minus sign. -/
def Lexer.scanNumber (lx : Lexer) : Lexer :=
  let lx1 := lx.advanceWhile isDigit
  let lx2 :=
    if lx1.peek = '.' ∧ isDigit lx1.peekNext = true then
      ((lx1.advance).advanceWhile isDigit).error "Floating point numbers not yet supported".toList
    else lx1
  lx2.addTokenLiteral .NUMBER lx2.lexeme

/-- The method `Lexer::scanIdentifier`, after the first character. -/
def Lexer.scanIdentifier (lx : Lexer) : Lexer :=
  let lx1 := lx.advanceWhile isAlphaNumeric
  if isDigit (lx1.lexeme.headD '\x00') = true then
    (lx1.error ("Identifier cannot start with a digit: ".toList ++ lx1.lexeme)).addToken .ERROR
  else
    match mapFind keywords_ lx1.lexeme with
    | some type => lx1.addToken type
    | none => lx1.addToken .IDENTIFIER

/-- The method `Lexer::scanToken`. -/
def Lexer.scanToken (lx0 : Lexer) : Lexer :=
  let c := lx0.peek
  let lx := lx0.advance
  if c = ' ' ∨ c = '\r' ∨ c = '\t' then lx
  else if c = '\n' then { lx with line_ := lx.line_ + 1 }
  else if c = '#' then lx.advanceWhile (fun d => d ≠ '\n')
  else if c = ';' then lx.addToken .SEMICOLON
  else if c = '(' then lx.addToken .LPAREN
  else if c = ')' then lx.addToken .RPAREN
  else if c = '{' then lx.addToken .LBRACE
  else if c = '}' then lx.addToken .RBRACE
  else if c = ',' then lx.addToken .COMMA
  else if c = '+' then lx.addToken .PLUS
  else if c = '-' then
    if isDigit lx.peek = true then lx.scanNumber else lx.addToken .MINUS
  else if c = '*' then lx.addToken .STAR
  else if c = '/' then lx.addToken .SLASH
  else if c = '=' then
    if (lx.matchChar '=').1 then (lx.matchChar '=').2.addToken .EQUAL_EQUAL
    else (lx.matchChar '=').2.addToken .EQUAL
  else if c = '!' then
    if (lx.matchChar '=').1 then (lx.matchChar '=').2.addToken .BANG_EQUAL
    else ((lx.matchChar '=').2.error
      "Unexpected character '!' (did you mean '!='?)".toList).addToken .ERROR
  else if c = '>' then
    if (lx.matchChar '=').1 then (lx.matchChar '=').2.addToken .GREATER_EQUAL
    else (lx.matchChar '=').2.addToken .GREATER
  else if c = '<' then
    if (lx.matchChar '=').1 then (lx.matchChar '=').2.addToken .LESS_EQUAL
    else (lx.matchChar '=').2.addToken .LESS
  else if c = '"' then lx.scanString
  else if isDigit c = true then lx.scanNumber
  else if isAlpha c = true then lx.scanIdentifier
  else (lx.error ("Unexpected character: '".toList ++ [c] ++ "'".toList)).addToken .ERROR

/-- The loop `while (!isAtEnd()) { start_ = current_; scanToken(); }` of
`Lexer::tokenize`; every turn consumes a character, so as many turns as the source
has characters are enough. -/
def Lexer.tokenizeLoop : Nat → Lexer → Lexer
  | 0, lx => lx
  | fuel + 1, lx =>
    if lx.rest.isEmpty then lx
    else Lexer.tokenizeLoop fuel (Lexer.scanToken { lx with lexeme := [] })

/-- The constructor `Lexer::Lexer(source)` followed by `Lexer::tokenize`: the lexer
after the call; its `tokens_` is the value returned. -/
def Lexer.tokenize (source : Str) : Lexer :=
  let lx := Lexer.tokenizeLoop source.length
    { rest := source, lexeme := [], line_ := 1, tokens_ := [], hadError_ := false,
      errorMessage_ := [] }
  { lx with tokens_ := lx.tokens_ ++ [⟨.END_OF_FILE, [], [], lx.line_⟩] }

/-! ## The parser (`src/compiler/parser.h`, `src/compiler/parser.cpp`)

The parsing methods call each other recursively and loop; each of them takes a
budget `fuel` that every call and every turn of a loop decreases, and returns
`none` when it is used up. -/

/-- The state of `class Parser`. -/
structure Parser where
  tokens_ : List Token
  current_ : Nat
  hadError_ : Bool
  errorMessage_ : Str
deriving DecidableEq, Repr

/-- The constructor `Token(type, lexeme, line)`. -/
def Token.mk3 (type : TokenType) (lexeme : Str) (line : Int) : Token :=
  ⟨type, lexeme, [], line⟩

/-- The method `Parser::peek`. The token list ends with END_OF_FILE and `current_`
never passes it; outside the list (undefined in the source) the value is an
END_OF_FILE token. -/
def Parser.peek (p : Parser) : Token :=
  p.tokens_.getD p.current_ (Token.mk3 .END_OF_FILE [] 0)

/-- The method `Parser::previous`, called only after a token was consumed. -/
def Parser.previous (p : Parser) : Token :=
  p.tokens_.getD (p.current_ - 1) (Token.mk3 .END_OF_FILE [] 0)

/-- The method `Parser::peekNext`. -/
def Parser.peekNext (p : Parser) : Token :=
  if p.current_ + 1 ≥ p.tokens_.length then
    Token.mk3 .END_OF_FILE [] ((p.tokens_.getLast?.map Token.line).getD 0)
  else p.tokens_.getD (p.current_ + 1) (Token.mk3 .END_OF_FILE [] 0)

/-- The method `Parser::isAtEnd`. -/
def Parser.isAtEnd (p : Parser) : Bool := p.peek.type = .END_OF_FILE

/-- The method `Parser::advance` (its effect on the state; the token returned is
`previous` after the call). -/
def Parser.advance (p : Parser) : Parser :=
  if p.isAtEnd then p else { p with current_ := p.current_ + 1 }

/-- The method `Parser::check`. -/
def Parser.check (p : Parser) (type : TokenType) : Bool :=
  if p.isAtEnd then false else p.peek.type = type

/-- The method `Parser::match`. -/
def Parser.matchType (p : Parser) (type : TokenType) : Bool × Parser :=
  if p.check type then (true, p.advance) else (false, p)

/-- The method `Parser::error`: only the first error is recorded. -/
def Parser.error (p : Parser) (token : Token) (message : Str) : Parser :=
  if p.hadError_ then p
  else { p with hadError_ := true,
                errorMessage_ := "Line ".toList ++ to_string token.line ++ ": ".toList ++ message }

/-- The method `Parser::consume`. -/
def Parser.consume (p : Parser) (type : TokenType) (message : Str) : Token × Parser :=
  if p.check type then (p.advance.previous, p.advance)
  else (Token.mk3 type [] p.peek.line, p.error p.peek message)

mutual
/-- The method `Parser::expression`, through `Parser::assignment`. -/
def Parser.expression : Nat → Parser → Option (Expr × Parser)
  | 0, _ => none
  | fuel + 1, p => Parser.comparison fuel p
/-- The method `Parser::comparison`. -/
def Parser.comparison : Nat → Parser → Option (Expr × Parser)
  | 0, _ => none
  | fuel + 1, p =>
    match Parser.addition fuel p with
    | none => none
    | some (expr, p1) => Parser.comparisonLoop fuel expr p1
/-- The loop of `Parser::comparison`. -/
def Parser.comparisonLoop : Nat → Expr → Parser → Option (Expr × Parser)
  | 0, _, _ => none
  | fuel + 1, expr, p =>
    if p.check .GREATER || p.check .GREATER_EQUAL || p.check .LESS || p.check .LESS_EQUAL ||
        p.check .EQUAL_EQUAL || p.check .BANG_EQUAL then
      match Parser.addition fuel p.advance with
      | none => none
      | some (right, p1) => Parser.comparisonLoop fuel (.Binary expr p.advance.previous right) p1
    else some (expr, p)
/-- The method `Parser::addition`. -/
def Parser.addition : Nat → Parser → Option (Expr × Parser)
  | 0, _ => none
  | fuel + 1, p =>
    match Parser.multiplication fuel p with
    | none => none
    | some (expr, p1) => Parser.additionLoop fuel expr p1
/-- The loop of `Parser::addition`. -/
def Parser.additionLoop : Nat → Expr → Parser → Option (Expr × Parser)
  | 0, _, _ => none
  | fuel + 1, expr, p =>
    if p.check .PLUS || p.check .MINUS then
      match Parser.multiplication fuel p.advance with
      | none => none
      | some (right, p1) => Parser.additionLoop fuel (.Binary expr p.advance.previous right) p1
    else some (expr, p)
/-- The method `Parser::multiplication`. -/
def Parser.multiplication : Nat → Parser → Option (Expr × Parser)
  | 0, _ => none
  | fuel + 1, p =>
    match Parser.unary fuel p with
    | none => none
    | some (expr, p1) => Parser.multiplicationLoop fuel expr p1
/-- The loop of `Parser::multiplication`. -/
def Parser.multiplicationLoop : Nat → Expr → Parser → Option (Expr × Parser)
  | 0, _, _ => none
  | fuel + 1, expr, p =>
    if p.check .STAR || p.check .SLASH then
      match Parser.unary fuel p.advance with
      | none => none
      | some (right, p1) =>
        Parser.multiplicationLoop fuel (.Binary expr p.advance.previous right) p1
    else some (expr, p)
/-- The method `Parser::unary`. -/
def Parser.unary : Nat → Parser → Option (Expr × Parser)
  | 0, _ => none
  | fuel + 1, p =>
    if p.check .MINUS then
      match Parser.unary fuel p.advance with
      | none => none
      | some (right, p1) => some (.Unary p.advance.previous right, p1)
    else Parser.primary fuel p
/-- The method `Parser::primary`. -/
def Parser.primary : Nat → Parser → Option (Expr × Parser)
  | 0, _ => none
  | fuel + 1, p =>
    if p.check .NUMBER then
      some (.Literal p.advance.previous p.advance.previous.literal, p.advance)
    else if p.check .TRUE_KW then some (.Literal p.advance.previous "true".toList, p.advance)
    else if p.check .FALSE_KW then some (.Literal p.advance.previous "false".toList, p.advance)
    else if p.check .STRING then
      some (.Literal p.advance.previous p.advance.previous.literal, p.advance)
    else if p.check .IDENTIFIER then
      if p.advance.check .LPAREN then Parser.finishCall fuel p.advance.previous p.advance.advance
      else some (.Variable p.advance.previous, p.advance)
    else if p.check .LPAREN then
      match Parser.expression fuel p.advance with
      | none => none
      | some (expr, p1) =>
        some (expr, (p1.consume .RPAREN "Expected ')' after expression".toList).2)
    else
      some (.Literal (Token.mk3 .ERROR [] p.peek.line) "0".toList,
            p.error p.peek "Expected expression".toList)
/-- The method `Parser::finishCall`, after the opening parenthesis. -/
def Parser.finishCall : Nat → Token → Parser → Option (Expr × Parser)
  | 0, _, _ => none
  | fuel + 1, callee, p =>
    if !p.check .RPAREN then
      match Parser.argumentLoop fuel [] p with
      | none => none
      | some (arguments, p1) =>
        some (.Call callee arguments, (p1.consume .RPAREN "Expected ')' after arguments".toList).2)
    else some (.Call callee [], (p.consume .RPAREN "Expected ')' after arguments".toList).2)
/-- The `do … while (match(COMMA))` loop of `Parser::finishCall`. -/
def Parser.argumentLoop : Nat → List Expr → Parser → Option (List Expr × Parser)
  | 0, _, _ => none
  | fuel + 1, arguments, p =>
    match Parser.expression fuel
        (if arguments.length ≥ 255 then
          p.error p.peek "Cannot have more than 255 arguments".toList else p) with
    | none => none
    | some (arg, p1) =>
      if p1.check .COMMA then Parser.argumentLoop fuel (arguments ++ [arg]) p1.advance
      else some (arguments ++ [arg], p1)
end

/-- The `do … while (match(COMMA))` loop of `Parser::functionStmt` over the
parameter names. -/
def Parser.parameterLoop : Nat → List Token → Parser → Option (List Token × Parser)
  | 0, _, _ => none
  | fuel + 1, parameters, p =>
    let p0 := if parameters.length ≥ 255 then
      p.error p.peek "Cannot have more than 255 parameters".toList else p
    let c := p0.consume .IDENTIFIER "Expected parameter name".toList
    if c.2.check .COMMA then Parser.parameterLoop fuel (parameters ++ [c.1]) c.2.advance
    else some (parameters ++ [c.1], c.2)

mutual
/-- The method `Parser::declaration`. -/
def Parser.declaration : Nat → Parser → Option (Stmt × Parser)
  | 0, _ => none
  | fuel + 1, p =>
    if p.check .SCENE then Parser.functionStmt fuel p.advance
    else if p.check .TAKE then Parser.declarationStmt fuel p.advance
    else Parser.statement fuel p
/-- The method `Parser::statement`. -/
def Parser.statement : Nat → Parser → Option (Stmt × Parser)
  | 0, _ => none
  | fuel + 1, p =>
    if p.check .POUR then Parser.printStmt fuel p.advance
    else if p.check .IF then Parser.ifStmt fuel p.advance
    else if p.check .LOOP then Parser.loopStmt fuel p.advance
    else if p.check .BREAK then
      some (.Break p.advance.previous,
            (p.advance.consume .SEMICOLON "Expected ';' after BREAK".toList).2)
    else if p.check .CONTINUE then
      some (.Continue p.advance.previous,
            (p.advance.consume .SEMICOLON "Expected ';' after CONTINUE".toList).2)
    else if p.check .SHOT then Parser.returnStmt fuel p.advance
    else if p.check .LBRACE then
      match Parser.block fuel p.advance with
      | none => none
      | some (statements, p1) => some (.Block statements, p1)
    else Parser.assignmentStmt fuel p
/-- The method `Parser::declarationStmt`, after TAKE. The keyword stored in the
node is `previous()` at the end, the last token consumed. -/
def Parser.declarationStmt : Nat → Parser → Option (Stmt × Parser)
  | 0, _ => none
  | fuel + 1, p =>
    let name := p.consume .IDENTIFIER "Expected variable name".toList
    let p1 := (name.2.consume .EQUAL "Expected '=' after variable name".toList).2
    match Parser.expression fuel p1 with
    | none => none
    | some (initializer, p2) =>
      let p3 := (p2.consume .SEMICOLON "Expected ';' after variable declaration".toList).2
      some (.Declaration p3.previous name.1 initializer, p3)
/-- The method `Parser::assignmentStmt`. -/
def Parser.assignmentStmt : Nat → Parser → Option (Stmt × Parser)
  | 0, _ => none
  | fuel + 1, p =>
    if p.check .IDENTIFIER && p.peekNext.type = .EQUAL then
      match Parser.expression fuel p.advance.advance with
      | none => none
      | some (value, p1) =>
        some (.Assignment p.peek value,
              (p1.consume .SEMICOLON "Expected ';' after assignment".toList).2)
    else
      match Parser.expression fuel p with
      | none => none
      | some (expr, p1) =>
        some (.Expression expr,
              (p1.consume .SEMICOLON "Expected ';' after expression".toList).2)
/-- The method `Parser::printStmt`, after POUR. -/
def Parser.printStmt : Nat → Parser → Option (Stmt × Parser)
  | 0, _ => none
  | fuel + 1, p =>
    match Parser.expression fuel p with
    | none => none
    | some (expr, p1) =>
      some (.Print p.previous expr,
            (p1.consume .SEMICOLON "Expected ';' after POUR statement".toList).2)
/-- The method `Parser::ifStmt`, after IF. -/
def Parser.ifStmt : Nat → Parser → Option (Stmt × Parser)
  | 0, _ => none
  | fuel + 1, p =>
    match Parser.expression fuel p with
    | none => none
    | some (condition, p1) =>
      match Parser.block fuel (p1.consume .LBRACE "Expected '\x7b' after IF condition".toList).2 with
      | none => none
      | some (thenBranch, p2) =>
        if p2.check .ELSE then
          match Parser.block fuel
              (p2.advance.consume .LBRACE "Expected '\x7b' after ELSE".toList).2 with
          | none => none
          | some (elseBranch, p3) => some (.If p.previous condition thenBranch (some elseBranch), p3)
        else some (.If p.previous condition thenBranch none, p2)
/-- The method `Parser::loopStmt`, after LOOP. -/
def Parser.loopStmt : Nat → Parser → Option (Stmt × Parser)
  | 0, _ => none
  | fuel + 1, p =>
    match Parser.expression fuel p with
    | none => none
    | some (condition, p1) =>
      match Parser.block fuel
          (p1.consume .LBRACE "Expected '\x7b' after LOOP condition".toList).2 with
      | none => none
      | some (body, p2) => some (.Loop p.previous condition body, p2)
/-- The method `Parser::returnStmt`, after SHOT. -/
def Parser.returnStmt : Nat → Parser → Option (Stmt × Parser)
  | 0, _ => none
  | fuel + 1, p =>
    if !p.check .SEMICOLON then
      match Parser.expression fuel p with
      | none => none
      | some (value, p1) =>
        some (.Return p.previous (some value),
              (p1.consume .SEMICOLON "Expected ';' after SHOT statement".toList).2)
    else
      some (.Return p.previous none,
            (p.consume .SEMICOLON "Expected ';' after SHOT statement".toList).2)
/-- The method `Parser::functionStmt`, after SCENE. -/
def Parser.functionStmt : Nat → Parser → Option (Stmt × Parser)
  | 0, _ => none
  | fuel + 1, p =>
    let name := p.consume .IDENTIFIER "Expected function name".toList
    let p1 := (name.2.consume .LPAREN "Expected '(' after function name".toList).2
    match (if !p1.check .RPAREN then Parser.parameterLoop fuel [] p1 else some ([], p1)) with
    | none => none
    | some (parameters, p2) =>
      let p3 := (p2.consume .RPAREN "Expected ')' after parameters".toList).2
      let p4 := (p3.consume .LBRACE "Expected '\x7b' before function body".toList).2
      match Parser.block fuel p4 with
      | none => none
      | some (body, p5) => some (.Function p.previous name.1 parameters body, p5)
/-- The method `Parser::block`, after the opening brace: the statements of the
`BlockStmt`. -/
def Parser.block : Nat → Parser → Option (List Stmt × Parser)
  | 0, _ => none
  | fuel + 1, p =>
    match Parser.blockLoop fuel [] p with
    | none => none
    | some (statements, p1) =>
      some (statements, (p1.consume .RBRACE "Expected '\x7d' after block".toList).2)
/-- The loop `while (!check(RBRACE) && !isAtEnd())` of `Parser::block`. -/
def Parser.blockLoop : Nat → List Stmt → Parser → Option (List Stmt × Parser)
  | 0, _, _ => none
  | fuel + 1, statements, p =>
    if !p.check .RBRACE && !p.isAtEnd then
      match Parser.declaration fuel p with
      | none => none
      | some (stmt, p1) => Parser.blockLoop fuel (statements ++ [stmt]) p1
    else some (statements, p)
end

/-- The loop `while (!isAtEnd())` of `Parser::parse`. -/
def Parser.parseLoop : Nat → List Stmt → Parser → Option (List Stmt × Parser)
  | 0, _, _ => none
  | fuel + 1, statements, p =>
    if !p.isAtEnd then
      match Parser.declaration fuel p with
      | none => none
      | some (stmt, p1) => Parser.parseLoop fuel (statements ++ [stmt]) p1
    else some (statements, p)

/-- The constructor `Parser::Parser(tokens)` followed by `Parser::parse`: the
program and the parser after the call, or `none` when the budget is used up. -/
def Parser.parse (fuel : Nat) (tokens : List Token) : Option (Program × Parser) :=
  match Parser.parseLoop fuel []
      { tokens_ := tokens, current_ := 0, hadError_ := false, errorMessage_ := [] } with
  | none => none
  | some (statements, p) => some (⟨statements⟩, p)

/-! ## The compiler driver (`src/compiler/compiler.cpp`) -/

/-- The state of `class Compiler`. -/
structure Compiler where
  errors_ : List Str
  bytecode_ : List Str
  hadError_ : Bool
deriving DecidableEq, Repr

/-- The constructor `Compiler::Compiler`. -/
def Compiler.new : Compiler := { errors_ := [], bytecode_ := [], hadError_ := false }

/-- The method `Compiler::compile`: the compiler after the call, whose `bytecode_`
is the value returned, or `none` when the parser does not return within `fuel`. -/
def Compiler.compile (fuel : Nat) (source : Str) (c : Compiler) : Option Compiler :=
  let c0 : Compiler := { c with errors_ := [], bytecode_ := [], hadError_ := false }
  let lexer := Lexer.tokenize source
  if lexer.hadError_ then
    some { c0 with errors_ := c0.errors_ ++ ["Lexer: ".toList ++ lexer.errorMessage_],
                   hadError_ := true }
  else
    match Parser.parse fuel lexer.tokens_ with
    | none => none
    | some (program, parser) =>
      if parser.hadError_ then
        some { c0 with errors_ := c0.errors_ ++ ["Parser: ".toList ++ parser.errorMessage_],
                       hadError_ := true }
      else
        let analyzer := SemanticAnalyzer.analyze program SemanticAnalyzer.new
        if analyzer.hadError_ then
          some { c0 with errors_ := analyzer.errors_, hadError_ := true }
        else
          let codegen := generate program CodeGenerator.new
          if codegen.hadError_ then
            some { c0 with bytecode_ := codegen.bytecode_,
                           errors_ := c0.errors_ ++ ["CodeGen: ".toList ++ codegen.errorMessage_],
                           hadError_ := true }
          else some { c0 with bytecode_ := codegen.bytecode_ }

/-! ## Source-level notions used to state compiler correctness -/

/-- The lexeme of an IDENTIFIER token as `Lexer::scanIdentifier` reads it: a letter or
underscore followed by letters, digits and underscores. -/
def isIdentifier (s : Str) : Bool :=
  match s with
  | [] => false
  | c :: rest => isAlpha c && rest.all isAlphaNumeric

/-- The digits of the lexeme of a NUMBER token, after its optional minus sign. -/
def numberDigits (s : Str) : Str := if s.head? = some '-' then s.tail else s

/-- The lexeme of a NUMBER token as `Lexer::scanNumber` reads it without error: an
optional minus sign and a non-empty run of digits. -/
def isNumberLexeme (s : Str) : Bool :=
  !(numberDigits s).isEmpty && (numberDigits s).all isDigit

/-- The integer a NUMBER lexeme denotes. -/
def litValue (s : Str) : Int :=
  if s.head? = some '-' then -((decVal (numberDigits s) : Nat) : Int)
  else ((decVal (numberDigits s) : Nat) : Int)

/-- The value of a binary operation on 32-bit integers as the specification words
it: `+ - *` in 32-bit arithmetic, `/` truncating and 0 on a zero divisor, and the
comparisons `== > <` giving 1 or 0. -/
def specBinary (op : Str) (a b : Int) : Int :=
  if op = "+".toList then wrap32 (a + b)
  else if op = "-".toList then wrap32 (a - b)
  else if op = "*".toList then wrap32 (a * b)
  else if op = "/".toList then (if b = 0 then 0 else a.tdiv b)
  else if op = "==".toList then (if a = b then 1 else 0)
  else if op = ">".toList then (if a > b then 1 else 0)
  else if op = "<".toList then (if a < b then 1 else 0)
  else 0

/-- The value of an expression under a variable store as the specification words
it: a literal denotes its number, an undefined variable reads as 0, a binary
operation takes the value of its left and of its right operand. -/
def specValue (vars : List (Str × Int)) : Expr → Int
  | .Literal _ value => litValue value
  | .Variable name => (mapFind vars name.lexeme).getD 0
  | .Binary left op right => specBinary op.lexeme (specValue vars left) (specValue vars right)
  | .Unary _ _ => 0
  | .Call _ _ => 0

/-- Expressions built only from integer literals with a 32-bit value, variable
reads and the binary operators `+ - * / == > <`. -/
def isArith : Expr → Bool
  | .Literal _ value => isNumberLexeme value && decide (isInt32 (litValue value))
  | .Variable name => isIdentifier name.lexeme
  | .Binary left op right =>
    isArith left && isArith right &&
    decide (op.lexeme ∈ ["+".toList, "-".toList, "*".toList, "/".toList, "==".toList,
      ">".toList, "<".toList])
  | .Unary _ _ => false
  | .Call _ _ => false

/-- Whether the evaluation of an expression under a variable store nowhere divides
-2147483648 by -1, the one division of 32-bit values without a 32-bit quotient
(the operands of each `/` valued as in `specValue`). -/
def divDefined (vars : List (Str × Int)) : Expr → Bool
  | .Binary left op right =>
    divDefined vars left && divDefined vars right &&
      !(decide (op.lexeme = "/".toList) && decide (specValue vars left = -2147483648) &&
        decide (specValue vars right = -1))
  | .Literal _ _ => true
  | .Variable _ => true
  | .Unary _ _ => true
  | .Call _ _ => true

/-- The expression `-2147483648 / -1`. -/
def overflowExpr : Expr :=
  .Binary (.Literal ⟨.NUMBER, "-2147483648".toList, "-2147483648".toList, 1⟩ "-2147483648".toList)
    ⟨.SLASH, "/".toList, [], 1⟩
    (.Literal ⟨.NUMBER, "-1".toList, "-1".toList, 1⟩ "-1".toList)

/-- A print statement whose expression divides -2147483648 by -1. -/
def overflowPrintSource : Str := "POUR -2147483648 / -1;".toList

/-- Expressions built only from integer literals (of any size), variable reads and
the binary operators `+ - * / == > <`. -/
def isArithShape : Expr → Bool
  | .Literal _ value => isNumberLexeme value
  | .Variable name => isIdentifier name.lexeme
  | .Binary left op right =>
    isArithShape left && isArithShape right &&
    decide (op.lexeme ∈ ["+".toList, "-".toList, "*".toList, "/".toList, "==".toList,
      ">".toList, "<".toList])
  | .Unary _ _ => false
  | .Call _ _ => false

/-- The expression `(7 - x) / -2`, as the parser builds it. -/
def sampleExpr : Expr :=
  .Binary
    (.Binary (.Literal ⟨.NUMBER, "7".toList, "7".toList, 1⟩ "7".toList)
      ⟨.MINUS, "-".toList, [], 1⟩
      (.Variable ⟨.IDENTIFIER, "x".toList, [], 1⟩))
    ⟨.SLASH, "/".toList, [], 1⟩
    (.Literal ⟨.NUMBER, "-2".toList, "-2".toList, 1⟩ "-2".toList)

/-! ## Instruction lines and the programs of the test suite -/

/-- A word of an instruction line: non-empty, without white space and without
double quotes, so that `VM::split` keeps it in one piece. -/
def isWord (w : Str) : Prop := w ≠ [] ∧ ∀ c ∈ w, isspace c = false ∧ c ≠ '"'

instance (w : Str) : Decidable (isWord w) := by
  unfold isWord; infer_instance

/-- An operand word of an instruction line: a word that does not end in a colon
(a line ending in a colon is a label). Identifiers and decimal numbers are such. -/
def isOperand (w : Str) : Prop := isWord w ∧ w.getLast? ≠ some ':'

instance (w : Str) : Decidable (isOperand w) := by
  unfold isOperand; infer_instance

/-- The instruction line `opcode operand`. -/
def instr1 (opcode : Str) (operand : Str) : Str := opcode ++ ' ' :: operand

/-- The program `push 7; push 2; divide; print` of the spec's testable properties. -/
def divProgram : List Str :=
  ["PUSH 7".toList, "PUSH 2".toList, "DIV".toList, "PRINT".toList]

/-- The instruction lines `STORE x₁, …, STORE xₖ` for a list of (name, value)
pairs. -/
def storeLines (sts : List (Str × Int)) : List Str :=
  sts.map (fun p => instr1 "STORE".toList p.1)

/-- The variable store after the assignments `vars[xᵢ] = vᵢ`, in order. -/
def storeAll (vars : List (Str × Int)) (sts : List (Str × Int)) : List (Str × Int) :=
  sts.foldl (fun m p => mapSet m p.1 p.2) vars

/-- The value of the last pair named `y` in a list of (name, value) pairs, starting
from `init` when there is none. -/
def lastStoreFrom (y : Str) (init : Option Int) (sts : List (Str × Int)) : Option Int :=
  sts.foldl (fun acc p => if p.1 = y then some p.2 else acc) init

/-- The value of the last pair named `y`, if any. -/
def lastStore (y : Str) (sts : List (Str × Int)) : Option Int := lastStoreFrom y none sts

/-- Program of Test 2 (variables) in `src/tests/test_vm_basic.cpp`. -/
def program2 : List Str :=
  ["PUSH 10".toList, "STORE x".toList, "PUSH 20".toList, "STORE y".toList,
   "LOAD x".toList, "LOAD y".toList, "ADD".toList, "PRINT".toList]

/-- A caller with one value on the stack calls a function without arguments whose
body is a bare RET. -/
def bareRetProgram : List Str :=
  ["PUSH 7".toList, "CALL f 0".toList, "PRINT".toList, "HALT:".toList,
   "f:".toList, "RET".toList]

/-- The state after exactly `n` iterations of the loop of `VM::run`, if the run gets
that far (no exception, and `pc` inside the program before each iteration). -/
def stateAfter (program : List Str) : Nat → VM → Option VM
  | 0, vm => some vm
  | n + 1, vm =>
    match program[vm.pc]? with
    | none => none
    | some instruction =>
      match execute instruction program vm with
      | .error _ => none
      | .ok vm1 => stateAfter program n vm1

/-- Program of Test 4 (function call) in `src/tests/test_vm_basic.cpp`, with the two
pushed numbers as parameters (the test has 7 and 8). -/
def program4 (x y : Int) : List Str :=
  [instr1 "PUSH".toList (to_string x), instr1 "PUSH".toList (to_string y),
   "CALL add 2".toList, "PRINT".toList, "HALT:".toList,
   "add:".toList, "LOADARG 0".toList, "LOADARG 1".toList, "ADD".toList, "RET".toList]

/-- Program of Test 3 (control flow, sum 1 to 5) in `src/tests/test_vm_basic.cpp`,
with the number pushed by its first instruction as a parameter (the test has 5). -/
def program3 (n : Int) : List Str :=
  [instr1 "PUSH".toList (to_string n), "STORE n".toList, "PUSH 0".toList, "STORE sum".toList,
   "loop:".toList, "LOAD n".toList, "PUSH 0".toList, "GT".toList, "JNZ body".toList,
   "JMP end".toList,
   "body:".toList, "LOAD sum".toList, "LOAD n".toList, "ADD".toList, "STORE sum".toList,
   "LOAD n".toList, "PUSH 1".toList, "SUB".toList, "STORE n".toList, "JMP loop".toList,
   "end:".toList, "LOAD sum".toList, "PRINT".toList]

/-- A state of the run of `program3`: no call frame, the label table of the
program, and the variables `n` and `sum` once both are stored. -/
abbrev sumVM (stack : List Int) (n sum : Int) (pc : Nat) (out : List Str) (env : List Int) :
    VM :=
  VM.mk stack [("n".toList, n), ("sum".toList, sum)] pc
    [("loop".toList, 4), ("body".toList, 10), ("end".toList, 20)] [] out env

/-- The program of `src/tests/test_vm_factorial.cpp`, with the number pushed by its
first instruction as a parameter (the test has 5). -/
def factorialProgram (n : Int) : List Str :=
  [instr1 "PUSH".toList (to_string n), "STORE n".toList, "PUSH 1".toList,
   "STORE result".toList, "LOAD n".toList, "STORE i".toList,
   "loop:".toList, "LOAD i".toList, "PUSH 0".toList, "GT".toList, "JNZ body".toList,
   "JMP end".toList,
   "body:".toList, "LOAD result".toList, "LOAD i".toList, "MUL".toList, "STORE result".toList,
   "LOAD i".toList, "PUSH 1".toList, "SUB".toList, "STORE i".toList, "JMP loop".toList,
   "end:".toList, "LOAD result".toList, "PRINT".toList]

/-- A state of the run of `factorialProgram` once `n`, `result` and `i` are stored. -/
abbrev factVM (stack : List Int) (n result i : Int) (pc : Nat) (out : List Str)
    (env : List Int) : VM :=
  VM.mk stack [("n".toList, n), ("result".toList, result), ("i".toList, i)] pc
    [("loop".toList, 6), ("body".toList, 12), ("end".toList, 22)] [] out env

/-! ## The label table -/

/-- The index of the last label line `name:` of a program whose first line has
index `i`, if there is one. -/
def lastLabelFrom : List Str → Nat → Str → Option Nat
  | [], _, _ => none
  | line :: rest, i, name =>
    match lastLabelFrom rest (i + 1) name with
    | some v => some v
    | none => if isLabelLine line ∧ line.dropLast = name then some i else none

/-! ## The analyzer's symbol-table operations in visiting order

To speak of one declaration, use or call being visited before another, the walk of
the analyzer over a program is laid out as the list of the operations it performs
on the symbol table, in the order it performs them. -/

/-- One operation of the analyzer on its symbol table: a `declare`, the
`resolve(name, VARIABLE)` of a read or an assignment, or the callee check of a
call with its number of arguments. -/
inductive Visit where
  | declare (name : Token) (type : SymbolType) (paramCount : Int)
  | use (name : Token)
  | call (callee : Token) (actualArgs : Int)
deriving DecidableEq, Repr

/-- The effect of one operation on the analyzer. -/
def Visit.apply (a : SemanticAnalyzer) : Visit → SemanticAnalyzer
  | .declare name type paramCount => a.declare name type paramCount
  | .use name => (a.resolve name .VARIABLE).2
  | .call callee actualArgs => a.checkCall callee actualArgs

mutual
/-- The operations of `SemanticAnalyzer::visitExpr` on an expression, in order. -/
def exprVisits : Expr → List Visit
  | .Literal _ _ => []
  | .Variable name => [.use name]
  | .Binary left _ right => exprVisits left ++ exprVisits right
  | .Unary _ right => exprVisits right
  | .Call callee arguments => .call callee arguments.length :: argumentVisits arguments
/-- The operations on the arguments of a call, in order. -/
def argumentVisits : List Expr → List Visit
  | [] => []
  | arg :: rest => exprVisits arg ++ argumentVisits rest
end

mutual
/-- The operations of `SemanticAnalyzer::visitStmt` on a statement, in order. -/
def stmtVisits : Stmt → List Visit
  | .Declaration _ name initializer => exprVisits initializer ++ [.declare name .VARIABLE 0]
  | .Assignment name value => .use name :: exprVisits value
  | .Print _ expression => exprVisits expression
  | .If _ condition thenBranch elseBranch =>
    exprVisits condition ++ blockVisits thenBranch ++ elseVisits elseBranch
  | .Loop _ condition body => exprVisits condition ++ blockVisits body
  | .Break _ => []
  | .Continue _ => []
  | .Return _ (some value) => exprVisits value
  | .Return _ none => []
  | .Function _ _ _ body => blockVisits body
  | .Block statements => blockVisits statements
  | .Expression expression => exprVisits expression
/-- The operations of `SemanticAnalyzer::visitBlock`, in order. -/
def blockVisits : List Stmt → List Visit
  | [] => []
  | stmt :: rest => stmtVisits stmt ++ blockVisits rest
/-- The operations on an else branch, if there is one. -/
def elseVisits : Option (List Stmt) → List Visit
  | none => []
  | some block => blockVisits block
end

/-- The declarations of the first pass of `SemanticAnalyzer::visitProgram`: one for
each top-level function, in order. -/
def functionVisits : List Stmt → List Visit
  | [] => []
  | .Function _ name parameters _ :: rest =>
    .declare name .FUNCTION parameters.length :: functionVisits rest
  | _ :: rest => functionVisits rest

/-- The operations of `SemanticAnalyzer::visitProgram`: the declarations of the
first pass, then the walk over the statements. -/
def programVisits (program : Program) : List Visit :=
  functionVisits program.statements ++ blockVisits program.statements

/-- The analyzer after the first `n` operations of `analyze` on a program. -/
def analyzerAfter (program : Program) (n : Nat) : SemanticAnalyzer :=
  ((programVisits program).take n).foldl Visit.apply SemanticAnalyzer.new

/-- Whether an operation is the declaration of a variable of the given name, the
`declare` of a TAKE. -/
def Visit.declaresVariable (lexeme : Str) : Visit → Bool
  | .declare name .VARIABLE _ => name.lexeme = lexeme
  | _ => false

/-- The number of parameters of the first top-level function of the given name in a
list of statements, if there is one. -/
def functionArity (lexeme : Str) : List Stmt → Option Int
  | [] => none
  | .Function _ name parameters _ :: rest =>
    if name.lexeme = lexeme then some parameters.length else functionArity lexeme rest
  | _ :: rest => functionArity lexeme rest

/-- The message of the error that `declare` records for a name that is already in
the symbol table with a symbol of line `first`. -/
def redeclarationError (name : Token) (first : Int) : Str :=
  "Line ".toList ++ to_string name.line ++ ": ".toList ++
    ("Redeclaration of '".toList ++ name.lexeme ++ "' (first declared at line ".toList ++
      to_string first ++ ")".toList)

/-- The message of the error that `resolve` records for a name that is not in the
symbol table. -/
def undefinedError (name : Token) (expectedType : SymbolType) : Str :=
  "Line ".toList ++ to_string name.line ++ ": ".toList ++
    ("Undefined ".toList ++ symbolTypeName expectedType ++ ": '".toList ++ name.lexeme ++
      "'".toList)

/-- The message of the error that `resolve` records for a name of the other kind. -/
def kindError (name : Token) (found expectedType : SymbolType) : Str :=
  "Line ".toList ++ to_string name.line ++ ": ".toList ++
    ("'".toList ++ name.lexeme ++ "' is a ".toList ++ symbolTypeName found ++
      ", not a ".toList ++ symbolTypeName expectedType)

/-- The message of the error that `visitCall` records for a call of a built-in with
the wrong number of arguments. -/
def builtinArityError (callee : Token) (actualArgs : Int) : Str :=
  "Line ".toList ++ to_string callee.line ++ ": ".toList ++
    ("Built-in function '".toList ++ callee.lexeme ++ "' expects ".toList ++
      to_string (getParamCount callee.lexeme) ++ " argument(s), but got ".toList ++
      to_string actualArgs)

/-- The message of the error that `visitCall` records for a call of a user function
of `expectedArgs` parameters with another number of arguments. -/
def arityError (callee : Token) (expectedArgs actualArgs : Int) : Str :=
  "Line ".toList ++ to_string callee.line ++ ": ".toList ++
    ("Function '".toList ++ callee.lexeme ++ "' expects ".toList ++ to_string expectedArgs ++
      " argument(s), but got ".toList ++ to_string actualArgs)

/-- The tree the parser builds for a source text, when lexing and parsing
succeed within `fuel`. -/
def parseSource (fuel : Nat) (source : Str) : Option Program :=
  if (Lexer.tokenize source).hadError_ then none
  else
    match Parser.parse fuel (Lexer.tokenize source).tokens_ with
    | none => none
    | some (program, parser) => if parser.hadError_ then none else some program

/-! ## Source texts of the analyzer's test suite (`tests/test_semantic.cpp`) -/

/-- The tree of a sample source text (the empty program if the text did not
parse, which is not the case for the samples below). -/
def programOf (source : Str) : Program := (parseSource 64 source).getD ⟨[]⟩

/-- An identifier token as the lexer produces it. -/
def identifier (lexeme : String) (line : Int) : Token := ⟨.IDENTIFIER, lexeme.toList, [], line⟩

/-- Test 2: Undefined Variable. -/
def test2Source : Str := "TAKE x = y;".toList

/-- Test 3: Valid Function Call. -/
def test3Source : Str :=
  "SCENE add(a, b) \x7b\n    SHOT a + b;\n\x7d\nTAKE result = add(3, 5);".toList

/-- Test 5: Wrong Argument Count. -/
def test5Source : Str :=
  "SCENE add(a, b) \x7b\n    SHOT a + b;\n\x7d\nTAKE result = add(3);".toList

/-- Test 6: Variable Redeclaration. -/
def test6Source : Str := "TAKE x = 5;\nTAKE x = 10;".toList

/-- Test 7: Use Before Declaration. -/
def test7Source : Str := "TAKE x = y;\nTAKE y = 5;".toList

/-- Test 8: Nested Function Calls. -/
def test8Source : Str :=
  ("SCENE add(a, b) \x7b\n    SHOT a + b;\n\x7d\nSCENE multiply(a, b) \x7b\n    SHOT a * b;\n\x7d\n" ++
    "TAKE result = add(3, multiply(2, 4));").toList

/-- Test 9: Function Redeclaration. -/
def test9Source : Str :=
  "SCENE add(a, b) \x7b\n    SHOT a + b;\n\x7d\nSCENE add(x) \x7b\n    SHOT x;\n\x7d".toList

/-- A variable read in its own initializer. -/
def selfInitializerSource : Str := "TAKE x = 1;\nTAKE y = y + x;".toList

/-- A variable declared with the name of a top-level function. -/
def functionNameSource : Str := "TAKE add = 1;\nSCENE add(a, b) \x7b\n    SHOT 0;\n\x7d".toList

/-- A top-level function with the name of a built-in, called with as many arguments
as it has parameters. -/
def shadowedAbsSource : Str := "SCENE abs(a, b) \x7b\n\x7d\nTAKE r = abs(1, 2);".toList

/-- A call of a top-level function with the name of a built-in, before its
definition, with as many arguments as it has parameters. -/
def forwardMaxSource : Str :=
  "TAKE m = max(1, 2, 3);\nSCENE max(a, b, c) \x7b\n    SHOT 0;\n\x7d".toList

/-- A call of a top-level function before its definition. -/
def forwardCallSource : Str :=
  "TAKE r = twice(4);\nSCENE twice(n) \x7b\n    SHOT 0;\n\x7d".toList

/-- A call of a built-in with too many arguments. -/
def builtinCallSource : Str := "TAKE r = abs(1, 2);".toList

/-- The statement `velocityX = -abs(velocityX);` of the update of
`tests/test_gameloop.cpp`, after `velocityX` was given the value 2. -/
def negationSource : Str := "TAKE velocityX = 2;\nvelocityX = -abs(velocityX);".toList

/-- The comparison `1 != 2`, which holds. -/
def notEqualSource : Str := "TAKE r = 1 != 2;".toList

/-- The comparison `2 >= 1`, which holds. -/
def greaterEqualSource : Str := "TAKE r = 2 >= 1;".toList

/-- The comparison `1 <= 2`, which holds. -/
def lessEqualSource : Str := "TAKE r = 1 <= 2;".toList

/-- A source text that the semantic analysis rejects. -/
def undefinedPrintSource : Str := "POUR x;".toList

/-- A source text that the lexer rejects. -/
def badCharacterSource : Str := "POUR 1 $ 2;".toList

/-- A source text that the parser rejects. -/
def missingSemicolonSource : Str := "POUR 1 2;".toList

/-! ## Programs for the jump and argument instructions -/

/-- A program with a label `skip` at index 2, entered with a value on the stack. -/
def jumpProgram : List Str :=
  ["JZ skip".toList, "PUSH 1".toList, "skip:".toList, "PRINT".toList]

/-- A call with one argument on an empty stack, to a function that reads the
argument. -/
def loadargProgram : List Str := ["CALL f 1".toList, "f:".toList, "LOADARG 0".toList]

/-! ## Relations between lexer states -/

/-- What a stretch of scanning may do to the lexer: the input left does not grow,
tokens are only appended, none of them END_OF_FILE, and the error flag is not
cleared. -/
def Lexer.Step (a b : Lexer) : Prop :=
  b.rest.length ≤ a.rest.length ∧
  (∃ extra : List Token, b.tokens_ = a.tokens_ ++ extra ∧
    ∀ t ∈ extra, t.type ≠ TokenType.END_OF_FILE) ∧
  (a.hadError_ = true → b.hadError_ = true)

/-- A lexer state with another error flag and error message. -/
def Lexer.withError (a : Lexer) (e : Bool) (m : Str) : Lexer :=
  { a with hadError_ := e, errorMessage_ := m }

/-! ## Source texts for the lexer (`tests/test_lexer.cpp`) -/

/-- Test 11: Illegal Identifier. -/
def illegalIdentifierSource : Str := "TAKE 123abc = 5;".toList

/-- A character that is not part of the language, followed by a statement. -/
def errorThenTokensSource : Str := "$ x;".toList

/-- A subtraction written without blanks. -/
def minusOneSource : Str := "a-1".toList

/-- A negative number with a fraction. -/
def minusFractionSource : Str := "-1.5".toList

/-- A negative number in a comment. -/
def minusInCommentSource : Str := "# -1".toList

/-! ## Token sequences with a stray token where a statement should start -/

/-- The token types with which neither a statement nor an expression starts, the
end marker apart. -/
def isStrayType (t : TokenType) : Bool :=
  t = .RBRACE || t = .RPAREN || t = .ELSE || t = .EQUAL || t = .COMMA || t = .ERROR

/-- The parser after the error of `Parser::primary` at its current token. -/
def Parser.missing (p : Parser) : Parser := p.error p.peek "Expected expression".toList

/-- A result of a parsing method that did not return within its budget, or returned
with the parser still at the token it started from and the error of `primary`
recorded. -/
def Stuck {α : Type} (p : Parser) (r : Option (α × Parser)) : Prop :=
  r = none ∨ ∃ x, r = some (x, p.missing)

/-- The tokens of the source text `}`. -/
def strayBraceTokens : List Token := [⟨.RBRACE, ['}'], [], 1⟩, ⟨.END_OF_FILE, [], [], 1⟩]

/-- The tokens of the source text `)`. -/
def strayParenTokens : List Token := [⟨.RPAREN, [')'], [], 1⟩, ⟨.END_OF_FILE, [], [], 1⟩]

/-! ## The program that prints a string literal -/

/-- Whether a text starts the way a decimal number does for `std::stoi`: an optional
sign and a digit. -/
def startsWithNumber (s : Str) : Bool := isDigit ((stoiSign s).2.headD '\x00')

/-- The value of `labelCounter_[stem]` (0 for a stem not yet used). -/
def labelCount (g : CodeGenerator) (stem : Str) : Int := (mapFind g.labelCounter_ stem).getD 0

/-- The label `stem_k` that `newLabel` returns at count `k`. -/
def labelText (stem : Str) (k : Int) : Str := stem ++ "_".toList ++ to_string k

/-- The stems of the labels of a loop, which BREAK and CONTINUE use as well. -/
def loopStems : List Str := ["loop".toList, "end_loop".toList]

/-- A name that has the form of a generated loop label: `loop_k` or `end_loop_k`. -/
def isLoopLabel (name : Str) : Prop := ∃ stem ∈ loopStems, ∃ k : Int, name = labelText stem k

mutual
/-- The labels named in the JMPs that `visitBreak` and `visitContinue` emit while
the generator, in state `g`, walks a statement: each is the label that `newLabel`
returns in the state in which the BREAK or CONTINUE is reached. -/
def breakLabelsStmt : Stmt → CodeGenerator → List Str
  | .If _ condition thenBranch elseBranch, g =>
    let g1 := visitExpr condition g
    let elseLabel := newLabel g1 "else".toList
    let endLabel := newLabel elseLabel.2 "end_if".toList
    let g2 := emit endLabel.2 ("JZ ".toList ++ elseLabel.1)
    let g3 := visitBlock thenBranch g2
    let g4 := emit g3 ("JMP ".toList ++ endLabel.1)
    let g5 := emit g4 (elseLabel.1 ++ ":".toList)
    breakLabelsBlock thenBranch g2 ++ breakLabelsElse elseBranch g5
  | .Loop _ condition body, g =>
    let loopLabel := newLabel g "loop".toList
    let endLabel := newLabel loopLabel.2 "end_loop".toList
    let g1 := emit endLabel.2 (loopLabel.1 ++ ":".toList)
    let g2 := visitExpr condition g1
    let g3 := emit g2 ("JZ ".toList ++ endLabel.1)
    breakLabelsBlock body g3
  | .Break _, g => [(newLabel g "end_loop".toList).1]
  | .Continue _, g => [(newLabel g "loop".toList).1]
  | .Function _ name _ body, g => breakLabelsBlock body (emit g (name.lexeme ++ ":".toList))
  | .Block statements, g => breakLabelsBlock statements g
  | .Declaration _ _ _, _ => []
  | .Assignment _ _, _ => []
  | .Print _ _, _ => []
  | .Return _ _, _ => []
  | .Expression _, _ => []
/-- The labels of the BREAKs and CONTINUEs of a block. -/
def breakLabelsBlock : List Stmt → CodeGenerator → List Str
  | [], _ => []
  | stmt :: rest, g => breakLabelsStmt stmt g ++ breakLabelsBlock rest (visitStmt stmt g)
/-- The labels of the BREAKs and CONTINUEs of an else branch. -/
def breakLabelsElse : Option (List Stmt) → CodeGenerator → List Str
  | none, _ => []
  | some block, g => breakLabelsBlock block g
end

/-- The labels of the BREAKs and CONTINUEs of a program, as `generate` walks it. -/
def breakLabels (program : Program) : List Str :=
  breakLabelsBlock program.statements CodeGenerator.new

mutual
/-- The number of statements in a statement, itself included. -/
def stmtSize : Stmt → Nat
  | .If _ _ thenBranch elseBranch => 1 + blockSize thenBranch + elseSize elseBranch
  | .Loop _ _ body => 1 + blockSize body
  | .Function _ _ _ body => 1 + blockSize body
  | .Block statements => 1 + blockSize statements
  | .Break _ => 1
  | .Continue _ => 1
  | .Declaration _ _ _ => 1
  | .Assignment _ _ => 1
  | .Print _ _ => 1
  | .Return _ _ => 1
  | .Expression _ => 1
/-- The number of statements in a block. -/
def blockSize : List Stmt → Nat
  | [] => 0
  | stmt :: rest => stmtSize stmt + blockSize rest
/-- The number of statements in an else branch. -/
def elseSize : Option (List Stmt) → Nat
  | none => 0
  | some block => blockSize block
end

mutual
/-- The names of the functions defined in a statement, at any depth. -/
def stmtFunctions : Stmt → List Str
  | .If _ _ thenBranch elseBranch => blockFunctions thenBranch ++ elseFunctions elseBranch
  | .Loop _ _ body => blockFunctions body
  | .Function _ name _ body => name.lexeme :: blockFunctions body
  | .Block statements => blockFunctions statements
  | .Break _ => []
  | .Continue _ => []
  | .Declaration _ _ _ => []
  | .Assignment _ _ => []
  | .Print _ _ => []
  | .Return _ _ => []
  | .Expression _ => []
/-- The names of the functions defined in a block. -/
def blockFunctions : List Stmt → List Str
  | [] => []
  | stmt :: rest => stmtFunctions stmt ++ blockFunctions rest
/-- The names of the functions defined in an else branch. -/
def elseFunctions : Option (List Stmt) → List Str
  | none => []
  | some block => blockFunctions block
end

/-- What a stretch of code generation does, from state `g` to state `g1`, with the
labels `dead` of its BREAKs and CONTINUEs: code is only appended; the counters of
the loop stems grow, by at most `size`; a new label line `stem_k:` of a loop stem
has its number between the counter before and the counter after; and each label of
`dead` is jumped to in the new code, is not defined by a line of the new code, and
has its number in that range too. -/
def GenStep (g g1 : CodeGenerator) (dead : List Str) (size : Nat) : Prop :=
  ∃ code : List Str,
    g1.bytecode_ = g.bytecode_ ++ code ∧
    (∀ stem ∈ loopStems,
      labelCount g stem ≤ labelCount g1 stem ∧ labelCount g1 stem ≤ labelCount g stem + size) ∧
    (∀ line ∈ code, ∀ stem ∈ loopStems, ∀ k : Int, line = labelText stem k ++ [':'] →
      labelCount g stem ≤ k ∧ k < labelCount g1 stem) ∧
    (∀ L ∈ dead, ("JMP ".toList ++ L) ∈ code ∧ (L ++ [':']) ∉ code ∧
      ∃ stem ∈ loopStems, ∃ k : Int,
        L = labelText stem k ∧ labelCount g stem ≤ k ∧ k < labelCount g1 stem)

/-- A line that is not the label line of a loop label. -/
def NotLoopLabelLine (line : Str) : Prop :=
  ∀ stem ∈ loopStems, ∀ k : Int, line ≠ labelText stem k ++ [':']

/-- A stretch of code generation that appends code without label lines of loop
labels and leaves the label counters as they are. -/
def GenPlain (g g1 : CodeGenerator) : Prop :=
  ∃ code : List Str,
    g1.bytecode_ = g.bytecode_ ++ code ∧ g1.labelCounter_ = g.labelCounter_ ∧
    ∀ line ∈ code, NotLoopLabelLine line

/-- The counters of the loop stems are not negative and leave room for `n` more
labels within the range of `int`. -/
def LabelRoom (g : CodeGenerator) (n : Nat) : Prop :=
  ∀ stem ∈ loopStems, 0 ≤ labelCount g stem ∧ labelCount g stem + n ≤ 2147483647

/-- A source text with a function, and a BREAK and a CONTINUE in a loop. -/
def breakFunctionSource : Str :=
  "SCENE f() \x7b SHOT 0; \x7d\nTAKE i = 0;\nLOOP i < 3 \x7b\n  IF i == 1 \x7b BREAK; \x7d\n  CONTINUE;\n\x7d".toList

/-- A loop that counts to 3 with a BREAK in the middle of its body, and one with a
CONTINUE in the middle of its body. -/
def breakRunSource : Str :=
  "TAKE i = 0;\nLOOP i < 3 \x7b\n  POUR i;\n  BREAK;\n  i = i + 1;\n\x7d".toList

/-- A loop that counts to 3 with a CONTINUE in the middle of its body. -/
def continueRunSource : Str :=
  "TAKE i = 0;\nLOOP i < 3 \x7b\n  i = i + 1;\n  CONTINUE;\n  POUR i;\n\x7d".toList

/-! ## The grammar of expressions

The precedence order of the spec, comparison < additive < multiplicative < unary <
primary with left-associative binary levels, written out as the concrete form of an
expression: a tree that keeps its parentheses and commas and whose operands sit at
the levels the grammar allows. It is the statement the parser is compared with. -/

/-- The precedence level of a binary operator: 0 for a comparison, 1 for an additive
and 2 for a multiplicative operator. -/
def opLevel : TokenType → Option Nat
  | .GREATER | .GREATER_EQUAL | .LESS | .LESS_EQUAL | .EQUAL_EQUAL | .BANG_EQUAL => some 0
  | .PLUS | .MINUS => some 1
  | .STAR | .SLASH => some 2
  | _ => none

mutual
/-- An expression as it is written. -/
inductive Phrase where
  | literal (token : Token)
  | variable (name : Token)
  | unary (op : Token) (right : Phrase)
  | binary (left : Phrase) (op : Token) (right : Phrase)
  | group (lparen : Token) (inner : Phrase) (rparen : Token)
  | call0 (callee lparen rparen : Token)
  | call (callee lparen : Token) (arguments : PhraseList) (rparen : Token)
/-- The arguments of a call as they are written, at least one. -/
inductive PhraseList where
  | last (argument : Phrase)
  | cons (argument : Phrase) (comma : Token) (rest : PhraseList)
end

/-- The level of a written expression: that of its operator, 3 for a negation, 4 for
a primary. -/
def Phrase.level : Phrase → Nat
  | .binary _ op _ => (opLevel op.type).getD 0
  | .unary _ _ => 3
  | _ => 4

mutual
/-- The tokens of a written expression, in order. -/
def Phrase.tokens : Phrase → List Token
  | .literal token => [token]
  | .variable name => [name]
  | .unary op right => op :: right.tokens
  | .binary left op right => left.tokens ++ op :: right.tokens
  | .group lparen inner rparen => lparen :: (inner.tokens ++ [rparen])
  | .call0 callee lparen rparen => [callee, lparen, rparen]
  | .call callee lparen arguments rparen => callee :: lparen :: (arguments.tokens ++ [rparen])
/-- The tokens of written arguments, in order. -/
def PhraseList.tokens : PhraseList → List Token
  | .last argument => argument.tokens
  | .cons argument comma rest => argument.tokens ++ comma :: rest.tokens
end

mutual
/-- The tree of a written expression: the grouping that its levels and its
parentheses express. -/
def Phrase.toExpr : Phrase → Expr
  | .literal token =>
    .Literal token
      (if token.type = .TRUE_KW then "true".toList
       else if token.type = .FALSE_KW then "false".toList else token.literal)
  | .variable name => .Variable name
  | .unary op right => .Unary op right.toExpr
  | .binary left op right => .Binary left.toExpr op right.toExpr
  | .group _ inner _ => inner.toExpr
  | .call0 callee _ _ => .Call callee []
  | .call callee _ arguments _ => .Call callee arguments.toExprs
/-- The trees of written arguments. -/
def PhraseList.toExprs : PhraseList → List Expr
  | .last argument => [argument.toExpr]
  | .cons argument _ rest => argument.toExpr :: rest.toExprs
end

/-- The number of written arguments. -/
def PhraseList.count : PhraseList → Nat
  | .last _ => 1
  | .cons _ _ rest => rest.count + 1

mutual
/-- A written expression follows the grammar: every token has the type of its place,
the left operand of a binary operator of level `j` has level `j` or higher, its right
operand level `j + 1` or higher (left associativity), the operand of a negation is a
negation or a primary, and a call has at most 255 arguments. -/
def Phrase.wf : Phrase → Bool
  | .literal token =>
    token.type = .NUMBER || token.type = .STRING || token.type = .TRUE_KW ||
      token.type = .FALSE_KW
  | .variable name => name.type = .IDENTIFIER
  | .unary op right => op.type = .MINUS && right.wf && decide (3 ≤ right.level)
  | .binary left op right =>
    match opLevel op.type with
    | none => false
    | some j => left.wf && right.wf && decide (j ≤ left.level) && decide (j + 1 ≤ right.level)
  | .group lparen inner rparen => lparen.type = .LPAREN && inner.wf && rparen.type = .RPAREN
  | .call0 callee lparen rparen =>
    callee.type = .IDENTIFIER && lparen.type = .LPAREN && rparen.type = .RPAREN
  | .call callee lparen arguments rparen =>
    callee.type = .IDENTIFIER && lparen.type = .LPAREN && rparen.type = .RPAREN &&
      arguments.wf && decide (arguments.count ≤ 255)
/-- Written arguments follow the grammar. -/
def PhraseList.wf : PhraseList → Bool
  | .last argument => argument.wf
  | .cons argument comma rest => argument.wf && comma.type = .COMMA && rest.wf
end

/-- The tokens the parser has not consumed yet. -/
def Parser.input (p : Parser) : List Token := p.tokens_.drop p.current_

/-- The parser `n` tokens further, nothing else changed. -/
def Parser.skip (p : Parser) (n : Nat) : Parser := { p with current_ := p.current_ + n }

/-- The type of the first token of a list, END_OF_FILE for the empty list. -/
def nextType (tokens : List Token) : TokenType :=
  (tokens.headD (Token.mk3 .END_OF_FILE [] 0)).type

/-- A token type that ends an expression of level `k`: not an opening parenthesis and
not a binary operator of level `k` or higher. -/
def stops (k : Nat) (type : TokenType) : Bool :=
  type ≠ .LPAREN &&
    match opLevel type with
    | none => true
    | some j => decide (j < k)

/-- The parsing method of a level. -/
def levelParser : Nat → Nat → Parser → Option (Expr × Parser)
  | 0 => Parser.comparison
  | 1 => Parser.addition
  | 2 => Parser.multiplication
  | 3 => Parser.unary
  | _ => Parser.primary

/-- The loop of the parsing method of a binary level. -/
def levelLoop : Nat → Nat → Expr → Parser → Option (Expr × Parser)
  | 0 => Parser.comparisonLoop
  | 1 => Parser.additionLoop
  | _ => Parser.multiplicationLoop

/-- With enough budget, the method `f` started in state `p` returns `e` in state
`p1`. -/
def ParsesTo {α : Type} (f : Nat → Parser → Option (α × Parser)) (p : Parser) (e : α)
    (p1 : Parser) : Prop :=
  ∃ N, ∀ fuel, N ≤ fuel → f fuel p = some (e, p1)

/-- The method `f` parses the tokens `ts`, when a token that ends level `k` follows,
to the tree `e`, consuming exactly `ts` and recording no error. -/
def ParsesAt (f : Nat → Parser → Option (Expr × Parser)) (k : Nat) (ts : List Token)
    (e : Expr) : Prop :=
  ∀ (p : Parser) (rest : List Token), p.input = ts ++ rest →
    stops k (nextType rest) = true → ParsesTo f p e (p.skip ts.length)

/-- The method `f` of level `k`, on the tokens `ts` followed by a token that ends
level `k + 1`, does what its loop does from the tree `e` after `ts`. -/
def EntersLoop (f : Nat → Parser → Option (Expr × Parser))
    (loop : Nat → Expr → Parser → Option (Expr × Parser)) (k : Nat) (ts : List Token)
    (e : Expr) : Prop :=
  ∀ (p : Parser) (rest : List Token), p.input = ts ++ rest →
    stops (k + 1) (nextType rest) = true →
    ∀ (e1 : Expr) (p1 : Parser),
      ParsesTo (fun fuel => loop fuel e) (p.skip ts.length) e1 p1 → ParsesTo f p e1 p1

/-- The shape shared by `comparison`, `addition` and `multiplication`: parse an operand
of the next level, then loop while an operator of the level follows. -/
def IsLevel (k : Nat) (f next : Nat → Parser → Option (Expr × Parser))
    (loop : Nat → Expr → Parser → Option (Expr × Parser)) : Prop :=
  (∀ fuel p, f (fuel + 1) p =
    match next fuel p with
    | none => none
    | some (e, p1) => loop fuel e p1) ∧
  (∀ fuel e p, stops k (nextType p.input) = true → loop (fuel + 1) e p = some (e, p)) ∧
  (∀ fuel e p op r, p.input = op :: r → opLevel op.type = some k →
    loop (fuel + 1) e p =
      match next fuel (p.skip 1) with
      | none => none
      | some (right, p1) => loop fuel (.Binary e op right) p1)

/-- A token type an expression can start with. -/
def isStart (type : TokenType) : Bool :=
  type = .NUMBER || type = .STRING || type = .TRUE_KW || type = .FALSE_KW ||
    type = .IDENTIFIER || type = .LPAREN || type = .MINUS

/-- The loop of `finishCall` parses the tokens `ts`, when a closing parenthesis
follows, to the trees `es`, appended to the arguments it already holds; `n` is the
number of arguments in `ts`. -/
def ArgumentsParse (ts : List Token) (es : List Expr) (n : Nat) : Prop :=
  ∀ (p : Parser) (rest : List Token) (acc : List Expr), p.input = ts ++ rest →
    nextType rest = .RPAREN → acc.length + n ≤ 255 →
    ParsesTo (fun fuel => Parser.argumentLoop fuel acc) p (acc ++ es) (p.skip ts.length)

/-- The tokens `ts` are parsed to the tree `e` by the method of every level up to
`j`. -/
def ParsesUpTo (j : Nat) (ts : List Token) (e : Expr) : Prop :=
  ∀ k, k ≤ j →
    ParsesAt (levelParser k) k ts e ∧
      (k ≤ 2 → EntersLoop (levelParser k) (levelLoop k) k ts e)

/-- The constructor `Parser::Parser(tokens)` on the tokens of a source text, followed
by `Parser::expression`. -/
def parseExpression (fuel : Nat) (source : Str) : Option (Expr × Parser) :=
  Parser.expression fuel
    { tokens_ := (Lexer.tokenize source).tokens_, current_ := 0, hadError_ := false,
      errorMessage_ := [] }

/-- The written expression `a + b * c`. -/
def sumProductPhrase : Phrase :=
  .binary (.variable (identifier "a" 1)) ⟨.PLUS, "+".toList, [], 1⟩
    (.binary (.variable (identifier "b" 1)) ⟨.STAR, "*".toList, [], 1⟩
      (.variable (identifier "c" 1)))

/-- The instruction line `opcode first second`. -/
def instr2 (opcode first second : Str) : Str := opcode ++ ' ' :: (first ++ ' ' :: second)

/-- Whether the first word of a line is `PRINT`, the test `VM::execute` makes on the
line it looks at after a PUSH of a text. -/
def firstWordIsPrint (line : Str) : Bool :=
  match split line with
  | [] => false
  | w :: _ => w = "PRINT".toList

/-- The statement that prints the value of `1 + 2`. -/
def printSumSource : Str := "POUR 1 + 2;".toList

/-- The program `POUR v1; … POUR vn;`, given the keyword token and the name token of
each statement. -/
def printProgram (names : List (Token × Token)) : Program :=
  ⟨names.map fun p => .Print p.1 (.Variable p.2)⟩

/-- The analyzer with its error list emptied and its error flag cleared. -/
def SemanticAnalyzer.withoutErrors (a : SemanticAnalyzer) : SemanticAnalyzer :=
  { a with errors_ := [], hadError_ := false }

/-- Three prints of undeclared variables. -/
def threeUndeclaredSource : Str := "POUR a;\nPOUR b;\nPOUR c;".toList

/-- An undeclared variable in the first statement and a redeclaration in the third. -/
def errorThenRedeclarationSource : Str := "POUR a;\nTAKE x = 1;\nTAKE x = 2;".toList

/-! ## The labels of the generated code -/

/-- The stems of the labels that `newLabel` is asked for. -/
def labelStems : List Str :=
  ["else".toList, "end_if".toList, "loop".toList, "end_loop".toList]

/-- A name that has the form of a generated label: `else_k`, `end_if_k`, `loop_k` or
`end_loop_k`. -/
def isGeneratedLabel (name : Str) : Prop :=
  ∃ stem ∈ labelStems, ∃ k : Int, name = labelText stem k

/-- A line that is a JMP or a JZ naming the label `L`. -/
def isJumpTo (line L : Str) : Prop :=
  line = "JMP ".toList ++ L ∨ line = "JZ ".toList ++ L

/-- A line of the kind the generator emits for expressions and for the statements
without control flow: it starts with an upper-case letter other than `J`. -/
def isPlainLine (line : Str) : Bool :=
  match line with
  | [] => false
  | c :: _ => decide ('A'.toNat ≤ c.toNat) && decide (c.toNat ≤ 'Z'.toNat) && c != 'J'

/-- A line that is neither the label line of a generated label nor a JMP or JZ. -/
def NeutralLine (line : Str) : Prop :=
  (∀ stem ∈ labelStems, ∀ k : Int, line ≠ labelText stem k ++ [':']) ∧
    ∀ L : Str, ¬ isJumpTo line L

/-- The line of a call of `callee` with `n` arguments. -/
def callLine (callee : Str) (n : Int) : Str :=
  "CALL ".toList ++ callee ++ " ".toList ++ to_string n

/-- A stretch of code generation that appends the plain lines `code` and leaves the
label counters as they are; each of its lines that starts with `C` is the CALL of a
call that the analyzer checks among `visits`. -/
def PlainCode (visits : List Visit) (g g1 : CodeGenerator) (code : List Str) : Prop :=
  g1.bytecode_ = g.bytecode_ ++ code ∧ g1.labelCounter_ = g.labelCounter_ ∧
  ∀ line ∈ code, isPlainLine line = true ∧
    (line.head? = some 'C' →
      ∃ (callee : Token) (n : Int), Visit.call callee n ∈ visits ∧
        line = callLine callee.lexeme n)

/-- A stretch of code generation that appends `code`: the counters of the label
stems grow by at most `size`; the label lines of generated labels in `code` carry
numbers between the counter before and the counter after and none occurs twice;
every JMP and JZ in `code` names a generated label that `code` defines or that is
listed in `unresolved`. -/
def GenLabels (g g1 : CodeGenerator) (code unresolved : List Str) (size : Nat) : Prop :=
  g1.bytecode_ = g.bytecode_ ++ code ∧
  (∀ stem ∈ labelStems, labelCount g stem ≤ labelCount g1 stem ∧
    labelCount g1 stem ≤ labelCount g stem + size) ∧
  (∀ stem ∈ labelStems, ∀ k : Int, (labelText stem k ++ [':']) ∈ code →
    labelCount g stem ≤ k ∧ k < labelCount g1 stem) ∧
  (∀ stem ∈ labelStems, ∀ k : Int, code.count (labelText stem k ++ [':']) ≤ 1) ∧
  (∀ line ∈ code, ∀ L : Str, isJumpTo line L →
    isGeneratedLabel L ∧ ((L ++ [':']) ∈ code ∨ L ∈ unresolved))

/-- The counters of all label stems are not negative and leave room for `n` more
labels within the range of `int`. -/
def LabelSpace (g : CodeGenerator) (n : Nat) : Prop :=
  ∀ stem ∈ labelStems, 0 ≤ labelCount g stem ∧ labelCount g stem + n ≤ 2147483647

/-- Function names that cannot be taken for a generated label or for a jump: not of
the form of a generated label, and without a blank. -/
def PlainNames (names : List Str) : Prop :=
  ∀ f ∈ names, ¬ isGeneratedLabel f ∧ ' ' ∉ f

/-! ### The code of a program that is one IF statement -/

/-- The program whose only statement is `IF condition { T } ELSE { E }`, or the IF
without an else branch. -/
def ifProgram (keyword : Token) (condition : Expr) (thenBranch : List Stmt)
    (elseBranch : Option (List Stmt)) : Program :=
  ⟨[.If keyword condition thenBranch elseBranch]⟩

/-- The state in which `visitIf` visits the then-block of `ifProgram`. -/
def ifThenState (condition : Expr) : CodeGenerator :=
  emit (newLabel (newLabel (visitExpr condition CodeGenerator.new) "else".toList).2
    "end_if".toList).2 "JZ else_0".toList

/-- The state in which `visitIf` visits the else branch of `ifProgram`. -/
def ifElseState (condition : Expr) (thenBranch : List Stmt) : CodeGenerator :=
  emit (emit (visitBlock thenBranch (ifThenState condition)) "JMP end_if_0".toList)
    "else_0:".toList

/-- The lines the then-block of `ifProgram` adds to the bytecode. -/
def thenCode (condition : Expr) (thenBranch : List Stmt) : List Str :=
  (visitBlock thenBranch (ifThenState condition)).bytecode_.drop
    (ifThenState condition).bytecode_.length

/-- The lines the else branch of `ifProgram` adds to the bytecode. -/
def elseCode (condition : Expr) (thenBranch : List Stmt) (elseBranch : Option (List Stmt)) :
    List Str :=
  (visitElse elseBranch (ifElseState condition thenBranch)).bytecode_.drop
    (ifElseState condition thenBranch).bytecode_.length

/-- A declaration whose initializer is the literal `true`. -/
def takeTrueSource : Str := "TAKE x = true;".toList

/-- An IF on the literal `true`. -/
def ifTrueSource : Str :=
  "IF true \x7b POUR 1; \x7d ELSE \x7b POUR 2; \x7d".toList

/-- An IF on the literal `false`. -/
def ifFalseSource : Str :=
  "IF false \x7b POUR 1; \x7d ELSE \x7b POUR 2; \x7d".toList

/-- An IF on the literal `true` whose else-block defines a function named `else_0`. -/
def ifTrueShadowSource : Str :=
  "IF true \x7b POUR 1; \x7d ELSE \x7b POUR 2; SCENE else_0() \x7b \x7d \x7d".toList

/-- The six comparison operators of the language. -/
def comparisonOperators : List Str :=
  ["==".toList, "!=".toList, ">".toList, "<".toList, ">=".toList, "<=".toList]

/-- Whether `a op b` holds, for a comparison operator `op`. -/
def compareHolds (op : Str) (a b : Int) : Bool :=
  if op = "==".toList then decide (a = b)
  else if op = "!=".toList then decide (a ≠ b)
  else if op = ">".toList then decide (a > b)
  else if op = "<".toList then decide (a < b)
  else if op = ">=".toList then decide (a ≥ b)
  else if op = "<=".toList then decide (a ≤ b)
  else false

/-- The expression `a op b` on two literals, given their tokens. -/
def comparison (ta tb : Token) (a b : Str) (op : Token) : Expr :=
  .Binary (.Literal ta a) op (.Literal tb b)

/-- What a source text writes when it is compiled and run on a fresh machine: the
lines written, if the compilation reports no error and the run ends within 400
instructions. -/
def writtenBy (source : Str) : Option (List Str) :=
  match Compiler.compile 64 source Compiler.new with
  | none => none
  | some c =>
    if c.hadError_ then none
    else
      match run 400 c.bytecode_ (VM.new []) with
      | .finished vm => some vm.out
      | _ => none

/-- Twelve IF statements, a true and a false comparison for each of the six
operators; each writes 1 from its then-block and 0 from its else-block. -/
def sixComparisonsSource : Str :=
  ("IF 2 == 2 \x7b POUR 1; \x7d ELSE \x7b POUR 0; \x7d IF 2 == 3 \x7b POUR 1; \x7d ELSE \x7b POUR 0; \x7d " ++
   "IF 2 != 3 \x7b POUR 1; \x7d ELSE \x7b POUR 0; \x7d IF 2 != 2 \x7b POUR 1; \x7d ELSE \x7b POUR 0; \x7d " ++
   "IF 3 > 2 \x7b POUR 1; \x7d ELSE \x7b POUR 0; \x7d IF 2 > 3 \x7b POUR 1; \x7d ELSE \x7b POUR 0; \x7d " ++
   "IF -2 < 3 \x7b POUR 1; \x7d ELSE \x7b POUR 0; \x7d IF 3 < -2 \x7b POUR 1; \x7d ELSE \x7b POUR 0; \x7d " ++
   "IF 3 >= 3 \x7b POUR 1; \x7d ELSE \x7b POUR 0; \x7d IF 2 >= 3 \x7b POUR 1; \x7d ELSE \x7b POUR 0; \x7d " ++
   "IF 2 <= 3 \x7b POUR 1; \x7d ELSE \x7b POUR 0; \x7d IF 3 <= 2 \x7b POUR 1; \x7d ELSE \x7b POUR 0; \x7d").toList

/-- An IF whose condition compares a literal outside the 32-bit range. -/
def ifLargeLiteralSource : Str :=
  "IF 99999999999 > 0 \x7b POUR 1; \x7d ELSE \x7b POUR 2; \x7d".toList

/-- An IF on a false comparison whose else-block defines a function named `else_0`. -/
def ifFalseShadowSource : Str :=
  "IF 1 < 0 \x7b POUR 1; \x7d ELSE \x7b POUR 2; SCENE else_0() \x7b \x7d \x7d".toList

/-- The program `IF a op b { T } ELSE { E }`, given the tokens. -/
def comparisonIf (keyword ta tb op : Token) (a b : Str) (thenBranch elseBranch : List Stmt) :
    Program :=
  ifProgram keyword (comparison ta tb a b op) thenBranch (some elseBranch)

/-! ### Programs without BREAK and CONTINUE, and the CALL lines of the bytecode -/

mutual
/-- Whether a statement contains no BREAK and no CONTINUE, at any depth. -/
def breakFreeStmt : Stmt → Bool
  | .If _ _ thenBranch elseBranch => breakFreeBlock thenBranch && breakFreeElse elseBranch
  | .Loop _ _ body => breakFreeBlock body
  | .Function _ _ _ body => breakFreeBlock body
  | .Block statements => breakFreeBlock statements
  | .Break _ => false
  | .Continue _ => false
  | .Declaration _ _ _ => true
  | .Assignment _ _ => true
  | .Print _ _ => true
  | .Return _ _ => true
  | .Expression _ => true
/-- Whether a block contains no BREAK and no CONTINUE. -/
def breakFreeBlock : List Stmt → Bool
  | [] => true
  | stmt :: rest => breakFreeStmt stmt && breakFreeBlock rest
/-- Whether an else branch contains no BREAK and no CONTINUE. -/
def breakFreeElse : Option (List Stmt) → Bool
  | none => true
  | some block => breakFreeBlock block
end

/-- Every line of `code` that starts with `C` and is not a label line is the CALL
of a call that the analyzer checks among `visits`. -/
def CallLines (visits : List Visit) (code : List Str) : Prop :=
  ∀ line ∈ code, line.head? = some 'C' → isLabelLine line = false →
    ∃ (callee : Token) (n : Int), Visit.call callee n ∈ visits ∧
      line = callLine callee.lexeme n

/-- A stretch of code generation from state `g` to state `g1` that appends the lines
`code`: each CALL line among them is the CALL of a call among `visits`, and each
name of `functions` has its label line among them. -/
def CodeOf (visits : List Visit) (functions : List Str) (g g1 : CodeGenerator)
    (code : List Str) : Prop :=
  g1.bytecode_ = g.bytecode_ ++ code ∧ CallLines visits code ∧
  ∀ f ∈ functions, (f ++ ":".toList) ∈ code

/-- A function, and a loop that calls it and a built-in. -/
def labelsSource : Str :=
  "SCENE f() \x7b \x7d LOOP 1 > 2 \x7b f(); abs(1); \x7d".toList

/-! ### Function bodies that run straight to a RET -/

/-- Statements with straight-line code: declarations, assignments, prints and
expression statements over the expressions of C1. -/
def isStraight : Stmt → Bool
  | .Declaration _ name initializer => isIdentifier name.lexeme && isArith initializer
  | .Assignment name value => isIdentifier name.lexeme && isArith value
  | .Print _ expression => isArith expression
  | .Expression expression => isArith expression
  | .If _ _ _ _ => false
  | .Loop _ _ _ => false
  | .Break _ => false
  | .Continue _ => false
  | .Return _ _ => false
  | .Function _ _ _ _ => false
  | .Block _ => false

/-- The value of a SHOT statement, if the statement is one. -/
def returnOf : Stmt → Option (Option Expr)
  | .Return _ value => some value
  | .Declaration _ _ _ => none
  | .Assignment _ _ => none
  | .Print _ _ => none
  | .Expression _ => none
  | .If _ _ _ _ => none
  | .Loop _ _ _ => none
  | .Break _ => none
  | .Continue _ => none
  | .Function _ _ _ _ => none
  | .Block _ => none

/-- The code of a statement, generated from the initial state. -/
def stmtCode (s : Stmt) : List Str := (visitStmt s CodeGenerator.new).bytecode_

/-- The code that returns a value, or 0 when there is none: what `visitReturn` emits,
and what `visitFunction` emits after the body. -/
def returnCode : Option Expr → List Str
  | none => ["PUSH 0".toList, "RET".toList]
  | some value => exprCode value ++ ["RET".toList]

/-- A function body of straight-line statements, up to its first SHOT if it has
one; the value of that SHOT is an expression of C1. -/
def isStraightBody : List Stmt → Bool
  | [] => true
  | stmt :: rest =>
    match returnOf stmt with
    | some none => true
    | some (some value) => isArith value
    | none => isStraight stmt && isStraightBody rest

/-- The code of a function body up to and including its first RET: the statements
before the first SHOT, then the code of that SHOT or, without one, the `PUSH 0` and
`RET` that end every function. -/
def bodyCode : List Stmt → List Str
  | [] => returnCode none
  | stmt :: rest =>
    match returnOf stmt with
    | some value => returnCode value
    | none => stmtCode stmt ++ bodyCode rest

/-- What a straight-line statement does to the machine, as the specification words
it: TAKE and assignment store the value of the expression, POUR writes it and
leaves it on the stack, an expression statement leaves it on the stack. -/
def specStmt (vm : VM) : Stmt → VM
  | .Declaration _ name initializer =>
    { vm with vars := mapSet vm.vars name.lexeme (specValue vm.vars initializer) }
  | .Assignment name value =>
    { vm with vars := mapSet vm.vars name.lexeme (specValue vm.vars value) }
  | .Print _ expression =>
    { vm with stack := vm.stack ++ [specValue vm.vars expression],
              out := vm.out ++ [to_string (specValue vm.vars expression)] }
  | .Expression expression => { vm with stack := vm.stack ++ [specValue vm.vars expression] }
  | .If _ _ _ _ => vm
  | .Loop _ _ _ => vm
  | .Break _ => vm
  | .Continue _ => vm
  | .Return _ _ => vm
  | .Function _ _ _ _ => vm
  | .Block _ => vm

/-- The value pushed before a RET. -/
def returnValue (vars : List (Str × Int)) : Option Expr → Int
  | none => 0
  | some value => specValue vars value

/-- The machine at the first RET of a straight-line function body: the effects of
the statements before it, and the returned value on the stack. -/
def specBody (vm : VM) : List Stmt → VM
  | [] => { vm with stack := vm.stack ++ [0] }
  | stmt :: rest =>
    match returnOf stmt with
    | some value => { vm with stack := vm.stack ++ [returnValue vm.vars value] }
    | none => specBody (specStmt vm stmt) rest

/-- The program `SCENE name(parameters) { body } S`. -/
def functionFirst (keyword name : Token) (parameters : List Token) (body : List Stmt)
    (rest : List Stmt) : Program :=
  ⟨.Function keyword name parameters body :: rest⟩

/-- A function with an empty body, followed by a statement. -/
def emptyBodySource : Str := "SCENE f() \x7b \x7d POUR 1;".toList

/-- A function whose body calls a function defined after it. -/
def callerBodySource : Str :=
  "SCENE f() \x7b g(); \x7d SCENE g() \x7b POUR 7; \x7d".toList

/-- A function whose body calls the function itself, followed by a statement. -/
def recursiveBodySource : Str := "SCENE f() \x7b f(); \x7d POUR 1;".toList

/-- A block of straight-line statements. -/
def isStraightBlock (ss : List Stmt) : Bool := ss.all isStraight

/-- The code of a block, generated from the initial state. -/
def blockCode (ss : List Stmt) : List Str := (visitBlock ss CodeGenerator.new).bytecode_

/-- What a block of straight-line statements does to the machine, as the
specification words it: the effects of its statements, in order. -/
def specBlock (vm : VM) (ss : List Stmt) : VM := ss.foldl specStmt vm

/-- Whether the expression of a statement divides -2147483648 by -1 nowhere under
the variable store. -/
def stmtDefined (vars : List (Str × Int)) : Stmt → Bool
  | .Declaration _ _ initializer => divDefined vars initializer
  | .Assignment _ value => divDefined vars value
  | .Print _ expression => divDefined vars expression
  | .Expression expression => divDefined vars expression
  | .Return _ (some value) => divDefined vars value
  | .Return _ none => true
  | .If _ _ _ _ => true
  | .Loop _ _ _ => true
  | .Break _ => true
  | .Continue _ => true
  | .Function _ _ _ _ => true
  | .Block _ => true

/-- Whether a block of straight-line statements, run from the state `vm`, divides
-2147483648 by -1 nowhere: each statement is taken in the state that the
statements before it leave. -/
def blockDefined (vm : VM) : List Stmt → Bool
  | [] => true
  | stmt :: rest => stmtDefined vm.vars stmt && blockDefined (specStmt vm stmt) rest

/-- Whether a straight-line function body, run from the state `vm` up to its first
SHOT, divides -2147483648 by -1 nowhere. -/
def bodyDefined (vm : VM) : List Stmt → Bool
  | [] => true
  | stmt :: rest =>
    match returnOf stmt with
    | some _ => stmtDefined vm.vars stmt
    | none => stmtDefined vm.vars stmt && bodyDefined (specStmt vm stmt) rest

/-! ### Function bodies without loops and without calls of user functions -/

mutual
/-- Whether every call in an expression names a built-in of the runtime library. -/
def callsBuiltins : Expr → Bool
  | .Literal _ _ => true
  | .Variable _ => true
  | .Binary left _ right => callsBuiltins left && callsBuiltins right
  | .Unary _ right => callsBuiltins right
  | .Call callee arguments => isBuiltin callee.lexeme && callsBuiltinsArguments arguments
/-- Whether every call in a list of arguments names a built-in. -/
def callsBuiltinsArguments : List Expr → Bool
  | [] => true
  | arg :: rest => callsBuiltins arg && callsBuiltinsArguments rest
end

mutual
/-- Whether a statement contains, at any depth, no LOOP and no call of a function
other than a built-in. -/
def loopFreeStmt : Stmt → Bool
  | .Declaration _ _ initializer => callsBuiltins initializer
  | .Assignment _ value => callsBuiltins value
  | .Print _ expression => callsBuiltins expression
  | .Expression expression => callsBuiltins expression
  | .If _ condition thenBranch elseBranch =>
    callsBuiltins condition && loopFreeBlock thenBranch && loopFreeElse elseBranch
  | .Loop _ _ _ => false
  | .Break _ => true
  | .Continue _ => true
  | .Return _ (some value) => callsBuiltins value
  | .Return _ none => true
  | .Function _ _ _ body => loopFreeBlock body
  | .Block statements => loopFreeBlock statements
/-- Whether a block contains no LOOP and no call of a function other than a
built-in. -/
def loopFreeBlock : List Stmt → Bool
  | [] => true
  | stmt :: rest => loopFreeStmt stmt && loopFreeBlock rest
/-- Whether an else branch contains no LOOP and no call of a function other than a
built-in. -/
def loopFreeElse : Option (List Stmt) → Bool
  | none => true
  | some block => loopFreeBlock block
end

/-- A line that starts with an upper-case letter other than `J` and that, when it
starts with `C`, is the CALL of a built-in. -/
def PlainBuiltin (line : Str) : Prop :=
  isPlainLine line = true ∧
    (line.head? = some 'C' →
      ∃ (callee : Str) (n : Int), isBuiltin callee = true ∧ line = callLine callee n)

/-- A stretch of code in which no jump goes backward: each line is a label line, or a
line that starts with an upper-case letter other than `J` (the CALL of a built-in when
it starts with `C`), or a JMP or JZ whose label line follows later in the stretch or
whose label is listed in `unresolved`. -/
def ForwardCode (code unresolved : List Str) : Prop :=
  ∀ (pre : List Str) (line : Str) (post : List Str), code = pre ++ line :: post →
    isLabelLine line = true ∨ PlainBuiltin line ∨
    ∃ L, isJumpTo line L ∧ ((L ++ [':']) ∈ post ∨ L ∈ unresolved)

/-- The code of a function definition, generated from the initial state: the label
line, the code of the body, `PUSH 0` and `RET`. -/
def functionCode (keyword name : Token) (parameters : List Token) (body : List Stmt) :
    List Str :=
  (visitStmt (.Function keyword name parameters body) CodeGenerator.new).bytecode_

/-- The state `vm1` has the label table and the call stack of `vm`, and its program
counter is that of `vm` advanced by `d`. -/
def Advanced (vm vm1 : VM) (d : Nat) : Prop :=
  vm1.pc = vm.pc + d ∧ vm1.labels = vm.labels ∧ vm1.callstack = vm.callstack

/-- A result of `VM::execute` that is either the next instruction reached with the
label table and the call stack unchanged, or a fault at the instruction itself. -/
def StepsOn (r : Result) (vm : VM) : Prop :=
  (∀ vm1, r = .ok vm1 → Advanced vm vm1 1) ∧
  (∀ fault vm1, r = .error (fault, vm1) → Advanced vm vm1 0)

/-- A result of `VM::execute` that leaves the label table as it is and the call
stack empty, and that is either a fault at the instruction itself or a state whose
program counter is on the next line, at the end of the program (RET with an empty
call stack) or behind the PRINT that a PUSH of a text has served. -/
def LocalStep (program : List Str) (r : Result) (vm : VM) : Prop :=
  (∀ vm1, r = .ok vm1 →
    vm1.labels = vm.labels ∧ vm1.callstack = [] ∧
    (vm1.pc = vm.pc + 1 ∨ vm1.pc = program.length ∨
      (isPrintAt program (nextNonLabel program (vm.pc + 1)) = true ∧
        vm1.pc = nextNonLabel program (vm.pc + 1) + 1))) ∧
  (∀ fault vm1, r = .error (fault, vm1) →
    vm1.labels = vm.labels ∧ vm1.callstack = [] ∧ vm1.pc = vm.pc)

/-- A function whose IF jumps to a label that a later function bears as its name. -/
def shadowedBodySource : Str :=
  "SCENE f() \x7b IF 1 < 0 \x7b \x7d ELSE \x7b \x7d \x7d SCENE else_0() \x7b POUR 7; \x7d".toList

/-- A function that bears the name of the label of its own BREAK. -/
def breakNameSource : Str := "SCENE end_loop_0() \x7b BREAK; \x7d POUR 1;".toList

/-- A function whose body has an IF on a comparison and calls a built-in. -/
def branchBodySource : Str :=
  "SCENE f() \x7b IF 2 >= 1 \x7b POUR abs(-5); \x7d \x7d POUR 1;".toList

/-! # Properties -/

/-! ## Arithmetic helpers -/

theorem wrap32_of_isInt32 {i : Int} (h : isInt32 i) : wrap32 i = i := by
  unfold isInt32 at h
  unfold wrap32
  omega

theorem isInt32_wrap32 (i : Int) : isInt32 (wrap32 i) := by
  unfold isInt32 wrap32
  omega

theorem isInt32_tdiv {a b : Int} (ha : isInt32 a) (hb : isInt32 b) (hb0 : b ≠ 0)
    (hov : ¬ (a = -2147483648 ∧ b = -1)) : isInt32 (a.tdiv b) := by
  unfold isInt32 at *
  by_cases h1 : b = 1
  · subst h1; simp; omega
  by_cases h2 : b = -1
  · subst h2
    have : a.tdiv (-1) = -a := by simp [Int.tdiv_neg]
    rw [this]; omega
  have hq : (a.tdiv b).natAbs = a.natAbs / b.natAbs := Int.natAbs_tdiv a b
  have hb2 : 2 ≤ b.natAbs := by omega
  have hle : a.natAbs / b.natAbs ≤ a.natAbs / 2 := Nat.div_le_div_left hb2 (by decide)
  omega

/-! ## Stack primitives -/

theorem pop_concat (vm : VM) (s : List Int) (a : Int) (h : vm.stack = s ++ [a]) :
    pop vm = .ok (a, { vm with stack := s }) := by
  simp [pop, h]

theorem pop_nil (vm : VM) (h : vm.stack = []) : pop vm = .error (Fault.stack_underflow, vm) := by
  simp [pop, h]

theorem binop_concat2 (f : Int → Int → Int) (vm : VM) (s : List Int) (a b : Int)
    (h : vm.stack = s ++ [a, b]) :
    binop f vm = .ok { vm with stack := s ++ [f a b], pc := vm.pc + 1 } := by
  have h1 : vm.stack = (s ++ [a]) ++ [b] := by simp [h]
  simp [binop, pop_concat vm _ b h1, pop_concat { vm with stack := s ++ [a] } s a rfl, push, incPc]

theorem execDIV_concat2 (vm : VM) (s : List Int) (a b : Int) (h : vm.stack = s ++ [a, b])
    (hov : ¬ (a = -2147483648 ∧ b = -1)) :
    execDIV vm
      = .ok { vm with stack := s ++ [if b = 0 then 0 else a.tdiv b], pc := vm.pc + 1 } := by
  have h1 : vm.stack = (s ++ [a]) ++ [b] := by simp [h]
  by_cases hb : b = 0
  · simp [execDIV, pop_concat vm _ b h1, pop_concat { vm with stack := s ++ [a] } s a rfl, push,
      incPc, hb]
  · simp [execDIV, pop_concat vm _ b h1, pop_concat { vm with stack := s ++ [a] } s a rfl, push,
      incPc, hb, hov]

theorem execDIV_signal (vm : VM) (s : List Int) (h : vm.stack = s ++ [-2147483648, -1]) :
    execDIV vm = .error (Fault.arithmetic_signal, { vm with stack := s }) := by
  have h1 : vm.stack = (s ++ [-2147483648]) ++ [-1] := by simp [h]
  simp [execDIV, pop_concat vm _ (-1) h1,
    pop_concat { vm with stack := s ++ [-2147483648] } s (-2147483648) rfl]

theorem execute_DIV (program : List Str) (vm : VM) :
    execute "DIV".toList program vm = execDIV vm := rfl

/-! ## C2 – C4: arithmetic instructions -/

/-- C2. On a stack ending with `a` then `b`, ADD, SUB and MUL replace the two values
by `a+b`, `a-b`, `a*b` as 32-bit integers, advance `pc` by one and change nothing
else. -/
theorem add_sub_mul_spec (vm : VM) (program : List Str) (rest : List Int) (a b : Int)
    (h : vm.stack = rest ++ [a, b]) :
    execute "ADD".toList program vm
        = .ok { vm with stack := rest ++ [wrap32 (a + b)], pc := vm.pc + 1 } ∧
    execute "SUB".toList program vm
        = .ok { vm with stack := rest ++ [wrap32 (a - b)], pc := vm.pc + 1 } ∧
    execute "MUL".toList program vm
        = .ok { vm with stack := rest ++ [wrap32 (a * b)], pc := vm.pc + 1 } := by
  refine ⟨?_, ?_, ?_⟩
  · exact binop_concat2 _ vm rest a b h
  · exact binop_concat2 _ vm rest a b h
  · exact binop_concat2 _ vm rest a b h

/-- C2, instance: the stack `[10, 3, 5]` of a machine at `pc = 2`. -/
theorem add_sub_mul_spec_witness :
    let vm : VM := { VM.new [] with stack := [10, 3, 5], pc := 2 }
    vm.stack = [10] ++ [3, 5] ∧
    execute "ADD".toList [] vm = .ok { vm with stack := [10, 8], pc := 3 } ∧
    execute "SUB".toList [] vm = .ok { vm with stack := [10, -2], pc := 3 } ∧
    execute "MUL".toList [] vm = .ok { vm with stack := [10, 15], pc := 3 } :=
  ⟨rfl, add_sub_mul_spec { VM.new [] with stack := [10, 3, 5], pc := 2 } [] [10] 3 5 rfl⟩

/-- One step of `VM::run`: when the instruction at `pc` executes normally, the loop
goes on from the state it leaves. -/
theorem runLoop_step (program : List Str) (fuel : Nat) (vm vm1 : VM) (instruction : Str)
    (hfetch : program[vm.pc]? = some instruction)
    (hexec : execute instruction program vm = .ok vm1) :
    runLoop program (fuel + 1) vm = runLoop program fuel vm1 := by
  rw [runLoop, hfetch]
  simp [hexec]

/-- One step of `VM::run` that throws: the loop ends there, whatever budget is left. -/
theorem runLoop_fault (program : List Str) (fuel : Nat) (vm vm1 : VM) (instruction : Str)
    (fault : Fault) (hfetch : program[vm.pc]? = some instruction)
    (hexec : execute instruction program vm = .error (fault, vm1)) :
    runLoop program (fuel + 1) vm = .aborted fault vm1 := by
  rw [runLoop, hfetch]
  simp [hexec]

/-- The loop of `VM::run` stops once `pc` is outside the program. -/
theorem runLoop_done (program : List Str) (fuel : Nat) (vm : VM)
    (h : program.length ≤ vm.pc) : runLoop program fuel vm = .finished vm := by
  have : program[vm.pc]? = none := List.getElem?_eq_none h
  cases fuel <;> simp [runLoop, this]

/-- C3 fails at `INT_MIN / -1`: both operands are 32-bit values and the divisor is
not 0, but the quotient 2147483648 is not a 32-bit value, so no stack can hold it;
the state is the one reached by PUSH -2147483648, PUSH -1. -/
theorem div_int_min_counterexample :
    isInt32 (-2147483648) ∧ isInt32 (-1) ∧ (-1 : Int) ≠ 0 ∧
    ¬ isInt32 (Int.tdiv (-2147483648) (-1)) ∧
    stateAfter ["PUSH -2147483648".toList, "PUSH -1".toList, "DIV".toList] 2 (VM.new [])
      = some { VM.new [] with stack := [-2147483648, -1], pc := 2 } ∧
    (execute "DIV".toList ["PUSH -2147483648".toList, "PUSH -1".toList, "DIV".toList]
        { VM.new [] with stack := [-2147483648, -1], pc := 2 }).toOption.map VM.stack
      ≠ some [Int.tdiv (-2147483648) (-1)] := by
  decide

/-- C3, amended. On a stack ending with 32-bit values `a` then `b`, `b ≠ 0`, other
than `a = -2147483648, b = -1`, DIV replaces the two values by the quotient rounded
toward zero (its magnitude is `|a| / |b|` rounded down; 7/2 is 3 and -7/2 is -3), and
the program PUSH 7, PUSH 2, DIV, PRINT prints 3. -/
theorem div_truncates (vm : VM) (program : List Str) (rest : List Int) (a b : Int)
    (ha : isInt32 a) (hb : isInt32 b) (hb0 : b ≠ 0)
    (hov : ¬ (a = -2147483648 ∧ b = -1)) (h : vm.stack = rest ++ [a, b]) :
    execute "DIV".toList program vm
        = .ok { vm with stack := rest ++ [a.tdiv b], pc := vm.pc + 1 } ∧
    (a.tdiv b).natAbs = a.natAbs / b.natAbs ∧
    Int.tdiv 7 2 = 3 ∧ Int.tdiv (-7) 2 = -3 ∧
    run 4 divProgram vm
        = .finished { stack := [3], vars := [], pc := 4, labels := [], callstack := [],
                      out := vm.out ++ ["3".toList], env := vm.env } := by
  refine ⟨?_, Int.natAbs_tdiv a b, by decide, by decide, rfl⟩
  have _ : isInt32 (a.tdiv b) := isInt32_tdiv ha hb hb0 hov
  have := execDIV_concat2 vm rest a b h hov
  simp only [hb0, if_false] at this
  exact this

/-- C3, instance: -7 / 2 on top of the stack `[1]`. -/
theorem div_truncates_witness :
    let vm : VM := { VM.new [] with stack := [1, -7, 2] }
    (isInt32 (-7) ∧ isInt32 2 ∧ (2 : Int) ≠ 0 ∧ ¬ ((-7 : Int) = -2147483648 ∧ (2 : Int) = -1)) ∧
    execute "DIV".toList [] vm = .ok { vm with stack := [1, -3], pc := 1 } :=
  ⟨by decide,
   (div_truncates { VM.new [] with stack := [1, -7, 2] } [] [1] (-7) 2 (by decide) (by decide)
      (by decide) (by decide) rfl).1⟩

/-- C4. On a stack ending with `a` then 0, DIV replaces the two values by 0 and
advances `pc` by one; the step returns normally, so `VM::run` goes on with the next
instruction. -/
theorem div_by_zero (vm : VM) (program : List Str) (rest : List Int) (a : Int)
    (h : vm.stack = rest ++ [a, 0]) :
    execute "DIV".toList program vm
        = .ok { vm with stack := rest ++ [0], pc := vm.pc + 1 } ∧
    ∀ fuel, program[vm.pc]? = some "DIV".toList →
      runLoop program (fuel + 1) vm
        = runLoop program fuel { vm with stack := rest ++ [0], pc := vm.pc + 1 } := by
  have hx : execute "DIV".toList program vm
      = .ok { vm with stack := rest ++ [0], pc := vm.pc + 1 } := by
    have := execDIV_concat2 vm rest a 0 h (by simp)
    simpa using this
  exact ⟨hx, fun fuel hf => runLoop_step program fuel vm _ _ hf hx⟩

/-- C4, instance: 5 / 0 followed by PRINT prints 0. -/
theorem div_by_zero_witness :
    let vm : VM := { VM.new [] with stack := [5, 0] }
    vm.stack = [] ++ [5, 0] ∧
    execute "DIV".toList ["DIV".toList, "PRINT".toList] vm
        = .ok { vm with stack := [0], pc := 1 } ∧
    runLoop ["DIV".toList, "PRINT".toList] 2 vm
        = .finished { vm with stack := [0], pc := 2, out := ["0".toList] } :=
  ⟨rfl, (div_by_zero { VM.new [] with stack := [5, 0] } ["DIV".toList, "PRINT".toList] [] 5 rfl).1,
   by decide⟩

/-! ## Decoding of instruction lines -/

theorem splitLoop_word (w : Str) (hw : ∀ c ∈ w, isspace c = false ∧ c ≠ '"')
    (rest : Str) (parts : List Str) (cur : Str) :
    splitLoop (w ++ rest) parts cur false = splitLoop rest parts (cur ++ w) false := by
  induction w generalizing cur with
  | nil => simp
  | cons c w ih =>
    have hc := hw c (List.mem_cons_self c w)
    have hw1 : ∀ d ∈ w, isspace d = false ∧ d ≠ '"' :=
      fun d hd => hw d (List.mem_cons_of_mem c hd)
    rw [List.cons_append, splitLoop]
    simp only [hc.1, hc.2, if_false, Bool.false_and, Bool.false_eq_true]
    rw [ih hw1]
    simp

theorem isEmpty_of_isWord {w : Str} (h : isWord w) : w.isEmpty = false := by
  cases w with
  | nil => exact absurd rfl h.1
  | cons c r => rfl

theorem split_instr1 (opcode x : Str) (hop : isWord opcode) (hx : isWord x) :
    split (instr1 opcode x) = [opcode, x] := by
  unfold split instr1
  rw [splitLoop_word opcode hop.2]
  have h3 := splitLoop_word x hx.2 [] [opcode] []
  simp only [List.append_nil, List.nil_append] at h3
  rw [splitLoop]
  simp only [isspace, isEmpty_of_isWord hop, List.nil_append]
  simp only [decide_True, Bool.true_or, Bool.not_false, Bool.and_self, if_true,
    Bool.not_true]
  simp [h3, splitLoop, isEmpty_of_isWord hx]

theorem getLast?_instr1 (opcode x : Str) (hx : x ≠ []) :
    (instr1 opcode x).getLast? = x.getLast? := by
  unfold instr1
  cases x with
  | nil => exact absurd rfl hx
  | cons c r =>
    rw [List.getLast?_append, List.getLast?_cons_cons]
    cases h : (c :: r).getLast? with
    | none => simp at h
    | some v => rfl

theorem isLabelLine_instr1 (opcode x : Str) (hx : isOperand x) :
    isLabelLine (instr1 opcode x) = false := by
  unfold isLabelLine
  rw [getLast?_instr1 opcode x hx.1.1]
  simpa using hx.2

theorem isEmpty_instr1 (opcode x : Str) : (instr1 opcode x).isEmpty = false := by
  unfold instr1
  cases opcode <;> rfl

/-- The STORE branch on a non-empty stack. -/
theorem execute_STORE (x : Str) (hx : isOperand x) (program : List Str) (vm : VM)
    (rest : List Int) (t : Int) (h : vm.stack = rest ++ [t]) :
    execute (instr1 "STORE".toList x) program vm
      = .ok { vm with stack := rest, vars := mapSet vm.vars x t, pc := vm.pc + 1 } := by
  unfold execute
  rw [isEmpty_instr1, isLabelLine_instr1 _ _ hx, split_instr1 _ _ (by decide) hx.1]
  simp [execSTORE, pop_concat vm rest t h, incPc]

/-- The LOAD branch. -/
theorem execute_LOAD (x : Str) (hx : isOperand x) (program : List Str) (vm : VM) :
    execute (instr1 "LOAD".toList x) program vm
      = .ok { vm with stack := vm.stack ++ [(mapFind vm.vars x).getD 0], pc := vm.pc + 1 } := by
  unfold execute
  rw [isEmpty_instr1, isLabelLine_instr1 _ _ hx, split_instr1 _ _ (by decide) hx.1]
  cases h : mapFind vm.vars x <;> simp [execLOAD, h, incPc, push]

/-! ## C5: variables -/

theorem mapFind_mapSet_same {α : Type} (m : List (Str × α)) (x : Str) (v : α) :
    mapFind (mapSet m x v) x = some v := by
  induction m with
  | nil => simp [mapSet, mapFind]
  | cons p m ih =>
    obtain ⟨k, w⟩ := p
    by_cases hk : k = x
    · simp [mapSet, mapFind, hk]
    · simp [mapSet, mapFind, hk, ih]

theorem mapFind_mapSet_other {α : Type} (m : List (Str × α)) (x y : Str) (v : α)
    (hxy : x ≠ y) : mapFind (mapSet m x v) y = mapFind m y := by
  induction m with
  | nil => simp [mapSet, mapFind, hxy]
  | cons p m ih =>
    obtain ⟨k, w⟩ := p
    by_cases hk : k = x
    · subst hk; simp [mapSet, mapFind, hxy]
    · by_cases hy : k = y
      · subst hy; simp [mapSet, mapFind, hk]
      · simp [mapSet, mapFind, hk, hy, ih]

theorem mapFind_storeAll (sts : List (Str × Int)) (m : List (Str × Int)) (y : Str) :
    mapFind (storeAll m sts) y = lastStoreFrom y (mapFind m y) sts := by
  induction sts generalizing m with
  | nil => rfl
  | cons p sts ih =>
    obtain ⟨x, v⟩ := p
    unfold storeAll lastStoreFrom
    simp only [List.foldl_cons]
    have := ih (mapSet m x v)
    unfold storeAll lastStoreFrom at this
    rw [this]
    by_cases hxy : x = y
    · subst hxy; simp [mapFind_mapSet_same]
    · simp [hxy, mapFind_mapSet_other m x y v hxy]

theorem lastStoreFrom_some (sts : List (Str × Int)) (y : Str) (init : Option Int) (v : Int)
    (h : lastStoreFrom y none sts = some v) : lastStoreFrom y init sts = some v := by
  induction sts using List.reverseRecOn with
  | nil => simp [lastStoreFrom] at h
  | append_singleton sts p ih =>
    unfold lastStoreFrom at h ih ⊢
    rw [List.foldl_append] at h ⊢
    simp only [List.foldl_cons, List.foldl_nil] at h ⊢
    by_cases hp : p.1 = y
    · simpa [hp] using h
    · simp only [hp, if_false] at h ⊢
      exact ih h

theorem getElem?_pre_cons (pre post : List Str) (x : Str) (n : Nat) (h : n = pre.length) :
    (pre ++ x :: post)[n]? = some x := by
  subst h
  rw [List.getElem?_append_right (Nat.le_refl _)]
  simp

/-- Consecutive STORE lines pop their values from the top of the stack one after
the other and perform the assignments in order. -/
theorem runLoop_storeLines (sts : List (Str × Int)) (hsts : ∀ p ∈ sts, isOperand p.1)
    (program pre post : List Str) (hprog : program = pre ++ storeLines sts ++ post)
    (vm : VM) (rest : List Int) (fuel : Nat) (hpc : vm.pc = pre.length)
    (hstack : vm.stack = rest ++ (sts.map Prod.snd).reverse) :
    runLoop program (fuel + sts.length) vm
      = runLoop program fuel
          { vm with stack := rest, vars := storeAll vm.vars sts, pc := vm.pc + sts.length } := by
  induction sts generalizing vm pre with
  | nil =>
    simp only [List.map_nil, List.reverse_nil, List.append_nil] at hstack
    simp only [List.length_nil, Nat.add_zero, storeAll, List.foldl_nil]
    rw [← hstack]
  | cons p sts ih =>
    obtain ⟨x, v⟩ := p
    have hx : isOperand x := hsts (x, v) (List.mem_cons_self _ _)
    have hs1 : vm.stack = (rest ++ (sts.map Prod.snd).reverse) ++ [v] := by
      simp [hstack]
    have hfetch : program[vm.pc]? = some (instr1 "STORE".toList x) := by
      rw [hprog]
      simp only [storeLines, List.map_cons, List.append_assoc, List.cons_append]
      exact getElem?_pre_cons _ _ _ _ hpc
    have hstep := runLoop_step program (fuel + sts.length) vm _ _ hfetch
      (execute_STORE x hx program vm _ v hs1)
    have hlen : fuel + (((x, v) :: sts).length) = fuel + sts.length + 1 := by simp; omega
    rw [hlen, hstep]
    have := ih (fun p hp => hsts p (List.mem_cons_of_mem _ hp)) (pre ++ [instr1 "STORE".toList x])
      (by rw [hprog]; simp [storeLines])
      { vm with stack := rest ++ (sts.map Prod.snd).reverse, vars := mapSet vm.vars x v,
                pc := vm.pc + 1 }
      (by simp [hpc]) rfl
    rw [this]
    simp only [storeAll, List.foldl_cons, List.length_cons]
    congr 2
    omega

/-- C5. STORE `x` then LOAD `x` pushes back the value `t` that was on top; STORE `x`
leaves the value of every other name unchanged; and after any sequence of STOREs
(each taking its value from the stack), LOAD `y` pushes the value of the last
STORE `y`. -/
theorem store_load_roundtrip (x : Str) (hx : isOperand x) (program : List Str) (vm : VM)
    (rest : List Int) (t : Int) (h : vm.stack = rest ++ [t]) :
    (∃ vm1, execute (instr1 "STORE".toList x) program vm = .ok vm1 ∧
       execute (instr1 "LOAD".toList x) program vm1
         = .ok { vm1 with stack := rest ++ [t], pc := vm1.pc + 1 } ∧
       vm1.stack = rest ∧
       (∀ y, y ≠ x → mapFind vm1.vars y = mapFind vm.vars y)) ∧
    (∀ (sts : List (Str × Int)) (y : Str) (v : Int) (pre post : List Str) (st : VM)
       (base : List Int) (fuel : Nat),
       (∀ p ∈ sts, isOperand p.1) → isOperand y → lastStore y sts = some v →
       st.pc = pre.length → st.stack = base ++ (sts.map Prod.snd).reverse →
       runLoop (pre ++ storeLines sts ++ instr1 "LOAD".toList y :: post)
           (fuel + sts.length + 1) st
         = runLoop (pre ++ storeLines sts ++ instr1 "LOAD".toList y :: post) fuel
             { st with stack := base ++ [v], vars := storeAll st.vars sts,
                       pc := st.pc + sts.length + 1 }) := by
  refine ⟨⟨_, execute_STORE x hx program vm rest t h, ?_, rfl, ?_⟩, ?_⟩
  · rw [execute_LOAD x hx]
    simp [mapFind_mapSet_same]
  · intro y hy
    exact mapFind_mapSet_other vm.vars x y t (Ne.symm hy)
  · intro sts y v pre post st base fuel hsts hy hlast hpc hstack
    have h1 := runLoop_storeLines sts hsts _ pre (instr1 "LOAD".toList y :: post) rfl st base
      (fuel + 1) hpc hstack
    have e1 : fuel + sts.length + 1 = fuel + 1 + sts.length := by omega
    rw [e1, h1]
    have hfetch : (pre ++ storeLines sts ++ instr1 "LOAD".toList y :: post)[
        ({ st with stack := base, vars := storeAll st.vars sts,
                   pc := st.pc + sts.length } : VM).pc]? = some (instr1 "LOAD".toList y) := by
      apply getElem?_pre_cons
      simp [hpc, storeLines]
    rw [runLoop_step _ fuel _ _ _ hfetch (execute_LOAD y hy _ _)]
    have hv : mapFind (storeAll st.vars sts) y = some v := by
      rw [mapFind_storeAll]
      exact lastStoreFrom_some sts y _ v hlast
    simp [hv]

/-- C5, instance: the name `x`, the stack `[4, 10]`; and Test 2 of the basic VM
test prints 30. -/
theorem store_load_roundtrip_witness :
    let vm : VM := { VM.new [] with stack := [4, 10] }
    (isOperand "x".toList ∧ vm.stack = [4] ++ [10]) ∧
    (∃ vm1, execute (instr1 "STORE".toList "x".toList) [] vm = .ok vm1 ∧
       execute (instr1 "LOAD".toList "x".toList) [] vm1
         = .ok { vm1 with stack := [4] ++ [10], pc := vm1.pc + 1 } ∧
       vm1.stack = [4] ∧
       (∀ y, y ≠ "x".toList → mapFind vm1.vars y = mapFind vm.vars y)) ∧
    (run 8 program2 (VM.new [])).casesOn (fun st => st.out) (fun _ st => st.out) (fun st => st.out)
      = ["30".toList] :=
  ⟨⟨by decide, rfl⟩,
   (store_load_roundtrip "x".toList (by decide) [] { VM.new [] with stack := [4, 10] } [4] 10
      rfl).1,
   by decide⟩

/-! ## C7: RET -/

theorem take_dropLast (s : List Int) (n : Nat) (h : n ≤ s.length - 1) :
    s.dropLast.take n = s.take n := by
  rw [List.dropLast_eq_take, List.take_take, Nat.min_eq_left h]

/-- C7 fails when the frame base is not below the stack size: with the stack `[7]`
and a frame of base 1 (the state that `bareRetProgram` reaches at its RET), RET
leaves `[0, 7]`, not the first element `[7]` followed by the return value 7. -/
theorem ret_base_counterexample :
    execute "RET".toList bareRetProgram
        { VM.new [] with stack := [7], pc := 5, callstack := [⟨2, 1, 0⟩] }
      = .ok { VM.new [] with stack := [0, 7], pc := 2, callstack := [] } ∧
    ([0, 7] : List Int) ≠ List.take 1 [7] ++ [([7] : List Int).getLast?.getD 0] ∧
    runLoop bareRetProgram 3 (runInit bareRetProgram (VM.new []))
      = runLoop bareRetProgram 0
          { runInit bareRetProgram (VM.new []) with
              stack := [7], pc := 5, callstack := [⟨2, 1, 0⟩] } :=
  ⟨rfl, by decide, by decide⟩

/-- C7, amended. With a non-empty call stack whose innermost frame has base `B` and
return address `R`, where `0 ≤ B` and `B` is below the size of the stack (or `B = 0`
for an empty stack), RET removes that frame, sets `pc` to `R` and leaves the first
`B` elements of the stack followed by the return value: the top of the stack before
RET, or 0 if the stack was empty. -/
theorem ret_spec (vm : VM) (program : List Str) (frames : List Frame) (frame : Frame)
    (hcs : vm.callstack = frames ++ [frame]) (hB0 : 0 ≤ frame.prev_stack_size)
    (hB : frame.prev_stack_size.toNat ≤ vm.stack.length - 1) :
    execute "RET".toList program vm
      = .ok { vm with
                stack := vm.stack.take frame.prev_stack_size.toNat ++ [vm.stack.getLast?.getD 0],
                callstack := frames,
                pc := frame.return_pc } := by
  have hx : execute "RET".toList program vm = execRET program vm := rfl
  rw [hx]
  unfold execRET
  simp [hcs, resize, take_dropLast _ _ hB, not_lt.mpr hB0, Nat.sub_eq_zero_of_le hB]

/-- C7, instance: return from the `add` function of Test 4 (frame base 0, return
address 3, stack `[7, 8, 15]`). -/
theorem ret_spec_witness :
    let vm : VM := { VM.new [] with stack := [7, 8, 15], pc := 9, callstack := [⟨3, 0, 2⟩] }
    (vm.callstack = [] ++ [⟨3, 0, 2⟩] ∧ (0 : Int) ≤ (⟨3, 0, 2⟩ : Frame).prev_stack_size ∧
      (⟨3, 0, 2⟩ : Frame).prev_stack_size.toNat ≤ vm.stack.length - 1) ∧
    execute "RET".toList [] vm = .ok { vm with stack := [15], callstack := [], pc := 3 } :=
  ⟨by decide,
   ret_spec { VM.new [] with stack := [7, 8, 15], pc := 9, callstack := [⟨3, 0, 2⟩] } [] []
     ⟨3, 0, 2⟩ rfl (by decide) (by decide)⟩

/-! ## C8: stack underflow -/

theorem binop_underflow (f : Int → Int → Int) (vm : VM) (h : vm.stack.length < 2) :
    binop f vm = .error (Fault.stack_underflow, { vm with stack := [] }) := by
  obtain ⟨stack, vars, pc, labels, callstack, out, env⟩ := vm
  match stack, h with
  | [], _ => rfl
  | [a], _ => rfl
  | _ :: _ :: _, h => exact absurd h (by simp)

theorem execDIV_underflow (vm : VM) (h : vm.stack.length < 2) :
    execDIV vm = .error (Fault.stack_underflow, { vm with stack := [] }) := by
  obtain ⟨stack, vars, pc, labels, callstack, out, env⟩ := vm
  match stack, h with
  | [], _ => rfl
  | [a], _ => rfl
  | _ :: _ :: _, h => exact absurd h (by simp)

theorem ne_nil_of_split {instruction opcode : Str} {args : List Str}
    (hsplit : split instruction = opcode :: args) : instruction.isEmpty = false := by
  cases instruction with
  | nil => simp [split, splitLoop] at hsplit
  | cons c r => rfl

/-- C8. An instruction line with opcode ADD, SUB, MUL, DIV, EQ, GT, LT or NE on a
stack of fewer than two values, and one with opcode STORE, JZ or JNZ (and its
operand) on an empty stack, throws `Stack underflow`; `VM::run` ends at that
instruction without executing another one; at the throw the variable store is
what it was before (in particular for STORE on an empty stack). -/
theorem stack_underflow_fatal (instruction : Str) (program : List Str) (vm : VM)
    (opcode : Str) (args : List Str)
    (hlabel : isLabelLine instruction = false) (hsplit : split instruction = opcode :: args)
    (hneed :
      (opcode ∈ ["ADD".toList, "SUB".toList, "MUL".toList, "DIV".toList, "EQ".toList,
                 "GT".toList, "LT".toList, "NE".toList] ∧ vm.stack.length < 2) ∨
      (opcode ∈ ["STORE".toList, "JZ".toList, "JNZ".toList] ∧ args ≠ [] ∧ vm.stack = [])) :
    execute instruction program vm = .error (Fault.stack_underflow, { vm with stack := [] }) ∧
    ({ vm with stack := [] } : VM).vars = vm.vars ∧
    ∀ fuel, program[vm.pc]? = some instruction →
      runLoop program (fuel + 1) vm = .aborted Fault.stack_underflow { vm with stack := [] } := by
  have hx : execute instruction program vm
      = .error (Fault.stack_underflow, { vm with stack := [] }) := by
    unfold execute
    rw [ne_nil_of_split hsplit, hlabel, hsplit]
    rcases hneed with ⟨hop, hlen⟩ | ⟨hop, hargs, hnil⟩
    · simp only [List.mem_cons, List.mem_singleton, List.not_mem_nil, or_false] at hop
      rcases hop with rfl | rfl | rfl | rfl | rfl | rfl | rfl | rfl <;>
        simp [binop_underflow _ vm hlen, execDIV_underflow vm hlen]
    · obtain ⟨a, as, rfl⟩ : ∃ a as, args = a :: as := by
        cases args with
        | nil => exact absurd rfl hargs
        | cons a as => exact ⟨a, as, rfl⟩
      have hvm : ({ vm with stack := [] } : VM) = vm := by
        obtain ⟨stack, vars, pc, labels, callstack, out, env⟩ := vm
        simp at hnil
        simp [hnil]
      simp only [List.mem_cons, List.mem_singleton, List.not_mem_nil, or_false] at hop
      rcases hop with rfl | rfl | rfl <;>
        simp [execSTORE, execJZ, execJNZ, pop_nil vm hnil, hvm]
  exact ⟨hx, rfl, fun fuel hf => runLoop_fault program fuel vm _ _ _ hf hx⟩

/-- C8, instance: ADD on the one-element stack `[5]`, and `STORE x` on the empty
stack, each as the first line of a two-line program. -/
theorem stack_underflow_fatal_witness :
    (runLoop ["ADD".toList, "PRINT".toList] 2 { VM.new [] with stack := [5] }
       = .aborted Fault.stack_underflow (VM.new [])) ∧
    (runLoop ["STORE x".toList, "PRINT".toList] 2 (VM.new [])
       = .aborted Fault.stack_underflow (VM.new [])) :=
  ⟨(stack_underflow_fatal "ADD".toList ["ADD".toList, "PRINT".toList]
      { VM.new [] with stack := [5] } "ADD".toList [] (by decide) (by decide)
      (Or.inl ⟨by decide, by decide⟩)).2.2 1 (by decide),
   (stack_underflow_fatal "STORE x".toList ["STORE x".toList, "PRINT".toList]
      (VM.new []) "STORE".toList ["x".toList] (by decide) (by decide)
      (Or.inr ⟨by decide, by decide, by decide⟩)).2.2 1 (by decide)⟩

/-! ## Decimal numerals: `std::to_string` and `std::stoi` -/

theorem isDigit_props {c : Char} (h : isDigit c = true) :
    isspace c = false ∧ c ≠ '"' ∧ c ≠ ':' ∧ c ≠ '-' ∧ c ≠ '+' := by
  unfold isDigit at h
  unfold isspace
  simp only [Bool.and_eq_true, decide_eq_true_eq] at h
  refine ⟨?_, ?_, ?_, ?_, ?_⟩
  · simp only [Bool.or_eq_false_iff, decide_eq_false_iff_not]
    refine ⟨⟨⟨⟨⟨?_, ?_⟩, ?_⟩, ?_⟩, ?_⟩, ?_⟩ <;>
      (rintro rfl; revert h; decide)
  all_goals (rintro rfl; revert h; decide)

theorem digitChar_props {d : Nat} (h : d < 10) :
    isDigit (digitChar d) = true ∧ digitVal (digitChar d) = d := by
  interval_cases d <;> decide

theorem natDigits_ne_nil (fuel n : Nat) : natDigits (fuel + 1) n ≠ [] := by
  unfold natDigits
  split <;> simp

theorem natDigits_digits (fuel n : Nat) : ∀ c ∈ natDigits fuel n, isDigit c = true := by
  induction fuel generalizing n with
  | zero => simp [natDigits]
  | succ fuel ih =>
    unfold natDigits
    split
    · rename_i h
      intro c hc
      simp only [List.mem_singleton] at hc
      rw [hc]
      exact (digitChar_props h).1
    · intro c hc
      simp only [List.mem_append, List.mem_singleton] at hc
      rcases hc with hc | hc
      · exact ih _ c hc
      · rw [hc]
        exact (digitChar_props (Nat.mod_lt n (by decide))).1

theorem decVal_concat (ds : List Char) (c : Char) :
    decVal (ds ++ [c]) = 10 * decVal ds + digitVal c := by
  simp [decVal, List.foldl_append]

theorem decVal_natDigits (fuel n : Nat) (h : n < fuel) : decVal (natDigits fuel n) = n := by
  induction fuel generalizing n with
  | zero => omega
  | succ fuel ih =>
    unfold natDigits
    split
    · rename_i h10
      simp [decVal, (digitChar_props h10).2]
    · rename_i h10
      rw [decVal_concat, ih (n / 10) (by omega), (digitChar_props (Nat.mod_lt n (by decide))).2]
      omega

theorem stoiSign_of_digit (c : Char) (r : Str) (h : isDigit c = true) :
    stoiSign (c :: r) = (false, c :: r) := by
  have hp := isDigit_props h
  unfold stoiSign
  split
  · rename_i heq
    exact absurd (List.cons.inj heq).1 hp.2.2.2.1
  · rename_i heq
    exact absurd (List.cons.inj heq).1 hp.2.2.2.2
  · rfl

theorem takeWhile_digits (ds : List Char) (hall : ∀ c ∈ ds, isDigit c = true) :
    ds.takeWhile isDigit = ds := by
  induction ds with
  | nil => rfl
  | cons c r ih =>
    rw [List.takeWhile_cons, hall c (List.mem_cons_self c r)]
    simp [ih (fun d hd => hall d (List.mem_cons_of_mem c hd))]

/-- The function `std::stoi` on a non-empty run of digits. -/
theorem stoi_digits (ds : List Char) (hne : ds ≠ []) (hall : ∀ c ∈ ds, isDigit c = true)
    (hr : (decVal ds : Int) ≤ 2147483647) : stoi ds = .value (decVal ds) := by
  obtain ⟨c, r, rfl⟩ : ∃ c r, ds = c :: r := by
    cases ds with
    | nil => exact absurd rfl hne
    | cons c r => exact ⟨c, r, rfl⟩
  have hc := hall c (List.mem_cons_self c r)
  have hsp := (isDigit_props hc).1
  have hdrop : (c :: r).dropWhile isspace = c :: r := by
    rw [List.dropWhile_cons, hsp]; rfl
  unfold stoi
  simp only [hdrop, stoiSign_of_digit c r hc, takeWhile_digits _ hall]
  have h0 : (0 : Int) ≤ (decVal (c :: r) : Nat) := Int.ofNat_nonneg _
  simp only [List.isEmpty_cons, Bool.false_eq_true, if_false]
  rw [if_neg (by omega)]

/-- The function `std::stoi` on a minus sign followed by a non-empty run of digits. -/
theorem stoi_neg_digits (ds : List Char) (hne : ds ≠ []) (hall : ∀ c ∈ ds, isDigit c = true)
    (hr : (decVal ds : Int) ≤ 2147483648) : stoi ('-' :: ds) = .value (-(decVal ds : Int)) := by
  have hdrop : ('-' :: ds).dropWhile isspace = '-' :: ds := by
    rw [List.dropWhile_cons]; rfl
  have hemp : ds.isEmpty = false := by
    cases ds with
    | nil => exact absurd rfl hne
    | cons c r => rfl
  unfold stoi
  simp only [hdrop, stoiSign, takeWhile_digits _ hall, hemp, Bool.false_eq_true, if_false,
    if_true]
  have h0 : (0 : Int) ≤ (decVal ds : Nat) := Int.ofNat_nonneg _
  rw [if_neg (by omega)]

theorem stoi_to_string (i : Int) (h : isInt32 i) : stoi (to_string i) = .value i := by
  unfold isInt32 at h
  unfold to_string
  have hv := decVal_natDigits (i.natAbs + 1) i.natAbs (by omega)
  by_cases hneg : i < 0
  · rw [if_pos hneg, stoi_neg_digits _ (natDigits_ne_nil _ _) (natDigits_digits _ _)
      (by rw [hv]; omega), hv]
    congr 1; omega
  · rw [if_neg hneg, stoi_digits _ (natDigits_ne_nil _ _) (natDigits_digits _ _)
      (by rw [hv]; omega), hv]
    congr 1; omega

/-- A non-empty run of digits, with or without a minus sign in front, is an operand
word. -/
theorem isOperand_digits (ds : List Char) (hne : ds ≠ []) (hall : ∀ c ∈ ds, isDigit c = true) :
    isOperand ds ∧ isOperand ('-' :: ds) := by
  have hlast : ∀ v, ds.getLast? = some v → v ≠ ':' := by
    intro v hv
    have hmem : v ∈ ds := List.mem_of_getLast?_eq_some hv
    exact (isDigit_props (hall v hmem)).2.2.1
  have hw : ∀ c ∈ ds, isspace c = false ∧ c ≠ '"' :=
    fun c hc => ⟨(isDigit_props (hall c hc)).1, (isDigit_props (hall c hc)).2.1⟩
  refine ⟨⟨⟨hne, hw⟩, ?_⟩, ⟨⟨by simp, ?_⟩, ?_⟩⟩
  · intro h; exact hlast _ h rfl
  · intro c hc
    simp only [List.mem_cons] at hc
    rcases hc with rfl | hc
    · decide
    · exact hw c hc
  · obtain ⟨c, r, rfl⟩ : ∃ c r, ds = c :: r := by
      cases ds with
      | nil => exact absurd rfl hne
      | cons c r => exact ⟨c, r, rfl⟩
    rw [List.getLast?_cons_cons]
    intro h; exact hlast _ h rfl

theorem isOperand_to_string (i : Int) : isOperand (to_string i) := by
  unfold to_string
  have := isOperand_digits _ (natDigits_ne_nil i.natAbs i.natAbs) (natDigits_digits _ _)
  split
  · exact this.2
  · exact this.1

/-- The PUSH branch for a numeric operand. -/
theorem execute_PUSH (t : Str) (v : Int) (ht : isOperand t) (hv : stoi t = .value v)
    (program : List Str) (vm : VM) :
    execute (instr1 "PUSH".toList t) program vm
      = .ok { vm with stack := vm.stack ++ [v], pc := vm.pc + 1 } := by
  unfold execute
  rw [isEmpty_instr1, isLabelLine_instr1 _ _ ht, split_instr1 _ _ (by decide) ht.1]
  simp [execPUSH, hv, incPc, push]

/-! ## Traces -/

theorem stateAfter_succ (program : List Str) (n : Nat) (vm vm1 : VM) (instruction : Str)
    (hfetch : program[vm.pc]? = some instruction)
    (hexec : execute instruction program vm = .ok vm1) :
    stateAfter program (n + 1) vm = stateAfter program n vm1 := by
  rw [stateAfter, hfetch]
  simp [hexec]

/-- A run that reaches a state after `n` instructions continues from that state. -/
theorem runLoop_of_stateAfter (program : List Str) (n : Nat) (vm vm1 : VM) (fuel : Nat)
    (h : stateAfter program n vm = some vm1) :
    runLoop program (fuel + n) vm = runLoop program fuel vm1 := by
  induction n generalizing vm with
  | zero =>
    simp only [stateAfter, Option.some.injEq] at h
    rw [h]; rfl
  | succ n ih =>
    rw [stateAfter] at h
    cases hf : program[vm.pc]? with
    | none => simp [hf] at h
    | some instruction =>
      rw [hf] at h
      cases hx : execute instruction program vm with
      | error e => simp [hx] at h
      | ok vm2 =>
        simp only [hx] at h
        rw [← Nat.add_assoc, runLoop_step program (fuel + n) vm vm2 instruction hf hx]
        exact ih vm2 h

theorem stateAfter_add (program : List Str) (m n : Nat) (vm vm1 : VM)
    (h : stateAfter program m vm = some vm1) :
    stateAfter program (m + n) vm = stateAfter program n vm1 := by
  induction m generalizing vm with
  | zero =>
    simp only [stateAfter, Option.some.injEq] at h
    rw [h, Nat.zero_add]
  | succ m ih =>
    rw [stateAfter] at h
    cases hf : program[vm.pc]? with
    | none => simp [hf] at h
    | some instruction =>
      rw [hf] at h
      cases hx : execute instruction program vm with
      | error e => simp [hx] at h
      | ok vm2 =>
        simp only [hx] at h
        rw [show m + 1 + n = (m + n) + 1 by omega,
          stateAfter_succ program (m + n) vm vm2 instruction hf hx]
        exact ih vm2 h

theorem stateAfter_step (program : List Str) (n : Nat) (vm vm1 : VM) (instruction : Str)
    (r : Option VM) (hfetch : program[vm.pc]? = some instruction)
    (hexec : execute instruction program vm = .ok vm1)
    (hrest : stateAfter program n vm1 = r) :
    stateAfter program (n + 1) vm = r := by
  rw [stateAfter_succ program n vm vm1 instruction hfetch hexec, hrest]

/-- A run that reaches, after `n` instructions, a state whose `pc` is outside the
program ends in that state, whatever budget is left. -/
theorem run_finished (program : List Str) (n k : Nat) (vm vm1 : VM)
    (h : stateAfter program n (runInit program vm) = some vm1)
    (hpc : program.length ≤ vm1.pc) :
    run (n + k) program vm = .finished vm1 := by
  unfold run
  rw [Nat.add_comm, runLoop_of_stateAfter program n _ vm1 k h]
  exact runLoop_done program k vm1 hpc

/-! ## C6: the function call of Test 4 -/

/-- The label table of `program4`. -/
theorem runInit_program4 (x y : Int) (vm : VM) :
    runInit (program4 x y) vm
      = VM.mk [] [] 0 [("HALT".toList, 4), ("add".toList, 5)] [] vm.out vm.env := by
  simp only [runInit, preprocess, program4, preprocessLoop,
    isLabelLine_instr1 _ _ (isOperand_to_string _)]
  rfl

/-- CALL of a user function with as many arguments as the stack holds. -/
theorem execCALLwith_user (label : Str) (vm : VM) (argc : Nat) (target : Nat)
    (hb : isBuiltin label = false) (hl : mapFind vm.labels label = some target)
    (hlen : vm.stack.length = argc) :
    execCALLwith label argc vm
      = .ok { vm with callstack := vm.callstack ++ [⟨vm.pc + 1, 0, argc⟩], pc := target } := by
  have hw : wrap32 0 = 0 := by decide
  simp [execCALLwith, hb, jumpTo, hl, hlen, hw]

set_option maxRecDepth 4000 in
theorem execute_CALL_add_2 (program : List Str) (vm : VM) :
    execute "CALL add 2".toList program vm = execCALLwith "add".toList (2 : Nat) vm := rfl

/-- From the start of `program4` to the PRINT after the call: 8 instructions. -/
theorem program4_call (x y : Int) (hx : isInt32 x) (hy : isInt32 y) (hxy : isInt32 (x + y))
    (vm : VM) :
    stateAfter (program4 x y) 8 (runInit (program4 x y) vm)
      = some (VM.mk [x + y] [] 3 [("HALT".toList, 4), ("add".toList, 5)] [] vm.out vm.env) := by
  have hw : wrap32 (x + y) = x + y := wrap32_of_isInt32 hxy
  rw [runInit_program4]
  refine stateAfter_step _ _ _
    (VM.mk [x] [] 1 [("HALT".toList, 4), ("add".toList, 5)] [] vm.out vm.env) _ _ rfl
    (execute_PUSH (to_string x) x (isOperand_to_string x) (stoi_to_string x hx) _ _) ?_
  refine stateAfter_step _ _ _
    (VM.mk [x, y] [] 2 [("HALT".toList, 4), ("add".toList, 5)] [] vm.out vm.env) _ _ rfl
    (execute_PUSH (to_string y) y (isOperand_to_string y) (stoi_to_string y hy) _ _) ?_
  refine stateAfter_step _ _ _
    (VM.mk [x, y] [] 5 [("HALT".toList, 4), ("add".toList, 5)] [⟨3, 0, 2⟩] vm.out vm.env)
    "CALL add 2".toList _ rfl
    ((execute_CALL_add_2 _ _).trans
      (execCALLwith_user "add".toList _ 2 5 (by decide) rfl rfl)) ?_
  refine stateAfter_step _ _ _
    (VM.mk [x, y] [] 6 [("HALT".toList, 4), ("add".toList, 5)] [⟨3, 0, 2⟩] vm.out vm.env)
    "add:".toList _ rfl rfl ?_
  refine stateAfter_step _ _ _
    (VM.mk [x, y, x] [] 7 [("HALT".toList, 4), ("add".toList, 5)] [⟨3, 0, 2⟩] vm.out vm.env)
    "LOADARG 0".toList _ rfl rfl ?_
  refine stateAfter_step _ _ _
    (VM.mk [x, y, x, y] [] 8 [("HALT".toList, 4), ("add".toList, 5)] [⟨3, 0, 2⟩] vm.out vm.env)
    "LOADARG 1".toList _ rfl rfl ?_
  refine stateAfter_step _ _ _
    (VM.mk [x, y, wrap32 (x + y)] [] 9 [("HALT".toList, 4), ("add".toList, 5)] [⟨3, 0, 2⟩]
      vm.out vm.env)
    "ADD".toList _ rfl rfl ?_
  refine stateAfter_step _ _ _
    (VM.mk [wrap32 (x + y)] [] 3 [("HALT".toList, 4), ("add".toList, 5)] [] vm.out vm.env)
    "RET".toList _ rfl rfl ?_
  rw [hw]
  rfl

/-- From the PRINT of `program4` to the end of the run: 7 instructions (the run
falls through the `HALT:` label into the body of `add`, whose RET finds no frame). -/
theorem program4_rest (x y : Int) (s : Int) (out : List Str) (env : List Int) :
    stateAfter (program4 x y) 7
        (VM.mk [s] [] 3 [("HALT".toList, 4), ("add".toList, 5)] [] out env)
      = some (VM.mk [s, 0] [] 10 [("HALT".toList, 4), ("add".toList, 5)] []
          (out ++ [to_string s]) env) := by
  refine stateAfter_step _ _ _
    (VM.mk [s] [] 4 [("HALT".toList, 4), ("add".toList, 5)] [] (out ++ [to_string s]) env)
    "PRINT".toList _ rfl rfl ?_
  refine stateAfter_step _ _ _
    (VM.mk [s] [] 5 [("HALT".toList, 4), ("add".toList, 5)] [] (out ++ [to_string s]) env)
    "HALT:".toList _ rfl rfl ?_
  refine stateAfter_step _ _ _
    (VM.mk [s] [] 6 [("HALT".toList, 4), ("add".toList, 5)] [] (out ++ [to_string s]) env)
    "add:".toList _ rfl rfl ?_
  refine stateAfter_step _ _ _
    (VM.mk [s, 0] [] 7 [("HALT".toList, 4), ("add".toList, 5)] [] (out ++ [to_string s]) env)
    "LOADARG 0".toList _ rfl rfl ?_
  refine stateAfter_step _ _ _
    (VM.mk [s, 0, 0] [] 8 [("HALT".toList, 4), ("add".toList, 5)] [] (out ++ [to_string s]) env)
    "LOADARG 1".toList _ rfl rfl ?_
  refine stateAfter_step _ _ _
    (VM.mk [s, 0] [] 9 [("HALT".toList, 4), ("add".toList, 5)] [] (out ++ [to_string s]) env)
    "ADD".toList _ rfl rfl ?_
  refine stateAfter_step _ _ _
    (VM.mk [s, 0] [] 10 [("HALT".toList, 4), ("add".toList, 5)] [] (out ++ [to_string s]) env)
    "RET".toList _ rfl rfl ?_
  rfl

/-- C6 fails for numbers that are not 32-bit integers although their sum is: with
`x = 2147483648` and `y = -1` the first PUSH throws `out_of_range` (only
`invalid_argument` is caught), the run is aborted and nothing is printed. -/
theorem program4_range_counterexample :
    isInt32 (2147483648 + -1) ∧
    run 15 (program4 2147483648 (-1)) (VM.new [])
      = .aborted Fault.out_of_range
          (VM.mk [] [] 0 [("HALT".toList, 4), ("add".toList, 5)] [] [] []) := by
  decide

/-- C6, amended. For all 32-bit integers `x` and `y` whose sum is a 32-bit integer,
the run of the program of Test 4 with PUSH `x`, PUSH `y` terminates and writes `x + y`
exactly once; when the PRINT after the call is about to execute, the operand stack
is exactly `[x + y]` and no call frame is left. -/
theorem program4_prints_sum (x y : Int) (hx : isInt32 x) (hy : isInt32 y)
    (hxy : isInt32 (x + y)) (vm : VM) :
    (∃ st, stateAfter (program4 x y) 8 (runInit (program4 x y) vm) = some st ∧
       (program4 x y)[st.pc]? = some "PRINT".toList ∧ st.stack = [x + y] ∧
       st.callstack = [] ∧ st.out = vm.out) ∧
    ∀ k, run (15 + k) (program4 x y) vm
      = .finished (VM.mk [x + y, 0] [] 10 [("HALT".toList, 4), ("add".toList, 5)] []
          (vm.out ++ [to_string (x + y)]) vm.env) := by
  have h8 := program4_call x y hx hy hxy vm
  refine ⟨⟨_, h8, rfl, rfl, rfl, rfl⟩, fun k => ?_⟩
  have h15 : stateAfter (program4 x y) (8 + 7) (runInit (program4 x y) vm)
      = some (VM.mk [x + y, 0] [] 10 [("HALT".toList, 4), ("add".toList, 5)] []
          (vm.out ++ [to_string (x + y)]) vm.env) := by
    rw [stateAfter_add _ 8 7 _ _ h8]
    exact program4_rest x y (x + y) vm.out vm.env
  exact run_finished (program4 x y) 15 k vm _ h15 (by simp [program4])

/-- C6, instance: Test 4 itself (7 and 8) prints 15. -/
theorem program4_prints_sum_witness :
    (isInt32 7 ∧ isInt32 8 ∧ isInt32 (7 + 8)) ∧
    program4 7 8 = ["PUSH 7".toList, "PUSH 8".toList, "CALL add 2".toList, "PRINT".toList,
      "HALT:".toList, "add:".toList, "LOADARG 0".toList, "LOADARG 1".toList, "ADD".toList,
      "RET".toList] ∧
    run 15 (program4 7 8) (VM.new [])
      = .finished (VM.mk [15, 0] [] 10 [("HALT".toList, 4), ("add".toList, 5)] []
          ["15".toList] []) :=
  ⟨by decide, by decide,
   (program4_prints_sum 7 8 (by decide) (by decide) (by decide) (VM.new [])).2 0⟩

/-! ## C9: the sum loop of Test 3 -/

theorem execute_GT_pos (program : List Str) (vm : VM) (rest : List Int) (a : Int)
    (h : vm.stack = rest ++ [a, 0]) (ha : a > 0) :
    execute "GT".toList program vm = .ok { vm with stack := rest ++ [1], pc := vm.pc + 1 } := by
  have := binop_concat2 (fun a b => if a > b then 1 else 0) vm rest a 0 h
  simp only [ha, if_true] at this
  exact this

theorem execute_GT_zero (program : List Str) (vm : VM) (rest : List Int)
    (h : vm.stack = rest ++ [0, 0]) :
    execute "GT".toList program vm = .ok { vm with stack := rest ++ [0], pc := vm.pc + 1 } :=
  binop_concat2 (fun a b => if a > b then 1 else 0) vm rest 0 0 h

/-- The label table of `program3`. -/
theorem runInit_program3 (n : Int) (vm : VM) :
    runInit (program3 n) vm
      = VM.mk [] [] 0 [("loop".toList, 4), ("body".toList, 10), ("end".toList, 20)] []
          vm.out vm.env := by
  have h : preprocessLoop (program3 n) 0 []
      = [("loop".toList, 4), ("body".toList, 10), ("end".toList, 20)] := by
    show preprocessLoop (instr1 "PUSH".toList (to_string n) :: (program3 0).tail) 0 [] = _
    rw [preprocessLoop, isLabelLine_instr1 _ _ (isOperand_to_string _)]
    simp only [Bool.false_eq_true, if_false]
    decide
  simp only [runInit, preprocess, h]

/-- The four instructions before the loop of `program3`. -/
theorem program3_init (n : Int) (hn : isInt32 n) (vm : VM) :
    stateAfter (program3 n) 4 (runInit (program3 n) vm) = some (sumVM [] n 0 4 vm.out vm.env) := by
  rw [runInit_program3]
  refine stateAfter_step _ _ _
    (VM.mk [n] [] 1 [("loop".toList, 4), ("body".toList, 10), ("end".toList, 20)] []
      vm.out vm.env) _ _ rfl
    (execute_PUSH (to_string n) n (isOperand_to_string n) (stoi_to_string n hn) _ _) ?_
  refine stateAfter_step _ _ _
    (VM.mk [] [("n".toList, n)] 2 [("loop".toList, 4), ("body".toList, 10), ("end".toList, 20)]
      [] vm.out vm.env) "STORE n".toList _ rfl rfl ?_
  refine stateAfter_step _ _ _
    (VM.mk [0] [("n".toList, n)] 3 [("loop".toList, 4), ("body".toList, 10), ("end".toList, 20)]
      [] vm.out vm.env) "PUSH 0".toList _ rfl rfl ?_
  refine stateAfter_step _ _ _ (sumVM [] n 0 4 vm.out vm.env) "STORE sum".toList _ rfl rfl ?_
  rfl

/-- One turn of the loop of `program3` when `n > 0`: 15 instructions. -/
theorem program3_turn (m : Int) (k s : Int) (hk : k > 0) (out : List Str) (env : List Int) :
    stateAfter (program3 m) 15 (sumVM [] k s 4 out env)
      = some (sumVM [] (wrap32 (k - 1)) (wrap32 (s + k)) 4 out env) := by
  refine stateAfter_step _ _ _ (sumVM [] k s 5 out env) "loop:".toList _ rfl rfl ?_
  refine stateAfter_step _ _ _ (sumVM [k] k s 6 out env) "LOAD n".toList _ rfl rfl ?_
  refine stateAfter_step _ _ _ (sumVM [k, 0] k s 7 out env) "PUSH 0".toList _ rfl rfl ?_
  refine stateAfter_step _ _ _ (sumVM [1] k s 8 out env) "GT".toList _ rfl
    (execute_GT_pos _ _ [] k rfl hk) ?_
  refine stateAfter_step _ _ _ (sumVM [] k s 10 out env) "JNZ body".toList _ rfl rfl ?_
  refine stateAfter_step _ _ _ (sumVM [] k s 11 out env) "body:".toList _ rfl rfl ?_
  refine stateAfter_step _ _ _ (sumVM [s] k s 12 out env) "LOAD sum".toList _ rfl rfl ?_
  refine stateAfter_step _ _ _ (sumVM [s, k] k s 13 out env) "LOAD n".toList _ rfl rfl ?_
  refine stateAfter_step _ _ _ (sumVM [wrap32 (s + k)] k s 14 out env) "ADD".toList _ rfl rfl ?_
  refine stateAfter_step _ _ _ (sumVM [] k (wrap32 (s + k)) 15 out env)
    "STORE sum".toList _ rfl rfl ?_
  refine stateAfter_step _ _ _ (sumVM [k] k (wrap32 (s + k)) 16 out env)
    "LOAD n".toList _ rfl rfl ?_
  refine stateAfter_step _ _ _ (sumVM [k, 1] k (wrap32 (s + k)) 17 out env)
    "PUSH 1".toList _ rfl rfl ?_
  refine stateAfter_step _ _ _ (sumVM [wrap32 (k - 1)] k (wrap32 (s + k)) 18 out env)
    "SUB".toList _ rfl rfl ?_
  refine stateAfter_step _ _ _ (sumVM [] (wrap32 (k - 1)) (wrap32 (s + k)) 19 out env)
    "STORE n".toList _ rfl rfl ?_
  refine stateAfter_step _ _ _ (sumVM [] (wrap32 (k - 1)) (wrap32 (s + k)) 4 out env)
    "JMP loop".toList _ rfl rfl ?_
  rfl

/-- Leaving the loop of `program3` when `n = 0`: 9 instructions, the last one the
PRINT of `sum`. -/
theorem program3_exit (m : Int) (s : Int) (out : List Str) (env : List Int) :
    stateAfter (program3 m) 9 (sumVM [] 0 s 4 out env)
      = some (sumVM [s] 0 s 23 (out ++ [to_string s]) env) := by
  refine stateAfter_step _ _ _ (sumVM [] 0 s 5 out env) "loop:".toList _ rfl rfl ?_
  refine stateAfter_step _ _ _ (sumVM [0] 0 s 6 out env) "LOAD n".toList _ rfl rfl ?_
  refine stateAfter_step _ _ _ (sumVM [0, 0] 0 s 7 out env) "PUSH 0".toList _ rfl rfl ?_
  refine stateAfter_step _ _ _ (sumVM [0] 0 s 8 out env) "GT".toList _ rfl
    (execute_GT_zero _ _ [] rfl) ?_
  refine stateAfter_step _ _ _ (sumVM [] 0 s 9 out env) "JNZ body".toList _ rfl rfl ?_
  refine stateAfter_step _ _ _ (sumVM [] 0 s 20 out env) "JMP end".toList _ rfl rfl ?_
  refine stateAfter_step _ _ _ (sumVM [] 0 s 21 out env) "end:".toList _ rfl rfl ?_
  refine stateAfter_step _ _ _ (sumVM [s] 0 s 22 out env) "LOAD sum".toList _ rfl rfl ?_
  refine stateAfter_step _ _ _ (sumVM [s] 0 s 23 (out ++ [to_string s]) env)
    "PRINT".toList _ rfl rfl ?_
  rfl

theorem tri_succ (k : Nat) : (k + 1) * (k + 1 + 1) / 2 = k * (k + 1) / 2 + (k + 1) := by
  have : (k + 1) * (k + 1 + 1) = k * (k + 1) + 2 * (k + 1) := by ring
  rw [this, Nat.add_mul_div_left _ _ (by norm_num : 0 < 2)]

theorem le_tri (k : Nat) : k ≤ k * (k + 1) / 2 := by
  cases k with
  | zero => simp
  | succ k => rw [tri_succ]; omega

/-- The loop of `program3` from `n = k`, `sum = s` down to `n = 0`: `15 * k`
instructions, none of which overflows when `s + k (k + 1) / 2` is a 32-bit value. -/
theorem program3_loop (m : Int) (k : Nat) (s : Int) (hs : 0 ≤ s)
    (hb : s + ((k * (k + 1) / 2 : Nat) : Int) ≤ 2147483647) (out : List Str) (env : List Int) :
    stateAfter (program3 m) (15 * k) (sumVM [] k s 4 out env)
      = some (sumVM [] 0 (s + ((k * (k + 1) / 2 : Nat) : Int)) 4 out env) := by
  induction k generalizing s with
  | zero => simp [stateAfter]
  | succ k ih =>
    have ht := tri_succ k
    have hle := le_tri k
    rw [ht] at hb ⊢
    have ih' := fun s hs hb' => ih s hs hb'
    clear ih
    generalize k * (k + 1) / 2 = t at hb hle ih' ⊢
    have hturn := program3_turn m ((k + 1 : Nat) : Int) s (by omega) out env
    have h1 : wrap32 (((k + 1 : Nat) : Int) - 1) = (k : Int) := by
      rw [wrap32_of_isInt32 (by unfold isInt32; omega)]
      omega
    have h2 : wrap32 (s + ((k + 1 : Nat) : Int)) = s + ((k : Int) + 1) := by
      rw [wrap32_of_isInt32 (by unfold isInt32; omega)]
      omega
    rw [h1, h2] at hturn
    rw [show 15 * (k + 1) = 15 + 15 * k by omega, stateAfter_add _ 15 (15 * k) _ _ hturn,
      ih' (s + ((k : Int) + 1)) (by omega) (by omega)]
    congr 2
    omega

/-- C9. For every `n ≥ 0` with `n (n + 1) / 2` a 32-bit value (then no instruction of
the run overflows), the run of the sum-loop program of Test 3 with PUSH `n` as first
instruction terminates, after `15 n + 13` instructions, and writes `n (n + 1) / 2`
exactly once. -/
theorem program3_prints_sum (n : Nat) (hn : n * (n + 1) / 2 ≤ 2147483647) (vm : VM) (k : Nat) :
    run (15 * n + 13 + k) (program3 n) vm
      = .finished (sumVM [((n * (n + 1) / 2 : Nat) : Int)] 0 ((n * (n + 1) / 2 : Nat) : Int) 23
          (vm.out ++ [to_string ((n * (n + 1) / 2 : Nat) : Int)]) vm.env) := by
  have hle := le_tri n
  have hinit := program3_init n (by unfold isInt32; omega) vm
  have hloop := program3_loop n n 0 (le_refl 0) (by omega) vm.out vm.env
  rw [Int.zero_add] at hloop
  have hexit := program3_exit n ((n * (n + 1) / 2 : Nat) : Int) vm.out vm.env
  have hall : stateAfter (program3 n) (4 + (15 * n + 9)) (runInit (program3 n) vm)
      = some (sumVM [((n * (n + 1) / 2 : Nat) : Int)] 0 ((n * (n + 1) / 2 : Nat) : Int) 23
          (vm.out ++ [to_string ((n * (n + 1) / 2 : Nat) : Int)]) vm.env) := by
    rw [stateAfter_add _ 4 _ _ _ hinit, stateAfter_add _ (15 * n) 9 _ _ hloop, hexit]
  rw [show 15 * n + 13 + k = 4 + (15 * n + 9) + k by omega]
  exact run_finished (program3 n) _ k vm _ hall (by simp [program3])

/-- C9, instance: Test 3 itself (`n = 5`) prints 15. -/
theorem program3_prints_sum_witness :
    (5 * (5 + 1) / 2 ≤ 2147483647) ∧
    program3 5 = ["PUSH 5".toList, "STORE n".toList, "PUSH 0".toList, "STORE sum".toList,
      "loop:".toList, "LOAD n".toList, "PUSH 0".toList, "GT".toList, "JNZ body".toList,
      "JMP end".toList, "body:".toList, "LOAD sum".toList, "LOAD n".toList, "ADD".toList,
      "STORE sum".toList, "LOAD n".toList, "PUSH 1".toList, "SUB".toList, "STORE n".toList,
      "JMP loop".toList, "end:".toList, "LOAD sum".toList, "PRINT".toList] ∧
    run 88 (program3 5) (VM.new []) = .finished (sumVM [15] 0 15 23 ["15".toList] []) :=
  ⟨by decide, by decide, program3_prints_sum 5 (by decide) (VM.new []) 0⟩

/-! ## C10: the factorial program -/

/-- The label table of `factorialProgram`. -/
theorem runInit_factorialProgram (n : Int) (vm : VM) :
    runInit (factorialProgram n) vm
      = VM.mk [] [] 0 [("loop".toList, 6), ("body".toList, 12), ("end".toList, 22)] []
          vm.out vm.env := by
  have h : preprocessLoop (factorialProgram n) 0 []
      = [("loop".toList, 6), ("body".toList, 12), ("end".toList, 22)] := by
    show preprocessLoop (instr1 "PUSH".toList (to_string n) :: (factorialProgram 0).tail) 0 []
      = _
    rw [preprocessLoop, isLabelLine_instr1 _ _ (isOperand_to_string _)]
    simp only [Bool.false_eq_true, if_false]
    decide
  simp only [runInit, preprocess, h]

/-- The six instructions before the loop of `factorialProgram`. -/
theorem factorialProgram_init (n : Int) (hn : isInt32 n) (vm : VM) :
    stateAfter (factorialProgram n) 6 (runInit (factorialProgram n) vm)
      = some (factVM [] n 1 n 6 vm.out vm.env) := by
  rw [runInit_factorialProgram]
  refine stateAfter_step _ _ _
    (VM.mk [n] [] 1 [("loop".toList, 6), ("body".toList, 12), ("end".toList, 22)] []
      vm.out vm.env) _ _ rfl
    (execute_PUSH (to_string n) n (isOperand_to_string n) (stoi_to_string n hn) _ _) ?_
  refine stateAfter_step _ _ _
    (VM.mk [] [("n".toList, n)] 2 [("loop".toList, 6), ("body".toList, 12), ("end".toList, 22)]
      [] vm.out vm.env) "STORE n".toList _ rfl rfl ?_
  refine stateAfter_step _ _ _
    (VM.mk [1] [("n".toList, n)] 3 [("loop".toList, 6), ("body".toList, 12), ("end".toList, 22)]
      [] vm.out vm.env) "PUSH 1".toList _ rfl rfl ?_
  refine stateAfter_step _ _ _
    (VM.mk [] [("n".toList, n), ("result".toList, 1)] 4
      [("loop".toList, 6), ("body".toList, 12), ("end".toList, 22)] [] vm.out vm.env)
    "STORE result".toList _ rfl rfl ?_
  refine stateAfter_step _ _ _
    (VM.mk [n] [("n".toList, n), ("result".toList, 1)] 5
      [("loop".toList, 6), ("body".toList, 12), ("end".toList, 22)] [] vm.out vm.env)
    "LOAD n".toList _ rfl rfl ?_
  refine stateAfter_step _ _ _ (factVM [] n 1 n 6 vm.out vm.env) "STORE i".toList _ rfl rfl ?_
  rfl

/-- One turn of the loop of `factorialProgram` when `i > 0`: 15 instructions. -/
theorem factorialProgram_turn (m : Int) (n k r : Int) (hk : k > 0) (out : List Str)
    (env : List Int) :
    stateAfter (factorialProgram m) 15 (factVM [] n r k 6 out env)
      = some (factVM [] n (wrap32 (r * k)) (wrap32 (k - 1)) 6 out env) := by
  refine stateAfter_step _ _ _ (factVM [] n r k 7 out env) "loop:".toList _ rfl rfl ?_
  refine stateAfter_step _ _ _ (factVM [k] n r k 8 out env) "LOAD i".toList _ rfl rfl ?_
  refine stateAfter_step _ _ _ (factVM [k, 0] n r k 9 out env) "PUSH 0".toList _ rfl rfl ?_
  refine stateAfter_step _ _ _ (factVM [1] n r k 10 out env) "GT".toList _ rfl
    (execute_GT_pos _ _ [] k rfl hk) ?_
  refine stateAfter_step _ _ _ (factVM [] n r k 12 out env) "JNZ body".toList _ rfl rfl ?_
  refine stateAfter_step _ _ _ (factVM [] n r k 13 out env) "body:".toList _ rfl rfl ?_
  refine stateAfter_step _ _ _ (factVM [r] n r k 14 out env) "LOAD result".toList _ rfl rfl ?_
  refine stateAfter_step _ _ _ (factVM [r, k] n r k 15 out env) "LOAD i".toList _ rfl rfl ?_
  refine stateAfter_step _ _ _ (factVM [wrap32 (r * k)] n r k 16 out env)
    "MUL".toList _ rfl rfl ?_
  refine stateAfter_step _ _ _ (factVM [] n (wrap32 (r * k)) k 17 out env)
    "STORE result".toList _ rfl rfl ?_
  refine stateAfter_step _ _ _ (factVM [k] n (wrap32 (r * k)) k 18 out env)
    "LOAD i".toList _ rfl rfl ?_
  refine stateAfter_step _ _ _ (factVM [k, 1] n (wrap32 (r * k)) k 19 out env)
    "PUSH 1".toList _ rfl rfl ?_
  refine stateAfter_step _ _ _ (factVM [wrap32 (k - 1)] n (wrap32 (r * k)) k 20 out env)
    "SUB".toList _ rfl rfl ?_
  refine stateAfter_step _ _ _ (factVM [] n (wrap32 (r * k)) (wrap32 (k - 1)) 21 out env)
    "STORE i".toList _ rfl rfl ?_
  refine stateAfter_step _ _ _ (factVM [] n (wrap32 (r * k)) (wrap32 (k - 1)) 6 out env)
    "JMP loop".toList _ rfl rfl ?_
  rfl

/-- Leaving the loop of `factorialProgram` when `i = 0`: 9 instructions, the last
one the PRINT of `result`. -/
theorem factorialProgram_exit (m : Int) (n r : Int) (out : List Str) (env : List Int) :
    stateAfter (factorialProgram m) 9 (factVM [] n r 0 6 out env)
      = some (factVM [r] n r 0 25 (out ++ [to_string r]) env) := by
  refine stateAfter_step _ _ _ (factVM [] n r 0 7 out env) "loop:".toList _ rfl rfl ?_
  refine stateAfter_step _ _ _ (factVM [0] n r 0 8 out env) "LOAD i".toList _ rfl rfl ?_
  refine stateAfter_step _ _ _ (factVM [0, 0] n r 0 9 out env) "PUSH 0".toList _ rfl rfl ?_
  refine stateAfter_step _ _ _ (factVM [0] n r 0 10 out env) "GT".toList _ rfl
    (execute_GT_zero _ _ [] rfl) ?_
  refine stateAfter_step _ _ _ (factVM [] n r 0 11 out env) "JNZ body".toList _ rfl rfl ?_
  refine stateAfter_step _ _ _ (factVM [] n r 0 22 out env) "JMP end".toList _ rfl rfl ?_
  refine stateAfter_step _ _ _ (factVM [] n r 0 23 out env) "end:".toList _ rfl rfl ?_
  refine stateAfter_step _ _ _ (factVM [r] n r 0 24 out env) "LOAD result".toList _ rfl rfl ?_
  refine stateAfter_step _ _ _ (factVM [r] n r 0 25 (out ++ [to_string r]) env)
    "PRINT".toList _ rfl rfl ?_
  rfl

/-- The loop of `factorialProgram` from `i = k`, `result = r` down to `i = 0`:
`15 * k` instructions, none of which overflows when `r * k!` is a 32-bit value. -/
theorem factorialProgram_loop (m n : Int) (k : Nat) (r : Nat) (hr : 1 ≤ r)
    (hb : r * k.factorial ≤ 2147483647) (out : List Str) (env : List Int) :
    stateAfter (factorialProgram m) (15 * k) (factVM [] n r k 6 out env)
      = some (factVM [] n ((r * k.factorial : Nat) : Int) 0 6 out env) := by
  induction k generalizing r with
  | zero => simp [stateAfter]
  | succ k ih =>
    have hf : (k + 1).factorial = (k + 1) * k.factorial := Nat.factorial_succ k
    have hpos : 1 ≤ k.factorial := Nat.factorial_pos k
    have hrk : r * (k + 1) ≤ r * (k + 1).factorial :=
      Nat.mul_le_mul_left r (Nat.self_le_factorial (k + 1))
    have hk1 : k + 1 ≤ r * (k + 1) := Nat.le_mul_of_pos_left (k + 1) hr
    have hturn := factorialProgram_turn m n ((k + 1 : Nat) : Int) r (by omega) out env
    have h1 : wrap32 (((k + 1 : Nat) : Int) - 1) = (k : Int) := by
      rw [wrap32_of_isInt32 (by unfold isInt32; omega)]
      omega
    have h2 : wrap32 ((r : Int) * ((k + 1 : Nat) : Int)) = ((r * (k + 1) : Nat) : Int) := by
      rw [← Nat.cast_mul]
      exact wrap32_of_isInt32 (by unfold isInt32; omega)
    rw [h1, h2] at hturn
    have hb' : r * (k + 1) * k.factorial ≤ 2147483647 := by
      rw [Nat.mul_assoc, ← hf]; exact hb
    rw [show 15 * (k + 1) = 15 + 15 * k by omega, stateAfter_add _ 15 (15 * k) _ _ hturn,
      ih (r * (k + 1)) (by omega) hb', hf, Nat.mul_assoc]

/-- C10. For every `n ≥ 0` whose factorial is a 32-bit value, the run of the
factorial test program with PUSH `n` as first instruction terminates, after
`15 n + 15` instructions, and writes `n!` exactly once (1 for `n = 0`). -/
theorem factorialProgram_prints_factorial (n : Nat) (hn : n.factorial ≤ 2147483647) (vm : VM)
    (k : Nat) :
    run (15 * n + 15 + k) (factorialProgram n) vm
      = .finished (factVM [(n.factorial : Int)] n n.factorial 0 25
          (vm.out ++ [to_string (n.factorial : Int)]) vm.env) := by
  have hle := Nat.self_le_factorial n
  have hinit := factorialProgram_init n (by unfold isInt32; omega) vm
  have hloop := factorialProgram_loop n n n 1 (le_refl 1) (by omega) vm.out vm.env
  rw [Nat.one_mul, Nat.cast_one] at hloop
  have hexit := factorialProgram_exit n n (n.factorial : Int) vm.out vm.env
  have hall : stateAfter (factorialProgram n) (6 + (15 * n + 9)) (runInit (factorialProgram n) vm)
      = some (factVM [(n.factorial : Int)] n n.factorial 0 25
          (vm.out ++ [to_string (n.factorial : Int)]) vm.env) := by
    rw [stateAfter_add _ 6 _ _ _ hinit, stateAfter_add _ (15 * n) 9 _ _ hloop, hexit]
  rw [show 15 * n + 15 + k = 6 + (15 * n + 9) + k by omega]
  exact run_finished (factorialProgram n) _ k vm _ hall (by simp [factorialProgram])

/-- C10, instances: the test itself (`n = 5`) prints 120, and `n = 0` prints 1. -/
theorem factorialProgram_prints_factorial_witness :
    (Nat.factorial 5 ≤ 2147483647 ∧ Nat.factorial 0 ≤ 2147483647) ∧
    factorialProgram 5 = ["PUSH 5".toList, "STORE n".toList, "PUSH 1".toList,
      "STORE result".toList, "LOAD n".toList, "STORE i".toList, "loop:".toList,
      "LOAD i".toList, "PUSH 0".toList, "GT".toList, "JNZ body".toList, "JMP end".toList,
      "body:".toList, "LOAD result".toList, "LOAD i".toList, "MUL".toList,
      "STORE result".toList, "LOAD i".toList, "PUSH 1".toList, "SUB".toList, "STORE i".toList,
      "JMP loop".toList, "end:".toList, "LOAD result".toList, "PRINT".toList] ∧
    run 90 (factorialProgram 5) (VM.new [])
      = .finished (factVM [120] 5 120 0 25 ["120".toList] []) ∧
    run 15 (factorialProgram 0) (VM.new [])
      = .finished (factVM [1] 0 1 0 25 ["1".toList] []) :=
  ⟨by decide, by decide,
   factorialProgram_prints_factorial 5 (by decide) (VM.new []) 0,
   factorialProgram_prints_factorial 0 (by decide) (VM.new []) 0⟩

/-! ## C1: code generation for expressions -/

theorem isAlphaNumeric_props {c : Char} (h : isAlphaNumeric c = true) :
    isspace c = false ∧ c ≠ '"' ∧ c ≠ ':' := by
  unfold isAlphaNumeric isAlpha isDigit at h
  unfold isspace
  simp only [Bool.or_eq_true, Bool.and_eq_true, decide_eq_true_eq] at h
  refine ⟨?_, ?_, ?_⟩
  · simp only [Bool.or_eq_false_iff, decide_eq_false_iff_not]
    refine ⟨⟨⟨⟨⟨?_, ?_⟩, ?_⟩, ?_⟩, ?_⟩, ?_⟩ <;>
      (rintro rfl; revert h; decide)
  all_goals (rintro rfl; revert h; decide)

theorem isOperand_of_isIdentifier {s : Str} (h : isIdentifier s = true) : isOperand s := by
  cases s with
  | nil => simp [isIdentifier] at h
  | cons c rest =>
    simp only [isIdentifier, Bool.and_eq_true, List.all_eq_true] at h
    have hall : ∀ d ∈ c :: rest, isAlphaNumeric d = true := by
      intro d hd
      simp only [List.mem_cons] at hd
      rcases hd with rfl | hd
      · simp [isAlphaNumeric, h.1]
      · exact h.2 d hd
    refine ⟨⟨by simp, fun d hd => ⟨(isAlphaNumeric_props (hall d hd)).1,
      (isAlphaNumeric_props (hall d hd)).2.1⟩⟩, ?_⟩
    intro hl
    exact (isAlphaNumeric_props (hall _ (List.mem_of_getLast?_eq_some hl))).2.2 rfl

/-- A NUMBER lexeme with a 32-bit value is an operand word that `std::stoi` reads as
that value. -/
theorem number_lexeme (s : Str) (h : isNumberLexeme s = true) (hv : isInt32 (litValue s)) :
    isOperand s ∧ stoi s = .value (litValue s) := by
  unfold isInt32 at hv
  simp only [isNumberLexeme, Bool.and_eq_true, Bool.not_eq_true', List.all_eq_true] at h
  have hne : numberDigits s ≠ [] := by
    intro h0; rw [h0] at h; simp at h
  have hop := isOperand_digits (numberDigits s) hne h.2
  by_cases hm : s.head? = some '-'
  · have hs : s = '-' :: numberDigits s := by
      cases s with
      | nil => simp at hm
      | cons c r =>
        simp only [List.head?_cons, Option.some.injEq] at hm
        subst hm
        simp [numberDigits]
    simp only [litValue, hm, if_true] at hv ⊢
    rw [hs]
    exact ⟨hop.2, by rw [← hs]; rw [hs]; exact stoi_neg_digits _ hne h.2 (by omega)⟩
  · have hs : numberDigits s = s := by simp [numberDigits, hm]
    simp only [litValue, hm, if_false] at hv ⊢
    rw [hs] at hop hne h hv ⊢
    exact ⟨hop.1, stoi_digits s hne h.2 (by omega)⟩

/-- For each of the seven operators: the opcode `visitBinary` emits, and what the VM
does for that opcode on a stack ending with `a` then `b`, unless the operation is
the division of -2147483648 by -1: both are replaced by the specified value. -/
theorem binary_op_cases (op : Str)
    (hop : op ∈ ["+".toList, "-".toList, "*".toList, "/".toList, "==".toList, ">".toList,
      "<".toList]) :
    ∃ (opc : Str),
      (∀ g, emitBinaryOp op g = emit g opc) ∧
      (∀ (program : List Str) (vm : VM) (rest : List Int) (a b : Int),
        vm.stack = rest ++ [a, b] →
        ¬ (op = "/".toList ∧ a = -2147483648 ∧ b = -1) →
        execute opc program vm
          = .ok { vm with stack := rest ++ [specBinary op a b], pc := vm.pc + 1 }) := by
  simp only [List.mem_cons, List.mem_singleton, List.not_mem_nil, or_false] at hop
  rcases hop with rfl | rfl | rfl | rfl | rfl | rfl | rfl
  · exact ⟨"ADD".toList, fun _ => rfl, fun _ vm rest a b h _ =>
      binop_concat2 (fun a b => wrap32 (a + b)) vm rest a b h⟩
  · exact ⟨"SUB".toList, fun _ => rfl, fun _ vm rest a b h _ =>
      binop_concat2 (fun a b => wrap32 (a - b)) vm rest a b h⟩
  · exact ⟨"MUL".toList, fun _ => rfl, fun _ vm rest a b h _ =>
      binop_concat2 (fun a b => wrap32 (a * b)) vm rest a b h⟩
  · exact ⟨"DIV".toList, fun _ => rfl, fun _ vm rest a b h hov =>
      execDIV_concat2 vm rest a b h (fun hab => hov ⟨rfl, hab.1, hab.2⟩)⟩
  · exact ⟨"EQ".toList, fun _ => rfl, fun _ vm rest a b h _ =>
      binop_concat2 (fun a b => if a = b then 1 else 0) vm rest a b h⟩
  · exact ⟨"GT".toList, fun _ => rfl, fun _ vm rest a b h _ =>
      binop_concat2 (fun a b => if a > b then 1 else 0) vm rest a b h⟩
  · exact ⟨"LT".toList, fun _ => rfl, fun _ vm rest a b h _ =>
      binop_concat2 (fun a b => if a < b then 1 else 0) vm rest a b h⟩

theorem divDefined_binary {vars : List (Str × Int)} {l r : Expr} {op : Token}
    (h : divDefined vars (.Binary l op r) = true) :
    divDefined vars l = true ∧ divDefined vars r = true ∧
    ¬ (op.lexeme = "/".toList ∧ specValue vars l = -2147483648 ∧ specValue vars r = -1) := by
  simp only [divDefined, Bool.and_eq_true, Bool.not_eq_true', Bool.and_eq_false_iff,
    decide_eq_true_eq, decide_eq_false_iff_not] at h
  exact ⟨h.1.1, h.1.2, by tauto⟩

theorem isArith_binary {l r : Expr} {op : Token} (h : isArith (.Binary l op r) = true) :
    isArith l = true ∧ isArith r = true ∧
    op.lexeme ∈ ["+".toList, "-".toList, "*".toList, "/".toList, "==".toList, ">".toList,
      "<".toList] := by
  simp only [isArith, Bool.and_eq_true, decide_eq_true_eq] at h
  exact ⟨h.1.1, h.1.2, h.2⟩

theorem visitExpr_binary (l r : Expr) (op : Token) (g : CodeGenerator) :
    visitExpr (.Binary l op r) g = emitBinaryOp op.lexeme (visitExpr r (visitExpr l g)) := by
  simp only [visitExpr]

/-- On the expressions of C1 the generator only appends to the bytecode (no error,
no label), and the code of a binary operation is the code of the left operand, the
code of the right operand and one opcode. -/
theorem visitExpr_arith : ∀ (e : Expr), isArith e = true → ∀ g : CodeGenerator,
    visitExpr e g = { g with bytecode_ := g.bytecode_ ++ exprCode e }
  | .Literal _ value, _, g => by
    simp [visitExpr, exprCode, emit, CodeGenerator.new]
  | .Variable name, _, g => by
    simp [visitExpr, exprCode, emit, CodeGenerator.new]
  | .Binary l op r, h, g => by
    obtain ⟨hl, hr, hop⟩ := isArith_binary h
    obtain ⟨opc, hemit, -⟩ := binary_op_cases op.lexeme hop
    have e1 := visitExpr_arith l hl
    have e2 := visitExpr_arith r hr
    have hc : exprCode (.Binary l op r) = exprCode l ++ (exprCode r ++ [opc]) := by
      show (visitExpr (.Binary l op r) CodeGenerator.new).bytecode_ = _
      rw [visitExpr_binary, hemit, e1 CodeGenerator.new, e2]
      simp [emit, CodeGenerator.new]
    rw [hc, visitExpr_binary, hemit, e1 g, e2]
    simp [emit]
  | .Unary _ _, h, _ => by simp [isArith] at h
  | .Call _ _, h, _ => by simp [isArith] at h

theorem exprCode_binary (l r : Expr) (op : Token) (hl : isArith l = true)
    (hr : isArith r = true) (opc : Str) (hemit : ∀ g, emitBinaryOp op.lexeme g = emit g opc) :
    exprCode (.Binary l op r) = exprCode l ++ (exprCode r ++ [opc]) := by
  show (visitExpr (.Binary l op r) CodeGenerator.new).bytecode_ = _
  rw [visitExpr_binary, hemit, visitExpr_arith l hl CodeGenerator.new, visitExpr_arith r hr]
  simp [emit, CodeGenerator.new]

/-- Execution of the code of an expression of C1 placed anywhere in a program, from
a state in which the expression divides -2147483648 by -1 nowhere. -/
theorem arith_run : ∀ (e : Expr), isArith e = true →
    ∀ (program pre post : List Str) (vm : VM), program = pre ++ exprCode e ++ post →
      vm.pc = pre.length → divDefined vm.vars e = true →
      stateAfter program (exprCode e).length vm
        = some { vm with stack := vm.stack ++ [specValue vm.vars e],
                         pc := vm.pc + (exprCode e).length }
  | .Literal _ value, h, program, pre, post, vm, hprog, hpc, _ => by
    simp only [isArith, Bool.and_eq_true, decide_eq_true_eq] at h
    obtain ⟨hop, hst⟩ := number_lexeme value h.1 h.2
    have hc : exprCode (.Literal ‹_› value) = [instr1 "PUSH".toList value] := rfl
    rw [hc] at hprog ⊢
    refine stateAfter_step program 0 vm _ (instr1 "PUSH".toList value) _ ?_
      (execute_PUSH value (litValue value) hop hst program vm) rfl
    rw [hprog]
    simp only [List.append_assoc, List.singleton_append]
    exact getElem?_pre_cons _ _ _ _ hpc
  | .Variable name, h, program, pre, post, vm, hprog, hpc, _ => by
    have hop := isOperand_of_isIdentifier (s := name.lexeme) h
    have hc : exprCode (.Variable name) = [instr1 "LOAD".toList name.lexeme] := rfl
    rw [hc] at hprog ⊢
    refine stateAfter_step program 0 vm _ (instr1 "LOAD".toList name.lexeme) _ ?_
      (execute_LOAD name.lexeme hop program vm) rfl
    rw [hprog]
    simp only [List.append_assoc, List.singleton_append]
    exact getElem?_pre_cons _ _ _ _ hpc
  | .Binary l op r, h, program, pre, post, vm, hprog, hpc, hdef => by
    obtain ⟨hl, hr, hop⟩ := isArith_binary h
    obtain ⟨hdl, hdr, hov⟩ := divDefined_binary hdef
    obtain ⟨opc, hemit, hexec⟩ := binary_op_cases op.lexeme hop
    have hc := exprCode_binary l r op hl hr opc hemit
    rw [hc] at hprog ⊢
    have h1 := arith_run l hl program pre (exprCode r ++ [opc] ++ post) vm
      (by rw [hprog]; simp [List.append_assoc]) hpc hdl
    have h2 := arith_run r hr program (pre ++ exprCode l) ([opc] ++ post)
      { vm with stack := vm.stack ++ [specValue vm.vars l], pc := vm.pc + (exprCode l).length }
      (by rw [hprog]; simp [List.append_assoc]) (by simp [hpc]) hdr
    have hfetch : program[({ vm with
          stack := vm.stack ++ [specValue vm.vars l] ++ [specValue vm.vars r],
          pc := vm.pc + (exprCode l).length + (exprCode r).length } : VM).pc]? = some opc := by
      rw [hprog]
      have : pre ++ (exprCode l ++ (exprCode r ++ [opc])) ++ post
          = (pre ++ exprCode l ++ exprCode r) ++ opc :: post := by simp [List.append_assoc]
      rw [this]
      exact getElem?_pre_cons _ _ _ _ (by simp [hpc, Nat.add_assoc])
    have h3 : stateAfter program 1 ({ vm with
          stack := vm.stack ++ [specValue vm.vars l] ++ [specValue vm.vars r],
          pc := vm.pc + (exprCode l).length + (exprCode r).length } : VM)
        = some { vm with
            stack := vm.stack ++
              [specBinary op.lexeme (specValue vm.vars l) (specValue vm.vars r)],
            pc := vm.pc + (exprCode l).length + (exprCode r).length + 1 } :=
      stateAfter_step program 0 _ _ opc _ hfetch
        (hexec program _ vm.stack (specValue vm.vars l) (specValue vm.vars r) (by simp) hov) rfl
    simp only [List.length_append, List.length_singleton]
    rw [stateAfter_add program _ _ vm _ h1, stateAfter_add program _ _ _ _ h2]
    refine Eq.trans h3 ?_
    simp only [specValue, Nat.add_assoc]
  | .Unary _ _, h, _, _, _, _, _, _, _ => by simp [isArith] at h
  | .Call _ _, h, _, _, _, _, _, _, _ => by simp [isArith] at h

/-- The code of an expression of C1, placed anywhere in a program and run from a state
in which the expression divides -2147483648 by -1 somewhere: the run is ended by the
signal of that division. -/
theorem arith_overflow_aborts : ∀ (e : Expr), isArith e = true →
    ∀ (program pre post : List Str) (vm : VM), program = pre ++ exprCode e ++ post →
      vm.pc = pre.length → divDefined vm.vars e = false →
      ∀ k : Nat, ∃ vm1,
        runLoop program ((exprCode e).length + k) vm = .aborted Fault.arithmetic_signal vm1
  | .Literal _ value, _, _, _, _, _, _, _, hdef, _ => by simp [divDefined] at hdef
  | .Variable name, _, _, _, _, _, _, _, hdef, _ => by simp [divDefined] at hdef
  | .Binary l op r, h, program, pre, post, vm, hprog, hpc, hdef, k => by
    obtain ⟨hl, hr, hop⟩ := isArith_binary h
    obtain ⟨opc, hemit, hexec⟩ := binary_op_cases op.lexeme hop
    have hc := exprCode_binary l r op hl hr opc hemit
    rw [hc] at hprog ⊢
    have hprog1 : program = pre ++ exprCode l ++ (exprCode r ++ [opc] ++ post) := by
      rw [hprog]; simp [List.append_assoc]
    have hprog2 : program = (pre ++ exprCode l) ++ exprCode r ++ ([opc] ++ post) := by
      rw [hprog]; simp [List.append_assoc]
    simp only [List.length_append, List.length_singleton]
    cases hdl : divDefined vm.vars l with
    | false =>
      obtain ⟨vm1, h1⟩ := arith_overflow_aborts l hl program pre _ vm hprog1 hpc hdl
        ((exprCode r).length + 1 + k)
      exact ⟨vm1, by rw [← h1]; congr 1; omega⟩
    | true =>
      have h1 := arith_run l hl program pre _ vm hprog1 hpc hdl
      have e1 : (exprCode l).length + ((exprCode r).length + 1) + k =
          ((exprCode r).length + 1 + k) + (exprCode l).length := by omega
      rw [e1, runLoop_of_stateAfter program _ vm _ _ h1]
      cases hdr : divDefined vm.vars r with
      | false =>
        obtain ⟨vm1, h2⟩ := arith_overflow_aborts r hr program (pre ++ exprCode l) _
          { vm with stack := vm.stack ++ [specValue vm.vars l],
                    pc := vm.pc + (exprCode l).length }
          hprog2 (by simp [hpc]) hdr (1 + k)
        exact ⟨vm1, by rw [← h2]; congr 1; omega⟩
      | true =>
        have h2 := arith_run r hr program (pre ++ exprCode l) _
          { vm with stack := vm.stack ++ [specValue vm.vars l],
                    pc := vm.pc + (exprCode l).length }
          hprog2 (by simp [hpc]) hdr
        have e2 : (exprCode r).length + 1 + k = (k + 1) + (exprCode r).length := by omega
        rw [e2, runLoop_of_stateAfter program _ _ _ _ h2]
        -- the division itself
        have hov : op.lexeme = "/".toList ∧ specValue vm.vars l = -2147483648 ∧
            specValue vm.vars r = -1 := by
          simp only [divDefined, hdl, hdr, Bool.and_self, Bool.true_and, Bool.not_eq_false',
            Bool.and_eq_true, decide_eq_true_eq] at hdef
          exact ⟨hdef.1.1, hdef.1.2, hdef.2⟩
        have hopc : opc = "DIV".toList := by
          have h3 := hemit CodeGenerator.new
          rw [hov.1] at h3
          have h4 : emitBinaryOp "/".toList CodeGenerator.new =
              emit CodeGenerator.new "DIV".toList := rfl
          rw [h4] at h3
          have h5 := congrArg CodeGenerator.bytecode_ h3
          simpa [emit, CodeGenerator.new] using h5.symm
        have hfetch : program[({ vm with
            stack := vm.stack ++ [specValue vm.vars l] ++ [specValue vm.vars r],
            pc := vm.pc + (exprCode l).length + (exprCode r).length } : VM).pc]? =
            some "DIV".toList := by
          rw [hprog, hopc]
          have : pre ++ (exprCode l ++ (exprCode r ++ ["DIV".toList])) ++ post
              = (pre ++ exprCode l ++ exprCode r) ++ "DIV".toList :: post := by
            simp [List.append_assoc]
          rw [this]
          exact getElem?_pre_cons _ _ _ _ (by simp [hpc, Nat.add_assoc])
        refine ⟨{ vm with pc := vm.pc + (exprCode l).length + (exprCode r).length }, ?_⟩
        refine runLoop_fault program k _ _ "DIV".toList _ hfetch ?_
        rw [execute_DIV]
        exact execDIV_signal _ vm.stack (by simp [hov.2.1, hov.2.2])
  | .Unary _ _, h, _, _, _, _, _, _, _, _ => by simp [isArith] at h
  | .Call _ _, h, _, _, _, _, _, _, _, _ => by simp [isArith] at h

/-- C1 fails for an integer literal that is not a 32-bit value: the code of the
literal `2147483648` is `PUSH 2147483648`, on which `std::stoi` throws `out_of_range`
(only `invalid_argument` is caught), so the run is aborted with nothing pushed. -/
theorem expr_literal_range_counterexample :
    isArithShape (.Literal ⟨.NUMBER, "2147483648".toList, "2147483648".toList, 1⟩
      "2147483648".toList) = true ∧
    exprCode (.Literal ⟨.NUMBER, "2147483648".toList, "2147483648".toList, 1⟩
      "2147483648".toList) = ["PUSH 2147483648".toList] ∧
    runLoop ["PUSH 2147483648".toList] 1 (VM.new [])
      = .aborted Fault.out_of_range (VM.new []) := by
  decide

/-- C1, amended. For every expression built only from integer literals with a 32-bit
value, variable reads and the binary operators `+ - * / == > <`: the generator
appends the code of the expression and changes nothing else of its state; executed
from any VM state under whose variable store the expression divides -2147483648 by
-1 nowhere, anywhere in a program, that code runs to its end and leaves the operand
stack followed by exactly one value, the value of the expression under the variable
store (left operand first, an undefined variable reads as 0, `+ - *` in 32-bit
arithmetic, `/` the quotient rounded toward zero and 0 on a zero divisor,
comparisons 1 or 0), with the variable store, the call stack and everything else
but `pc` unchanged; run on its own, the code terminates in that state. The
exclusion is exact: from a state under whose variable store the expression does
divide -2147483648 by -1, the run of the code is ended by the signal of that
division; the code of `-2147483648 / -1` is PUSH -2147483648, PUSH -1, DIV, and its
run is ended by the signal with both operands popped. -/
theorem expr_codegen_correct (e : Expr) (he : isArith e = true) :
    (∀ g : CodeGenerator, visitExpr e g = { g with bytecode_ := g.bytecode_ ++ exprCode e }) ∧
    (∀ (pre post : List Str) (vm : VM), vm.pc = pre.length → divDefined vm.vars e = true →
       stateAfter (pre ++ exprCode e ++ post) (exprCode e).length vm
         = some { vm with stack := vm.stack ++ [specValue vm.vars e],
                          pc := vm.pc + (exprCode e).length }) ∧
    (∀ (vm : VM) (k : Nat), vm.pc = 0 → divDefined vm.vars e = true →
       runLoop (exprCode e) ((exprCode e).length + k) vm
         = .finished { vm with stack := vm.stack ++ [specValue vm.vars e],
                               pc := (exprCode e).length }) ∧
    (∀ (vm : VM) (k : Nat), vm.pc = 0 → divDefined vm.vars e = false →
       ∃ vm1, runLoop (exprCode e) ((exprCode e).length + k) vm
         = .aborted Fault.arithmetic_signal vm1) ∧
    isArith overflowExpr = true ∧ divDefined [] overflowExpr = false ∧
    exprCode overflowExpr
      = ["PUSH -2147483648".toList, "PUSH -1".toList, "DIV".toList] ∧
    runLoop (exprCode overflowExpr) 3 (VM.new [])
      = .aborted Fault.arithmetic_signal { VM.new [] with pc := 2 } := by
  refine ⟨visitExpr_arith e he, fun pre post vm hpc hdef => arith_run e he _ pre post vm rfl hpc hdef,
    fun vm k hpc hdef => ?_,
    fun vm k hpc hdef => arith_overflow_aborts e he (exprCode e) [] [] vm (by simp)
      (by simp [hpc]) hdef k,
    by decide, by decide, by decide, by decide⟩
  have h := arith_run e he (exprCode e) [] [] vm (by simp) (by simp [hpc]) hdef
  rw [Nat.add_comm, runLoop_of_stateAfter (exprCode e) _ vm _ k h]
  rw [runLoop_done _ _ _ (by simp [hpc])]
  simp [hpc]

/-- C1, instance: the expression `(7 - x) / -2` with `x = 1` compiles to five
instructions that leave -3 on the stack. -/
theorem expr_codegen_correct_witness :
    isArith sampleExpr = true ∧
    divDefined [("x".toList, 1)] sampleExpr = true ∧
    exprCode sampleExpr
      = ["PUSH 7".toList, "LOAD x".toList, "SUB".toList, "PUSH -2".toList, "DIV".toList] ∧
    specValue [("x".toList, 1)] sampleExpr = -3 ∧
    runLoop (exprCode sampleExpr) ((exprCode sampleExpr).length + 0)
        { VM.new [] with vars := [("x".toList, 1)] }
      = .finished { VM.new [] with
          vars := [("x".toList, 1)],
          stack := [] ++ [specValue [("x".toList, 1)] sampleExpr],
          pc := (exprCode sampleExpr).length } :=
  ⟨by decide, by decide, by decide, by decide,
   (expr_codegen_correct sampleExpr (by decide)).2.2.1
     { VM.new [] with vars := [("x".toList, 1)] } 0 rfl (by decide)⟩

/-! ## C11: label preprocessing -/

/-- The address the scan of `VM::preprocess` leaves for a name: the index of the
last label line of that name, or what the table held when there is none. -/
theorem mapFind_preprocessLoop (program : List Str) (i : Nat) (t : List (Str × Nat))
    (name : Str) :
    mapFind (preprocessLoop program i t) name =
      match lastLabelFrom program i name with
      | some v => some v
      | none => mapFind t name := by
  induction program generalizing i t with
  | nil => rfl
  | cons line rest ih =>
    rw [preprocessLoop, lastLabelFrom]
    by_cases hl : isLabelLine line = true
    · rw [if_pos hl, ih]
      cases lastLabelFrom rest (i + 1) name with
      | some v => rfl
      | none =>
        by_cases hn : line.dropLast = name
        · simp only [hl, hn, and_self, if_true]
          exact mapFind_mapSet_same _ _ _
        · simp only [hn, and_false, if_false]
          exact mapFind_mapSet_other _ _ _ _ hn
    · rw [if_neg hl, ih]
      cases lastLabelFrom rest (i + 1) name with
      | some v => rfl
      | none => simp [hl]

/-- C11. Running `preprocess` twice on a program gives the state, and so the label
table, that running it once gives, and that table does not depend on what the
label table held before: it maps a name to the index of the last label line of
that name. The scan alone, without the clearing of the table, also leaves every
address as it is when it is run a second time. -/
theorem preprocess_idempotent (program : List Str) :
    (∀ vm : VM, preprocess program (preprocess program vm) = preprocess program vm) ∧
    (∀ vm vm1 : VM, (preprocess program vm).labels = (preprocess program vm1).labels) ∧
    (∀ (vm : VM) (name : Str),
      mapFind (preprocess program vm).labels name = lastLabelFrom program 0 name) ∧
    (∀ (t : List (Str × Nat)) (name : Str),
      mapFind (preprocessLoop program 0 (preprocessLoop program 0 t)) name =
        mapFind (preprocessLoop program 0 t) name) := by
  refine ⟨fun _ => rfl, fun _ _ => rfl, fun vm name => ?_, fun t name => ?_⟩
  · show mapFind (preprocessLoop program 0 []) name = _
    rw [mapFind_preprocessLoop]
    cases lastLabelFrom program 0 name <;> rfl
  · rw [mapFind_preprocessLoop, mapFind_preprocessLoop program 0 t]
    cases lastLabelFrom program 0 name <;> rfl

/-! ## C12, C13: the operators generated with a trailing SUB -/

/-- What PUSH of a constant and then SUB do to a stack ending with `x`: the result
is `x - c`, the constant being the value popped first. -/
theorem push_sub (c : String) (v : Int) (hc : isOperand c.toList)
    (hv : stoi c.toList = .value v) (vm : VM) (program : List Str) (rest : List Int) (x : Int) :
    execute (instr1 "PUSH".toList c.toList) program { vm with stack := rest ++ [x] } =
        .ok { vm with stack := rest ++ [x, v], pc := vm.pc + 1 } ∧
      execute "SUB".toList program { vm with stack := rest ++ [x, v], pc := vm.pc + 1 } =
        .ok { vm with stack := rest ++ [wrap32 (x - v)], pc := vm.pc + 1 + 1 } := by
  constructor
  · rw [execute_PUSH c.toList v hc hv]
    simp
  · exact binop_concat2 _ _ rest x v rfl

/-- C12 fails on the code. The code generated for `-e` is the code of `e` followed
by `PUSH 0` and `SUB`; on a stack ending with `x` these two instructions leave
`x - 0`, the value `x` itself, since SUB subtracts the value pushed last. Compiled
and run, `TAKE velocityX = 2; velocityX = -abs(velocityX);` stores 2, not -2. -/
theorem unary_minus_leaves_operand :
    (∀ (e : Expr) (op : Token) (g : CodeGenerator),
      visitExpr (.Unary { op with lexeme := "-".toList } e) g =
        emit (emit (visitExpr e g) "PUSH 0".toList) "SUB".toList) ∧
    (∀ (vm : VM) (program : List Str) (rest : List Int) (x : Int),
      execute "PUSH 0".toList program { vm with stack := rest ++ [x] } =
          .ok { vm with stack := rest ++ [x, 0], pc := vm.pc + 1 } ∧
        execute "SUB".toList program { vm with stack := rest ++ [x, 0], pc := vm.pc + 1 } =
          .ok { vm with stack := rest ++ [wrap32 (x - 0)], pc := vm.pc + 1 + 1 }) ∧
    Compiler.compile 64 negationSource Compiler.new =
      some { errors_ := [],
             bytecode_ := ["PUSH 2".toList, "STORE velocityX".toList, "LOAD velocityX".toList,
               "CALL abs 1".toList, "PUSH 0".toList, "SUB".toList, "STORE velocityX".toList,
               "HALT:".toList],
             hadError_ := false } ∧
    run 20 ["PUSH 2".toList, "STORE velocityX".toList, "LOAD velocityX".toList,
        "CALL abs 1".toList, "PUSH 0".toList, "SUB".toList, "STORE velocityX".toList,
        "HALT:".toList] (VM.new []) =
      .finished { stack := [], vars := [("velocityX".toList, 2)], pc := 8,
                  labels := [("HALT".toList, 7)], callstack := [], out := [], env := [] } := by
  refine ⟨fun e op g => ?_, fun vm program rest x => ?_, by decide, by decide⟩
  · simp only [visitExpr]
    rfl
  · exact push_sub "0" 0 (by decide) (by decide) vm program rest x

/-- C13 fails on the code. The code generated for `a != b`, `a >= b` and `a <= b`
is the code of the operands followed by EQ, LT or GT and then `PUSH 1` and `SUB`; on
a stack ending with the result `r` of the comparison these two instructions leave
`r - 1`: 0 when the relation does not hold and -1, not 1, when it holds. Compiled
and run, `TAKE r = 1 != 2;`, `TAKE r = 2 >= 1;` and `TAKE r = 1 <= 2;` store -1. -/
theorem complement_comparison_leaves_minus_one :
    (∀ (l r : Expr) (op : Token) (g : CodeGenerator),
      visitExpr (.Binary l { op with lexeme := "!=".toList } r) g =
          emit (emit (emit (visitExpr r (visitExpr l g)) "EQ".toList) "PUSH 1".toList)
            "SUB".toList ∧
        visitExpr (.Binary l { op with lexeme := ">=".toList } r) g =
          emit (emit (emit (visitExpr r (visitExpr l g)) "LT".toList) "PUSH 1".toList)
            "SUB".toList ∧
        visitExpr (.Binary l { op with lexeme := "<=".toList } r) g =
          emit (emit (emit (visitExpr r (visitExpr l g)) "GT".toList) "PUSH 1".toList)
            "SUB".toList) ∧
    (∀ (vm : VM) (program : List Str) (rest : List Int) (a b : Int),
      execute "EQ".toList program { vm with stack := rest ++ [a, b] } =
          .ok { vm with stack := rest ++ [if a = b then 1 else 0], pc := vm.pc + 1 } ∧
        execute "LT".toList program { vm with stack := rest ++ [a, b] } =
          .ok { vm with stack := rest ++ [if a < b then 1 else 0], pc := vm.pc + 1 } ∧
        execute "GT".toList program { vm with stack := rest ++ [a, b] } =
          .ok { vm with stack := rest ++ [if a > b then 1 else 0], pc := vm.pc + 1 }) ∧
    (∀ (vm : VM) (program : List Str) (rest : List Int) (r : Int),
      execute "PUSH 1".toList program { vm with stack := rest ++ [r] } =
          .ok { vm with stack := rest ++ [r, 1], pc := vm.pc + 1 } ∧
        execute "SUB".toList program { vm with stack := rest ++ [r, 1], pc := vm.pc + 1 } =
          .ok { vm with stack := rest ++ [wrap32 (r - 1)], pc := vm.pc + 1 + 1 }) ∧
    (Compiler.compile 64 notEqualSource Compiler.new).map Compiler.bytecode_ =
      some ["PUSH 1".toList, "PUSH 2".toList, "EQ".toList, "PUSH 1".toList, "SUB".toList,
        "STORE r".toList, "HALT:".toList] ∧
    run 20 ["PUSH 1".toList, "PUSH 2".toList, "EQ".toList, "PUSH 1".toList, "SUB".toList,
        "STORE r".toList, "HALT:".toList] (VM.new []) =
      .finished { stack := [], vars := [("r".toList, -1)], pc := 7,
                  labels := [("HALT".toList, 6)], callstack := [], out := [], env := [] } ∧
    (Compiler.compile 64 greaterEqualSource Compiler.new).map Compiler.bytecode_ =
      some ["PUSH 2".toList, "PUSH 1".toList, "LT".toList, "PUSH 1".toList, "SUB".toList,
        "STORE r".toList, "HALT:".toList] ∧
    run 20 ["PUSH 2".toList, "PUSH 1".toList, "LT".toList, "PUSH 1".toList, "SUB".toList,
        "STORE r".toList, "HALT:".toList] (VM.new []) =
      .finished { stack := [], vars := [("r".toList, -1)], pc := 7,
                  labels := [("HALT".toList, 6)], callstack := [], out := [], env := [] } ∧
    (Compiler.compile 64 lessEqualSource Compiler.new).map Compiler.bytecode_ =
      some ["PUSH 1".toList, "PUSH 2".toList, "GT".toList, "PUSH 1".toList, "SUB".toList,
        "STORE r".toList, "HALT:".toList] ∧
    run 20 ["PUSH 1".toList, "PUSH 2".toList, "GT".toList, "PUSH 1".toList, "SUB".toList,
        "STORE r".toList, "HALT:".toList] (VM.new []) =
      .finished { stack := [], vars := [("r".toList, -1)], pc := 7,
                  labels := [("HALT".toList, 6)], callstack := [], out := [], env := [] } := by
  refine ⟨fun l r op g => ⟨?_, ?_, ?_⟩, fun vm program rest a b => ⟨?_, ?_, ?_⟩,
    fun vm program rest r => ?_, by decide, by decide, by decide, by decide, by decide,
    by decide⟩
  · simp only [visitExpr]; rfl
  · simp only [visitExpr]; rfl
  · simp only [visitExpr]; rfl
  · exact binop_concat2 _ _ rest a b rfl
  · exact binop_concat2 _ _ rest a b rfl
  · exact binop_concat2 _ _ rest a b rfl
  · exact push_sub "1" 1 (by decide) (by decide) vm program rest r


/-! ## The analyzer as a fold over its operations -/

theorem foldl_apply_append (xs ys : List Visit) (a : SemanticAnalyzer) :
    (xs ++ ys).foldl Visit.apply a = ys.foldl Visit.apply (xs.foldl Visit.apply a) :=
  List.foldl_append _ _ _ _

mutual
theorem visitExpr_eq_foldl : ∀ (e : Expr) (a : SemanticAnalyzer),
    SemanticAnalyzer.visitExpr e a = (exprVisits e).foldl Visit.apply a
  | .Literal _ _, a => by simp [SemanticAnalyzer.visitExpr, exprVisits]
  | .Variable name, a => by simp [SemanticAnalyzer.visitExpr, exprVisits, Visit.apply]
  | .Binary left _ right, a => by
    rw [SemanticAnalyzer.visitExpr, exprVisits, foldl_apply_append,
      visitExpr_eq_foldl left, visitExpr_eq_foldl right]
  | .Unary _ right, a => by
    rw [SemanticAnalyzer.visitExpr, exprVisits, visitExpr_eq_foldl right]
  | .Call callee arguments, a => by
    rw [SemanticAnalyzer.visitExpr, exprVisits, List.foldl_cons,
      visitArguments_eq_foldl arguments]
    rfl
theorem visitArguments_eq_foldl : ∀ (es : List Expr) (a : SemanticAnalyzer),
    SemanticAnalyzer.visitArguments es a = (argumentVisits es).foldl Visit.apply a
  | [], a => by simp [SemanticAnalyzer.visitArguments, argumentVisits]
  | arg :: rest, a => by
    rw [SemanticAnalyzer.visitArguments, argumentVisits, foldl_apply_append,
      visitExpr_eq_foldl arg, visitArguments_eq_foldl rest]
end

mutual
theorem visitStmt_eq_foldl : ∀ (s : Stmt) (a : SemanticAnalyzer),
    SemanticAnalyzer.visitStmt s a = (stmtVisits s).foldl Visit.apply a
  | .Declaration _ name initializer, a => by
    rw [SemanticAnalyzer.visitStmt, stmtVisits, foldl_apply_append, visitExpr_eq_foldl]
    rfl
  | .Assignment name value, a => by
    rw [SemanticAnalyzer.visitStmt, stmtVisits, List.foldl_cons, visitExpr_eq_foldl]
    rfl
  | .Print _ expression, a => by
    rw [SemanticAnalyzer.visitStmt, stmtVisits, visitExpr_eq_foldl]
  | .If _ condition thenBranch elseBranch, a => by
    rw [SemanticAnalyzer.visitStmt, stmtVisits, foldl_apply_append, foldl_apply_append,
      visitExpr_eq_foldl, visitBlock_eq_foldl thenBranch, visitElse_eq_foldl elseBranch]
  | .Loop _ condition body, a => by
    rw [SemanticAnalyzer.visitStmt, stmtVisits, foldl_apply_append,
      visitExpr_eq_foldl, visitBlock_eq_foldl body]
  | .Break _, a => by simp [SemanticAnalyzer.visitStmt, stmtVisits]
  | .Continue _, a => by simp [SemanticAnalyzer.visitStmt, stmtVisits]
  | .Return _ (some value), a => by
    rw [SemanticAnalyzer.visitStmt, stmtVisits, visitExpr_eq_foldl]
  | .Return _ none, a => by simp [SemanticAnalyzer.visitStmt, stmtVisits]
  | .Function _ _ _ body, a => by
    rw [SemanticAnalyzer.visitStmt, stmtVisits, visitBlock_eq_foldl body]
  | .Block statements, a => by
    rw [SemanticAnalyzer.visitStmt, stmtVisits, visitBlock_eq_foldl statements]
  | .Expression expression, a => by
    rw [SemanticAnalyzer.visitStmt, stmtVisits, visitExpr_eq_foldl]
theorem visitBlock_eq_foldl : ∀ (ss : List Stmt) (a : SemanticAnalyzer),
    SemanticAnalyzer.visitBlock ss a = (blockVisits ss).foldl Visit.apply a
  | [], a => by simp [SemanticAnalyzer.visitBlock, blockVisits]
  | stmt :: rest, a => by
    rw [SemanticAnalyzer.visitBlock, blockVisits, foldl_apply_append,
      visitStmt_eq_foldl stmt, visitBlock_eq_foldl rest]
theorem visitElse_eq_foldl : ∀ (b : Option (List Stmt)) (a : SemanticAnalyzer),
    SemanticAnalyzer.visitElse b a = (elseVisits b).foldl Visit.apply a
  | none, a => by simp [SemanticAnalyzer.visitElse, elseVisits]
  | some block, a => by
    rw [SemanticAnalyzer.visitElse, elseVisits, visitBlock_eq_foldl block]
end

theorem declareFunctions_eq_foldl : ∀ (ss : List Stmt) (a : SemanticAnalyzer),
    SemanticAnalyzer.declareFunctions ss a = (functionVisits ss).foldl Visit.apply a
  | [], a => by simp [SemanticAnalyzer.declareFunctions, functionVisits]
  | .Function _ name parameters _ :: rest, a => by
    rw [SemanticAnalyzer.declareFunctions, functionVisits, List.foldl_cons,
      declareFunctions_eq_foldl rest]
    rfl
  | .Declaration _ _ _ :: rest, a => by
    simp only [SemanticAnalyzer.declareFunctions, functionVisits]
    exact declareFunctions_eq_foldl rest a
  | .Assignment _ _ :: rest, a => by
    simp only [SemanticAnalyzer.declareFunctions, functionVisits]
    exact declareFunctions_eq_foldl rest a
  | .Expression _ :: rest, a => by
    simp only [SemanticAnalyzer.declareFunctions, functionVisits]
    exact declareFunctions_eq_foldl rest a
  | .Print _ _ :: rest, a => by
    simp only [SemanticAnalyzer.declareFunctions, functionVisits]
    exact declareFunctions_eq_foldl rest a
  | .If _ _ _ _ :: rest, a => by
    simp only [SemanticAnalyzer.declareFunctions, functionVisits]
    exact declareFunctions_eq_foldl rest a
  | .Loop _ _ _ :: rest, a => by
    simp only [SemanticAnalyzer.declareFunctions, functionVisits]
    exact declareFunctions_eq_foldl rest a
  | .Break _ :: rest, a => by
    simp only [SemanticAnalyzer.declareFunctions, functionVisits]
    exact declareFunctions_eq_foldl rest a
  | .Continue _ :: rest, a => by
    simp only [SemanticAnalyzer.declareFunctions, functionVisits]
    exact declareFunctions_eq_foldl rest a
  | .Return _ _ :: rest, a => by
    simp only [SemanticAnalyzer.declareFunctions, functionVisits]
    exact declareFunctions_eq_foldl rest a
  | .Block _ :: rest, a => by
    simp only [SemanticAnalyzer.declareFunctions, functionVisits]
    exact declareFunctions_eq_foldl rest a

/-- The analysis of a program is the fold of its operations over the empty analyzer. -/
theorem analyze_eq_foldl (program : Program) (a : SemanticAnalyzer) :
    SemanticAnalyzer.analyze program a =
      (programVisits program).foldl Visit.apply SemanticAnalyzer.new := by
  rw [SemanticAnalyzer.analyze, SemanticAnalyzer.visitProgram, visitBlock_eq_foldl,
    declareFunctions_eq_foldl, programVisits, foldl_apply_append]
  rfl

/-! ## What one operation of the analyzer changes -/

theorem declare_of_some (a : SemanticAnalyzer) (name : Token) (type : SymbolType) (p : Int)
    (existing : Symbol) (h : mapFind a.symbols_ name.lexeme = some existing) :
    a.declare name type p =
      { a with hadError_ := true,
               errors_ := a.errors_ ++ [redeclarationError name existing.line] } := by
  rw [SemanticAnalyzer.declare, h]
  rfl

theorem declare_of_none (a : SemanticAnalyzer) (name : Token) (type : SymbolType) (p : Int)
    (h : mapFind a.symbols_ name.lexeme = none) :
    a.declare name type p =
      { a with symbols_ := mapSet a.symbols_ name.lexeme ⟨type, name.lexeme, name.line, p⟩ } := by
  rw [SemanticAnalyzer.declare, h]

theorem resolve_of_none (a : SemanticAnalyzer) (name : Token) (t : SymbolType)
    (h : mapFind a.symbols_ name.lexeme = none) :
    a.resolve name t =
      (none, { a with hadError_ := true, errors_ := a.errors_ ++ [undefinedError name t] }) := by
  rw [SemanticAnalyzer.resolve, h]
  rfl

theorem resolve_of_other (a : SemanticAnalyzer) (name : Token) (t : SymbolType) (symbol : Symbol)
    (h : mapFind a.symbols_ name.lexeme = some symbol) (ht : symbol.type ≠ t) :
    a.resolve name t =
      (none, { a with hadError_ := true,
                      errors_ := a.errors_ ++ [kindError name symbol.type t] }) := by
  rw [SemanticAnalyzer.resolve, h]
  simp only [ne_eq, ht, not_false_eq_true, if_true]
  rfl

theorem resolve_of_same (a : SemanticAnalyzer) (name : Token) (t : SymbolType) (symbol : Symbol)
    (h : mapFind a.symbols_ name.lexeme = some symbol) (ht : symbol.type = t) :
    a.resolve name t = (some symbol, a) := by
  rw [SemanticAnalyzer.resolve, h]
  simp [ht]

/-- Every operation leaves the analyzer with the errors it had, followed by at most
one more, keeps the error flag once set, and changes the symbol table only by adding
a name that was not in it. -/
theorem apply_grows (a : SemanticAnalyzer) (v : Visit) :
    (Visit.apply a v = a ∨
      (∃ m, Visit.apply a v = { a with hadError_ := true, errors_ := a.errors_ ++ [m] }) ∨
      (∃ name type p, v = .declare name type p ∧ mapFind a.symbols_ name.lexeme = none ∧
        Visit.apply a v =
          { a with symbols_ :=
              mapSet a.symbols_ name.lexeme ⟨type, name.lexeme, name.line, p⟩ })) := by
  cases v with
  | declare name type p =>
    cases h : mapFind a.symbols_ name.lexeme with
    | none => exact Or.inr (Or.inr ⟨name, type, p, rfl, h, declare_of_none a name type p h⟩)
    | some existing => exact Or.inr (Or.inl ⟨_, declare_of_some a name type p existing h⟩)
  | use name =>
    have e : Visit.apply a (.use name) = (a.resolve name .VARIABLE).2 := rfl
    rw [e]
    cases h : mapFind a.symbols_ name.lexeme with
    | none =>
      rw [resolve_of_none a name _ h]
      exact Or.inr (Or.inl ⟨_, rfl⟩)
    | some symbol =>
      by_cases ht : symbol.type = .VARIABLE
      · rw [resolve_of_same a name _ symbol h ht]
        exact Or.inl rfl
      · rw [resolve_of_other a name _ symbol h ht]
        exact Or.inr (Or.inl ⟨_, rfl⟩)
  | call callee k =>
    have e : Visit.apply a (.call callee k) = a.checkCall callee k := rfl
    rw [e]
    unfold SemanticAnalyzer.checkCall
    by_cases hb : isBuiltin callee.lexeme = true
    · rw [if_pos hb]
      by_cases hk : k ≠ getParamCount callee.lexeme
      · rw [if_pos hk]; exact Or.inr (Or.inl ⟨_, rfl⟩)
      · rw [if_neg hk]; exact Or.inl rfl
    · rw [if_neg hb]
      cases h : mapFind a.symbols_ callee.lexeme with
      | none =>
        rw [resolve_of_none a callee _ h]
        exact Or.inr (Or.inl ⟨_, rfl⟩)
      | some symbol =>
        by_cases ht : symbol.type = .FUNCTION
        · rw [resolve_of_same a callee _ symbol h ht]
          by_cases hk : k ≠ symbol.paramCount
          · exact Or.inr (Or.inl ⟨arityError callee symbol.paramCount k, by
              show (if k ≠ symbol.paramCount then _ else _) = _
              rw [if_pos hk]; rfl⟩)
          · exact Or.inl (by
              show (if k ≠ symbol.paramCount then _ else _) = _
              rw [if_neg hk])
        · rw [resolve_of_other a callee _ symbol h ht]
          exact Or.inr (Or.inl ⟨_, rfl⟩)

theorem apply_errors_mono (a : SemanticAnalyzer) (v : Visit) (m : Str) (h : m ∈ a.errors_) :
    m ∈ (Visit.apply a v).errors_ := by
  rcases apply_grows a v with e | ⟨m1, e⟩ | ⟨_, _, _, _, _, e⟩
  · rw [e]; exact h
  · rw [e]; exact List.mem_append_left _ h
  · rw [e]; exact h

theorem apply_hadError_mono (a : SemanticAnalyzer) (v : Visit) (h : a.hadError_ = true) :
    (Visit.apply a v).hadError_ = true := by
  rcases apply_grows a v with e | ⟨m1, e⟩ | ⟨_, _, _, _, _, e⟩
  · rw [e]; exact h
  · rw [e]
  · rw [e]; exact h

theorem apply_entry (a : SemanticAnalyzer) (v : Visit) (k : Str) (sym : Symbol)
    (h : mapFind a.symbols_ k = some sym) : mapFind (Visit.apply a v).symbols_ k = some sym := by
  rcases apply_grows a v with e | ⟨m1, e⟩ | ⟨name, type, p, _, hnone, e⟩
  · rw [e]; exact h
  · rw [e]; exact h
  · rw [e]
    have hne : name.lexeme ≠ k := by
      intro hk
      rw [hk, h] at hnone
      exact Option.noConfusion hnone
    show mapFind (mapSet a.symbols_ name.lexeme _) k = some sym
    rw [mapFind_mapSet_other _ _ _ _ hne]
    exact h

theorem apply_noVariable (a : SemanticAnalyzer) (v : Visit) (k : Str)
    (hv : v.declaresVariable k = false)
    (h : ∀ sym, mapFind a.symbols_ k = some sym → sym.type = .FUNCTION) :
    ∀ sym, mapFind (Visit.apply a v).symbols_ k = some sym → sym.type = .FUNCTION := by
  rcases apply_grows a v with e | ⟨m1, e⟩ | ⟨name, type, p, hv1, hnone, e⟩
  · rw [e]; exact h
  · rw [e]; exact h
  · rw [e]
    intro sym hsym
    by_cases hk : name.lexeme = k
    · have hs : mapFind (mapSet a.symbols_ name.lexeme
          (⟨type, name.lexeme, name.line, p⟩ : Symbol)) k = some sym := hsym
      rw [← hk, mapFind_mapSet_same] at hs
      have hs1 : (⟨type, name.lexeme, name.line, p⟩ : Symbol) = sym := Option.some.inj hs
      rw [← hs1]
      cases type with
      | FUNCTION => rfl
      | VARIABLE =>
        rw [hv1] at hv
        simp [Visit.declaresVariable, hk] at hv
    · have hs : mapFind (mapSet a.symbols_ name.lexeme
          (⟨type, name.lexeme, name.line, p⟩ : Symbol)) k = some sym := hsym
      rw [mapFind_mapSet_other _ _ _ _ hk] at hs
      exact h sym hs

/-! ## What a run of operations changes -/

theorem foldl_errors_mono (xs : List Visit) (a : SemanticAnalyzer) (m : Str)
    (h : m ∈ a.errors_) : m ∈ (xs.foldl Visit.apply a).errors_ := by
  induction xs generalizing a with
  | nil => exact h
  | cons v xs ih => exact ih _ (apply_errors_mono a v m h)

theorem foldl_hadError_mono (xs : List Visit) (a : SemanticAnalyzer)
    (h : a.hadError_ = true) : (xs.foldl Visit.apply a).hadError_ = true := by
  induction xs generalizing a with
  | nil => exact h
  | cons v xs ih => exact ih _ (apply_hadError_mono a v h)

theorem foldl_entry (xs : List Visit) (a : SemanticAnalyzer) (k : Str) (sym : Symbol)
    (h : mapFind a.symbols_ k = some sym) :
    mapFind (xs.foldl Visit.apply a).symbols_ k = some sym := by
  induction xs generalizing a with
  | nil => exact h
  | cons v xs ih => exact ih _ (apply_entry a v k sym h)

theorem foldl_noVariable (xs : List Visit) (a : SemanticAnalyzer) (k : Str)
    (hxs : ∀ v ∈ xs, v.declaresVariable k = false)
    (h : ∀ sym, mapFind a.symbols_ k = some sym → sym.type = .FUNCTION) :
    ∀ sym, mapFind (xs.foldl Visit.apply a).symbols_ k = some sym → sym.type = .FUNCTION := by
  induction xs generalizing a with
  | nil => exact h
  | cons v xs ih =>
    exact ih _ (fun w hw => hxs w (List.mem_cons_of_mem _ hw))
      (apply_noVariable a v k (hxs v (List.mem_cons_self _ _)) h)

/-- A run of operations, cut at its `j`-th operation. -/
theorem foldl_split (xs : List Visit) (j : Nat) (v : Visit) (h : xs[j]? = some v)
    (a : SemanticAnalyzer) :
    xs.foldl Visit.apply a =
      (xs.drop (j + 1)).foldl Visit.apply (Visit.apply ((xs.take j).foldl Visit.apply a) v) := by
  induction xs generalizing j a with
  | nil => simp at h
  | cons w xs ih =>
    cases j with
    | zero =>
      simp only [List.getElem?_cons_zero, Option.some.injEq] at h
      subst h
      rfl
    | succ j =>
      simp only [List.getElem?_cons_succ] at h
      simp only [List.foldl_cons, List.drop_succ_cons, List.take_succ_cons]
      exact ih j h _

theorem foldl_take_succ (xs : List Visit) (j : Nat) (v : Visit) (h : xs[j]? = some v)
    (a : SemanticAnalyzer) :
    (xs.take (j + 1)).foldl Visit.apply a = Visit.apply ((xs.take j).foldl Visit.apply a) v := by
  induction xs generalizing j a with
  | nil => simp at h
  | cons w xs ih =>
    cases j with
    | zero =>
      simp only [List.getElem?_cons_zero, Option.some.injEq] at h
      subst h
      rfl
    | succ j =>
      simp only [List.getElem?_cons_succ] at h
      simp only [List.foldl_cons, List.take_succ_cons]
      exact ih j h _

theorem analyzerAfter_succ (program : Program) (j : Nat) (v : Visit)
    (h : (programVisits program)[j]? = some v) :
    analyzerAfter program (j + 1) = Visit.apply (analyzerAfter program j) v :=
  foldl_take_succ _ j v h _

theorem analyze_eq_after (program : Program) (a : SemanticAnalyzer) (j : Nat) (v : Visit)
    (h : (programVisits program)[j]? = some v) :
    SemanticAnalyzer.analyze program a =
      ((programVisits program).drop (j + 1)).foldl Visit.apply
        (Visit.apply (analyzerAfter program j) v) := by
  rw [analyze_eq_foldl]
  exact foldl_split _ j v h _

/-- An error recorded by the `j`-th operation is among the errors of `analyze`,
which then reports failure. -/
theorem error_at_reaches_analyze (program : Program) (a : SemanticAnalyzer) (j : Nat)
    (v : Visit) (m : Str) (h : (programVisits program)[j]? = some v)
    (he : Visit.apply (analyzerAfter program j) v =
      { analyzerAfter program j with
          hadError_ := true, errors_ := (analyzerAfter program j).errors_ ++ [m] }) :
    (analyzerAfter program (j + 1)).errors_ = (analyzerAfter program j).errors_ ++ [m] ∧
      m ∈ (SemanticAnalyzer.analyze program a).errors_ ∧
      (SemanticAnalyzer.analyze program a).hadError_ = true := by
  refine ⟨?_, ?_, ?_⟩
  · rw [analyzerAfter_succ program j v h, he]
  · rw [analyze_eq_after program a j v h, he]
    exact foldl_errors_mono _ _ _ (List.mem_append_right _ (List.mem_singleton_self m))
  · rw [analyze_eq_after program a j v h, he]
    exact foldl_hadError_mono _ _ rfl

/-- A name declared by the `i`-th operation is in the symbol table at every later
operation. -/
theorem declared_stays (program : Program) (i j : Nat) (name : Token) (type : SymbolType)
    (p : Int) (hij : i < j) (h : (programVisits program)[i]? = some (.declare name type p)) :
    ∃ existing, mapFind (analyzerAfter program j).symbols_ name.lexeme = some existing := by
  have h1 : ∃ existing,
      mapFind (analyzerAfter program (i + 1)).symbols_ name.lexeme = some existing := by
    rw [analyzerAfter_succ program i _ h]
    show ∃ existing, mapFind ((analyzerAfter program i).declare name type p).symbols_
      name.lexeme = some existing
    cases hf : mapFind (analyzerAfter program i).symbols_ name.lexeme with
    | none =>
      rw [declare_of_none _ _ _ _ hf]
      exact ⟨_, mapFind_mapSet_same _ _ _⟩
    | some existing =>
      rw [declare_of_some _ _ _ _ existing hf]
      exact ⟨existing, hf⟩
  obtain ⟨existing, he⟩ := h1
  refine ⟨existing, ?_⟩
  have hsplit : (programVisits program).take j =
      (programVisits program).take (i + 1) ++
        ((programVisits program).take j).drop (i + 1) := by
    have := (List.take_append_drop (i + 1) ((programVisits program).take j)).symm
    rwa [List.take_take, Nat.min_eq_left (by omega)] at this
  unfold analyzerAfter
  rw [hsplit, foldl_apply_append]
  exact foldl_entry _ _ _ _ he

/-! ## C14: redeclaration -/

/-- C14. The only declarations of `analyze` are those of the first pass, one for
each top-level SCENE, and, after them, the one of each TAKE the walk visits. When
two of them carry the same name, the later one finds the name in the symbol table
and records a redeclaration error, which is among the errors of `analyze`, and
`hadError()` is true. This covers a TAKE after an earlier-visited TAKE, a TAKE
anywhere with the name of a top-level SCENE, and two top-level SCENE definitions
of one name. -/
theorem redeclaration_is_error (program : Program) (a : SemanticAnalyzer) (i j : Nat)
    (first name : Token) (t1 t2 : SymbolType) (p1 p2 : Int) (hij : i < j)
    (h1 : (programVisits program)[i]? = some (.declare first t1 p1))
    (h2 : (programVisits program)[j]? = some (.declare name t2 p2))
    (hname : first.lexeme = name.lexeme) :
    ∃ existing, mapFind (analyzerAfter program j).symbols_ name.lexeme = some existing ∧
      (analyzerAfter program (j + 1)).errors_ =
        (analyzerAfter program j).errors_ ++ [redeclarationError name existing.line] ∧
      redeclarationError name existing.line ∈ (SemanticAnalyzer.analyze program a).errors_ ∧
      (SemanticAnalyzer.analyze program a).hadError_ = true := by
  obtain ⟨existing, he⟩ := declared_stays program i j first t1 p1 hij h1
  rw [hname] at he
  exact ⟨existing, he, error_at_reaches_analyze program a j _ _ h2
    (declare_of_some _ name t2 p2 existing he)⟩

/-- C14, instances: Test 6 (a TAKE after a TAKE of the same name), Test 9 (two
top-level SCENE definitions of one name) and a TAKE with the name of a top-level
SCENE that follows it in the text. -/
theorem redeclaration_is_error_witness :
    (∃ existing,
      mapFind (analyzerAfter (programOf test6Source) 1).symbols_ (identifier "x" 2).lexeme =
        some existing ∧
      (analyzerAfter (programOf test6Source) (1 + 1)).errors_ =
        (analyzerAfter (programOf test6Source) 1).errors_ ++
          [redeclarationError (identifier "x" 2) existing.line] ∧
      redeclarationError (identifier "x" 2) existing.line ∈
        (SemanticAnalyzer.analyze (programOf test6Source) SemanticAnalyzer.new).errors_ ∧
      (SemanticAnalyzer.analyze (programOf test6Source) SemanticAnalyzer.new).hadError_ = true) ∧
    (∃ existing,
      mapFind (analyzerAfter (programOf test9Source) 1).symbols_ (identifier "add" 4).lexeme =
        some existing ∧
      (analyzerAfter (programOf test9Source) (1 + 1)).errors_ =
        (analyzerAfter (programOf test9Source) 1).errors_ ++
          [redeclarationError (identifier "add" 4) existing.line] ∧
      redeclarationError (identifier "add" 4) existing.line ∈
        (SemanticAnalyzer.analyze (programOf test9Source) SemanticAnalyzer.new).errors_ ∧
      (SemanticAnalyzer.analyze (programOf test9Source) SemanticAnalyzer.new).hadError_ = true) ∧
    (∃ existing,
      mapFind (analyzerAfter (programOf functionNameSource) 1).symbols_
        (identifier "add" 1).lexeme = some existing ∧
      (analyzerAfter (programOf functionNameSource) (1 + 1)).errors_ =
        (analyzerAfter (programOf functionNameSource) 1).errors_ ++
          [redeclarationError (identifier "add" 1) existing.line] ∧
      redeclarationError (identifier "add" 1) existing.line ∈
        (SemanticAnalyzer.analyze (programOf functionNameSource) SemanticAnalyzer.new).errors_ ∧
      (SemanticAnalyzer.analyze (programOf functionNameSource) SemanticAnalyzer.new).hadError_ =
        true) :=
  ⟨redeclaration_is_error (programOf test6Source) SemanticAnalyzer.new 0 1
      (identifier "x" 1) (identifier "x" 2) .VARIABLE .VARIABLE 0 0
      (by decide) (by decide) (by decide) (by decide),
   redeclaration_is_error (programOf test9Source) SemanticAnalyzer.new 0 1
      (identifier "add" 1) (identifier "add" 4) .FUNCTION .FUNCTION 2 1
      (by decide) (by decide) (by decide) (by decide),
   redeclaration_is_error (programOf functionNameSource) SemanticAnalyzer.new 0 1
      (identifier "add" 2) (identifier "add" 1) .FUNCTION .VARIABLE 2 0
      (by decide) (by decide) (by decide) (by decide)⟩

/-! ## C16: undeclared variables -/

/-- C16. When the walk reads or assigns a variable (a `resolve(name, VARIABLE)`)
and no TAKE of that name was visited before, also when the TAKE follows in the text
or is the declaration whose initializer holds the read, that use records an error:
the name is undefined, or it is the name of a function. The error is among the
errors of `analyze`, and `hadError()` is true. -/
theorem undeclared_use_is_error (program : Program) (a : SemanticAnalyzer) (j : Nat)
    (name : Token) (huse : (programVisits program)[j]? = some (.use name))
    (hno : ∀ v ∈ (programVisits program).take j, v.declaresVariable name.lexeme = false) :
    ∃ m, (m = undefinedError name .VARIABLE ∨ m = kindError name .FUNCTION .VARIABLE) ∧
      (analyzerAfter program (j + 1)).errors_ = (analyzerAfter program j).errors_ ++ [m] ∧
      m ∈ (SemanticAnalyzer.analyze program a).errors_ ∧
      (SemanticAnalyzer.analyze program a).hadError_ = true := by
  have hnv : ∀ sym, mapFind (analyzerAfter program j).symbols_ name.lexeme = some sym →
      sym.type = .FUNCTION :=
    foldl_noVariable _ SemanticAnalyzer.new name.lexeme hno
      (fun sym h => Option.noConfusion h)
  cases hf : mapFind (analyzerAfter program j).symbols_ name.lexeme with
  | none =>
    refine ⟨_, Or.inl rfl, error_at_reaches_analyze program a j _ _ huse ?_⟩
    show ((analyzerAfter program j).resolve name .VARIABLE).2 = _
    rw [resolve_of_none _ name _ hf]
  | some sym =>
    have ht : sym.type = .FUNCTION := hnv sym hf
    refine ⟨_, Or.inr rfl, error_at_reaches_analyze program a j _ _ huse ?_⟩
    show ((analyzerAfter program j).resolve name .VARIABLE).2 = _
    rw [resolve_of_other _ name _ sym hf (by rw [ht]; decide), ht]

/-- C16, instances: Test 7 (the read of `y` in line 1, before `TAKE y` in line 2) and
the read of `y` in the initializer of its own declaration. -/
theorem undeclared_use_is_error_witness :
    (∃ m, (m = undefinedError (identifier "y" 1) .VARIABLE ∨
        m = kindError (identifier "y" 1) .FUNCTION .VARIABLE) ∧
      (analyzerAfter (programOf test7Source) (0 + 1)).errors_ =
        (analyzerAfter (programOf test7Source) 0).errors_ ++ [m] ∧
      m ∈ (SemanticAnalyzer.analyze (programOf test7Source) SemanticAnalyzer.new).errors_ ∧
      (SemanticAnalyzer.analyze (programOf test7Source) SemanticAnalyzer.new).hadError_ = true) ∧
    (∃ m, (m = undefinedError (identifier "y" 2) .VARIABLE ∨
        m = kindError (identifier "y" 2) .FUNCTION .VARIABLE) ∧
      (analyzerAfter (programOf selfInitializerSource) (1 + 1)).errors_ =
        (analyzerAfter (programOf selfInitializerSource) 1).errors_ ++ [m] ∧
      m ∈ (SemanticAnalyzer.analyze (programOf selfInitializerSource)
        SemanticAnalyzer.new).errors_ ∧
      (SemanticAnalyzer.analyze (programOf selfInitializerSource)
        SemanticAnalyzer.new).hadError_ = true) :=
  ⟨undeclared_use_is_error (programOf test7Source) SemanticAnalyzer.new 0 (identifier "y" 1)
      (by decide) (by decide),
   undeclared_use_is_error (programOf selfInitializerSource) SemanticAnalyzer.new 1
      (identifier "y" 2) (by decide) (by decide)⟩

/-! ## C15: the callee check of a call -/

/-- What the callee check does for a built-in. -/
theorem checkCall_builtin (a : SemanticAnalyzer) (callee : Token) (k : Int)
    (hb : isBuiltin callee.lexeme = true) :
    a.checkCall callee k =
      if k ≠ getParamCount callee.lexeme then
        { a with hadError_ := true, errors_ := a.errors_ ++ [builtinArityError callee k] }
      else a := by
  unfold SemanticAnalyzer.checkCall
  rw [if_pos hb]
  rfl

/-- What the callee check does for a name that is not a built-in and is in the
symbol table as a function. -/
theorem checkCall_user (a : SemanticAnalyzer) (callee : Token) (k : Int) (symbol : Symbol)
    (hb : isBuiltin callee.lexeme = false)
    (hf : mapFind a.symbols_ callee.lexeme = some symbol) (ht : symbol.type = .FUNCTION) :
    a.checkCall callee k =
      if k ≠ symbol.paramCount then
        { a with hadError_ := true,
                 errors_ := a.errors_ ++ [arityError callee symbol.paramCount k] }
      else a := by
  unfold SemanticAnalyzer.checkCall
  rw [if_neg (by rw [hb]; decide), resolve_of_same a callee _ symbol hf ht]
  rfl

/-- C15, amended. For every call the analyzer visits: when the callee is a built-in
of registered arity p, or is not the name of a built-in and is in the symbol table
as a function of p parameters, the check records an arity error, which `analyze`
reports, if the number of arguments differs from p, and leaves the analyzer as it
was if the number equals p. -/
theorem call_arity_checked (program : Program) (a : SemanticAnalyzer) (j : Nat)
    (callee : Token) (k : Int)
    (hcall : (programVisits program)[j]? = some (.call callee k)) :
    (isBuiltin callee.lexeme = true →
      (k ≠ getParamCount callee.lexeme →
        (analyzerAfter program (j + 1)).errors_ =
          (analyzerAfter program j).errors_ ++ [builtinArityError callee k] ∧
        builtinArityError callee k ∈ (SemanticAnalyzer.analyze program a).errors_ ∧
        (SemanticAnalyzer.analyze program a).hadError_ = true) ∧
      (k = getParamCount callee.lexeme →
        analyzerAfter program (j + 1) = analyzerAfter program j)) ∧
    (isBuiltin callee.lexeme = false →
      ∀ symbol, mapFind (analyzerAfter program j).symbols_ callee.lexeme = some symbol →
        symbol.type = .FUNCTION →
        (k ≠ symbol.paramCount →
          (analyzerAfter program (j + 1)).errors_ =
            (analyzerAfter program j).errors_ ++ [arityError callee symbol.paramCount k] ∧
          arityError callee symbol.paramCount k ∈
            (SemanticAnalyzer.analyze program a).errors_ ∧
          (SemanticAnalyzer.analyze program a).hadError_ = true) ∧
        (k = symbol.paramCount → analyzerAfter program (j + 1) = analyzerAfter program j)) := by
  refine ⟨fun hb => ⟨fun hk => ?_, fun hk => ?_⟩,
    fun hb symbol hf ht => ⟨fun hk => ?_, fun hk => ?_⟩⟩
  · refine error_at_reaches_analyze program a j _ _ hcall ?_
    show (analyzerAfter program j).checkCall callee k = _
    rw [checkCall_builtin _ callee k hb, if_pos hk]
  · rw [analyzerAfter_succ program j _ hcall]
    show (analyzerAfter program j).checkCall callee k = _
    rw [checkCall_builtin _ callee k hb, if_neg (by rw [hk]; exact fun h => h rfl)]
  · refine error_at_reaches_analyze program a j _ _ hcall ?_
    show (analyzerAfter program j).checkCall callee k = _
    rw [checkCall_user _ callee k symbol hb hf ht, if_pos hk]
  · rw [analyzerAfter_succ program j _ hcall]
    show (analyzerAfter program j).checkCall callee k = _
    rw [checkCall_user _ callee k symbol hb hf ht, if_neg (by rw [hk]; exact fun h => h rfl)]

/-- C15, instance: the call `add(3)` of Test 5. -/
theorem call_arity_checked_witness :
    (isBuiltin (identifier "add" 4).lexeme = true →
      ((1 : Int) ≠ getParamCount (identifier "add" 4).lexeme →
        (analyzerAfter (programOf test5Source) (3 + 1)).errors_ =
          (analyzerAfter (programOf test5Source) 3).errors_ ++
            [builtinArityError (identifier "add" 4) 1] ∧
        builtinArityError (identifier "add" 4) 1 ∈
          (SemanticAnalyzer.analyze (programOf test5Source) SemanticAnalyzer.new).errors_ ∧
        (SemanticAnalyzer.analyze (programOf test5Source) SemanticAnalyzer.new).hadError_ =
          true) ∧
      ((1 : Int) = getParamCount (identifier "add" 4).lexeme →
        analyzerAfter (programOf test5Source) (3 + 1) =
          analyzerAfter (programOf test5Source) 3)) ∧
    (isBuiltin (identifier "add" 4).lexeme = false →
      ∀ symbol,
        mapFind (analyzerAfter (programOf test5Source) 3).symbols_
          (identifier "add" 4).lexeme = some symbol →
        symbol.type = .FUNCTION →
        ((1 : Int) ≠ symbol.paramCount →
          (analyzerAfter (programOf test5Source) (3 + 1)).errors_ =
            (analyzerAfter (programOf test5Source) 3).errors_ ++
              [arityError (identifier "add" 4) symbol.paramCount 1] ∧
          arityError (identifier "add" 4) symbol.paramCount 1 ∈
            (SemanticAnalyzer.analyze (programOf test5Source) SemanticAnalyzer.new).errors_ ∧
          (SemanticAnalyzer.analyze (programOf test5Source) SemanticAnalyzer.new).hadError_ =
            true) ∧
        ((1 : Int) = symbol.paramCount →
          analyzerAfter (programOf test5Source) (3 + 1) =
            analyzerAfter (programOf test5Source) 3)) :=
  call_arity_checked (programOf test5Source) SemanticAnalyzer.new 3 (identifier "add" 4) 1
    (by decide)

/-- C15 fails for a user function that carries the name of a built-in. In
`SCENE abs(a, b) { }  TAKE r = abs(1, 2);` the callee `abs` is in the symbol table
as a function of 2 parameters and the call has 2 arguments, yet the check records
an arity error, the one for the built-in `abs` of arity 1. -/
theorem shadowed_builtin_counterexample :
    (programVisits (programOf shadowedAbsSource))[1]? = some (.call (identifier "abs" 3) 2) ∧
    mapFind (analyzerAfter (programOf shadowedAbsSource) 1).symbols_ "abs".toList =
      some ⟨.FUNCTION, "abs".toList, 1, 2⟩ ∧
    (analyzerAfter (programOf shadowedAbsSource) 1).errors_ = [] ∧
    (analyzerAfter (programOf shadowedAbsSource) 2).errors_ =
      ["Line 3: Built-in function 'abs' expects 1 argument(s), but got 2".toList] ∧
    (SemanticAnalyzer.analyze (programOf shadowedAbsSource) SemanticAnalyzer.new).errors_ =
      ["Line 3: Built-in function 'abs' expects 1 argument(s), but got 2".toList] ∧
    (SemanticAnalyzer.analyze (programOf shadowedAbsSource) SemanticAnalyzer.new).hadError_ =
      true := by
  decide

/-! ## C18: forward references -/

theorem functionVisits_declare (ss : List Stmt) :
    ∀ v ∈ functionVisits ss, ∃ name p, v = .declare name .FUNCTION p := by
  induction ss with
  | nil => intro v hv; simp [functionVisits] at hv
  | cons s ss ih =>
    intro v hv
    cases s with
    | Function kw name parameters body =>
      simp only [functionVisits, List.mem_cons] at hv
      rcases hv with rfl | hv
      · exact ⟨name, _, rfl⟩
      · exact ih v hv
    | _ => exact ih v (by simpa [functionVisits] using hv)

/-- An operation that is not the declaration of `k` leaves `k` out of the symbol
table if it was not in it. -/
theorem apply_other_none (a : SemanticAnalyzer) (name : Token) (type : SymbolType) (p : Int)
    (k : Str) (hne : name.lexeme ≠ k) (h : mapFind a.symbols_ k = none) :
    mapFind (a.declare name type p).symbols_ k = none := by
  cases hf : mapFind a.symbols_ name.lexeme with
  | none =>
    rw [declare_of_none _ _ _ _ hf]
    show mapFind (mapSet a.symbols_ name.lexeme _) k = none
    rw [mapFind_mapSet_other _ _ _ _ hne]
    exact h
  | some existing =>
    rw [declare_of_some _ _ _ _ existing hf]
    exact h

/-- After the first pass, the first top-level function of a name is in the symbol
table with its number of parameters. -/
theorem functionVisits_entry (ss : List Stmt) (a : SemanticAnalyzer) (k : Str) (p : Int)
    (hf : functionArity k ss = some p) (h : mapFind a.symbols_ k = none) :
    ∃ symbol, mapFind ((functionVisits ss).foldl Visit.apply a).symbols_ k = some symbol ∧
      symbol.type = .FUNCTION ∧ symbol.paramCount = p := by
  induction ss generalizing a with
  | nil => simp [functionArity] at hf
  | cons s ss ih =>
    cases s with
    | Function kw name parameters body =>
      simp only [functionArity] at hf
      simp only [functionVisits, List.foldl_cons]
      by_cases hk : name.lexeme = k
      · rw [if_pos hk] at hf
        have hp : (parameters.length : Int) = p := Option.some.inj hf
        refine ⟨⟨.FUNCTION, name.lexeme, name.line, parameters.length⟩, ?_, rfl, hp⟩
        apply foldl_entry
        show mapFind (a.declare name .FUNCTION parameters.length).symbols_ k = _
        rw [← hk] at h
        rw [declare_of_none _ _ _ _ h, ← hk]
        exact mapFind_mapSet_same _ _ _
      · rw [if_neg hk] at hf
        exact ih _ hf (apply_other_none a name _ _ k hk h)
    | _ => exact ih a (by simpa [functionArity] using hf) h

/-- C18, amended. For every program and every call in it, before or after the
definition, whose callee is not the name of a built-in and is the name of a
top-level function, the first SCENE of that name having as many parameters as the
call has arguments: the callee check of the call records no error, neither an
undefined function nor an arity error, and leaves the analyzer as it was. -/
theorem forward_reference_resolves (program : Program) (j : Nat) (callee : Token) (k p : Int)
    (hcall : (programVisits program)[j]? = some (.call callee k))
    (hb : isBuiltin callee.lexeme = false)
    (hf : functionArity callee.lexeme program.statements = some p) (hk : k = p) :
    analyzerAfter program (j + 1) = analyzerAfter program j ∧
      (analyzerAfter program (j + 1)).errors_ = (analyzerAfter program j).errors_ := by
  have hlen : (functionVisits program.statements).length ≤ j := by
    by_contra hlt
    have hlt1 : j < (functionVisits program.statements).length := Nat.lt_of_not_le hlt
    have hget : (programVisits program)[j]? =
        some ((functionVisits program.statements)[j]) := by
      unfold programVisits
      rw [List.getElem?_append_left hlt1, List.getElem?_eq_getElem hlt1]
    rw [hget] at hcall
    obtain ⟨name, q, hd⟩ := functionVisits_declare program.statements _
      (List.getElem_mem hlt1)
    rw [hd] at hcall
    exact Visit.noConfusion (Option.some.inj hcall)
  obtain ⟨symbol, hs, ht, hp⟩ := functionVisits_entry program.statements SemanticAnalyzer.new
    callee.lexeme p hf rfl
  have htake : (programVisits program).take j =
      functionVisits program.statements ++
        (blockVisits program.statements).take
          (j - (functionVisits program.statements).length) := by
    unfold programVisits
    rw [List.take_append_eq_append_take, List.take_of_length_le hlen]
  have hentry : mapFind (analyzerAfter program j).symbols_ callee.lexeme = some symbol := by
    unfold analyzerAfter
    rw [htake, foldl_apply_append]
    exact foldl_entry _ _ _ _ hs
  have hstep : analyzerAfter program (j + 1) = analyzerAfter program j := by
    rw [analyzerAfter_succ program j _ hcall]
    show (analyzerAfter program j).checkCall callee k = _
    rw [checkCall_user _ callee k symbol hb hentry ht,
      if_neg (by rw [hk, hp]; exact fun h => h rfl)]
  exact ⟨hstep, by rw [hstep]⟩

/-- C18, instance: the call `twice(4)` in line 1, before `SCENE twice(n)` in line 2. -/
theorem forward_reference_resolves_witness :
    analyzerAfter (programOf forwardCallSource) (1 + 1) =
        analyzerAfter (programOf forwardCallSource) 1 ∧
      (analyzerAfter (programOf forwardCallSource) (1 + 1)).errors_ =
        (analyzerAfter (programOf forwardCallSource) 1).errors_ :=
  forward_reference_resolves (programOf forwardCallSource) 1 (identifier "twice" 1) 1 1
    (by decide) (by decide) (by decide) (by decide)

/-- C18 fails for a function that carries the name of a built-in. In
`TAKE m = max(1, 2, 3);  SCENE max(a, b, c) { SHOT 0; }` the call stands before the
definition of the top-level function `max` of 3 parameters and has 3 arguments,
yet it produces an arity error, the one for the built-in `max` of arity 2. -/
theorem forward_builtin_name_counterexample :
    functionArity "max".toList (programOf forwardMaxSource).statements = some 3 ∧
    (programVisits (programOf forwardMaxSource))[1]? = some (.call (identifier "max" 1) 3) ∧
    (analyzerAfter (programOf forwardMaxSource) 1).errors_ = [] ∧
    (analyzerAfter (programOf forwardMaxSource) 2).errors_ =
      ["Line 1: Built-in function 'max' expects 2 argument(s), but got 3".toList] ∧
    (SemanticAnalyzer.analyze (programOf forwardMaxSource) SemanticAnalyzer.new).errors_ =
      ["Line 1: Built-in function 'max' expects 2 argument(s), but got 3".toList] := by
  decide

/-! ## C17: function parameters -/

/-- C17 fails on the code. `visitFunction` walks the body of a function without
declaring its parameters, so every read of a parameter is an undefined variable.
For Test 3 and Test 8 of the analyzer's test suite, both marked "should pass",
`analyze` reports errors, and `compile` fails on them. -/
theorem parameters_are_undefined :
    (∀ (keyword name : Token) (parameters : List Token) (body : List Stmt)
        (a : SemanticAnalyzer),
      SemanticAnalyzer.visitStmt (.Function keyword name parameters body) a =
        SemanticAnalyzer.visitBlock body a) ∧
    (parseSource 64 test3Source).isSome = true ∧
    (SemanticAnalyzer.analyze (programOf test3Source) SemanticAnalyzer.new).errors_ =
      ["Line 2: Undefined variable: 'a'".toList, "Line 2: Undefined variable: 'b'".toList] ∧
    (SemanticAnalyzer.analyze (programOf test3Source) SemanticAnalyzer.new).hadError_ = true ∧
    Compiler.compile 64 test3Source Compiler.new =
      some { errors_ := ["Line 2: Undefined variable: 'a'".toList,
                         "Line 2: Undefined variable: 'b'".toList],
             bytecode_ := [], hadError_ := true } ∧
    (parseSource 64 test8Source).isSome = true ∧
    (SemanticAnalyzer.analyze (programOf test8Source) SemanticAnalyzer.new).errors_ =
      ["Line 2: Undefined variable: 'a'".toList, "Line 2: Undefined variable: 'b'".toList,
       "Line 5: Undefined variable: 'a'".toList, "Line 5: Undefined variable: 'b'".toList] ∧
    (SemanticAnalyzer.analyze (programOf test8Source) SemanticAnalyzer.new).hadError_ = true := by
  refine ⟨fun keyword name parameters body a => ?_, by decide, by decide, by decide, by decide,
    by decide, by decide, by decide⟩
  simp only [SemanticAnalyzer.visitStmt]

/-! ## C19, C20: the compiler driver -/

/-- The code generator always emits the closing `HALT:` line. -/
theorem generate_bytecode_ne_nil (program : Program) (g : CodeGenerator) :
    (generate program g).bytecode_ ≠ [] := by
  unfold generate visitProgram emit
  simp

/-- C19. For every source text that lexes and parses without error and whose
semantic analysis reports an error, `compile` returns: its result is the empty
bytecode sequence, not the code the generator would produce, `hadError()` is true,
and the errors are those of the analysis. -/
theorem semantic_error_stops_compile (fuel : Nat) (source : Str) (program : Program)
    (c : Compiler) (hparse : parseSource fuel source = some program)
    (hsem : (SemanticAnalyzer.analyze program SemanticAnalyzer.new).hadError_ = true) :
    ∃ c1, Compiler.compile fuel source c = some c1 ∧ c1.bytecode_ = [] ∧
      c1.hadError_ = true ∧
      c1.errors_ = (SemanticAnalyzer.analyze program SemanticAnalyzer.new).errors_ ∧
      c1.bytecode_ ≠ (generate program CodeGenerator.new).bytecode_ := by
  unfold parseSource at hparse
  by_cases hlex : (Lexer.tokenize source).hadError_ = true
  · rw [if_pos hlex] at hparse
    exact Option.noConfusion hparse
  · rw [if_neg hlex] at hparse
    cases hp : Parser.parse fuel (Lexer.tokenize source).tokens_ with
    | none =>
      rw [hp] at hparse
      exact Option.noConfusion hparse
    | some r =>
      obtain ⟨program1, parser⟩ := r
      rw [hp] at hparse
      by_cases hpe : parser.hadError_ = true
      · simp only [hpe, if_true] at hparse
        exact Option.noConfusion hparse
      · simp only [hpe] at hparse
        have hprog : program1 = program := Option.some.inj hparse
        subst hprog
        refine ⟨{ errors_ := (SemanticAnalyzer.analyze program1 SemanticAnalyzer.new).errors_,
                  bytecode_ := [], hadError_ := true }, ?_, rfl, rfl, rfl,
          fun h => generate_bytecode_ne_nil program1 CodeGenerator.new h.symm⟩
        unfold Compiler.compile
        simp only [hlex, hp, hpe, hsem, if_true, if_false]
        rfl

/-- C19, instances: Test 6 (a redeclared variable) and Test 5 (a call with the wrong
number of arguments). -/
theorem semantic_error_stops_compile_witness :
    (∃ c1, Compiler.compile 64 test6Source Compiler.new = some c1 ∧ c1.bytecode_ = [] ∧
      c1.hadError_ = true ∧
      c1.errors_ =
        (SemanticAnalyzer.analyze (programOf test6Source) SemanticAnalyzer.new).errors_ ∧
      c1.bytecode_ ≠ (generate (programOf test6Source) CodeGenerator.new).bytecode_) ∧
    (∃ c1, Compiler.compile 64 test5Source Compiler.new = some c1 ∧ c1.bytecode_ = [] ∧
      c1.hadError_ = true ∧
      c1.errors_ =
        (SemanticAnalyzer.analyze (programOf test5Source) SemanticAnalyzer.new).errors_ ∧
      c1.bytecode_ ≠ (generate (programOf test5Source) CodeGenerator.new).bytecode_) :=
  ⟨semantic_error_stops_compile 64 test6Source (programOf test6Source) Compiler.new rfl
      (by decide),
   semantic_error_stops_compile 64 test5Source (programOf test5Source) Compiler.new rfl
      (by decide)⟩

/-- C20 fails on the code. A diagnostic of the lexer, of the parser or of the code
generator is stored with the name of its stage in front; the diagnostics of the
semantic analysis are stored as the analyzer made them, a line number and a message
without the name of the stage. For `POUR x;` the only diagnostic is
`Line 1: Undefined variable: 'x'`. -/
theorem semantic_diagnostic_without_stage :
    Compiler.compile 64 undefinedPrintSource Compiler.new =
      some { errors_ := ["Line 1: Undefined variable: 'x'".toList], bytecode_ := [],
             hadError_ := true } ∧
    Compiler.compile 64 badCharacterSource Compiler.new =
      some { errors_ := ["Lexer: Line 1: Unexpected character: '$'".toList], bytecode_ := [],
             hadError_ := true } ∧
    Compiler.compile 64 missingSemicolonSource Compiler.new =
      some { errors_ := ["Parser: Line 1: Expected ';' after POUR statement".toList],
             bytecode_ := [], hadError_ := true } := by
  exact ⟨by decide, by decide, by decide⟩

/-! ## The lexer: what scanning one token does -/

theorem Step.refl (a : Lexer) : Lexer.Step a a :=
  ⟨Nat.le_refl _, ⟨[], by simp, fun t ht => by simp at ht⟩, fun h => h⟩

theorem Step.trans {a b c : Lexer} (h1 : Lexer.Step a b) (h2 : Lexer.Step b c) :
    Lexer.Step a c := by
  obtain ⟨l1, ⟨e1, t1, n1⟩, f1⟩ := h1
  obtain ⟨l2, ⟨e2, t2, n2⟩, f2⟩ := h2
  refine ⟨Nat.le_trans l2 l1, ⟨e1 ++ e2, by rw [t2, t1, List.append_assoc], ?_⟩,
    fun h => f2 (f1 h)⟩
  intro t ht
  rcases List.mem_append.mp ht with h | h
  · exact n1 t h
  · exact n2 t h

theorem Step.advance (a : Lexer) : Lexer.Step a a.advance := by
  unfold Lexer.advance
  cases h : a.rest with
  | nil => exact Step.refl a
  | cons c r =>
    refine ⟨?_, ⟨[], by simp, fun t ht => by simp at ht⟩, fun h => h⟩
    simp [h]

theorem Step.matchChar (a : Lexer) (c : Char) : Lexer.Step a (a.matchChar c).2 := by
  unfold Lexer.matchChar
  cases h : a.rest with
  | nil => exact Step.refl a
  | cons d r =>
    by_cases hd : d ≠ c
    · simp only [hd, if_true, ne_eq, not_false_eq_true]
      exact Step.refl a
    · simp only [hd, if_false]
      refine ⟨?_, ⟨[], by simp, fun t ht => by simp at ht⟩, fun h => h⟩
      simp [h]

theorem Step.advanceWhile (a : Lexer) (p : Char → Bool) : Lexer.Step a (a.advanceWhile p) := by
  refine ⟨?_, ⟨[], by simp [Lexer.advanceWhile], fun t ht => by simp at ht⟩, fun h => h⟩
  show (a.rest.dropWhile p).length ≤ a.rest.length
  exact (List.dropWhile_suffix p).length_le

theorem Step.addToken (a : Lexer) (type : TokenType) (h : type ≠ .END_OF_FILE) :
    Lexer.Step a (a.addToken type) :=
  ⟨Nat.le_refl _, ⟨[⟨type, a.lexeme, [], a.line_⟩], rfl,
    fun t ht => by rw [List.mem_singleton.mp ht]; exact h⟩, fun h => h⟩

theorem Step.addTokenLiteral (a : Lexer) (type : TokenType) (literal : Str)
    (h : type ≠ .END_OF_FILE) : Lexer.Step a (a.addTokenLiteral type literal) :=
  ⟨Nat.le_refl _, ⟨[⟨type, a.lexeme, literal, a.line_⟩], rfl,
    fun t ht => by rw [List.mem_singleton.mp ht]; exact h⟩, fun h => h⟩

theorem Step.error (a : Lexer) (message : Str) : Lexer.Step a (a.error message) :=
  ⟨Nat.le_refl _, ⟨[], by simp [Lexer.error], fun t ht => by simp at ht⟩, fun _ => rfl⟩

theorem Step.line (a : Lexer) (n : Int) : Lexer.Step a { a with line_ := n } :=
  ⟨Nat.le_refl _, ⟨[], by simp, fun t ht => by simp at ht⟩, fun h => h⟩

theorem Step.scanString (a : Lexer) : Lexer.Step a a.scanString := by
  unfold Lexer.scanString
  have h1 : Lexer.Step a
      { a with rest := a.rest.dropWhile (fun c => c ≠ '"'),
               lexeme := a.lexeme ++ a.rest.takeWhile (fun c => c ≠ '"'),
               line_ := a.line_ + ((a.rest.takeWhile (fun c => c ≠ '"')).count '\n' : Nat) } :=
    ⟨(List.dropWhile_suffix _).length_le, ⟨[], by simp, fun t ht => by simp at ht⟩, fun h => h⟩
  simp only []
  split
  · exact Step.trans h1 (Step.error _ _)
  · exact Step.trans h1 (Step.trans (Step.advance _)
      (Step.addTokenLiteral _ _ _ (by decide)))

theorem Step.scanNumber (a : Lexer) : Lexer.Step a a.scanNumber := by
  unfold Lexer.scanNumber
  simp only []
  split
  · exact Step.trans (Step.advanceWhile a _) (Step.trans (Step.advance _)
      (Step.trans (Step.advanceWhile _ _) (Step.trans (Step.error _ _)
        (Step.addTokenLiteral _ _ _ (by decide)))))
  · exact Step.trans (Step.advanceWhile a _) (Step.addTokenLiteral _ _ _ (by decide))

theorem mapFind_mem {α : Type} : ∀ (m : List (Str × α)) (k : Str) (v : α),
    mapFind m k = some v → v ∈ m.map Prod.snd
  | [], _, _, h => by simp [mapFind] at h
  | (k1, v1) :: m, k, v, h => by
    by_cases hk : k1 = k
    · simp only [mapFind, hk, if_true, Option.some.injEq] at h
      rw [List.map_cons, ← h]
      exact List.mem_cons_self _ _
    · simp only [mapFind, hk, if_false] at h
      rw [List.map_cons]
      exact List.mem_cons_of_mem _ (mapFind_mem m k v h)

theorem keywords_not_eof (s : Str) (type : TokenType) (h : mapFind keywords_ s = some type) :
    type ≠ .END_OF_FILE := by
  have hall : ∀ t ∈ keywords_.map Prod.snd, t ≠ TokenType.END_OF_FILE := by decide
  exact hall type (mapFind_mem _ _ _ h)

theorem Step.scanIdentifier (a : Lexer) : Lexer.Step a a.scanIdentifier := by
  unfold Lexer.scanIdentifier
  simp only []
  split
  · exact Step.trans (Step.advanceWhile a _) (Step.trans (Step.error _ _)
      (Step.addToken _ _ (by decide)))
  · split
    · rename_i type h
      exact Step.trans (Step.advanceWhile a _) (Step.addToken _ _ (keywords_not_eof _ _ h))
    · exact Step.trans (Step.advanceWhile a _) (Step.addToken _ _ (by decide))

theorem Step.ite {a x y : Lexer} (p : Prop) [Decidable p] (hx : Lexer.Step a x)
    (hy : Lexer.Step a y) : Lexer.Step a (if p then x else y) := by
  split
  · exact hx
  · exact hy

/-- Scanning one token, after its first character was consumed. -/
theorem Step.scanToken (a : Lexer) : Lexer.Step a.advance a.scanToken := by
  unfold Lexer.scanToken
  generalize a.advance = lx
  generalize a.peek = c
  lift_lets
  intro c1 lx1
  repeat' (with_reducible apply Step.ite)
  all_goals first
    | exact Step.refl _
    | exact Step.line _ _
    | exact Step.advanceWhile _ _
    | exact Step.addToken _ _ (by decide)
    | exact Step.scanNumber _
    | exact Step.scanString _
    | exact Step.scanIdentifier _
    | exact Step.trans (Step.matchChar _ _) (Step.addToken _ _ (by decide))
    | exact Step.trans (Step.matchChar _ _) (Step.trans (Step.error _ _)
        (Step.addToken _ _ (by decide)))
    | exact Step.trans (Step.error _ _) (Step.addToken _ _ (by decide))

/-! ## The lexer: the loop of `tokenize` -/

theorem advance_rest_lt (a : Lexer) (h : a.rest ≠ []) :
    a.advance.rest.length < a.rest.length := by
  unfold Lexer.advance
  cases hr : a.rest with
  | nil => exact absurd hr h
  | cons c r => simp

theorem scanToken_rest_lt (a : Lexer) (h : a.rest ≠ []) :
    a.scanToken.rest.length < a.rest.length :=
  Nat.lt_of_le_of_lt (Step.scanToken a).1 (advance_rest_lt a h)

theorem Step.start (a : Lexer) : Lexer.Step a { a with lexeme := [] } :=
  ⟨Nat.le_refl _, ⟨[], by simp, fun t ht => by simp at ht⟩, fun h => h⟩

theorem Step.turn (a : Lexer) : Lexer.Step a (Lexer.scanToken { a with lexeme := [] }) :=
  Step.trans (Step.start a) (Step.trans (Step.advance _) (Step.scanToken _))

theorem Step.tokenizeLoop (fuel : Nat) (a : Lexer) : Lexer.Step a (Lexer.tokenizeLoop fuel a) := by
  induction fuel generalizing a with
  | zero => exact Step.refl a
  | succ fuel ih =>
    rw [Lexer.tokenizeLoop]
    split
    · exact Step.refl a
    · exact Step.trans (Step.turn a) (ih _)

/-- As many turns as the input left has characters bring the loop of `tokenize` to
the end of the input. -/
theorem tokenizeLoop_rest (fuel : Nat) (a : Lexer) (h : a.rest.length ≤ fuel) :
    (Lexer.tokenizeLoop fuel a).rest = [] := by
  induction fuel generalizing a with
  | zero =>
    rw [Lexer.tokenizeLoop]
    exact List.length_eq_zero.mp (Nat.le_zero.mp h)
  | succ fuel ih =>
    rw [Lexer.tokenizeLoop]
    by_cases he : a.rest.isEmpty = true
    · rw [if_pos he]
      exact List.isEmpty_iff.mp he
    · rw [if_neg he]
      apply ih
      have hne : a.rest ≠ [] := fun h0 => he (List.isEmpty_iff.mpr h0)
      have hlt := scanToken_rest_lt { a with lexeme := [] } hne
      have hlt1 : (Lexer.scanToken { a with lexeme := [] }).rest.length < a.rest.length := hlt
      omega

/-- The whole source is scanned by `tokenize`. -/
theorem tokenize_rest (source : Str) : (Lexer.tokenize source).rest = [] := by
  unfold Lexer.tokenize
  exact tokenizeLoop_rest _ _ (Nat.le_refl _)

/-! ## C25: the end marker -/

/-- C25. For every source text, with or without lexical errors, `tokenize` scans
the whole text and the token sequence it returns is non-empty, its last token is
END_OF_FILE, and no earlier token is END_OF_FILE. -/
theorem tokens_end_with_eof (source : Str) :
    (Lexer.tokenize source).rest = [] ∧
    (Lexer.tokenize source).tokens_ ≠ [] ∧
    ((Lexer.tokenize source).tokens_.getLast?).map Token.type = some TokenType.END_OF_FILE ∧
    ∀ t ∈ (Lexer.tokenize source).tokens_.dropLast, t.type ≠ TokenType.END_OF_FILE := by
  refine ⟨tokenize_rest source, ?_, ?_, ?_⟩
  · unfold Lexer.tokenize
    simp
  · unfold Lexer.tokenize
    simp
  · obtain ⟨_, ⟨extra, he, hne⟩, _⟩ := Step.tokenizeLoop source.length
      { rest := source, lexeme := [], line_ := 1, tokens_ := [], hadError_ := false,
        errorMessage_ := [] }
    unfold Lexer.tokenize
    simp only [List.dropLast_concat]
    rw [he]
    intro t ht
    exact hne t (by simpa using ht)

/-! ## The lexer: scanning does not look at the error flag -/

theorem withError_self (a : Lexer) : a.withError a.hadError_ a.errorMessage_ = a := rfl

theorem peek_withError (a : Lexer) (e : Bool) (m : Str) : (a.withError e m).peek = a.peek := rfl

theorem advance_withError (a : Lexer) (e : Bool) (m : Str) :
    (a.withError e m).advance = a.advance.withError e m := by
  obtain ⟨rest, lexeme, line, tokens, he, em⟩ := a
  cases rest <;> rfl

theorem matchChar_withError_fst (a : Lexer) (e : Bool) (m : Str) (c : Char) :
    ((a.withError e m).matchChar c).1 = (a.matchChar c).1 := by
  obtain ⟨rest, lexeme, line, tokens, he, em⟩ := a
  cases rest with
  | nil => rfl
  | cons d r =>
    by_cases hd : d ≠ c
    · simp only [Lexer.matchChar, Lexer.withError, hd, if_true, ne_eq, not_false_eq_true]
    · simp only [Lexer.matchChar, Lexer.withError, hd, if_false]

theorem matchChar_withError_snd (a : Lexer) (e : Bool) (m : Str) (c : Char) :
    ((a.withError e m).matchChar c).2 = (a.matchChar c).2.withError e m := by
  obtain ⟨rest, lexeme, line, tokens, he, em⟩ := a
  cases rest with
  | nil => rfl
  | cons d r =>
    by_cases hd : d ≠ c
    · simp only [Lexer.matchChar, Lexer.withError, hd, if_true, ne_eq, not_false_eq_true]
    · simp only [Lexer.matchChar, Lexer.withError, hd, if_false]

theorem advanceWhile_withError (a : Lexer) (e : Bool) (m : Str) (p : Char → Bool) :
    (a.withError e m).advanceWhile p = (a.advanceWhile p).withError e m := rfl

theorem addToken_withError (a : Lexer) (e : Bool) (m : Str) (t : TokenType) :
    (a.withError e m).addToken t = (a.addToken t).withError e m := rfl

theorem addTokenLiteral_withError (a : Lexer) (e : Bool) (m : Str) (t : TokenType)
    (l : Str) : (a.withError e m).addTokenLiteral t l = (a.addTokenLiteral t l).withError e m :=
  rfl

theorem error_withError (a : Lexer) (e : Bool) (m : Str) (msg : Str) :
    (a.withError e m).error msg = a.error msg := rfl

theorem line_withError (a : Lexer) (e : Bool) (m : Str) (n : Int) :
    { a.withError e m with line_ := n } = ({ a with line_ := n } : Lexer).withError e m := rfl

theorem withError_ite (p : Prop) [Decidable p] {x y x1 y1 : Lexer}
    (hx : ∃ e m, x1 = x.withError e m) (hy : ∃ e m, y1 = y.withError e m) :
    ∃ e m, (if p then x1 else y1) = (if p then x else y).withError e m := by
  split
  · exact hx
  · exact hy

theorem scanString_withError (a : Lexer) (e : Bool) (m : Str) :
    ∃ e1 m1, (a.withError e m).scanString = a.scanString.withError e1 m1 := by
  unfold Lexer.scanString
  by_cases h : (a.rest.dropWhile (fun c => c ≠ '"')).isEmpty = true
  · exact ⟨true, _, by simp only [Lexer.withError, h, if_true]; rfl⟩
  · refine ⟨e, m, ?_⟩
    simp only [Lexer.withError, h, if_false]
    rw [show ∀ x : Lexer, ({ x with hadError_ := e, errorMessage_ := m } : Lexer) =
      x.withError e m from fun _ => rfl]
    have := advance_withError
      { a with rest := a.rest.dropWhile (fun c => c ≠ '"'),
               lexeme := a.lexeme ++ a.rest.takeWhile (fun c => c ≠ '"'),
               line_ := a.line_ + ((a.rest.takeWhile (fun c => c ≠ '"')).count '\n' : Nat) } e m
    simp only [Lexer.withError] at this ⊢
    rw [this]
    rfl

theorem scanNumber_withError (a : Lexer) (e : Bool) (m : Str) :
    ∃ e1 m1, (a.withError e m).scanNumber = a.scanNumber.withError e1 m1 := by
  unfold Lexer.scanNumber
  simp only [advanceWhile_withError, peek_withError, advance_withError, error_withError]
  have hn : ((a.advanceWhile isDigit).withError e m).peekNext = (a.advanceWhile isDigit).peekNext :=
    rfl
  rw [hn]
  split
  · exact ⟨_, _, (withError_self _).symm⟩
  · exact ⟨e, m, rfl⟩

theorem scanIdentifier_withError (a : Lexer) (e : Bool) (m : Str) :
    ∃ e1 m1, (a.withError e m).scanIdentifier = a.scanIdentifier.withError e1 m1 := by
  unfold Lexer.scanIdentifier
  simp only [advanceWhile_withError, error_withError]
  have hl : ((a.advanceWhile isAlphaNumeric).withError e m).lexeme =
      (a.advanceWhile isAlphaNumeric).lexeme := rfl
  rw [hl]
  split
  · exact ⟨_, _, (withError_self _).symm⟩
  · split
    · exact ⟨e, m, rfl⟩
    · exact ⟨e, m, rfl⟩

/-- Scanning one token does to the input, the line count and the tokens what it
would do without the error recorded so far. -/
theorem scanToken_withError (a : Lexer) (e : Bool) (m : Str) :
    ∃ e1 m1, (a.withError e m).scanToken = a.scanToken.withError e1 m1 := by
  unfold Lexer.scanToken
  simp only [peek_withError, advance_withError]
  generalize a.advance = lx
  generalize a.peek = c
  simp only [matchChar_withError_fst, matchChar_withError_snd, addToken_withError,
    error_withError, advanceWhile_withError, line_withError]
  repeat' (with_reducible apply withError_ite)
  all_goals first
    | exact ⟨e, m, rfl⟩
    | exact ⟨_, _, (withError_self _).symm⟩
    | exact scanNumber_withError _ _ _
    | exact scanString_withError _ _ _
    | exact scanIdentifier_withError _ _ _

theorem tokenizeLoop_withError (fuel : Nat) (a : Lexer) (e : Bool) (m : Str) :
    ∃ e1 m1, Lexer.tokenizeLoop fuel (a.withError e m) =
      (Lexer.tokenizeLoop fuel a).withError e1 m1 := by
  induction fuel generalizing a e m with
  | zero => exact ⟨e, m, rfl⟩
  | succ fuel ih =>
    rw [Lexer.tokenizeLoop, Lexer.tokenizeLoop]
    have hr : (a.withError e m).rest = a.rest := rfl
    by_cases he : a.rest.isEmpty = true
    · rw [if_pos (by rw [hr]; exact he), if_pos he]
      exact ⟨e, m, rfl⟩
    · rw [if_neg (by rw [hr]; exact he), if_neg he]
      show ∃ e1 m1, Lexer.tokenizeLoop fuel
        (Lexer.scanToken (({ a with lexeme := [] } : Lexer).withError e m)) = _
      obtain ⟨e1, m1, h1⟩ := scanToken_withError { a with lexeme := [] } e m
      rw [h1]
      exact ih _ e1 m1

/-! ## C22 – C24: numbers, identifiers and errors in the lexer -/

theorem takeWhile_run (p : Char → Bool) (d after : Str) (hd : ∀ c ∈ d, p c = true)
    (ha : p (after.headD '\x00') = false) :
    (d ++ after).takeWhile p = d ∧ (d ++ after).dropWhile p = after := by
  induction d with
  | nil =>
    cases after with
    | nil => simp
    | cons c r =>
      have hc : p c = false := ha
      simp [List.takeWhile, List.dropWhile, hc]
  | cons c d ih =>
    have hc : p c = true := hd c (List.mem_cons_self _ _)
    have := ih (fun x hx => hd x (List.mem_cons_of_mem _ hx))
    simp [List.takeWhile, List.dropWhile, hc, this.1, this.2]

/-- A minus sign followed by a run of digits, where a token starts: one NUMBER token. -/
theorem scanToken_minus_digits (d after : Str) (ln : Int) (ts : List Token) (e : Bool)
    (m : Str) (hd : d ≠ []) (hdig : ∀ c ∈ d, isDigit c = true)
    (hafter : isDigit (after.headD '\x00') = false)
    (hfrac : ¬(after.headD '\x00' = '.' ∧ isDigit (after.tail.headD '\x00') = true)) :
    Lexer.scanToken { rest := '-' :: (d ++ after), lexeme := [], line_ := ln, tokens_ := ts,
                      hadError_ := e, errorMessage_ := m } =
      { rest := after, lexeme := '-' :: d, line_ := ln,
        tokens_ := ts ++ [⟨.NUMBER, '-' :: d, '-' :: d, ln⟩], hadError_ := e,
        errorMessage_ := m } := by
  obtain ⟨htake, hdrop⟩ := takeWhile_run isDigit d after hdig hafter
  have hhead : isDigit ((d ++ after).headD '\x00') = true := by
    cases d with
    | nil => exact absurd rfl hd
    | cons c r => exact hdig c (List.mem_cons_self _ _)
  have hscan : Lexer.scanNumber (Lexer.mk (d ++ after) ['-'] ln ts e m) =
      Lexer.mk after ('-' :: d) ln (ts ++ [⟨.NUMBER, '-' :: d, '-' :: d, ln⟩]) e m := by
    unfold Lexer.scanNumber
    simp only [Lexer.advanceWhile, htake, hdrop, Lexer.peek, Lexer.peekNext]
    rw [if_neg hfrac]
    rfl
  unfold Lexer.scanToken
  simp only [Lexer.peek, Lexer.advance, List.headD_cons, List.nil_append]
  rw [if_neg (by decide), if_neg (by decide), if_neg (by decide), if_neg (by decide),
    if_neg (by decide), if_neg (by decide), if_neg (by decide), if_neg (by decide),
    if_neg (by decide), if_neg (by decide), if_pos trivial, if_pos hhead]
  exact hscan

/-- C22 fails on the code. A digit starts `scanNumber`, which ends at the first
character that is not a digit; the letters that follow start an identifier of their
own. The test for an identifier that starts with a digit sits in `scanIdentifier`,
which is entered on a letter or underscore only, so it never fires: for
`TAKE 123abc = 5;` (Test 11, "should error") the error flag stays clear and the
tokens are TAKE, NUMBER 123, IDENTIFIER abc, EQUAL, NUMBER 5, SEMICOLON. -/
theorem digit_then_letter_no_error :
    (Lexer.tokenize illegalIdentifierSource).hadError_ = false ∧
    (Lexer.tokenize illegalIdentifierSource).errorMessage_ = [] ∧
    (Lexer.tokenize illegalIdentifierSource).tokens_ =
      [⟨.TAKE, "TAKE".toList, [], 1⟩, ⟨.NUMBER, "123".toList, "123".toList, 1⟩,
       ⟨.IDENTIFIER, "abc".toList, [], 1⟩, ⟨.EQUAL, "=".toList, [], 1⟩,
       ⟨.NUMBER, "5".toList, "5".toList, 1⟩, ⟨.SEMICOLON, ";".toList, [], 1⟩,
       ⟨.END_OF_FILE, [], [], 1⟩] := by
  decide

/-- C23 fails on the code: after the error for `$` in `$ x;` the lexer goes on and
appends the tokens of `x` and `;`. -/
theorem tokens_after_error_counterexample :
    (Lexer.tokenize errorThenTokensSource).hadError_ = true ∧
    (Lexer.tokenize errorThenTokensSource).errorMessage_ =
      "Line 1: Unexpected character: '$'".toList ∧
    (Lexer.tokenize errorThenTokensSource).tokens_ =
      [⟨.ERROR, "$".toList, [], 1⟩, ⟨.IDENTIFIER, "x".toList, [], 1⟩,
       ⟨.SEMICOLON, ";".toList, [], 1⟩, ⟨.END_OF_FILE, [], [], 1⟩] := by
  decide

/-- C23, amended. A lexical error does not halt tokenization: `tokenize` scans
every source text to its end; from any state of the lexer the loop produces the
same tokens, lines and positions whether or not an error is recorded in that state;
and an error flag that is set is still set when the loop ends. -/
theorem error_does_not_stop_scanning :
    (∀ source : Str, (Lexer.tokenize source).rest = []) ∧
    (∀ (fuel : Nat) (a : Lexer) (e : Bool) (m : Str), ∃ e1 m1,
      Lexer.tokenizeLoop fuel (a.withError e m) =
        (Lexer.tokenizeLoop fuel a).withError e1 m1) ∧
    (∀ (fuel : Nat) (a : Lexer) (m : Str),
      (Lexer.tokenizeLoop fuel (a.withError true m)).hadError_ = true) :=
  ⟨tokenize_rest, tokenizeLoop_withError,
    fun fuel a m => (Step.tokenizeLoop fuel (a.withError true m)).2.2 rfl⟩

/-- C24, amended. For every non-empty digit string `d` that is followed neither by
a further digit nor by a point and a digit, a `-` at the start of a token and
immediately followed by `d` is scanned as one NUMBER token whose lexeme and literal
are `-` followed by `d`; no MINUS token is appended and no error is recorded,
whatever tokens precede. So `a-1` yields IDENTIFIER(a), NUMBER(-1), END_OF_FILE. -/
theorem minus_digits_is_number (d after : Str) (line : Int) (tokens : List Token)
    (e : Bool) (m : Str) (hd : d ≠ []) (hdig : ∀ c ∈ d, isDigit c = true)
    (hafter : isDigit (after.headD '\x00') = false)
    (hfrac : ¬(after.headD '\x00' = '.' ∧ isDigit (after.tail.headD '\x00') = true)) :
    Lexer.scanToken { rest := '-' :: (d ++ after), lexeme := [], line_ := line,
                      tokens_ := tokens, hadError_ := e, errorMessage_ := m } =
        { rest := after, lexeme := '-' :: d, line_ := line,
          tokens_ := tokens ++ [⟨.NUMBER, '-' :: d, '-' :: d, line⟩], hadError_ := e,
          errorMessage_ := m } ∧
      (Lexer.tokenize minusOneSource).tokens_ =
        [⟨.IDENTIFIER, "a".toList, [], 1⟩, ⟨.NUMBER, "-1".toList, "-1".toList, 1⟩,
         ⟨.END_OF_FILE, [], [], 1⟩] :=
  ⟨scanToken_minus_digits d after line tokens e m hd hdig hafter hfrac, by decide⟩

/-- C24, instance: the `-1` of `a-1`, after the token of `a`. -/
theorem minus_digits_is_number_witness :
    Lexer.scanToken { rest := '-' :: ("1".toList ++ []), lexeme := [], line_ := 1,
                      tokens_ := [⟨.IDENTIFIER, "a".toList, [], 1⟩], hadError_ := false,
                      errorMessage_ := [] } =
        { rest := [], lexeme := '-' :: "1".toList, line_ := 1,
          tokens_ := [⟨.IDENTIFIER, "a".toList, [], 1⟩] ++
            [⟨.NUMBER, '-' :: "1".toList, '-' :: "1".toList, 1⟩],
          hadError_ := false, errorMessage_ := [] } ∧
      (Lexer.tokenize minusOneSource).tokens_ =
        [⟨.IDENTIFIER, "a".toList, [], 1⟩, ⟨.NUMBER, "-1".toList, "-1".toList, 1⟩,
         ⟨.END_OF_FILE, [], [], 1⟩] :=
  minus_digits_is_number "1".toList [] 1 [⟨.IDENTIFIER, "a".toList, [], 1⟩] false []
    (by decide) (by decide) (by decide) (by decide)

/-- C24 fails on the code for a digit string followed by a point and a digit, and
for a `-` that does not start a token: `-1.5` is one NUMBER token with lexeme
`-1.5`, not `-1`, and sets the error flag; the `-1` of the comment `# -1` yields no
token at all. -/
theorem minus_fraction_counterexample :
    (Lexer.tokenize minusFractionSource).tokens_ =
      [⟨.NUMBER, "-1.5".toList, "-1.5".toList, 1⟩, ⟨.END_OF_FILE, [], [], 1⟩] ∧
    (Lexer.tokenize minusFractionSource).hadError_ = true ∧
    (Lexer.tokenize minusInCommentSource).tokens_ = [⟨.END_OF_FILE, [], [], 1⟩] := by
  decide

/-! ## C30: conditional jumps -/

/-- The JZ and JNZ branches on a non-empty stack, for a label in the table. -/
theorem execute_JZ_JNZ (vm : VM) (program : List Str) (rest : List Int) (t : Int) (L : Str)
    (i : Nat) (hstack : vm.stack = rest ++ [t]) (hL : isOperand L)
    (hlab : mapFind vm.labels L = some i) :
    execute (instr1 "JZ".toList L) program vm =
        .ok { vm with stack := rest, pc := if t = 0 then i else vm.pc + 1 } ∧
      execute (instr1 "JNZ".toList L) program vm =
        .ok { vm with stack := rest, pc := if t ≠ 0 then i else vm.pc + 1 } := by
  constructor
  · unfold execute
    rw [isEmpty_instr1, isLabelLine_instr1 _ _ hL, split_instr1 _ _ (by decide) hL.1]
    by_cases ht : t = 0
    · simp [execJZ, pop_concat _ rest t hstack, jumpTo, hlab, ht]
    · simp [execJZ, pop_concat _ rest t hstack, incPc, ht]
  · unfold execute
    rw [isEmpty_instr1, isLabelLine_instr1 _ _ hL, split_instr1 _ _ (by decide) hL.1]
    by_cases ht : t = 0
    · simp [execJNZ, pop_concat _ rest t hstack, incPc, ht]
    · simp [execJNZ, pop_concat _ rest t hstack, jumpTo, hlab, ht]

/-- C30. On a stack with top value `t`, for a label `L` that `preprocess` mapped to
index `i`: `JZ L` pops `t` and sets `pc` to `i` if `t = 0` and to `pc + 1`
otherwise; `JNZ L` pops `t` and sets `pc` to `i` if `t ≠ 0` and to `pc + 1`
otherwise; nothing else changes. -/
theorem jz_jnz_spec (vm : VM) (program : List Str) (rest : List Int) (t : Int) (L : Str)
    (i : Nat) (hstack : vm.stack = rest ++ [t]) (hL : isOperand L)
    (hlab : mapFind (preprocess program vm).labels L = some i) :
    execute (instr1 "JZ".toList L) program (preprocess program vm) =
        .ok { preprocess program vm with
                stack := rest, pc := if t = 0 then i else vm.pc + 1 } ∧
      execute (instr1 "JNZ".toList L) program (preprocess program vm) =
        .ok { preprocess program vm with
                stack := rest, pc := if t ≠ 0 then i else vm.pc + 1 } :=
  execute_JZ_JNZ (preprocess program vm) program rest t L i hstack hL hlab

/-- C30, instance: `JZ skip` and `JNZ skip` in a program whose label `skip` is at
index 2, on the stack `[5, 0]`. -/
theorem jz_jnz_spec_witness :
    execute (instr1 "JZ".toList "skip".toList) jumpProgram
        (preprocess jumpProgram { VM.new [] with stack := [5, 0] }) =
        .ok { preprocess jumpProgram { VM.new [] with stack := [5, 0] } with
                stack := [5], pc := if (0 : Int) = 0 then 2 else 0 + 1 } ∧
      execute (instr1 "JNZ".toList "skip".toList) jumpProgram
        (preprocess jumpProgram { VM.new [] with stack := [5, 0] }) =
        .ok { preprocess jumpProgram { VM.new [] with stack := [5, 0] } with
                stack := [5], pc := if (0 : Int) ≠ 0 then 2 else 0 + 1 } :=
  jz_jnz_spec { VM.new [] with stack := [5, 0] } jumpProgram [5] 0 "skip".toList 2 rfl
    (by decide) (by decide)

/-! ## C28: LOADARG -/

/-- C28 fails on the code. LOADARG tests the position `base + n` against the size of
the stack only, not against 0: after `CALL f 1` on an empty stack the frame has
base -1 and one argument, and `LOADARG 0` reads `stack[-1]`, outside the operand
stack, instead of pushing 0. Where the position is inside the stack, or at or
above its size, the instruction does what the claim says. -/
theorem loadarg_negative_position :
    stateAfter loadargProgram 2 (runInit loadargProgram (VM.new [])) =
      some { stack := [], vars := [], pc := 2, labels := [("f".toList, 1)],
             callstack := [{ return_pc := 1, prev_stack_size := -1, arg_count := 1 }],
             out := [], env := [] } ∧
    execute "LOADARG 0".toList loadargProgram
        { stack := [], vars := [], pc := 2, labels := [("f".toList, 1)],
          callstack := [{ return_pc := 1, prev_stack_size := -1, arg_count := 1 }],
          out := [], env := [] } =
      .error (Fault.out_of_bounds,
        { stack := [], vars := [], pc := 2, labels := [("f".toList, 1)],
          callstack := [{ return_pc := 1, prev_stack_size := -1, arg_count := 1 }],
          out := [], env := [] }) ∧
    run 10 loadargProgram (VM.new []) =
      .aborted Fault.out_of_bounds
        { stack := [], vars := [], pc := 2, labels := [("f".toList, 1)],
          callstack := [{ return_pc := 1, prev_stack_size := -1, arg_count := 1 }],
          out := [], env := [] } ∧
    execute "LOADARG 0".toList []
        (VM.mk [10, 20, 30] [] 0 [] [Frame.mk 1 1 2] [] []) =
      .ok (VM.mk [10, 20, 30, 20] [] 1 [] [Frame.mk 1 1 2] [] []) ∧
    execute "LOADARG 2".toList []
        (VM.mk [10, 20, 30] [] 0 [] [Frame.mk 1 1 2] [] []) =
      .ok (VM.mk [10, 20, 30, 0] [] 1 [] [Frame.mk 1 1 2] [] []) ∧
    execute "LOADARG 0".toList [] (VM.mk [10] [] 0 [] [] [] []) =
      .ok (VM.mk [10, 0] [] 1 [] [] [] []) := by
  refine ⟨by decide, rfl, by decide, rfl, rfl, rfl⟩

/-! ## C27: a stray token where a statement should start -/

theorem check_of_ne (p : Parser) (t : TokenType) (h : p.peek.type ≠ t) : p.check t = false := by
  unfold Parser.check
  split
  · rfl
  · simpa using h

theorem stray_ne (p : Parser) (hs : isStrayType p.peek.type = true) (t : TokenType)
    (ht : isStrayType t = false) : p.peek.type ≠ t := by
  intro h
  rw [h, ht] at hs
  exact Bool.noConfusion hs

theorem stray_check (p : Parser) (hs : isStrayType p.peek.type = true) (t : TokenType)
    (ht : isStrayType t = false) : p.check t = false :=
  check_of_ne p t (stray_ne p hs t ht)

theorem stray_isAtEnd (p : Parser) (hs : isStrayType p.peek.type = true) :
    p.isAtEnd = false := by
  unfold Parser.isAtEnd
  simpa using stray_ne p hs .END_OF_FILE (by decide)

theorem missing_peek (p : Parser) : p.missing.peek = p.peek := by
  unfold Parser.missing Parser.error
  split <;> rfl

theorem missing_hadError (p : Parser) : p.missing.hadError_ = true := by
  unfold Parser.missing Parser.error
  split
  · assumption
  · rfl

theorem error_of_hadError (p : Parser) (t : Token) (m : Str) (h : p.hadError_ = true) :
    p.error t m = p := by
  unfold Parser.error
  rw [if_pos h]

theorem missing_missing (p : Parser) : p.missing.missing = p.missing :=
  error_of_hadError _ _ _ (missing_hadError p)

theorem missing_stray (p : Parser) (hs : isStrayType p.peek.type = true) :
    isStrayType p.missing.peek.type = true := by
  rw [missing_peek]; exact hs

theorem missing_consume (p : Parser) (hs : isStrayType p.peek.type = true) (t : TokenType)
    (ht : isStrayType t = false) (m : Str) : (p.missing.consume t m).2 = p.missing := by
  unfold Parser.consume
  rw [stray_check _ (missing_stray p hs) t ht]
  exact error_of_hadError _ _ _ (missing_hadError p)

theorem stuck_primary (p : Parser) (hs : isStrayType p.peek.type = true) (fuel : Nat) :
    Stuck p (Parser.primary fuel p) := by
  cases fuel with
  | zero => left; rw [Parser.primary]
  | succ fuel =>
    right
    rw [Parser.primary]
    simp only [stray_check p hs .NUMBER (by decide), stray_check p hs .TRUE_KW (by decide),
      stray_check p hs .FALSE_KW (by decide), stray_check p hs .STRING (by decide),
      stray_check p hs .IDENTIFIER (by decide), stray_check p hs .LPAREN (by decide),
      Bool.false_eq_true, if_false]
    exact ⟨_, rfl⟩

theorem stuck_unary (p : Parser) (hs : isStrayType p.peek.type = true) (fuel : Nat) :
    Stuck p (Parser.unary fuel p) := by
  cases fuel with
  | zero => left; rw [Parser.unary]
  | succ fuel =>
    rw [Parser.unary]
    simp only [stray_check p hs .MINUS (by decide), Bool.false_eq_true, if_false]
    exact stuck_primary p hs fuel

theorem stuck_multiplicationLoop (p : Parser) (hs : isStrayType p.peek.type = true)
    (fuel : Nat) (e : Expr) : Stuck p (Parser.multiplicationLoop fuel e p.missing) := by
  cases fuel with
  | zero => left; rw [Parser.multiplicationLoop]
  | succ fuel =>
    right
    rw [Parser.multiplicationLoop]
    simp only [stray_check _ (missing_stray p hs) .STAR (by decide),
      stray_check _ (missing_stray p hs) .SLASH (by decide), Bool.or_self,
      Bool.false_eq_true, if_false]
    exact ⟨_, rfl⟩

theorem stuck_multiplication (p : Parser) (hs : isStrayType p.peek.type = true) (fuel : Nat) :
    Stuck p (Parser.multiplication fuel p) := by
  cases fuel with
  | zero => left; rw [Parser.multiplication]
  | succ fuel =>
    rw [Parser.multiplication]
    rcases stuck_unary p hs fuel with h | ⟨e, h⟩
    · left; rw [h]
    · rw [h]; exact stuck_multiplicationLoop p hs fuel e

theorem stuck_additionLoop (p : Parser) (hs : isStrayType p.peek.type = true)
    (fuel : Nat) (e : Expr) : Stuck p (Parser.additionLoop fuel e p.missing) := by
  cases fuel with
  | zero => left; rw [Parser.additionLoop]
  | succ fuel =>
    right
    rw [Parser.additionLoop]
    simp only [stray_check _ (missing_stray p hs) .PLUS (by decide),
      stray_check _ (missing_stray p hs) .MINUS (by decide), Bool.or_self,
      Bool.false_eq_true, if_false]
    exact ⟨_, rfl⟩

theorem stuck_addition (p : Parser) (hs : isStrayType p.peek.type = true) (fuel : Nat) :
    Stuck p (Parser.addition fuel p) := by
  cases fuel with
  | zero => left; rw [Parser.addition]
  | succ fuel =>
    rw [Parser.addition]
    rcases stuck_multiplication p hs fuel with h | ⟨e, h⟩
    · left; rw [h]
    · rw [h]; exact stuck_additionLoop p hs fuel e

theorem stuck_comparisonLoop (p : Parser) (hs : isStrayType p.peek.type = true)
    (fuel : Nat) (e : Expr) : Stuck p (Parser.comparisonLoop fuel e p.missing) := by
  cases fuel with
  | zero => left; rw [Parser.comparisonLoop]
  | succ fuel =>
    right
    rw [Parser.comparisonLoop]
    simp only [stray_check _ (missing_stray p hs) .GREATER (by decide),
      stray_check _ (missing_stray p hs) .GREATER_EQUAL (by decide),
      stray_check _ (missing_stray p hs) .LESS (by decide),
      stray_check _ (missing_stray p hs) .LESS_EQUAL (by decide),
      stray_check _ (missing_stray p hs) .EQUAL_EQUAL (by decide),
      stray_check _ (missing_stray p hs) .BANG_EQUAL (by decide), Bool.or_self,
      Bool.false_eq_true, if_false]
    exact ⟨_, rfl⟩

theorem stuck_comparison (p : Parser) (hs : isStrayType p.peek.type = true) (fuel : Nat) :
    Stuck p (Parser.comparison fuel p) := by
  cases fuel with
  | zero => left; rw [Parser.comparison]
  | succ fuel =>
    rw [Parser.comparison]
    rcases stuck_addition p hs fuel with h | ⟨e, h⟩
    · left; rw [h]
    · rw [h]; exact stuck_comparisonLoop p hs fuel e

theorem stuck_expression (p : Parser) (hs : isStrayType p.peek.type = true) (fuel : Nat) :
    Stuck p (Parser.expression fuel p) := by
  cases fuel with
  | zero => left; rw [Parser.expression]
  | succ fuel => rw [Parser.expression]; exact stuck_comparison p hs fuel

theorem stuck_assignmentStmt (p : Parser) (hs : isStrayType p.peek.type = true) (fuel : Nat) :
    Stuck p (Parser.assignmentStmt fuel p) := by
  cases fuel with
  | zero => left; rw [Parser.assignmentStmt]
  | succ fuel =>
    rw [Parser.assignmentStmt]
    simp only [stray_check p hs .IDENTIFIER (by decide), Bool.false_and, Bool.false_eq_true,
      if_false]
    rcases stuck_expression p hs fuel with h | ⟨e, h⟩
    · left; rw [h]
    · right
      rw [h]
      refine ⟨Stmt.Expression e, ?_⟩
      simp only [missing_consume p hs .SEMICOLON (by decide)]

theorem stuck_statement (p : Parser) (hs : isStrayType p.peek.type = true) (fuel : Nat) :
    Stuck p (Parser.statement fuel p) := by
  cases fuel with
  | zero => left; rw [Parser.statement]
  | succ fuel =>
    rw [Parser.statement]
    simp only [stray_check p hs .POUR (by decide), stray_check p hs .IF (by decide),
      stray_check p hs .LOOP (by decide), stray_check p hs .BREAK (by decide),
      stray_check p hs .CONTINUE (by decide), stray_check p hs .SHOT (by decide),
      stray_check p hs .LBRACE (by decide), Bool.false_eq_true, if_false]
    exact stuck_assignmentStmt p hs fuel

theorem stuck_declaration (p : Parser) (hs : isStrayType p.peek.type = true) (fuel : Nat) :
    Stuck p (Parser.declaration fuel p) := by
  cases fuel with
  | zero => left; rw [Parser.declaration]
  | succ fuel =>
    rw [Parser.declaration]
    simp only [stray_check p hs .SCENE (by decide), stray_check p hs .TAKE (by decide),
      Bool.false_eq_true, if_false]
    exact stuck_statement p hs fuel

/-- At a stray token the loop of `Parser::parse` never ends: every turn leaves the
parser at the same token. -/
theorem parseLoop_stray (fuel : Nat) : ∀ (p : Parser) (statements : List Stmt),
    isStrayType p.peek.type = true → Parser.parseLoop fuel statements p = none := by
  induction fuel with
  | zero => intro p statements _; rw [Parser.parseLoop]
  | succ fuel ih =>
    intro p statements hs
    rw [Parser.parseLoop]
    simp only [stray_isAtEnd p hs, Bool.not_false, if_true]
    rcases stuck_declaration p hs fuel with h | ⟨s, h⟩
    · rw [h]
    · rw [h]
      exact ih p.missing _ (missing_stray p hs)

theorem parse_stray (fuel : Nat) (first : Token) (rest : List Token)
    (hs : isStrayType first.type = true) : Parser.parse fuel (first :: rest) = none := by
  unfold Parser.parse
  rw [parseLoop_stray fuel
    { tokens_ := first :: rest, current_ := 0, hadError_ := false, errorMessage_ := [] } [] hs]


/-- C27 fails on the code. Where a statement should start and the token is a stray
closing bracket, `Parser::primary` records its error without consuming the token,
`consume` does not consume it either, and the loop `while (!isAtEnd())` of
`Parser::parse` comes back to the same token for ever: for the tokens of `}` and of
`)`, which end in END_OF_FILE, `parse` returns within no budget, and neither does
`compile`. -/
theorem parse_never_returns_on_stray_bracket :
    (Lexer.tokenize "\x7d".toList).tokens_ = strayBraceTokens ∧
    (Lexer.tokenize "\x7d".toList).hadError_ = false ∧
    (Lexer.tokenize ")".toList).tokens_ = strayParenTokens ∧
    (Lexer.tokenize ")".toList).hadError_ = false ∧
    (∀ fuel : Nat, Parser.parse fuel strayBraceTokens = none) ∧
    (∀ fuel : Nat, Parser.parse fuel strayParenTokens = none) ∧
    (∀ (fuel : Nat) (c : Compiler), Compiler.compile fuel "\x7d".toList c = none) ∧
    (∀ (fuel : Nat) (c : Compiler), Compiler.compile fuel ")".toList c = none) := by
  refine ⟨by decide, by decide, by decide, by decide,
    fun fuel => parse_stray fuel _ _ (by decide),
    fun fuel => parse_stray fuel _ _ (by decide), fun fuel c => ?_, fun fuel c => ?_⟩
  · have ht : (Lexer.tokenize "\x7d".toList).tokens_ = strayBraceTokens := by decide
    have he : (Lexer.tokenize "\x7d".toList).hadError_ = false := by decide
    unfold Compiler.compile
    simp only [he, ht, Bool.false_eq_true, if_false]
    rw [show Parser.parse fuel strayBraceTokens = none from parse_stray fuel _ _ (by decide)]
  · have ht : (Lexer.tokenize ")".toList).tokens_ = strayParenTokens := by decide
    have he : (Lexer.tokenize ")".toList).hadError_ = false := by decide
    unfold Compiler.compile
    simp only [he, ht, Bool.false_eq_true, if_false]
    rw [show Parser.parse fuel strayParenTokens = none from parse_stray fuel _ _ (by decide)]


/-! ## C21: printing a string literal -/

theorem splitLoop_parts (r : Str) : ∀ (parts : List Str) (cur : Str) (q : Bool),
    ∃ l, splitLoop r parts cur q = parts ++ l := by
  induction r with
  | nil =>
    intro parts cur q
    rw [splitLoop]
    split
    · exact ⟨[], by simp⟩
    · exact ⟨[cur], rfl⟩
  | cons c r ih =>
    intro parts cur q
    rw [splitLoop]
    split
    · exact ih _ _ _
    · split
      · split
        · obtain ⟨l, hl⟩ := ih (parts ++ [cur]) [] q
          exact ⟨cur :: l, by rw [hl]; simp⟩
        · exact ih _ _ _
      · exact ih _ _ _

theorem takeWhile_append_dropWhile_word (s : Str) (hq : '"' ∉ s) :
    (∀ c ∈ s.takeWhile (fun c => !isspace c), isspace c = false ∧ c ≠ '"') ∧
      (s.dropWhile (fun c => !isspace c) = [] ∨
        ∃ c r, s.dropWhile (fun c => !isspace c) = c :: r ∧ isspace c = true) := by
  constructor
  · intro c hc
    have h1 := List.mem_takeWhile_imp hc
    refine ⟨by simpa using h1, ?_⟩
    intro h
    exact hq (h ▸ (List.takeWhile_sublist _).subset hc)
  · cases hd : s.dropWhile (fun c => !isspace c) with
    | nil => exact Or.inl rfl
    | cons c r =>
      right
      refine ⟨c, r, rfl, ?_⟩
      have := List.head_dropWhile_not (fun c => !isspace c) s (by rw [hd]; simp)
      simp only [hd, List.head_cons] at this
      simpa using this

/-- The words of the line `PUSH s`: the opcode, then the first word of `s`. -/
theorem split_push (s : Str) (hq : '"' ∉ s) (hne : s ≠ [])
    (hhead : isspace (s.headD ' ') = false) :
    ∃ l, split ("PUSH ".toList ++ s) =
      "PUSH".toList :: s.takeWhile (fun c => !isspace c) :: l := by
  have h0 : split ("PUSH ".toList ++ s) = splitLoop s ["PUSH".toList] [] false := rfl
  obtain ⟨hw, hr⟩ := takeWhile_append_dropWhile_word s hq
  have hsplit : s = s.takeWhile (fun c => !isspace c) ++ s.dropWhile (fun c => !isspace c) :=
    (List.takeWhile_append_dropWhile _ _).symm
  have hwne : (s.takeWhile (fun c => !isspace c)).isEmpty = false := by
    cases s with
    | nil => exact absurd rfl hne
    | cons c r =>
      have hc : isspace c = false := hhead
      simp [List.takeWhile, hc]
  rw [h0]
  conv => enter [1, l, 1, 1]; rw [hsplit]
  simp only [splitLoop_word _ hw, List.nil_append]
  rcases hr with hnil | ⟨c, r, hcr, hc⟩
  · rw [hnil, splitLoop, hwne]
    exact ⟨[], rfl⟩
  · rw [hcr, splitLoop]
    have hcq : c ≠ '"' := by
      intro h
      rw [h] at hc
      exact absurd hc (by decide)
    simp only [hcq, if_false, hc, Bool.not_false, Bool.and_self, if_true, hwne, Bool.not_false]
    obtain ⟨l, hl⟩ := splitLoop_parts r (["PUSH".toList] ++ [s.takeWhile (fun c => !isspace c)])
      [] false
    exact ⟨l, by rw [hl]; rfl⟩

theorem stoiSign_takeWhile (p : Char → Bool) (hm : p '-' = true) (hp : p '+' = true)
    (s : Str) : (stoiSign (s.takeWhile p)).2 = (stoiSign s).2.takeWhile p := by
  cases s with
  | nil => rfl
  | cons c t =>
    by_cases h1 : c = '-'
    · subst h1
      simp [List.takeWhile, hm, stoiSign]
    · by_cases h2 : c = '+'
      · subst h2
        simp [List.takeWhile, hp, stoiSign]
      · have e1 : stoiSign (c :: t) = (false, c :: t) := by
          unfold stoiSign
          split
          · rename_i h; exact absurd (List.cons.inj h).1 h1
          · rename_i h; exact absurd (List.cons.inj h).1 h2
          · rfl
        rw [e1]
        by_cases hc : p c = true
        · have e2 : stoiSign ((c :: t).takeWhile p) = (false, (c :: t).takeWhile p) := by
            rw [List.takeWhile_cons, if_pos hc]
            unfold stoiSign
            split
            · rename_i h; exact absurd (List.cons.inj h).1 h1
            · rename_i h; exact absurd (List.cons.inj h).1 h2
            · rfl
          rw [e2]
        · rw [List.takeWhile_cons, if_neg hc]
          rfl

/-- The first word of a text that does not start like a number is not a number for
`std::stoi`. -/
theorem stoi_first_word (s : Str) (hhead : isspace (s.headD ' ') = false)
    (hnum : startsWithNumber s = false) :
    stoi (s.takeWhile (fun c => !isspace c)) = .invalid_argument := by
  have hdrop : (s.takeWhile (fun c => !isspace c)).dropWhile isspace =
      s.takeWhile (fun c => !isspace c) := by
    cases s with
    | nil => rfl
    | cons c r =>
      have hc : isspace c = false := hhead
      simp [List.takeWhile, List.dropWhile, hc]
  have hdig : ((stoiSign (s.takeWhile (fun c => !isspace c))).2.takeWhile isDigit) = [] := by
    rw [stoiSign_takeWhile _ (by decide) (by decide)]
    unfold startsWithNumber at hnum
    cases hr : (stoiSign s).2 with
    | nil => rfl
    | cons c t =>
      rw [hr] at hnum
      have hc : isDigit c = false := hnum
      by_cases hp : (!isspace c) = true
      · rw [List.takeWhile_cons, if_pos hp, List.takeWhile_cons, if_neg (by simp [hc])]
      · rw [List.takeWhile_cons, if_neg hp]
        rfl
  unfold stoi
  simp only [hdrop, hdig, List.isEmpty_nil, if_true]

theorem trimSpaces_of_trimmed (s : Str) (hhead : isspace (s.headD ' ') = false)
    (hlast : isspace (s.getLastD ' ') = false) : trimSpaces s = s := by
  unfold trimSpaces
  have h1 : s.dropWhile isspace = s := by
    cases s with
    | nil => rfl
    | cons c r =>
      have hc : isspace c = false := hhead
      simp [List.dropWhile, hc]
  rw [h1]
  have h2 : s.reverse.dropWhile isspace = s.reverse := by
    cases hr : s.reverse with
    | nil => rfl
    | cons c r =>
      have hs : s = r.reverse ++ [c] := by
        have := congrArg List.reverse hr
        simpa using this
      have hc : isspace c = false := by
        rw [hs] at hlast
        simpa using hlast
      simp [List.dropWhile, hc]
  rw [h2, List.reverse_reverse]

theorem stripQuotes_of_no_quote (s : Str) (hq : '"' ∉ s) : stripQuotes s = s := by
  unfold stripQuotes
  rw [if_neg]
  intro h
  cases s with
  | nil => simp at h
  | cons c r =>
    have : c = '"' := by simpa using h.2.1
    exact hq (this ▸ List.mem_cons_self _ _)

theorem pushLiteral_push (s word : Str) (hq : '"' ∉ s)
    (hhead : isspace (s.headD ' ') = false) (hlast : isspace (s.getLastD ' ') = false) :
    pushLiteral ("PUSH ".toList ++ s) word = s := by
  have h : pushLiteral ("PUSH ".toList ++ s) word = stripQuotes (trimSpaces s) := rfl
  rw [h, trimSpaces_of_trimmed s hhead hlast, stripQuotes_of_no_quote s hq]

theorem to_string_injective (i j : Int) (h : to_string i = to_string j) : i = j := by
  have hi := decVal_natDigits (i.natAbs + 1) i.natAbs (by omega)
  have hj := decVal_natDigits (j.natAbs + 1) j.natAbs (by omega)
  have hdi : ∀ n : Nat, natDigits (n + 1) n ≠ '-' :: natDigits (j.natAbs + 1) j.natAbs := by
    intro n hn
    have hne := natDigits_ne_nil n n
    cases hd : natDigits (n + 1) n with
    | nil => exact hne hd
    | cons c r =>
      rw [hd] at hn
      have hc : isDigit c = true := natDigits_digits (n + 1) n c (by rw [hd]; simp)
      exact (isDigit_props hc).2.2.2.1 (List.cons.inj hn).1
  have hdj : ∀ n : Nat, natDigits (n + 1) n ≠ '-' :: natDigits (i.natAbs + 1) i.natAbs := by
    intro n hn
    have hne := natDigits_ne_nil n n
    cases hd : natDigits (n + 1) n with
    | nil => exact hne hd
    | cons c r =>
      rw [hd] at hn
      have hc : isDigit c = true := natDigits_digits (n + 1) n c (by rw [hd]; simp)
      exact (isDigit_props hc).2.2.2.1 (List.cons.inj hn).1
  unfold to_string at h
  by_cases hin : i < 0
  · by_cases hjn : j < 0
    · rw [if_pos hin, if_pos hjn] at h
      have hd := congrArg decVal (List.cons.inj h).2
      rw [hi, hj] at hd
      omega
    · rw [if_pos hin, if_neg hjn] at h
      exact absurd h.symm (hdj _)
  · by_cases hjn : j < 0
    · rw [if_neg hin, if_pos hjn] at h
      exact absurd h (hdi _)
    · rw [if_neg hin, if_neg hjn] at h
      have hd := congrArg decVal h
      rw [hi, hj] at hd
      omega

theorem labelText_injective (s1 s2 : Str) (k1 k2 : Int) (h1 : s1 ∈ loopStems)
    (h2 : s2 ∈ loopStems) (h : labelText s1 k1 = labelText s2 k2) : s1 = s2 ∧ k1 = k2 := by
  simp only [loopStems, List.mem_cons, List.mem_singleton, List.not_mem_nil, or_false] at h1 h2
  rcases h1 with rfl | rfl <;> rcases h2 with rfl | rfl
  · exact ⟨rfl, to_string_injective _ _ (by simpa [labelText] using h)⟩
  · exact absurd h (by simp [labelText])
  · exact absurd h (by simp [labelText])
  · exact ⟨rfl, to_string_injective _ _ (by simpa [labelText] using h)⟩

theorem notLoopLabelLine_of_head (line : Str) (c : Char) (r : Str) (hl : line = c :: r)
    (h1 : c ≠ 'l') (h2 : c ≠ 'e') : NotLoopLabelLine line := by
  intro stem hs k h
  simp only [loopStems, List.mem_cons, List.mem_singleton, List.not_mem_nil, or_false] at hs
  rw [hl] at h
  rcases hs with rfl | rfl
  · exact h1 (by simpa [labelText] using (List.cons.inj (by simpa [labelText] using h)).1)
  · exact h2 (by simpa [labelText] using (List.cons.inj (by simpa [labelText] using h)).1)


theorem GenPlain.plain_refl (g : CodeGenerator) : GenPlain g g :=
  ⟨[], by simp, rfl, fun l hl => by simp at hl⟩

theorem GenPlain.plain_trans {g g1 g2 : CodeGenerator} (h1 : GenPlain g g1) (h2 : GenPlain g1 g2) :
    GenPlain g g2 := by
  obtain ⟨c1, b1, l1, n1⟩ := h1
  obtain ⟨c2, b2, l2, n2⟩ := h2
  refine ⟨c1 ++ c2, by rw [b2, b1, List.append_assoc], by rw [l2, l1], ?_⟩
  intro line hl
  rcases List.mem_append.mp hl with h | h
  · exact n1 line h
  · exact n2 line h

theorem GenPlain.emit (g : CodeGenerator) (line : Str) (h : NotLoopLabelLine line) :
    GenPlain g (emit g line) :=
  ⟨[line], rfl, rfl, fun l hl => by rw [List.mem_singleton.mp hl]; exact h⟩

theorem GenPlain.cgError (g : CodeGenerator) (m : Str) : GenPlain g (cgError g m) :=
  ⟨[], by simp [Cinebrew.cgError], rfl, fun l hl => by simp at hl⟩

theorem GenPlain.plain_ite {g x y : CodeGenerator} (p : Prop) [Decidable p] (hx : GenPlain g x)
    (hy : GenPlain g y) : GenPlain g (if p then x else y) := by
  split
  · exact hx
  · exact hy

theorem GenPlain.emitBinaryOp (op : Str) (g : CodeGenerator) : GenPlain g (emitBinaryOp op g) := by
  unfold Cinebrew.emitBinaryOp
  repeat' (with_reducible apply GenPlain.plain_ite)
  all_goals first
    | exact GenPlain.cgError _ _
    | exact GenPlain.emit _ _ (notLoopLabelLine_of_head _ _ _ rfl (by decide) (by decide))
    | exact GenPlain.plain_trans (GenPlain.plain_trans
        (GenPlain.emit _ _ (notLoopLabelLine_of_head _ _ _ rfl (by decide) (by decide)))
        (GenPlain.emit _ _ (notLoopLabelLine_of_head _ _ _ rfl (by decide) (by decide))))
        (GenPlain.emit _ _ (notLoopLabelLine_of_head _ _ _ rfl (by decide) (by decide)))

theorem GenPlain.emitUnaryOp (op : Str) (g : CodeGenerator) : GenPlain g (emitUnaryOp op g) := by
  unfold Cinebrew.emitUnaryOp
  repeat' (with_reducible apply GenPlain.plain_ite)
  all_goals first
    | exact GenPlain.cgError _ _
    | exact GenPlain.plain_trans
        (GenPlain.emit _ _ (notLoopLabelLine_of_head _ _ _ rfl (by decide) (by decide)))
        (GenPlain.emit _ _ (notLoopLabelLine_of_head _ _ _ rfl (by decide) (by decide)))

mutual
/-- The code of an expression holds no label line and allocates no label. -/
theorem GenPlain.visitExpr : ∀ (e : Expr) (g : CodeGenerator), GenPlain g (visitExpr e g)
  | .Literal _ value, g => by
    rw [Cinebrew.visitExpr]
    exact GenPlain.emit _ _ (notLoopLabelLine_of_head _ 'P' _ rfl (by decide) (by decide))
  | .Variable name, g => by
    rw [Cinebrew.visitExpr]
    exact GenPlain.emit _ _ (notLoopLabelLine_of_head _ 'L' _ rfl (by decide) (by decide))
  | .Binary left op right, g => by
    rw [Cinebrew.visitExpr]
    exact GenPlain.plain_trans (GenPlain.plain_trans (GenPlain.visitExpr left g)
      (GenPlain.visitExpr right _)) (GenPlain.emitBinaryOp _ _)
  | .Unary op right, g => by
    rw [Cinebrew.visitExpr]
    exact GenPlain.plain_trans (GenPlain.visitExpr right g) (GenPlain.emitUnaryOp _ _)
  | .Call callee arguments, g => by
    rw [Cinebrew.visitExpr]
    exact GenPlain.plain_trans (GenPlain.visitArguments arguments g)
      (GenPlain.emit _ _ (notLoopLabelLine_of_head _ 'C' _ rfl (by decide) (by decide)))
theorem GenPlain.visitArguments : ∀ (es : List Expr) (g : CodeGenerator),
    GenPlain g (visitArguments es g)
  | [], g => by rw [Cinebrew.visitArguments]; exact GenPlain.plain_refl g
  | arg :: rest, g => by
    rw [Cinebrew.visitArguments]
    exact GenPlain.plain_trans (GenPlain.visitExpr arg g) (GenPlain.visitArguments rest _)
end


theorem newLabel_fst (g : CodeGenerator) (stem : Str) :
    (newLabel g stem).1 = labelText stem (labelCount g stem) := rfl

theorem newLabel_bytecode (g : CodeGenerator) (stem : Str) :
    (newLabel g stem).2.bytecode_ = g.bytecode_ := rfl

theorem labelCount_newLabel_same (g : CodeGenerator) (stem : Str) :
    labelCount (newLabel g stem).2 stem = wrap32 (labelCount g stem + 1) := by
  unfold labelCount newLabel
  simp only [mapFind_mapSet_same, Option.getD_some]

theorem labelCount_newLabel_other (g : CodeGenerator) (stem other : Str) (h : stem ≠ other) :
    labelCount (newLabel g stem).2 other = labelCount g other := by
  unfold labelCount newLabel
  simp only [mapFind_mapSet_other _ _ _ _ h]

theorem labelCount_emit (g : CodeGenerator) (line stem : Str) :
    labelCount (emit g line) stem = labelCount g stem := rfl

theorem wrap32_succ (c : Int) (h0 : 0 ≤ c) (h1 : c + 1 ≤ 2147483647) : wrap32 (c + 1) = c + 1 :=
  wrap32_of_isInt32 ⟨by omega, h1⟩

theorem notLoopLabelLine_label (stem : Str) (k : Int)
    (h : stem = "else".toList ∨ stem = "end_if".toList) :
    NotLoopLabelLine (labelText stem k ++ [':']) := by
  intro s hs k1 heq
  simp only [loopStems, List.mem_cons, List.mem_singleton, List.not_mem_nil, or_false] at hs
  rcases h with rfl | rfl <;> rcases hs with rfl | rfl <;> simp [labelText] at heq

theorem notLoopLabelLine_name (name : Str) (h : ¬ isLoopLabel name) :
    NotLoopLabelLine (name ++ [':']) := by
  intro stem hs k heq
  exact h ⟨stem, hs, k, List.append_cancel_right heq⟩

theorem GenStep.of_plain {g g1 : CodeGenerator} (h : GenPlain g g1) : GenStep g g1 [] 0 := by
  obtain ⟨code, hb, hl, hn⟩ := h
  refine ⟨code, hb, ?_, ?_, fun L hL => by simp at hL⟩
  · intro stem _
    unfold labelCount
    rw [hl]
    simp
  · intro line hline stem hs k heq
    exact absurd heq (hn line hline stem hs k)

theorem GenStep.weaken {g g1 : CodeGenerator} {dead : List Str} {n m : Nat}
    (h : GenStep g g1 dead n) (hnm : n ≤ m) : GenStep g g1 dead m := by
  obtain ⟨code, hb, hc, hl, hd⟩ := h
  refine ⟨code, hb, fun stem hs => ⟨(hc stem hs).1, ?_⟩, hl, hd⟩
  have := (hc stem hs).2
  omega

theorem GenStep.seq {g g1 g2 : CodeGenerator} {d1 d2 : List Str} {n1 n2 : Nat}
    (h1 : GenStep g g1 d1 n1) (h2 : GenStep g1 g2 d2 n2) :
    GenStep g g2 (d1 ++ d2) (n1 + n2) := by
  obtain ⟨c1, hb1, hc1, hl1, hd1⟩ := h1
  obtain ⟨c2, hb2, hc2, hl2, hd2⟩ := h2
  refine ⟨c1 ++ c2, by rw [hb2, hb1, List.append_assoc], ?_, ?_, ?_⟩
  · intro stem hs
    have a := hc1 stem hs
    have b := hc2 stem hs
    constructor
    · omega
    · push_cast; omega
  · intro line hline stem hs k heq
    have a := hc1 stem hs
    have b := hc2 stem hs
    rcases List.mem_append.mp hline with h | h
    · have := hl1 line h stem hs k heq
      omega
    · have := hl2 line h stem hs k heq
      omega
  · intro L hL
    rcases List.mem_append.mp hL with h | h
    · obtain ⟨hj, hn, stem, hs, k, hk, hlo, hhi⟩ := hd1 L h
      have a := hc1 stem hs
      have b := hc2 stem hs
      refine ⟨List.mem_append_left _ hj, ?_, stem, hs, k, hk, hlo, by omega⟩
      intro hmem
      rcases List.mem_append.mp hmem with h' | h'
      · exact hn h'
      · have := hl2 _ h' stem hs k (by rw [hk])
        omega
    · obtain ⟨hj, hn, stem, hs, k, hk, hlo, hhi⟩ := hd2 L h
      have a := hc1 stem hs
      have b := hc2 stem hs
      refine ⟨List.mem_append_right _ hj, ?_, stem, hs, k, hk, by omega, hhi⟩
      intro hmem
      rcases List.mem_append.mp hmem with h' | h'
      · have := hl1 _ h' stem hs k (by rw [hk])
        omega
      · exact hn h'

/-- Appending a label line whose number lies in the range of the stretch and that is
not the label of one of its BREAKs or CONTINUEs. -/
theorem GenStep.emit_label {g g1 : CodeGenerator} {dead : List Str} {n : Nat} (line : Str)
    (h : GenStep g g1 dead n)
    (hr : ∀ stem ∈ loopStems, ∀ k : Int, line = labelText stem k ++ [':'] →
      labelCount g stem ≤ k ∧ k < labelCount g1 stem)
    (hd : ∀ L ∈ dead, line ≠ L ++ [':']) : GenStep g (emit g1 line) dead n := by
  obtain ⟨code, hb, hc, hl, hdd⟩ := h
  refine ⟨code ++ [line], by simp [Cinebrew.emit, hb], hc, ?_, ?_⟩
  · intro l hmem stem hs k heq
    rcases List.mem_append.mp hmem with h' | h'
    · exact hl l h' stem hs k heq
    · rw [List.mem_singleton.mp h'] at heq
      exact hr stem hs k heq
  · intro L hL
    obtain ⟨hj, hn, rest⟩ := hdd L hL
    refine ⟨List.mem_append_left _ hj, ?_, rest⟩
    intro hmem
    rcases List.mem_append.mp hmem with h' | h'
    · exact hn h'
    · exact hd L hL (List.mem_singleton.mp h').symm

theorem GenStep.emit_plain {g g1 : CodeGenerator} {dead : List Str} {n : Nat} (line : Str)
    (h : GenStep g g1 dead n) (hline : NotLoopLabelLine line) :
    GenStep g (emit g1 line) dead n := by
  refine GenStep.emit_label line h (fun stem hs k heq => absurd heq (hline stem hs k)) ?_
  intro L hL heq
  obtain ⟨code, _, _, _, hdd⟩ := h
  obtain ⟨_, _, stem, hs, k, hk, _⟩ := hdd L hL
  exact hline stem hs k (by rw [heq, hk])

/-- Allocating a label of a stem other than the loop stems. -/
theorem GenStep.alloc_other {g g1 : CodeGenerator} {dead : List Str} {n : Nat} (stem : Str)
    (h : GenStep g g1 dead n) (hs : stem ∉ loopStems) :
    GenStep g (newLabel g1 stem).2 dead n := by
  obtain ⟨code, hb, hc, hl, hdd⟩ := h
  have hcount : ∀ s ∈ loopStems, labelCount (newLabel g1 stem).2 s = labelCount g1 s := by
    intro s hmem
    exact labelCount_newLabel_other g1 stem s (fun he => hs (he ▸ hmem))
  refine ⟨code, by rw [newLabel_bytecode, hb], ?_, ?_, ?_⟩
  · intro s hmem
    rw [hcount s hmem]
    exact hc s hmem
  · intro line hline s hmem k heq
    rw [hcount s hmem]
    exact hl line hline s hmem k heq
  · intro L hL
    obtain ⟨hj, hn, s, hmem, k, hk, hlo, hhi⟩ := hdd L hL
    exact ⟨hj, hn, s, hmem, k, hk, hlo, by rw [hcount s hmem]; exact hhi⟩

theorem GenStep.step_refl (g : CodeGenerator) : GenStep g g [] 0 :=
  GenStep.of_plain (GenPlain.plain_refl g)

/-- The code of BREAK and of CONTINUE: a fresh label of a loop stem, and a JMP to it. -/
theorem GenStep.jump (g : CodeGenerator) (stem : Str) (hs : stem ∈ loopStems)
    (hb : ∀ s ∈ loopStems, 0 ≤ labelCount g s ∧ labelCount g s + 1 ≤ 2147483647) :
    GenStep g (emit (newLabel g stem).2 ("JMP ".toList ++ (newLabel g stem).1))
      [(newLabel g stem).1] 1 := by
  have hsame : labelCount (newLabel g stem).2 stem = labelCount g stem + 1 := by
    rw [labelCount_newLabel_same, wrap32_succ _ (hb stem hs).1 (hb stem hs).2]
  have hcount : ∀ s ∈ loopStems, labelCount g s ≤ labelCount (newLabel g stem).2 s ∧
      labelCount (newLabel g stem).2 s ≤ labelCount g s + 1 := by
    intro s _
    by_cases he : stem = s
    · subst he; rw [hsame]; omega
    · rw [labelCount_newLabel_other g stem s he]; omega
  refine ⟨["JMP ".toList ++ (newLabel g stem).1], rfl, ?_, ?_, ?_⟩
  · intro s hmem
    rw [labelCount_emit]
    exact_mod_cast hcount s hmem
  · intro line hline s hmem k heq
    rw [List.mem_singleton.mp hline] at heq
    exact absurd heq
      (notLoopLabelLine_of_head _ 'J' _ rfl (by decide) (by decide) s hmem k)
  · intro L hL
    rw [List.mem_singleton.mp hL]
    refine ⟨List.mem_singleton_self _, ?_, stem, hs, labelCount g stem, rfl, Int.le_refl _, ?_⟩
    · intro hmem
      have := congrArg List.length (List.mem_singleton.mp hmem)
      simp at this
    · rw [labelCount_emit, hsame]
      omega


theorem GenStep.count {g g1 : CodeGenerator} {dead : List Str} {n : Nat}
    (h : GenStep g g1 dead n) (stem : Str) (hs : stem ∈ loopStems) :
    labelCount g stem ≤ labelCount g1 stem ∧ labelCount g1 stem ≤ labelCount g stem + n := by
  obtain ⟨_, _, hc, _, _⟩ := h
  exact hc stem hs

theorem GenStep.dead_range {g g1 : CodeGenerator} {dead : List Str} {n : Nat}
    (h : GenStep g g1 dead n) (L : Str) (hL : L ∈ dead) :
    ∃ stem ∈ loopStems, ∃ k : Int,
      L = labelText stem k ∧ labelCount g stem ≤ k ∧ k < labelCount g1 stem := by
  obtain ⟨_, _, _, _, hd⟩ := h
  exact (hd L hL).2.2

theorem LabelRoom.next {g g1 : CodeGenerator} {dead : List Str} {n1 n2 : Nat}
    (h : GenStep g g1 dead n1) (hr : LabelRoom g (n1 + n2)) : LabelRoom g1 n2 := by
  intro stem hs
  have a := h.count stem hs
  have b := hr stem hs
  push_cast at b
  constructor <;> omega

theorem LabelRoom.room_le {g : CodeGenerator} {n m : Nat} (hr : LabelRoom g n) (h : m ≤ n) :
    LabelRoom g m := by
  intro stem hs
  have b := hr stem hs
  constructor <;> omega

/-- The head of the code of a loop: its two labels are allocated and the label line
of its start is emitted. -/
theorem GenStep.loopHead (g : CodeGenerator) (hr : LabelRoom g 1) :
    GenStep g
      (emit (newLabel (newLabel g "loop".toList).2 "end_loop".toList).2
        ((newLabel g "loop".toList).1 ++ ":".toList)) [] 1 ∧
    labelCount (newLabel (newLabel g "loop".toList).2 "end_loop".toList).2 "end_loop".toList =
      labelCount g "end_loop".toList + 1 := by
  have h1 := hr "loop".toList (by decide)
  have h2 := hr "end_loop".toList (by decide)
  have ca : labelCount (newLabel g "loop".toList).2 "loop".toList =
      labelCount g "loop".toList + 1 := by
    rw [labelCount_newLabel_same, wrap32_succ _ h1.1 (by exact_mod_cast h1.2)]
  have cb : labelCount (newLabel g "loop".toList).2 "end_loop".toList =
      labelCount g "end_loop".toList :=
    labelCount_newLabel_other _ _ _ (by decide)
  have cc : labelCount (newLabel (newLabel g "loop".toList).2 "end_loop".toList).2
      "end_loop".toList = labelCount g "end_loop".toList + 1 := by
    rw [labelCount_newLabel_same, cb, wrap32_succ _ h2.1 (by exact_mod_cast h2.2)]
  have cd : labelCount (newLabel (newLabel g "loop".toList).2 "end_loop".toList).2
      "loop".toList = labelCount g "loop".toList + 1 := by
    rw [labelCount_newLabel_other _ _ _ (by decide), ca]
  refine ⟨⟨[(newLabel g "loop".toList).1 ++ ":".toList], rfl, ?_, ?_,
    fun L hL => by simp at hL⟩, cc⟩
  · intro stem hs
    simp only [loopStems, List.mem_cons, List.mem_singleton, List.not_mem_nil, or_false] at hs
    rw [labelCount_emit]
    rcases hs with rfl | rfl
    · rw [cd]; omega
    · rw [cc]; omega
  · intro line hline stem hs k heq
    rw [List.mem_singleton.mp hline, newLabel_fst] at heq
    have hinj := labelText_injective "loop".toList stem _ k (by decide) hs
      (List.append_cancel_right heq)
    rw [labelCount_emit, ← hinj.1, ← hinj.2, cd]
    omega

mutual
/-- The code of a statement, with the labels of its BREAKs and CONTINUEs. -/
theorem genStep_stmt : ∀ (s : Stmt) (g : CodeGenerator),
    (∀ f ∈ stmtFunctions s, ¬ isLoopLabel f) → LabelRoom g (stmtSize s) →
    GenStep g (visitStmt s g) (breakLabelsStmt s g) (stmtSize s)
  | .Declaration _ name initializer, g, _, _ => by
    rw [visitStmt, breakLabelsStmt, stmtSize]
    exact ((GenStep.of_plain (GenPlain.visitExpr initializer g)).emit_plain _
      (notLoopLabelLine_of_head _ 'S' _ rfl (by decide) (by decide))).weaken (Nat.zero_le _)
  | .Assignment name value, g, _, _ => by
    rw [visitStmt, breakLabelsStmt, stmtSize]
    exact ((GenStep.of_plain (GenPlain.visitExpr value g)).emit_plain _
      (notLoopLabelLine_of_head _ 'S' _ rfl (by decide) (by decide))).weaken (Nat.zero_le _)
  | .Print _ expression, g, _, _ => by
    rw [visitStmt, breakLabelsStmt, stmtSize]
    exact ((GenStep.of_plain (GenPlain.visitExpr expression g)).emit_plain _
      (notLoopLabelLine_of_head _ 'P' _ rfl (by decide) (by decide))).weaken (Nat.zero_le _)
  | .Expression expression, g, _, _ => by
    rw [visitStmt, breakLabelsStmt, stmtSize]
    exact (GenStep.of_plain (GenPlain.visitExpr expression g)).weaken (Nat.zero_le _)
  | .Return _ (some value), g, _, _ => by
    rw [visitStmt, breakLabelsStmt, stmtSize]
    exact ((GenStep.of_plain (GenPlain.visitExpr value g)).emit_plain _
      (notLoopLabelLine_of_head _ 'R' _ rfl (by decide) (by decide))).weaken (Nat.zero_le _)
  | .Return _ none, g, _, _ => by
    rw [visitStmt, breakLabelsStmt, stmtSize]
    exact (((GenStep.step_refl g).emit_plain _
      (notLoopLabelLine_of_head _ 'P' _ rfl (by decide) (by decide))).emit_plain _
      (notLoopLabelLine_of_head _ 'R' _ rfl (by decide) (by decide))).weaken (Nat.zero_le _)
  | .Break _, g, _, hr => by
    rw [visitStmt, breakLabelsStmt, stmtSize]
    exact GenStep.jump g _ (by decide) hr
  | .Continue _, g, _, hr => by
    rw [visitStmt, breakLabelsStmt, stmtSize]
    exact GenStep.jump g _ (by decide) hr
  | .Block statements, g, hf, hr => by
    rw [visitStmt, breakLabelsStmt, stmtSize]
    rw [stmtSize] at hr
    rw [stmtFunctions] at hf
    exact (genStep_block statements g hf (hr.room_le (by omega))).weaken (by omega)
  | .Function _ name _ body, g, hf, hr => by
    rw [visitStmt, breakLabelsStmt, stmtSize]
    rw [stmtSize] at hr
    rw [stmtFunctions] at hf
    have hname : ¬ isLoopLabel name.lexeme := hf _ (List.mem_cons_self _ _)
    have h1 : GenStep g (emit g (name.lexeme ++ ":".toList)) [] 0 :=
      (GenStep.step_refl g).emit_plain _ (notLoopLabelLine_name _ hname)
    have h2 := genStep_block body (emit g (name.lexeme ++ ":".toList))
      (fun f hm => hf f (List.mem_cons_of_mem _ hm)) (LabelRoom.next h1 (hr.room_le (by omega)))
    exact (((h1.seq h2).emit_plain _
      (notLoopLabelLine_of_head _ 'P' _ rfl (by decide) (by decide))).emit_plain _
      (notLoopLabelLine_of_head _ 'R' _ rfl (by decide) (by decide))).weaken (by omega)
  | .If _ condition thenBranch elseBranch, g, hf, hr => by
    rw [visitStmt, breakLabelsStmt, stmtSize]
    rw [stmtSize] at hr
    rw [stmtFunctions] at hf
    have h1 : GenStep g
        (emit (newLabel (newLabel (visitExpr condition g) "else".toList).2 "end_if".toList).2
          ("JZ ".toList ++ (newLabel (visitExpr condition g) "else".toList).1)) [] 0 :=
      (((GenStep.of_plain (GenPlain.visitExpr condition g)).alloc_other "else".toList
        (by decide)).alloc_other "end_if".toList (by decide)).emit_plain _
        (notLoopLabelLine_of_head _ 'J' _ rfl (by decide) (by decide))
    have h2 := genStep_block thenBranch _ (fun f hm => hf f (List.mem_append_left _ hm))
      (LabelRoom.next h1 (hr.room_le (by omega)))
    have h3 := ((h1.seq h2).emit_plain
      ("JMP ".toList ++ (newLabel (newLabel (visitExpr condition g) "else".toList).2
        "end_if".toList).1)
      (notLoopLabelLine_of_head _ 'J' _ rfl (by decide) (by decide))).emit_plain
      ((newLabel (visitExpr condition g) "else".toList).1 ++ ":".toList)
      (notLoopLabelLine_label _ _ (Or.inl rfl))
    have h4 := genStep_else elseBranch _ (fun f hm => hf f (List.mem_append_right _ hm))
      (LabelRoom.next h3 (hr.room_le (by omega)))
    exact ((h3.seq h4).emit_plain _ (notLoopLabelLine_label _ _ (Or.inr rfl))).weaken
      (by omega)
  | .Loop _ condition body, g, hf, hr => by
    rw [visitStmt, breakLabelsStmt, stmtSize]
    rw [stmtSize] at hr
    rw [stmtFunctions] at hf
    obtain ⟨h1, hcount⟩ := GenStep.loopHead g (hr.room_le (by omega))
    have h2 := ((h1.seq (GenStep.of_plain (GenPlain.visitExpr condition _))).emit_plain
      ("JZ ".toList ++ (newLabel (newLabel g "loop".toList).2 "end_loop".toList).1)
      (notLoopLabelLine_of_head _ 'J' _ rfl (by decide) (by decide)))
    have h3 := genStep_block body _ hf (LabelRoom.next h2 (hr.room_le (by omega)))
    have h4 := (h2.seq h3).emit_plain ("JMP ".toList ++ (newLabel g "loop".toList).1)
      (notLoopLabelLine_of_head _ 'J' _ rfl (by decide) (by decide))
    have hend : (newLabel (newLabel g "loop".toList).2 "end_loop".toList).1 =
        labelText "end_loop".toList (labelCount g "end_loop".toList) := by
      rw [newLabel_fst, labelCount_newLabel_other _ _ _ (by decide)]
    have hc3 : labelCount g "end_loop".toList + 1 ≤
        labelCount (emit (visitExpr condition (emit (newLabel (newLabel g "loop".toList).2
          "end_loop".toList).2 ((newLabel g "loop".toList).1 ++ ":".toList)))
          ("JZ ".toList ++ (newLabel (newLabel g "loop".toList).2 "end_loop".toList).1))
          "end_loop".toList := by
      rw [labelCount_emit]
      have := (GenStep.of_plain (GenPlain.visitExpr condition (emit (newLabel (newLabel g
        "loop".toList).2 "end_loop".toList).2 ((newLabel g "loop".toList).1 ++
        ":".toList)))).count "end_loop".toList (by decide)
      rw [labelCount_emit, hcount] at this
      exact this.1
    refine (GenStep.emit_label _ h4 ?_ ?_).weaken (by omega)
    · intro stem hs k heq
      rw [hend] at heq
      have hinj := labelText_injective _ _ _ _ (by decide) hs (List.append_cancel_right heq)
      rw [← hinj.1, ← hinj.2, labelCount_emit]
      have := h3.count "end_loop".toList (by decide)
      omega
    · intro L hL heq
      rw [List.nil_append] at hL
      obtain ⟨stem, hs, k, hk, hlo, _⟩ := h3.dead_range L hL
      rw [hend, hk] at heq
      have hinj := labelText_injective _ _ _ _ (by decide) hs (List.append_cancel_right heq)
      rw [← hinj.1, ← hinj.2] at hlo
      omega
/-- The code of a block, with the labels of its BREAKs and CONTINUEs. -/
theorem genStep_block : ∀ (ss : List Stmt) (g : CodeGenerator),
    (∀ f ∈ blockFunctions ss, ¬ isLoopLabel f) → LabelRoom g (blockSize ss) →
    GenStep g (visitBlock ss g) (breakLabelsBlock ss g) (blockSize ss)
  | [], g, _, _ => by
    rw [visitBlock, breakLabelsBlock, blockSize]
    exact GenStep.step_refl g
  | stmt :: rest, g, hf, hr => by
    rw [visitBlock, breakLabelsBlock, blockSize]
    rw [blockSize] at hr
    rw [blockFunctions] at hf
    have h1 := genStep_stmt stmt g (fun f hm => hf f (List.mem_append_left _ hm))
      (hr.room_le (by omega))
    have h2 := genStep_block rest _ (fun f hm => hf f (List.mem_append_right _ hm))
      (LabelRoom.next h1 hr)
    exact h1.seq h2
/-- The code of an else branch, with the labels of its BREAKs and CONTINUEs. -/
theorem genStep_else : ∀ (b : Option (List Stmt)) (g : CodeGenerator),
    (∀ f ∈ elseFunctions b, ¬ isLoopLabel f) → LabelRoom g (elseSize b) →
    GenStep g (visitElse b g) (breakLabelsElse b g) (elseSize b)
  | none, g, _, _ => by
    rw [visitElse, breakLabelsElse, elseSize]
    exact GenStep.step_refl g
  | some block, g, hf, hr => by
    rw [visitElse, breakLabelsElse, elseSize]
    rw [elseSize] at hr
    rw [elseFunctions] at hf
    exact genStep_block block g hf hr
end


theorem isWord_append {a b : Str} (ha : isWord a) (hb : isWord b) : isWord (a ++ b) := by
  refine ⟨by simp [ha.1], ?_⟩
  intro c hc
  rcases List.mem_append.mp hc with h | h
  · exact ha.2 c h
  · exact hb.2 c h

/-- A generated loop label is an operand word. -/
theorem isOperand_labelText (stem : Str) (k : Int) (hs : stem ∈ loopStems) :
    isOperand (labelText stem k) := by
  have hk := isOperand_to_string k
  have hstem : isWord (stem ++ "_".toList) := by
    simp only [loopStems, List.mem_cons, List.mem_singleton, List.not_mem_nil, or_false] at hs
    rcases hs with rfl | rfl <;> decide
  refine ⟨isWord_append hstem hk.1, ?_⟩
  unfold labelText
  rw [List.getLast?_append_of_ne_nil _ hk.1.1]
  exact hk.2

/-- A label line is its name followed by a colon. -/
theorem eq_of_isLabelLine {line : Str} (h : isLabelLine line = true) :
    line = line.dropLast ++ [':'] := by
  have h1 : line.getLast? = some ':' := by simpa [isLabelLine] using h
  have hne : line ≠ [] := by
    intro h0; rw [h0] at h1; cases h1
  have h2 := List.dropLast_append_getLast hne
  rw [List.getLast?_eq_getLast _ hne] at h1
  rw [Option.some.inj h1] at h2
  exact h2.symm

/-- A name that no label line of a program carries has no address. -/
theorem lastLabelFrom_absent (program : List Str) (i : Nat) (name : Str)
    (h : (name ++ [':']) ∉ program) : lastLabelFrom program i name = none := by
  induction program generalizing i with
  | nil => rfl
  | cons line rest ih =>
    rw [lastLabelFrom, ih (i + 1) (fun hm => h (List.mem_cons_of_mem _ hm))]
    have hline : ¬(isLabelLine line = true ∧ line.dropLast = name) := by
      rintro ⟨h1, h2⟩
      apply h
      rw [← h2, ← eq_of_isLabelLine h1]
      exact List.mem_cons_self _ _
    simp only [hline, if_false]

/-- The branch `JMP` of `VM::execute` for a label that the table does not hold. -/
theorem execute_JMP_absent (L : Str) (hL : isOperand L) (program : List Str) (vm : VM)
    (h : mapFind vm.labels L = none) :
    execute ("JMP ".toList ++ L) program vm = .ok (incPc vm) := by
  have hform : "JMP ".toList ++ L = instr1 "JMP".toList L := rfl
  rw [hform]
  unfold execute
  rw [isEmpty_instr1, isLabelLine_instr1 _ _ hL, split_instr1 _ _ (by decide) hL.1]
  simp [execJMP, jumpTo, h]

/-- The code of a program, with the labels of its BREAKs and CONTINUEs. -/
theorem genStep_generate (program : Program) (g : CodeGenerator)
    (hf : ∀ f ∈ blockFunctions program.statements, ¬ isLoopLabel f)
    (hsize : blockSize program.statements ≤ 2147483647) :
    GenStep CodeGenerator.new (generate program g) (breakLabels program)
      (blockSize program.statements) := by
  have hroom : LabelRoom CodeGenerator.new (blockSize program.statements) := by
    intro stem _
    have h0 : labelCount CodeGenerator.new stem = 0 := rfl
    rw [h0]
    omega
  exact (genStep_block program.statements CodeGenerator.new hf hroom).emit_plain
    "HALT:".toList (notLoopLabelLine_of_head _ 'H' _ rfl (by decide) (by decide))

/-- The JMP of a BREAK or CONTINUE is in the code of the program, and its label is
defined by no line of that code. -/
theorem breakLabels_dead (program : Program) (g : CodeGenerator)
    (hf : ∀ f ∈ blockFunctions program.statements, ¬ isLoopLabel f)
    (hsize : blockSize program.statements ≤ 2147483647) (L : Str)
    (hL : L ∈ breakLabels program) :
    ("JMP ".toList ++ L) ∈ (generate program g).bytecode_ ∧
    (L ++ [':']) ∉ (generate program g).bytecode_ ∧ isOperand L := by
  obtain ⟨code, hcode, _, _, hdead⟩ := genStep_generate program g hf hsize
  have hnil : (CodeGenerator.new).bytecode_ = [] := rfl
  rw [hnil, List.nil_append] at hcode
  rw [hcode]
  obtain ⟨h1, h2, stem, hs, k, hk, _⟩ := hdead L hL
  exact ⟨h1, h2, hk ▸ isOperand_labelText stem k hs⟩

/-- C29. For a program in which no function is named like a loop label (`loop_k` or
`end_loop_k`), and which is small enough for the label counters to stay within
`int`: the JMP that the generator emits for a BREAK names the label that `newLabel`
returns for `end_loop` at that point, the JMP for a CONTINUE the one it returns for
`loop`; each such JMP is a line of the generated code, no line of that code is the
label line of its label, so the table that `preprocess` builds has no address for
it, and the VM executing the JMP in any state with that table only moves on to the
next instruction. -/
theorem break_continue_jump_falls_through (program : Program) (g : CodeGenerator)
    (hf : ∀ f ∈ blockFunctions program.statements, ¬ isLoopLabel f)
    (hsize : blockSize program.statements ≤ 2147483647) :
    (∀ (keyword : Token) (g1 : CodeGenerator),
      visitStmt (.Break keyword) g1 =
          emit (newLabel g1 "end_loop".toList).2
            ("JMP ".toList ++ (newLabel g1 "end_loop".toList).1) ∧
        breakLabelsStmt (.Break keyword) g1 = [(newLabel g1 "end_loop".toList).1] ∧
        visitStmt (.Continue keyword) g1 =
          emit (newLabel g1 "loop".toList).2
            ("JMP ".toList ++ (newLabel g1 "loop".toList).1) ∧
        breakLabelsStmt (.Continue keyword) g1 = [(newLabel g1 "loop".toList).1]) ∧
    ∀ L ∈ breakLabels program,
      ("JMP ".toList ++ L) ∈ (generate program g).bytecode_ ∧
      (L ++ [':']) ∉ (generate program g).bytecode_ ∧
      (∀ line ∈ (generate program g).bytecode_,
        ¬(isLabelLine line = true ∧ line.dropLast = L)) ∧
      ∀ vm : VM,
        mapFind (preprocess (generate program g).bytecode_ vm).labels L = none ∧
        execute ("JMP ".toList ++ L) (generate program g).bytecode_
            (preprocess (generate program g).bytecode_ vm) =
          .ok { preprocess (generate program g).bytecode_ vm with pc := vm.pc + 1 } := by
  refine ⟨fun keyword g1 => ⟨by rw [visitStmt], by rw [breakLabelsStmt], by rw [visitStmt],
    by rw [breakLabelsStmt]⟩, ?_⟩
  intro L hL
  obtain ⟨h1, h2, h3⟩ := breakLabels_dead program g hf hsize L hL
  have habsent : ∀ vm : VM,
      mapFind (preprocess (generate program g).bytecode_ vm).labels L = none := by
    intro vm
    show mapFind (preprocessLoop (generate program g).bytecode_ 0 []) L = none
    rw [mapFind_preprocessLoop, lastLabelFrom_absent _ _ _ h2]
    rfl
  refine ⟨h1, h2, ?_, fun vm => ⟨habsent vm, ?_⟩⟩
  · rintro line hline ⟨ha, hb⟩
    apply h2
    rw [← hb, ← eq_of_isLabelLine ha]
    exact hline
  · exact execute_JMP_absent L h3 _ _ (habsent vm)

/-- C29, instance: a program with a function `f` and a loop holding a BREAK and a
CONTINUE; their JMPs name `end_loop_1` and `loop_1`, the loop's own labels are
`loop_0` and `end_loop_0`. -/
theorem break_continue_jump_falls_through_witness :
    blockFunctions (programOf breakFunctionSource).statements = ["f".toList] ∧
    breakLabels (programOf breakFunctionSource) = ["end_loop_1".toList, "loop_1".toList] ∧
    ∀ L ∈ breakLabels (programOf breakFunctionSource),
      ("JMP ".toList ++ L) ∈
        (generate (programOf breakFunctionSource) CodeGenerator.new).bytecode_ ∧
      (L ++ [':']) ∉ (generate (programOf breakFunctionSource) CodeGenerator.new).bytecode_ ∧
      (∀ line ∈ (generate (programOf breakFunctionSource) CodeGenerator.new).bytecode_,
        ¬(isLabelLine line = true ∧ line.dropLast = L)) ∧
      ∀ vm : VM,
        mapFind (preprocess
          (generate (programOf breakFunctionSource) CodeGenerator.new).bytecode_ vm).labels L =
          none ∧
        execute ("JMP ".toList ++ L)
            (generate (programOf breakFunctionSource) CodeGenerator.new).bytecode_
            (preprocess (generate (programOf breakFunctionSource) CodeGenerator.new).bytecode_
              vm) =
          .ok { preprocess
                  (generate (programOf breakFunctionSource) CodeGenerator.new).bytecode_ vm with
                pc := vm.pc + 1 } :=
  ⟨by decide, by decide,
    (break_continue_jump_falls_through (programOf breakFunctionSource) CodeGenerator.new
      (by
        intro f hf
        have hfun : blockFunctions (programOf breakFunctionSource).statements = ["f".toList] := by
          decide
        rw [hfun, List.mem_singleton] at hf
        rintro ⟨stem, hs, k, hk⟩
        simp only [loopStems, List.mem_cons, List.mem_singleton, List.not_mem_nil,
          or_false] at hs
        rw [hf] at hk
        rcases hs with rfl | rfl
        · have hhead : (labelText "loop".toList k).head? = some 'l' := rfl
          have := congrArg List.head? hk
          rw [hhead] at this
          exact absurd this (by decide)
        · have hhead : (labelText "end_loop".toList k).head? = some 'e' := rfl
          have := congrArg List.head? hk
          rw [hhead] at this
          exact absurd this (by decide))
      (by decide)).2⟩

/-- C29, runs: in a loop that counts to 3, a BREAK in the middle of the body does not
end the loop (all three values are printed), and a CONTINUE in the middle of the body
does not skip the rest of it (all three values are printed). -/
theorem break_continue_runs :
    (generate (programOf breakRunSource) CodeGenerator.new).bytecode_ =
      ["PUSH 0".toList, "STORE i".toList, "loop_0:".toList, "LOAD i".toList, "PUSH 3".toList,
       "LT".toList, "JZ end_loop_0".toList, "LOAD i".toList, "PRINT".toList,
       "JMP end_loop_1".toList, "LOAD i".toList, "PUSH 1".toList, "ADD".toList,
       "STORE i".toList, "JMP loop_0".toList, "end_loop_0:".toList, "HALT:".toList] ∧
    (∃ vm, run 100 (generate (programOf breakRunSource) CodeGenerator.new).bytecode_
        (VM.new []) = .finished vm ∧ vm.out = ["0".toList, "1".toList, "2".toList]) ∧
    (∃ vm, run 100 (generate (programOf continueRunSource) CodeGenerator.new).bytecode_
        (VM.new []) = .finished vm ∧ vm.out = ["1".toList, "2".toList, "3".toList]) := by
  refine ⟨by decide, ⟨_, by rfl, by decide⟩, ⟨_, by rfl, by decide⟩⟩

/-! ## C26: precedence and associativity -/

theorem Parser.peek_eq (p : Parser) :
    p.peek = p.input.headD (Token.mk3 .END_OF_FILE [] 0) := by
  unfold Parser.peek Parser.input
  rw [List.headD_eq_head?_getD, List.head?_drop, List.getD_eq_getElem?_getD]

theorem Parser.peek_type (p : Parser) : p.peek.type = nextType p.input := by
  rw [Parser.peek_eq]; rfl

theorem Parser.check_eq (p : Parser) (type : TokenType) :
    p.check type =
      (decide (nextType p.input ≠ .END_OF_FILE) && decide (nextType p.input = type)) := by
  unfold Parser.check Parser.isAtEnd
  rw [Parser.peek_type]
  by_cases h : nextType p.input = .END_OF_FILE <;> simp [h]

theorem Parser.check_cons (p : Parser) (t : Token) (r : List Token) (type : TokenType)
    (h : p.input = t :: r) (ht : t.type ≠ .END_OF_FILE) :
    p.check type = decide (t.type = type) := by
  rw [Parser.check_eq, h]
  simp [nextType, ht]

theorem Parser.check_false (p : Parser) (type : TokenType) (h : nextType p.input ≠ type) :
    p.check type = false := by
  rw [Parser.check_eq]
  simp [h]

theorem Parser.advance_cons (p : Parser) (t : Token) (r : List Token)
    (h : p.input = t :: r) (ht : t.type ≠ .END_OF_FILE) : p.advance = p.skip 1 := by
  unfold Parser.advance Parser.isAtEnd
  rw [Parser.peek_type, h]
  simp [nextType, ht, Parser.skip]

theorem Parser.previous_skip (p : Parser) (t : Token) (r : List Token)
    (h : p.input = t :: r) : (p.skip 1).previous = t := by
  have hp := Parser.peek_eq p
  rw [h] at hp
  unfold Parser.previous Parser.skip
  simpa [Parser.peek] using hp

theorem Parser.input_skip (p : Parser) (ts rest : List Token) (h : p.input = ts ++ rest) :
    (p.skip ts.length).input = rest := by
  unfold Parser.input Parser.skip at *
  show List.drop (p.current_ + ts.length) p.tokens_ = rest
  rw [← List.drop_drop, h, List.drop_left]

theorem Parser.input_skip_one (p : Parser) (t : Token) (r : List Token)
    (h : p.input = t :: r) : (p.skip 1).input = r :=
  Parser.input_skip p [t] r h

theorem Parser.skip_skip (p : Parser) (a b : Nat) : (p.skip a).skip b = p.skip (a + b) := by
  unfold Parser.skip
  simp [Nat.add_assoc]

theorem stops_succ (k : Nat) (type : TokenType) (h : stops k type = true) :
    stops (k + 1) type = true := by
  unfold stops at *
  cases hl : opLevel type with
  | none => simpa [hl] using h
  | some j =>
    simp only [hl, Bool.and_eq_true, decide_eq_true_eq] at h ⊢
    exact ⟨h.1, by omega⟩

theorem stops_of_le {k j : Nat} (type : TokenType) (hkj : k ≤ j) (h : stops k type = true) :
    stops j type = true := by
  induction hkj with
  | refl => exact h
  | step _ ih => exact stops_succ _ _ ih

theorem stops_operator (k : Nat) (type : TokenType) (h : opLevel type = some k) :
    stops (k + 1) type = true := by
  have hne : type ≠ .LPAREN := by
    intro h0; rw [h0] at h; cases h
  simp [stops, h, hne]

theorem operator_not_eof (k : Nat) (type : TokenType) (h : opLevel type = some k) :
    type ≠ .END_OF_FILE := by
  intro h0; rw [h0] at h; cases h

/-- A level parses what its next level parses, and goes on with its loop. -/
theorem IsLevel.enters {k : Nat} {f next : Nat → Parser → Option (Expr × Parser)}
    {loop : Nat → Expr → Parser → Option (Expr × Parser)} (hl : IsLevel k f next loop)
    {ts : List Token} {e : Expr} (h : ParsesAt next (k + 1) ts e) :
    EntersLoop f loop k ts e := by
  intro p rest hin hstop e1 p1 hloop
  obtain ⟨N1, h1⟩ := h p rest hin hstop
  obtain ⟨N2, h2⟩ := hloop
  refine ⟨max N1 N2 + 1, fun fuel hf => ?_⟩
  obtain ⟨g, rfl⟩ : ∃ g, fuel = g + 1 := ⟨fuel - 1, by omega⟩
  rw [hl.1, h1 g (by omega)]
  exact h2 g (by omega)

/-- A level returns the tree its loop is entered with when a token that ends the level
follows. -/
theorem IsLevel.parses {k : Nat} {f next : Nat → Parser → Option (Expr × Parser)}
    {loop : Nat → Expr → Parser → Option (Expr × Parser)} (hl : IsLevel k f next loop)
    {ts : List Token} {e : Expr} (h : EntersLoop f loop k ts e) : ParsesAt f k ts e := by
  intro p rest hin hstop
  refine h p rest hin (stops_succ _ _ hstop) _ _ ⟨1, fun fuel hf => ?_⟩
  obtain ⟨g, rfl⟩ : ∃ g, fuel = g + 1 := ⟨fuel - 1, by omega⟩
  exact hl.2.1 g e _ (by rw [Parser.input_skip p ts rest hin]; exact hstop)

/-- Left associativity: after a left operand of the level, an operator of the level and
a right operand of the next level, the loop goes on with the binary node of the
two. -/
theorem IsLevel.binary {k : Nat} {f next : Nat → Parser → Option (Expr × Parser)}
    {loop : Nat → Expr → Parser → Option (Expr × Parser)} (hl : IsLevel k f next loop)
    {tl tr : List Token} {l r : Expr} {op : Token} (hop : opLevel op.type = some k)
    (hleft : EntersLoop f loop k tl l) (hright : ParsesAt next (k + 1) tr r) :
    EntersLoop f loop k (tl ++ op :: tr) (.Binary l op r) := by
  intro p rest hin hstop e1 p1 hloop
  have hin1 : p.input = tl ++ (op :: tr ++ rest) := by
    rw [hin]; simp
  have hin2 : (p.skip tl.length).input = op :: (tr ++ rest) := by
    rw [Parser.input_skip p tl _ hin1]; rfl
  have hin3 : ((p.skip tl.length).skip 1).input = tr ++ rest :=
    Parser.input_skip_one _ _ _ hin2
  refine hleft p _ hin1 (stops_operator k _ hop) e1 p1 ?_
  obtain ⟨N1, h1⟩ := hright _ rest hin3 hstop
  obtain ⟨N2, h2⟩ := hloop
  refine ⟨max N1 N2 + 1, fun fuel hf => ?_⟩
  obtain ⟨g, rfl⟩ : ∃ g, fuel = g + 1 := ⟨fuel - 1, by omega⟩
  show loop (g + 1) l (p.skip tl.length) = some (e1, p1)
  rw [hl.2.2 g l _ op _ hin2 hop, h1 g (by omega)]
  have hpos : ((p.skip tl.length).skip 1).skip tr.length =
      p.skip (tl ++ op :: tr).length := by
    rw [Parser.skip_skip, Parser.skip_skip]
    congr 1
    simp only [List.length_append, List.length_cons]
    omega
  show loop g (.Binary l op r) (((p.skip tl.length).skip 1).skip tr.length) = some (e1, p1)
  rw [hpos]
  exact h2 g (by omega)


theorem isLevel_comparison :
    IsLevel 0 Parser.comparison Parser.addition Parser.comparisonLoop := by
  refine ⟨fun fuel p => by rw [Parser.comparison], fun fuel e p hstop => ?_,
    fun fuel e p op r hin hop => ?_⟩
  · rw [Parser.comparisonLoop]
    simp only [Parser.check_eq]
    generalize nextType p.input = t at hstop
    cases t <;> first | rfl | (exact absurd hstop (by decide))
  · have hne := operator_not_eof 0 _ hop
    rw [Parser.comparisonLoop]
    simp only [Parser.check_cons p op r _ hin hne, Parser.advance_cons p op r hin hne,
      Parser.previous_skip p op r hin]
    generalize op.type = t at hop
    cases t <;> first | rfl | (exact absurd hop (by decide))

theorem isLevel_addition :
    IsLevel 1 Parser.addition Parser.multiplication Parser.additionLoop := by
  refine ⟨fun fuel p => by rw [Parser.addition], fun fuel e p hstop => ?_,
    fun fuel e p op r hin hop => ?_⟩
  · rw [Parser.additionLoop]
    simp only [Parser.check_eq]
    generalize nextType p.input = t at hstop
    cases t <;> first | rfl | (exact absurd hstop (by decide))
  · have hne := operator_not_eof 1 _ hop
    rw [Parser.additionLoop]
    simp only [Parser.check_cons p op r _ hin hne, Parser.advance_cons p op r hin hne,
      Parser.previous_skip p op r hin]
    generalize op.type = t at hop
    cases t <;> first | rfl | (exact absurd hop (by decide))

theorem isLevel_multiplication :
    IsLevel 2 Parser.multiplication Parser.unary Parser.multiplicationLoop := by
  refine ⟨fun fuel p => by rw [Parser.multiplication], fun fuel e p hstop => ?_,
    fun fuel e p op r hin hop => ?_⟩
  · rw [Parser.multiplicationLoop]
    simp only [Parser.check_eq]
    generalize nextType p.input = t at hstop
    cases t <;> first | rfl | (exact absurd hstop (by decide))
  · have hne := operator_not_eof 2 _ hop
    rw [Parser.multiplicationLoop]
    simp only [Parser.check_cons p op r _ hin hne, Parser.advance_cons p op r hin hne,
      Parser.previous_skip p op r hin]
    generalize op.type = t at hop
    cases t <;> first | rfl | (exact absurd hop (by decide))


theorem parsesAt_literal (t : Token) (ht : (Phrase.literal t).wf = true) :
    ParsesAt Parser.primary 4 [t] (Phrase.literal t).toExpr := by
  intro p rest hin hstop
  refine ⟨1, fun fuel hf => ?_⟩
  obtain ⟨g, rfl⟩ : ∃ g, fuel = g + 1 := ⟨fuel - 1, by omega⟩
  rw [Phrase.wf] at ht
  have hne : t.type ≠ .END_OF_FILE := by
    intro h; rw [h] at ht; exact absurd ht (by decide)
  show Parser.primary (g + 1) p = some ((Phrase.literal t).toExpr, p.skip 1)
  rw [Parser.primary, Phrase.toExpr]
  simp only [Parser.check_cons p t rest _ hin hne, Parser.advance_cons p t rest hin hne,
    Parser.previous_skip p t rest hin]
  generalize t.type = ty at ht ⊢
  cases ty <;> first | rfl | exact absurd ht (by decide)

theorem parsesAt_variable (n : Token) (hn : n.type = .IDENTIFIER) :
    ParsesAt Parser.primary 4 [n] (.Variable n) := by
  intro p rest hin hstop
  refine ⟨1, fun fuel hf => ?_⟩
  obtain ⟨g, rfl⟩ : ∃ g, fuel = g + 1 := ⟨fuel - 1, by omega⟩
  have hne : n.type ≠ .END_OF_FILE := by rw [hn]; decide
  have hnext : nextType (p.skip 1).input ≠ .LPAREN := by
    rw [Parser.input_skip_one p n rest hin]
    intro h; rw [h] at hstop; exact absurd hstop (by decide)
  show Parser.primary (g + 1) p = some (.Variable n, p.skip 1)
  rw [Parser.primary]
  simp only [Parser.check_cons p n rest _ hin hne, Parser.advance_cons p n rest hin hne,
    Parser.previous_skip p n rest hin, Parser.check_false _ _ hnext, hn]
  rfl

theorem consume_cons (p : Parser) (t : Token) (r : List Token) (message : Str)
    (h : p.input = t :: r) (ht : t.type = .RPAREN) :
    (p.consume .RPAREN message).2 = p.skip 1 := by
  have hne : t.type ≠ .END_OF_FILE := by rw [ht]; decide
  unfold Parser.consume
  rw [Parser.check_cons p t r _ h hne, Parser.advance_cons p t r h hne]
  simp [ht]

theorem parsesAt_group (lp rp : Token) (ts : List Token) (e : Expr)
    (hlp : lp.type = .LPAREN) (hrp : rp.type = .RPAREN)
    (h : ParsesAt Parser.comparison 0 ts e) :
    ParsesAt Parser.primary 4 (lp :: (ts ++ [rp])) e := by
  intro p rest hin hstop
  have hin0 : p.input = lp :: (ts ++ rp :: rest) := by rw [hin]; simp
  have hne : lp.type ≠ .END_OF_FILE := by rw [hlp]; decide
  have hin1 : (p.skip 1).input = ts ++ rp :: rest := Parser.input_skip_one p lp _ hin0
  have hin2 : ((p.skip 1).skip ts.length).input = rp :: rest :=
    Parser.input_skip _ ts _ hin1
  obtain ⟨N, hN⟩ := h (p.skip 1) (rp :: rest) hin1 (by
    show stops 0 rp.type = true
    rw [hrp]; decide)
  refine ⟨N + 2, fun fuel hf => ?_⟩
  obtain ⟨g, rfl⟩ : ∃ g, fuel = g + 2 := ⟨fuel - 2, by omega⟩
  rw [Parser.primary]
  simp only [Parser.check_cons p lp _ _ hin0 hne, Parser.advance_cons p lp _ hin0 hne, hlp]
  rw [Parser.expression, hN g (by omega)]
  simp only [decide_False, decide_True, if_true, Bool.false_eq_true, if_false, reduceCtorEq]
  rw [consume_cons _ rp rest _ hin2 hrp, Parser.skip_skip, Parser.skip_skip]
  congr 3
  simp only [List.length_cons, List.length_append, List.length_nil]
  omega

theorem parsesAt_call0 (callee lp rp : Token) (hc : callee.type = .IDENTIFIER)
    (hlp : lp.type = .LPAREN) (hrp : rp.type = .RPAREN) :
    ParsesAt Parser.primary 4 [callee, lp, rp] (.Call callee []) := by
  intro p rest hin hstop
  have hin0 : p.input = callee :: lp :: rp :: rest := by rw [hin]; rfl
  have hne : callee.type ≠ .END_OF_FILE := by rw [hc]; decide
  have hne1 : lp.type ≠ .END_OF_FILE := by rw [hlp]; decide
  have hne2 : rp.type ≠ .END_OF_FILE := by rw [hrp]; decide
  have hin1 : (p.skip 1).input = lp :: rp :: rest := Parser.input_skip_one p callee _ hin0
  have hin2 : ((p.skip 1).skip 1).input = rp :: rest := Parser.input_skip_one _ lp _ hin1
  refine ⟨2, fun fuel hf => ?_⟩
  obtain ⟨g, rfl⟩ : ∃ g, fuel = g + 2 := ⟨fuel - 2, by omega⟩
  rw [Parser.primary]
  simp only [Parser.check_cons p callee _ _ hin0 hne, Parser.advance_cons p callee _ hin0 hne,
    Parser.check_cons _ lp _ _ hin1 hne1, Parser.advance_cons _ lp _ hin1 hne1,
    Parser.previous_skip p callee _ hin0, hc, hlp]
  simp only [decide_False, decide_True, if_true, Bool.false_eq_true, if_false, reduceCtorEq]
  rw [Parser.finishCall, Parser.check_cons _ rp _ _ hin2 hne2, hrp,
    consume_cons _ rp rest _ hin2 hrp]
  simp only [decide_True, Bool.not_true, Bool.false_eq_true, if_false, Parser.skip_skip]
  rfl

theorem parsesAt_call (callee lp rp : Token) (ts : List Token) (es : List Expr) (n : Nat)
    (hc : callee.type = .IDENTIFIER) (hlp : lp.type = .LPAREN) (hrp : rp.type = .RPAREN)
    (hn : n ≤ 255) (hstart : nextType (ts ++ [rp]) ≠ .RPAREN)
    (h : ArgumentsParse ts es n) :
    ParsesAt Parser.primary 4 (callee :: lp :: (ts ++ [rp])) (.Call callee es) := by
  intro p rest hin hstop
  have hin0 : p.input = callee :: lp :: (ts ++ rp :: rest) := by rw [hin]; simp
  have hne : callee.type ≠ .END_OF_FILE := by rw [hc]; decide
  have hne1 : lp.type ≠ .END_OF_FILE := by rw [hlp]; decide
  have hin1 : (p.skip 1).input = lp :: (ts ++ rp :: rest) :=
    Parser.input_skip_one p callee _ hin0
  have hin2 : ((p.skip 1).skip 1).input = ts ++ rp :: rest :=
    Parser.input_skip_one _ lp _ hin1
  have hin3 : (((p.skip 1).skip 1).skip ts.length).input = rp :: rest :=
    Parser.input_skip _ ts _ hin2
  have hfirst : nextType ((p.skip 1).skip 1).input ≠ .RPAREN := by
    rw [hin2]
    cases ts with
    | nil => exact absurd (by simpa [nextType] using hrp) hstart
    | cons t r => simpa [nextType] using hstart
  obtain ⟨N, hN⟩ := h _ (rp :: rest) [] hin2 hrp (by simpa using hn)
  refine ⟨N + 2, fun fuel hf => ?_⟩
  obtain ⟨g, rfl⟩ : ∃ g, fuel = g + 2 := ⟨fuel - 2, by omega⟩
  rw [Parser.primary]
  simp only [Parser.check_cons p callee _ _ hin0 hne, Parser.advance_cons p callee _ hin0 hne,
    Parser.check_cons _ lp _ _ hin1 hne1, Parser.advance_cons _ lp _ hin1 hne1,
    Parser.previous_skip p callee _ hin0, hc, hlp]
  simp only [decide_False, decide_True, if_true, Bool.false_eq_true, if_false, reduceCtorEq]
  rw [Parser.finishCall, Parser.check_false _ _ hfirst]
  simp only [Bool.not_false, if_true]
  have hN1 := hN g (by omega)
  simp only [List.nil_append] at hN1
  rw [hN1]
  simp only []
  rw [consume_cons _ rp rest _ hin3 hrp, Parser.skip_skip, Parser.skip_skip, Parser.skip_skip]
  congr 3
  simp only [List.length_cons, List.length_append, List.length_nil]
  omega

theorem argumentsParse_last (ts : List Token) (e : Expr)
    (h : ParsesAt Parser.comparison 0 ts e) : ArgumentsParse ts [e] 1 := by
  intro p rest acc hin hnext hacc
  obtain ⟨N, hN⟩ := h p rest hin (by rw [hnext]; decide)
  have hcomma : nextType (p.skip ts.length).input ≠ .COMMA := by
    rw [Parser.input_skip p ts rest hin, hnext]; decide
  refine ⟨N + 2, fun fuel hf => ?_⟩
  obtain ⟨g, rfl⟩ : ∃ g, fuel = g + 2 := ⟨fuel - 2, by omega⟩
  show Parser.argumentLoop (g + 1 + 1) acc p = _
  rw [Parser.argumentLoop, if_neg (by omega), Parser.expression, hN g (by omega)]
  simp only [Parser.check_false _ _ hcomma, Bool.false_eq_true, if_false]

theorem argumentsParse_cons (ta tr : List Token) (comma : Token) (e : Expr)
    (es : List Expr) (n : Nat) (hcomma : comma.type = .COMMA)
    (ha : ParsesAt Parser.comparison 0 ta e) (hr : ArgumentsParse tr es n) :
    ArgumentsParse (ta ++ comma :: tr) (e :: es) (n + 1) := by
  intro p rest acc hin hnext hacc
  have hin0 : p.input = ta ++ (comma :: (tr ++ rest)) := by rw [hin]; simp
  have hin1 : (p.skip ta.length).input = comma :: (tr ++ rest) := Parser.input_skip p ta _ hin0
  have hin2 : ((p.skip ta.length).skip 1).input = tr ++ rest :=
    Parser.input_skip_one _ comma _ hin1
  have hne : comma.type ≠ .END_OF_FILE := by rw [hcomma]; decide
  obtain ⟨N1, h1⟩ := ha p _ hin0 (by
    show stops 0 comma.type = true
    rw [hcomma]; decide)
  obtain ⟨N2, h2⟩ := hr _ rest (acc ++ [e]) hin2 hnext (by
    rw [List.length_append, List.length_singleton]; omega)
  refine ⟨max N1 N2 + 2, fun fuel hf => ?_⟩
  obtain ⟨g, rfl⟩ : ∃ g, fuel = g + 2 := ⟨fuel - 2, by omega⟩
  show Parser.argumentLoop (g + 1 + 1) acc p = _
  rw [Parser.argumentLoop, if_neg (by omega), Parser.expression, h1 g (by omega)]
  simp only [Parser.check_cons _ comma _ _ hin1 hne, Parser.advance_cons _ comma _ hin1 hne,
    hcomma, decide_True, if_true]
  have h3 := h2 (g + 1) (by omega)
  simp only [List.append_assoc, List.singleton_append, Parser.skip_skip] at h3 ⊢
  rw [h3]
  congr 3
  simp only [List.length_cons, List.length_append]
  omega

theorem parsesAt_unary (op : Token) (ts : List Token) (e : Expr) (hop : op.type = .MINUS)
    (h : ParsesAt Parser.unary 3 ts e) : ParsesAt Parser.unary 3 (op :: ts) (.Unary op e) := by
  intro p rest hin hstop
  have hin0 : p.input = op :: (ts ++ rest) := hin
  have hne : op.type ≠ .END_OF_FILE := by rw [hop]; decide
  have hin1 : (p.skip 1).input = ts ++ rest := Parser.input_skip_one p op _ hin0
  obtain ⟨N, hN⟩ := h _ rest hin1 hstop
  refine ⟨N + 1, fun fuel hf => ?_⟩
  obtain ⟨g, rfl⟩ : ∃ g, fuel = g + 1 := ⟨fuel - 1, by omega⟩
  rw [Parser.unary]
  simp only [Parser.check_cons p op _ _ hin0 hne, Parser.advance_cons p op _ hin0 hne, hop,
    decide_True, if_true, Parser.previous_skip p op _ hin0]
  have hpos : 1 + ts.length = (op :: ts).length := by
    rw [List.length_cons]; omega
  rw [hN g (by omega), Parser.skip_skip, hpos]

theorem parsesAt_unary_of_primary (ts : List Token) (e : Expr)
    (hstart : nextType ts ≠ .MINUS) (hne : ts ≠ [])
    (h : ParsesAt Parser.primary 4 ts e) : ParsesAt Parser.unary 3 ts e := by
  intro p rest hin hstop
  obtain ⟨N, hN⟩ := h p rest hin (stops_succ _ _ hstop)
  have hnext : nextType p.input ≠ .MINUS := by
    rw [hin]
    cases ts with
    | nil => exact absurd rfl hne
    | cons t r => exact hstart
  refine ⟨N + 1, fun fuel hf => ?_⟩
  obtain ⟨g, rfl⟩ : ∃ g, fuel = g + 1 := ⟨fuel - 1, by omega⟩
  rw [Parser.unary, Parser.check_false _ _ hnext]
  simp only [Bool.false_eq_true, if_false]
  exact hN g (by omega)


theorem opLevel_le (type : TokenType) (j : Nat) (h : opLevel type = some j) : j ≤ 2 := by
  cases type <;> simp [opLevel] at h <;> omega

/-- A written expression starts with a token an expression can start with, and a
primary does not start with a minus sign. -/
theorem Phrase.first_token : ∀ s : Phrase, s.wf = true →
    ∃ t r, s.tokens = t :: r ∧ isStart t.type = true ∧ (s.level = 4 → t.type ≠ .MINUS)
  | .literal token, h => by
    refine ⟨token, [], by rw [Phrase.tokens], ?_, fun _ => ?_⟩ <;>
      (rw [Phrase.wf] at h; generalize token.type = ty at h ⊢; revert h; cases ty <;> decide)
  | .variable name, h => by
    refine ⟨name, [], by rw [Phrase.tokens], ?_, fun _ => ?_⟩ <;>
      (rw [Phrase.wf] at h; generalize name.type = ty at h ⊢; revert h; cases ty <;> decide)
  | .unary op right, h => by
    refine ⟨op, right.tokens, by rw [Phrase.tokens], ?_, fun hl => ?_⟩
    · rw [Phrase.wf] at h
      simp only [Bool.and_eq_true, decide_eq_true_eq] at h
      rw [h.1.1]; decide
    · rw [Phrase.level] at hl; exact absurd hl (by decide)
  | .binary left op right, h => by
    rw [Phrase.wf] at h
    cases hj : opLevel op.type with
    | none => rw [hj] at h; exact absurd h Bool.false_ne_true
    | some j =>
      rw [hj] at h
      simp only [Bool.and_eq_true, decide_eq_true_eq] at h
      obtain ⟨t, r, ht, hs, _⟩ := Phrase.first_token left h.1.1.1
      refine ⟨t, r ++ op :: right.tokens, by rw [Phrase.tokens, ht]; rfl, hs, fun hl => ?_⟩
      rw [Phrase.level, hj] at hl
      have := opLevel_le _ _ hj
      simp only [Option.getD_some] at hl
      omega
  | .group lparen inner rparen, h => by
    rw [Phrase.wf] at h
    simp only [Bool.and_eq_true, decide_eq_true_eq] at h
    refine ⟨lparen, _, by rw [Phrase.tokens], ?_, fun _ => ?_⟩ <;> (rw [h.1.1]; decide)
  | .call0 callee lparen rparen, h => by
    rw [Phrase.wf] at h
    simp only [Bool.and_eq_true, decide_eq_true_eq] at h
    refine ⟨callee, _, by rw [Phrase.tokens], ?_, fun _ => ?_⟩ <;> (rw [h.1.1]; decide)
  | .call callee lparen arguments rparen, h => by
    rw [Phrase.wf] at h
    simp only [Bool.and_eq_true, decide_eq_true_eq] at h
    refine ⟨callee, _, by rw [Phrase.tokens], ?_, fun _ => ?_⟩ <;> (rw [h.1.1.1.1]; decide)

theorem PhraseList.first_token_of_arguments (args : PhraseList) (h : args.wf = true) :
    ∃ t r, args.tokens = t :: r ∧ isStart t.type = true := by
  cases args with
  | last a =>
    rw [PhraseList.wf] at h
    obtain ⟨t, r, ht, hs, _⟩ := Phrase.first_token a h
    exact ⟨t, r, by rw [PhraseList.tokens, ht], hs⟩
  | cons a comma rest =>
    rw [PhraseList.wf] at h
    simp only [Bool.and_eq_true, decide_eq_true_eq] at h
    obtain ⟨t, r, ht, hs, _⟩ := Phrase.first_token a h.1.1
    exact ⟨t, r ++ comma :: rest.tokens, by rw [PhraseList.tokens, ht]; rfl, hs⟩

theorem parsesUpTo_unary (ts : List Token) (e : Expr) (h : ParsesAt Parser.unary 3 ts e) :
    ParsesUpTo 3 ts e := by
  have e2 := isLevel_multiplication.enters h
  have p2 := isLevel_multiplication.parses e2
  have e1 := isLevel_addition.enters p2
  have p1 := isLevel_addition.parses e1
  have e0 := isLevel_comparison.enters p1
  have p0 := isLevel_comparison.parses e0
  intro k hk
  match k, hk with
  | 0, _ => exact ⟨p0, fun _ => e0⟩
  | 1, _ => exact ⟨p1, fun _ => e1⟩
  | 2, _ => exact ⟨p2, fun _ => e2⟩
  | 3, _ => exact ⟨h, fun h3 => absurd h3 (by decide)⟩

theorem parsesUpTo_primary (ts : List Token) (e : Expr) (hstart : nextType ts ≠ .MINUS)
    (hne : ts ≠ []) (h : ParsesAt Parser.primary 4 ts e) : ParsesUpTo 4 ts e := by
  have h3 := parsesUpTo_unary ts e (parsesAt_unary_of_primary ts e hstart hne h)
  intro k hk
  by_cases h4 : k = 4
  · subst h4
    exact ⟨h, fun h2 => absurd h2 (by decide)⟩
  · exact h3 k (by omega)

theorem parsesUpTo_multiplication (ts : List Token) (e : Expr)
    (e2 : EntersLoop Parser.multiplication Parser.multiplicationLoop 2 ts e) :
    ParsesUpTo 2 ts e := by
  have p2 := isLevel_multiplication.parses e2
  have e1 := isLevel_addition.enters p2
  have p1 := isLevel_addition.parses e1
  have e0 := isLevel_comparison.enters p1
  have p0 := isLevel_comparison.parses e0
  intro k hk
  match k, hk with
  | 0, _ => exact ⟨p0, fun _ => e0⟩
  | 1, _ => exact ⟨p1, fun _ => e1⟩
  | 2, _ => exact ⟨p2, fun _ => e2⟩

theorem parsesUpTo_addition (ts : List Token) (e : Expr)
    (e1 : EntersLoop Parser.addition Parser.additionLoop 1 ts e) : ParsesUpTo 1 ts e := by
  have p1 := isLevel_addition.parses e1
  have e0 := isLevel_comparison.enters p1
  have p0 := isLevel_comparison.parses e0
  intro k hk
  match k, hk with
  | 0, _ => exact ⟨p0, fun _ => e0⟩
  | 1, _ => exact ⟨p1, fun _ => e1⟩

theorem parsesUpTo_comparison (ts : List Token) (e : Expr)
    (e0 : EntersLoop Parser.comparison Parser.comparisonLoop 0 ts e) : ParsesUpTo 0 ts e := by
  have p0 := isLevel_comparison.parses e0
  intro k hk
  match k, hk with
  | 0, _ => exact ⟨p0, fun _ => e0⟩

/-- A binary node of level `j` from operands parsed at their levels. -/
theorem parsesUpTo_binary (j : Nat) (tl tr : List Token) (l r : Expr) (op : Token)
    (hop : opLevel op.type = some j) (hl : ParsesUpTo j tl l) (hr : ParsesUpTo (j + 1) tr r) :
    ParsesUpTo j (tl ++ op :: tr) (.Binary l op r) := by
  have hj := opLevel_le _ _ hop
  have hright := (hr (j + 1) (Nat.le_refl _)).1
  match j, hop, hl, hright, hj with
  | 0, hop, hl, hright, _ =>
    exact parsesUpTo_comparison _ _
      (isLevel_comparison.binary hop ((hl 0 (Nat.le_refl _)).2 (by decide)) hright)
  | 1, hop, hl, hright, _ =>
    exact parsesUpTo_addition _ _
      (isLevel_addition.binary hop ((hl 1 (Nat.le_refl _)).2 (by decide)) hright)
  | 2, hop, hl, hright, _ =>
    exact parsesUpTo_multiplication _ _
      (isLevel_multiplication.binary hop ((hl 2 (Nat.le_refl _)).2 (by decide)) hright)

theorem ParsesUpTo.le {j k : Nat} {ts : List Token} {e : Expr} (h : ParsesUpTo j ts e)
    (hk : k ≤ j) : ParsesUpTo k ts e :=
  fun i hi => h i (Nat.le_trans hi hk)

mutual
/-- Every written expression that follows the grammar is parsed to its tree by the
method of each level up to its own. -/
theorem phrase_parses : ∀ s : Phrase, s.wf = true → ParsesUpTo s.level s.tokens s.toExpr
  | .literal token, h => by
    obtain ⟨t, r, ht, _, hm⟩ := Phrase.first_token _ h
    rw [Phrase.tokens] at ht ⊢
    refine parsesUpTo_primary _ _ ?_ (by simp) (parsesAt_literal token h)
    rw [ht]; exact hm rfl
  | .variable name, h => by
    obtain ⟨t, r, ht, _, hm⟩ := Phrase.first_token _ h
    rw [Phrase.tokens] at ht ⊢
    rw [Phrase.toExpr]
    rw [Phrase.wf] at h
    refine parsesUpTo_primary _ _ ?_ (by simp) (parsesAt_variable name (by simpa using h))
    rw [ht]; exact hm rfl
  | .unary op right, h => by
    have h0 := h
    rw [Phrase.wf] at h
    simp only [Bool.and_eq_true, decide_eq_true_eq] at h
    rw [Phrase.tokens, Phrase.toExpr]
    exact parsesUpTo_unary _ _
      (parsesAt_unary op _ _ h.1.1 ((phrase_parses right h.1.2 3 h.2).1))
  | .binary left op right, h => by
    rw [Phrase.wf] at h
    cases hj : opLevel op.type with
    | none => rw [hj] at h; exact absurd h Bool.false_ne_true
    | some j =>
      rw [hj] at h
      simp only [Bool.and_eq_true, decide_eq_true_eq] at h
      have hlevel : (Phrase.binary left op right).level = j := by
        rw [Phrase.level, hj]; rfl
      rw [hlevel, Phrase.tokens, Phrase.toExpr]
      exact parsesUpTo_binary j _ _ _ _ op hj ((phrase_parses left h.1.1.1).le h.1.2)
        ((phrase_parses right h.1.1.2).le h.2)
  | .group lparen inner rparen, h => by
    obtain ⟨t, r, ht, _, hm⟩ := Phrase.first_token _ h
    rw [Phrase.wf] at h
    simp only [Bool.and_eq_true, decide_eq_true_eq] at h
    rw [Phrase.tokens] at ht ⊢
    rw [Phrase.toExpr]
    refine parsesUpTo_primary _ _ ?_ (by simp)
      (parsesAt_group lparen rparen _ _ h.1.1 h.2
        ((phrase_parses inner h.1.2 0 (Nat.zero_le _)).1))
    rw [ht]; exact hm rfl
  | .call0 callee lparen rparen, h => by
    obtain ⟨t, r, ht, _, hm⟩ := Phrase.first_token _ h
    rw [Phrase.wf] at h
    simp only [Bool.and_eq_true, decide_eq_true_eq] at h
    rw [Phrase.tokens] at ht ⊢
    rw [Phrase.toExpr]
    refine parsesUpTo_primary _ _ ?_ (by simp)
      (parsesAt_call0 callee lparen rparen h.1.1 h.1.2 h.2)
    rw [ht]; exact hm rfl
  | .call callee lparen arguments rparen, h => by
    obtain ⟨t, r, ht, _, hm⟩ := Phrase.first_token _ h
    rw [Phrase.wf] at h
    simp only [Bool.and_eq_true, decide_eq_true_eq] at h
    rw [Phrase.tokens] at ht ⊢
    rw [Phrase.toExpr]
    obtain ⟨ta, ra, hta, hsa⟩ := PhraseList.first_token_of_arguments arguments h.1.2
    refine parsesUpTo_primary _ _ ?_ (by simp)
      (parsesAt_call callee lparen rparen _ _ arguments.count h.1.1.1.1 h.1.1.1.2 h.1.1.2 h.2
        ?_ (phraseList_parses arguments h.1.2))
    · rw [ht]; exact hm rfl
    · rw [hta]
      show ta.type ≠ .RPAREN
      intro h0; rw [h0] at hsa; exact absurd hsa (by decide)
/-- Written arguments that follow the grammar are parsed to their trees by the loop
of `finishCall`. -/
theorem phraseList_parses : ∀ args : PhraseList, args.wf = true →
    ArgumentsParse args.tokens args.toExprs args.count
  | .last argument, h => by
    rw [PhraseList.wf] at h
    rw [PhraseList.tokens, PhraseList.toExprs, PhraseList.count]
    exact argumentsParse_last _ _ ((phrase_parses argument h 0 (Nat.zero_le _)).1)
  | .cons argument comma rest, h => by
    rw [PhraseList.wf] at h
    simp only [Bool.and_eq_true, decide_eq_true_eq] at h
    rw [PhraseList.tokens, PhraseList.toExprs, PhraseList.count]
    exact argumentsParse_cons _ _ comma _ _ _ h.1.2
      ((phrase_parses argument h.1.1 0 (Nat.zero_le _)).1) (phraseList_parses rest h.2)
end


/-- C26. An expression written according to the grammar of the precedence order
(comparison, then additive, then multiplicative operators, each level with its left
operand at the same level or higher and its right operand at a higher level, then
negation, then primaries: literals, names, calls and parenthesised expressions), and
followed by a token that cannot continue it, is parsed by `Parser::expression`, with
any sufficient budget, to the tree of that grammar; the parser consumes exactly the
tokens of the expression and records no error. The tree is fixed by the tokens: two
expressions written with the same tokens have the same tree. So `a + b * c` is parsed as
`a + (b * c)`, `a - b - c` as `(a - b) - c`, `a < b + c` as `a < (b + c)` and
`(3 + 5) * 2` as the product of the sum and 2. -/
theorem parser_follows_precedence (s : Phrase) (p : Parser) (rest : List Token)
    (hwf : s.wf = true) (hin : p.input = s.tokens ++ rest)
    (hstop : stops 0 (nextType rest) = true) :
    (∃ N, ∀ fuel, N ≤ fuel →
      Parser.expression fuel p =
        some (s.toExpr,
          { tokens_ := p.tokens_, current_ := p.current_ + s.tokens.length,
            hadError_ := p.hadError_, errorMessage_ := p.errorMessage_ })) ∧
    (∀ s1 : Phrase, s1.wf = true → s1.tokens = s.tokens → s1.toExpr = s.toExpr) ∧
    (parseExpression 16 "a + b * c".toList).map Prod.fst =
      some (.Binary (.Variable (identifier "a" 1)) ⟨.PLUS, "+".toList, [], 1⟩
        (.Binary (.Variable (identifier "b" 1)) ⟨.STAR, "*".toList, [], 1⟩
          (.Variable (identifier "c" 1)))) ∧
    (parseExpression 16 "a - b - c".toList).map Prod.fst =
      some (.Binary
        (.Binary (.Variable (identifier "a" 1)) ⟨.MINUS, "-".toList, [], 1⟩
          (.Variable (identifier "b" 1)))
        ⟨.MINUS, "-".toList, [], 1⟩ (.Variable (identifier "c" 1))) ∧
    (parseExpression 16 "a < b + c".toList).map Prod.fst =
      some (.Binary (.Variable (identifier "a" 1)) ⟨.LESS, "<".toList, [], 1⟩
        (.Binary (.Variable (identifier "b" 1)) ⟨.PLUS, "+".toList, [], 1⟩
          (.Variable (identifier "c" 1)))) ∧
    (parseExpression 16 "(3 + 5) * 2".toList).map Prod.fst =
      some (.Binary
        (.Binary (.Literal ⟨.NUMBER, "3".toList, "3".toList, 1⟩ "3".toList)
          ⟨.PLUS, "+".toList, [], 1⟩
          (.Literal ⟨.NUMBER, "5".toList, "5".toList, 1⟩ "5".toList))
        ⟨.STAR, "*".toList, [], 1⟩
        (.Literal ⟨.NUMBER, "2".toList, "2".toList, 1⟩ "2".toList)) ∧
    ((parseExpression 16 "a + b * c".toList).map fun r => r.2.hadError_) = some false ∧
    ((parseExpression 16 "a - b - c".toList).map fun r => r.2.hadError_) = some false ∧
    ((parseExpression 16 "a < b + c".toList).map fun r => r.2.hadError_) = some false ∧
    ((parseExpression 16 "(3 + 5) * 2".toList).map fun r => r.2.hadError_) = some false := by
  refine ⟨?_, ?_, by rfl, by rfl, by rfl, by rfl, by rfl, by rfl, by rfl, by rfl⟩
  · obtain ⟨N, hN⟩ := (phrase_parses s hwf 0 (Nat.zero_le _)).1 p rest hin hstop
    refine ⟨N + 1, fun fuel hf => ?_⟩
    obtain ⟨g, rfl⟩ : ∃ g, fuel = g + 1 := ⟨fuel - 1, by omega⟩
    rw [Parser.expression]
    exact hN g (by omega)
  · intro s1 hwf1 htokens
    have hin0 : ∀ ts : List Token,
        Parser.input { tokens_ := ts, current_ := 0, hadError_ := false, errorMessage_ := [] } =
          ts ++ [] := fun ts => (List.append_nil ts).symm
    obtain ⟨N, hN⟩ := (phrase_parses s hwf 0 (Nat.zero_le _)).1 _ [] (hin0 s.tokens) (by decide)
    obtain ⟨N1, hN1⟩ :=
      (phrase_parses s1 hwf1 0 (Nat.zero_le _)).1 _ [] (hin0 s1.tokens) (by decide)
    have h := hN (max N N1) (Nat.le_max_left _ _)
    have h1 := hN1 (max N N1) (Nat.le_max_right _ _)
    rw [htokens, h] at h1
    exact (congrArg Prod.fst (Option.some.inj h1)).symm

/-- C26, instance: the written expression `a + b * c`, whose grammar tree has the
product as right operand of the sum, on the tokens of the source text `a + b * c`. -/
theorem parser_follows_precedence_witness :
    sumProductPhrase.wf = true ∧
    sumProductPhrase.tokens ++ [⟨.END_OF_FILE, [], [], 1⟩] =
      (Lexer.tokenize "a + b * c".toList).tokens_ ∧
    ∃ N, ∀ fuel, N ≤ fuel →
      Parser.expression fuel
          { tokens_ := (Lexer.tokenize "a + b * c".toList).tokens_, current_ := 0,
            hadError_ := false, errorMessage_ := [] } =
        some (.Binary (.Variable (identifier "a" 1)) ⟨.PLUS, "+".toList, [], 1⟩
            (.Binary (.Variable (identifier "b" 1)) ⟨.STAR, "*".toList, [], 1⟩
              (.Variable (identifier "c" 1))),
          { tokens_ := (Lexer.tokenize "a + b * c".toList).tokens_, current_ := 5,
            hadError_ := false, errorMessage_ := [] }) :=
  ⟨by decide, by decide,
    (parser_follows_precedence sumProductPhrase
      { tokens_ := (Lexer.tokenize "a + b * c".toList).tokens_, current_ := 0,
        hadError_ := false, errorMessage_ := [] }
      [⟨.END_OF_FILE, [], [], 1⟩] (by decide) (by decide) (by decide)).1⟩

/-! ## C36: jumps to a label that is not in the table -/

/-- C36. For a label `L` that the label table does not hold (for one, a label that no
line of the program defines, in the table that `preprocess` builds): JMP `L` only
sets `pc` to `pc + 1`; JZ `L` on a stack with top 0, whose branch is taken, pops the
0 and sets `pc` to `pc + 1`; JNZ `L` on a stack with a top other than 0 pops it and
sets `pc` to `pc + 1`. No fault is raised and the variables, the call stack, the
rest of the operand stack, the output and the table are unchanged. -/
theorem absent_label_falls_through (vm : VM) (program : List Str) (L : Str)
    (rest : List Int) (t : Int) (hL : isOperand L) (hlab : mapFind vm.labels L = none)
    (ht : t ≠ 0) :
    execute (instr1 "JMP".toList L) program vm = .ok { vm with pc := vm.pc + 1 } ∧
    execute (instr1 "JZ".toList L) program { vm with stack := rest ++ [0] } =
      .ok { vm with stack := rest, pc := vm.pc + 1 } ∧
    execute (instr1 "JNZ".toList L) program { vm with stack := rest ++ [t] } =
      .ok { vm with stack := rest, pc := vm.pc + 1 } ∧
    (∀ (lines : List Str) (vm1 : VM), (L ++ [':']) ∉ lines →
      mapFind (preprocess lines vm1).labels L = none) := by
  refine ⟨execute_JMP_absent L hL program vm hlab, ?_, ?_, ?_⟩
  · unfold execute
    rw [isEmpty_instr1, isLabelLine_instr1 _ _ hL, split_instr1 _ _ (by decide) hL.1]
    have hp := pop_concat ({ vm with stack := rest ++ [0] } : VM) rest 0 rfl
    simp [execJZ, hp, jumpTo, hlab, incPc]
  · unfold execute
    rw [isEmpty_instr1, isLabelLine_instr1 _ _ hL, split_instr1 _ _ (by decide) hL.1]
    have hp := pop_concat ({ vm with stack := rest ++ [t] } : VM) rest t rfl
    simp [execJNZ, hp, jumpTo, hlab, incPc, ht]
  · intro lines vm1 hno
    show mapFind (preprocessLoop lines 0 []) L = none
    rw [mapFind_preprocessLoop, lastLabelFrom_absent _ _ _ hno]
    rfl

/-- C36, instance: the label `nowhere` in a machine whose table holds `skip` only. -/
theorem absent_label_falls_through_witness :
    execute "JMP nowhere".toList jumpProgram
        { VM.new [] with stack := [5], labels := [("skip".toList, 2)], pc := 1 } =
      .ok { VM.new [] with stack := [5], labels := [("skip".toList, 2)], pc := 2 } ∧
    execute "JZ nowhere".toList jumpProgram
        { VM.new [] with stack := [5, 0], labels := [("skip".toList, 2)], pc := 1 } =
      .ok { VM.new [] with stack := [5], labels := [("skip".toList, 2)], pc := 2 } ∧
    execute "JNZ nowhere".toList jumpProgram
        { VM.new [] with stack := [5, 7], labels := [("skip".toList, 2)], pc := 1 } =
      .ok { VM.new [] with stack := [5], labels := [("skip".toList, 2)], pc := 2 } :=
  have h := absent_label_falls_through
    { VM.new [] with stack := [5], labels := [("skip".toList, 2)], pc := 1 } jumpProgram
    "nowhere".toList [5] 7 (by decide) (by decide) (by decide)
  ⟨h.1, h.2.1, h.2.2.1⟩


/-! ## C32: the operand order of SUB, DIV, GT and LT -/

/-- C32 fails on the code. On the stack `[5, 3]` (5 pushed first, 3 on top) SUB
leaves 2, not 3 - 5; GT leaves 1 and LT leaves 0, though 3 > 5 is false and 3 < 5 is
true; on `[6, 3]` DIV leaves 2, not 3 / 6 = 0. -/
theorem operand_order_counterexample :
    run 3 ["PUSH 5".toList, "PUSH 3".toList, "SUB".toList] (VM.new []) =
      .finished { VM.new [] with stack := [2], pc := 3 } ∧
    (2 : Int) ≠ 3 - 5 ∧
    run 3 ["PUSH 6".toList, "PUSH 3".toList, "DIV".toList] (VM.new []) =
      .finished { VM.new [] with stack := [2], pc := 3 } ∧
    (2 : Int) ≠ Int.tdiv 3 6 ∧
    run 3 ["PUSH 5".toList, "PUSH 3".toList, "GT".toList] (VM.new []) =
      .finished { VM.new [] with stack := [1], pc := 3 } ∧
    ¬ ((3 : Int) > 5) ∧
    run 3 ["PUSH 5".toList, "PUSH 3".toList, "LT".toList] (VM.new []) =
      .finished { VM.new [] with stack := [0], pc := 3 } ∧
    (3 : Int) < 5 := by
  decide

/-- C32, amended. On a stack ending with `a` then `b` (`a` pushed first, `b` on top),
SUB replaces the two values by `a - b` (in 32-bit arithmetic), DIV by `a / b` rounded
toward zero (by 0 when `b` is 0) unless `a` is -2147483648 and `b` is -1, GT by 1
exactly when `a > b` and LT by 1 exactly when `a < b`, and by 0 otherwise; `pc`
advances by one and nothing else changes. On -2147483648 and -1 DIV pops both and
the overflowing division ends the run with a signal. -/
theorem operand_order_first_minus_top (vm : VM) (program : List Str) (rest : List Int)
    (a b : Int) :
    execute "SUB".toList program { vm with stack := rest ++ [a, b] } =
      .ok { vm with stack := rest ++ [wrap32 (a - b)], pc := vm.pc + 1 } ∧
    (¬ (a = -2147483648 ∧ b = -1) →
      execute "DIV".toList program { vm with stack := rest ++ [a, b] } =
        .ok { vm with stack := rest ++ [if b = 0 then 0 else a.tdiv b], pc := vm.pc + 1 }) ∧
    execute "DIV".toList program { vm with stack := rest ++ [-2147483648, -1] } =
      .error (Fault.arithmetic_signal, { vm with stack := rest }) ∧
    execute "GT".toList program { vm with stack := rest ++ [a, b] } =
      .ok { vm with stack := rest ++ [if a > b then 1 else 0], pc := vm.pc + 1 } ∧
    execute "LT".toList program { vm with stack := rest ++ [a, b] } =
      .ok { vm with stack := rest ++ [if a < b then 1 else 0], pc := vm.pc + 1 } :=
  ⟨binop_concat2 _ _ rest a b rfl,
    fun hov => (execute_DIV program _).trans (execDIV_concat2 _ rest a b rfl hov),
    (execute_DIV program _).trans (execDIV_signal _ rest rfl),
    binop_concat2 _ _ rest a b rfl, binop_concat2 _ _ rest a b rfl⟩

/-- C32, instance: on the stack `[1, -7, 2]` DIV leaves `[1, -3]`. -/
theorem operand_order_first_minus_top_witness :
    ¬ ((-7 : Int) = -2147483648 ∧ (2 : Int) = -1) ∧
    Int.tdiv (-7) 2 = -3 ∧
    execute "DIV".toList [] { VM.new [] with stack := [1] ++ [-7, 2] } =
      .ok { VM.new [] with stack := [1] ++ [if (2 : Int) = 0 then 0 else Int.tdiv (-7) 2],
                           pc := (VM.new []).pc + 1 } :=
  ⟨by decide, by decide,
   (operand_order_first_minus_top (VM.new []) [] [1] (-7) 2).2.1 (by decide)⟩

/-! ## C31: CALL of a built-in -/

theorem split_instr2 (opcode x y : Str) (hop : isWord opcode) (hx : isWord x)
    (hy : isWord y) : split (instr2 opcode x y) = [opcode, x, y] := by
  unfold split instr2
  rw [splitLoop_word opcode hop.2, splitLoop]
  simp only [isspace, isEmpty_of_isWord hop, List.nil_append]
  simp only [decide_True, Bool.true_or, Bool.not_false, Bool.and_self, if_true,
    Bool.not_true]
  have hx3 := splitLoop_word x hx.2 (' ' :: y) [opcode] []
  simp only [List.nil_append] at hx3
  have hy3 := splitLoop_word y hy.2 [] [opcode, x] []
  simp only [List.append_nil, List.nil_append] at hy3
  simp [hx3, hy3, splitLoop, isEmpty_of_isWord hx, isEmpty_of_isWord hy, isspace]

theorem isLabelLine_instr2 (opcode x y : Str) (hy : isOperand y) :
    isLabelLine (instr2 opcode x y) = false := by
  have h : instr2 opcode x y = instr1 (opcode ++ ' ' :: x) y := by
    unfold instr2 instr1
    simp
  rw [h]
  exact isLabelLine_instr1 _ _ hy

theorem isEmpty_instr2 (opcode x y : Str) : (instr2 opcode x y).isEmpty = false := by
  unfold instr2
  cases opcode <;> rfl

/-- The loop of the built-in branch pops the last `n` values and hands them over in
the order in which they were pushed. -/
theorem popArgs_append (args : List Int) : ∀ (acc rest : List Int) (vm : VM),
    popArgs args.length acc { vm with stack := rest ++ args } =
      .ok (args ++ acc, { vm with stack := rest }) := by
  induction args using List.reverseRecOn with
  | nil => intro acc rest vm; simp [popArgs]
  | append_singleton xs x ih =>
    intro acc rest vm
    have hlen : (xs ++ [x]).length = xs.length + 1 := by simp
    have hp := pop_concat ({ vm with stack := rest ++ (xs ++ [x]) } : VM) (rest ++ xs) x
      (by simp)
    rw [hlen, popArgs, hp]
    have := ih (x :: acc) rest vm
    simpa using this

/-- A built-in changes nothing of the machine but its output and the values left in
its environment. -/
theorem runtimeCall_frame (name : Str) (args : List Int) (vm : VM) :
    (runtimeCall name args vm).2 =
      { vm with out := (runtimeCall name args vm).2.out,
                env := (runtimeCall name args vm).2.env } := by
  unfold runtimeCall
  repeat' split
  all_goals first
    | rfl
    | (unfold printImpl; split <;> rfl)
    | (unfold nextEnv; split <;> rfl)
    | (unfold randomImpl nextEnv; repeat' split
       all_goals rfl)


theorem mapFind_key_mem {α : Type} : ∀ (m : List (Str × α)) (k : Str) (v : α),
    mapFind m k = some v → k ∈ m.map Prod.fst
  | [], _, _, h => by simp [mapFind] at h
  | (k1, v1) :: m, k, v, h => by
    by_cases hk : k1 = k
    · rw [List.map_cons, hk]
      exact List.mem_cons_self _ _
    · simp only [mapFind, hk, if_false] at h
      rw [List.map_cons]
      exact List.mem_cons_of_mem _ (mapFind_key_mem m k v h)

theorem isWord_of_isBuiltin (name : Str) (h : isBuiltin name = true) : isWord name := by
  have hall : ∀ n ∈ builtins_.map Prod.fst, isWord n := by decide
  unfold isBuiltin at h
  cases hf : mapFind builtins_ name with
  | none => rw [hf] at h; exact absurd h (by decide)
  | some v => exact hall name (mapFind_key_mem _ _ _ hf)

/-- The built-in branch of CALL on a stack that ends with the arguments. -/
theorem execute_CALL_builtin (vm : VM) (program : List Str) (name : Str)
    (rest args : List Int) (hname : isBuiltin name = true) (hlen : args.length ≤ 2147483647) :
    execute (instr2 "CALL".toList name (to_string args.length)) program
        { vm with stack := rest ++ args } =
      .ok { vm with
        stack := rest ++ [(runtimeCall name args { vm with stack := rest }).1],
        pc := vm.pc + 1,
        out := (runtimeCall name args { vm with stack := rest }).2.out,
        env := (runtimeCall name args { vm with stack := rest }).2.env } := by
  have hk := isOperand_to_string (args.length : Int)
  have hst : stoi (to_string (args.length : Int)) = .value (args.length : Int) :=
    stoi_to_string _ ⟨by omega, by exact_mod_cast hlen⟩
  unfold execute
  rw [isEmpty_instr2, isLabelLine_instr2 _ _ _ hk,
    split_instr2 _ _ _ (by decide) (isWord_of_isBuiltin name hname) hk.1]
  have hcall : execCALL ["CALL".toList, name, to_string (args.length : Int)]
      { vm with stack := rest ++ args } =
      execCALLwith name (args.length : Int) { vm with stack := rest ++ args } := by
    rw [execCALL, hst]
  have hpop := popArgs_append args [] rest vm
  rw [List.append_nil] at hpop
  have hframe := runtimeCall_frame name args { vm with stack := rest }
  have hwith : execCALLwith name (args.length : Int) { vm with stack := rest ++ args } =
      .ok (incPc (push (runtimeCall name args { vm with stack := rest }).2
        (runtimeCall name args { vm with stack := rest }).1)) := by
    unfold execCALLwith
    simp only [hname, if_true, Int.toNat_ofNat, hpop]
  simp only [show ("CALL".toList = "PUSH".toList) = False from by decide,
    show ("CALL".toList = "ADD".toList) = False from by decide,
    show ("CALL".toList = "SUB".toList) = False from by decide,
    show ("CALL".toList = "MUL".toList) = False from by decide,
    show ("CALL".toList = "DIV".toList) = False from by decide,
    show ("CALL".toList = "STORE".toList) = False from by decide,
    show ("CALL".toList = "LOAD".toList) = False from by decide,
    show ("CALL".toList = "EQ".toList) = False from by decide,
    show ("CALL".toList = "GT".toList) = False from by decide,
    show ("CALL".toList = "LT".toList) = False from by decide,
    show ("CALL".toList = "NE".toList) = False from by decide,
    show ("CALL".toList = "JMP".toList) = False from by decide,
    show ("CALL".toList = "JZ".toList) = False from by decide,
    show ("CALL".toList = "JNZ".toList) = False from by decide, if_false, if_true]
  rw [hcall, hwith, hframe]
  rfl


/-- C31 fails on the code for the argument -2147483648 of `abs`: its absolute value
2147483648 is not a 32-bit value, so no stack can hold it; the run of
PUSH -2147483648, CALL abs 1 does not leave it. -/
theorem abs_int_min_counterexample :
    isInt32 (-2147483648) ∧ |(-2147483648 : Int)| = 2147483648 ∧ ¬ isInt32 2147483648 ∧
    (execute "CALL abs 1".toList ["PUSH -2147483648".toList, "CALL abs 1".toList]
        { VM.new [] with stack := [-2147483648], pc := 1 }).toOption.map VM.stack ≠
      some [2147483648] ∧
    run 2 ["PUSH -2147483648".toList, "CALL abs 1".toList] (VM.new []) ≠
      .finished { VM.new [] with stack := [2147483648], pc := 2 } := by
  refine ⟨by decide, by decide, by decide, by decide, by decide⟩

/-- C31, amended. On a stack that ends with the values `args`, in the order in which
they were pushed, CALL of a built-in name with their number as count removes exactly
those values, hands them to the built-in in that order, pushes its single result and
advances `pc` by one; no frame is pushed, and nothing else changes but what the
built-in writes to the output or takes from its environment. CALL min 2 and
CALL max 2 leave the minimum and the maximum of the two arguments, and CALL abs 1
leaves the absolute value of an argument other than -2147483648. -/
theorem call_builtin_spec (vm : VM) (program : List Str) (name : Str)
    (rest args : List Int) (hname : isBuiltin name = true) (hlen : args.length ≤ 2147483647) :
    execute (instr2 "CALL".toList name (to_string args.length)) program
        { vm with stack := rest ++ args } =
      .ok { vm with
        stack := rest ++ [(runtimeCall name args { vm with stack := rest }).1],
        pc := vm.pc + 1,
        out := (runtimeCall name args { vm with stack := rest }).2.out,
        env := (runtimeCall name args { vm with stack := rest }).2.env } ∧
    (∀ a b : Int,
      execute "CALL min 2".toList program { vm with stack := rest ++ [a, b] } =
        .ok { vm with stack := rest ++ [min a b], pc := vm.pc + 1 } ∧
      execute "CALL max 2".toList program { vm with stack := rest ++ [a, b] } =
        .ok { vm with stack := rest ++ [max a b], pc := vm.pc + 1 }) ∧
    (∀ a : Int, isInt32 a → a ≠ -2147483648 →
      execute "CALL abs 1".toList program { vm with stack := rest ++ [a] } =
        .ok { vm with stack := rest ++ [|a|], pc := vm.pc + 1 }) := by
  refine ⟨execute_CALL_builtin vm program name rest args hname hlen, fun a b => ⟨?_, ?_⟩,
    fun a ha hmin => ?_⟩
  · have h := execute_CALL_builtin vm program "min".toList rest [a, b] (by decide)
      (by simp)
    have hv : (runtimeCall "min".toList [a, b] { vm with stack := rest }) =
        (min a b, { vm with stack := rest }) := by
      have : minImpl [a, b] = min a b := by
        unfold minImpl
        by_cases hab : b < a
        · simp [hab, min_eq_right (le_of_lt hab)]
        · simp [hab, min_eq_left (not_lt.mp hab)]
      simp [runtimeCall, this]
    rw [hv] at h
    exact h
  · have h := execute_CALL_builtin vm program "max".toList rest [a, b] (by decide)
      (by simp)
    have hv : (runtimeCall "max".toList [a, b] { vm with stack := rest }) =
        (max a b, { vm with stack := rest }) := by
      have : maxImpl [a, b] = max a b := by
        unfold maxImpl
        by_cases hab : a < b
        · simp [hab, max_eq_right (le_of_lt hab)]
        · simp [hab, max_eq_left (not_lt.mp hab)]
      simp [runtimeCall, this]
    rw [hv] at h
    exact h
  · have h := execute_CALL_builtin vm program "abs".toList rest [a] (by decide) (by simp)
    have hv : (runtimeCall "abs".toList [a] { vm with stack := rest }) =
        (|a|, { vm with stack := rest }) := by
      have : absImpl [a] = |a| := by
        unfold absImpl
        by_cases h0 : a < 0
        · have hr : isInt32 (-a) := by
            unfold isInt32 at *
            constructor <;> omega
          simp [h0, wrap32_of_isInt32 hr, abs_of_neg h0]
        · simp [h0, abs_of_nonneg (not_lt.mp h0)]
      simp [runtimeCall, this]
    rw [hv] at h
    exact h

/-- C31, instance: `CALL random 2` on the stack `[9, 3, 8]` with 12 as next value of
the generator: both arguments are removed, the result 3 + 12 % 5 is pushed and the
value is consumed. -/
theorem call_builtin_spec_witness :
    execute "CALL random 2".toList [] (VM.mk [9, 3, 8] [] 4 [] [] [] [12, 1]) =
      .ok (VM.mk [9, 5] [] 5 [] [] [] [1]) :=
  (call_builtin_spec (VM.mk [] [] 4 [] [] [] [12, 1]) [] "random".toList [9] [3, 8]
    (by decide) (by decide)).1


/-! ## C35: PUSH of a text -/

/-- The branch of PUSH for an operand that is not a number, in any program. -/
theorem execute_push_nonnumeric (s : Str) (program : List Str) (vm : VM) (hq : '"' ∉ s)
    (hne : s ≠ []) (hhead : isspace (s.headD ' ') = false)
    (hlast : isspace (s.getLastD ' ') = false) (hcolon : s.getLast? ≠ some ':')
    (hnum : startsWithNumber s = false) :
    execute ("PUSH ".toList ++ s) program vm =
      if isPrintAt program (nextNonLabel program (vm.pc + 1)) then
        .ok { vm with out := vm.out ++ [s], pc := nextNonLabel program (vm.pc + 1) + 1 }
      else .ok { vm with stack := vm.stack ++ [0], pc := vm.pc + 1 } := by
  obtain ⟨l, hsplit⟩ := split_push s hq hne hhead
  have hlabel : isLabelLine ("PUSH ".toList ++ s) = false := by
    unfold isLabelLine
    rw [List.getLast?_append_of_ne_nil _ hne]
    simpa using hcolon
  unfold execute
  rw [if_neg (by simp), hlabel, hsplit]
  simp only [Bool.false_eq_true, if_false, if_true]
  unfold execPUSH
  simp only [stoi_first_word s hhead hnum, pushLiteral_push s _ hq hhead hlast]
  rfl

/-- The first line after `pc` that is not a label line, when the lines after `pc` are
the label lines `labels` followed by `rest`, which does not start with a label
line. -/
theorem nextNonLabel_skip (pre labels rest : List Str) (x : Str)
    (hlabels : ∀ l ∈ labels, isLabelLine l = true)
    (hrest : ∀ line ∈ rest.head?, isLabelLine line = false) :
    nextNonLabel (pre ++ x :: (labels ++ rest)) (pre.length + 1) =
      pre.length + 1 + labels.length := by
  unfold nextNonLabel
  have hdrop : (pre ++ x :: (labels ++ rest)).drop (pre.length + 1) = labels ++ rest := by
    rw [show pre ++ x :: (labels ++ rest) = (pre ++ [x]) ++ (labels ++ rest) by simp]
    rw [List.drop_left' (by simp)]
  rw [hdrop]
  congr 1
  have htake : (labels ++ rest).takeWhile isLabelLine = labels := by
    rw [List.takeWhile_append_of_pos hlabels]
    cases rest with
    | nil => simp
    | cons line tail =>
      have := hrest line (by simp)
      simp [List.takeWhile_cons, this]
  rw [htake]

theorem isPrintAt_eq (program : List Str) (i : Nat) :
    isPrintAt program i =
      match program[i]? with
      | none => false
      | some line => firstWordIsPrint line := by
  unfold isPrintAt firstWordIsPrint
  rfl

/-- The PRINT branch on a non-empty stack: the top value is written and stays. -/
theorem execute_PRINT (program : List Str) (vm : VM) (rest : List Int) (t : Int)
    (h : vm.stack = rest ++ [t]) :
    execute "PRINT".toList program vm =
      .ok { vm with out := vm.out ++ [to_string t], pc := vm.pc + 1 } := by
  have hx : execute "PRINT".toList program vm = execPRINT vm := rfl
  rw [hx]
  unfold execPRINT
  rw [h, List.getLast?_concat]
  simp [incPc, h]

/-- C34 fails on the code: PRINT writes the top of the stack and leaves it there, so
after `POUR 1 + 2;` the stack, empty before, holds the value 3. -/
theorem print_leaves_value_counterexample :
    (Compiler.compile 64 printSumSource Compiler.new).map Compiler.bytecode_ =
      some ["PUSH 1".toList, "PUSH 2".toList, "ADD".toList, "PRINT".toList, "HALT:".toList] ∧
    run 10 ["PUSH 1".toList, "PUSH 2".toList, "ADD".toList, "PRINT".toList, "HALT:".toList]
        (VM.new []) =
      .finished { stack := [3], vars := [], pc := 5, labels := [("HALT".toList, 4)],
                  callstack := [], out := ["3".toList], env := [] } ∧
    ([3] : List Int).length ≠ ([] : List Int).length := by
  refine ⟨by decide, by decide, by decide⟩

/-- The statement `POUR -2147483648 / -1;` compiles, and the run of its code is ended
by the signal of the overflowing division before anything is written. -/
theorem overflow_print_aborts :
    (Compiler.compile 64 overflowPrintSource Compiler.new).map Compiler.bytecode_ =
      some ["PUSH -2147483648".toList, "PUSH -1".toList, "DIV".toList, "PRINT".toList,
        "HALT:".toList] ∧
    run 10 ["PUSH -2147483648".toList, "PUSH -1".toList, "DIV".toList, "PRINT".toList,
        "HALT:".toList] (VM.new []) =
      .aborted Fault.arithmetic_signal
        { stack := [], vars := [], pc := 2, labels := [("HALT".toList, 4)],
          callstack := [], out := [], env := [] } := by
  refine ⟨by decide, by decide⟩

/-- C34, amended. For every print statement POUR `e` whose expression is built from
32-bit integer literals, variables and the operators `+ - * / == > <`, the generated
code is the code of `e` followed by PRINT, and running it anywhere in a program,
from any state in which `e` divides -2147483648 by -1 nowhere, writes the value of
`e` and leaves the operand stack exactly one value deeper than before the statement:
the value of `e` stays on top. The exclusion is exact: from a state in which `e`
does divide -2147483648 by -1, the run is ended by the signal of that division
before the PRINT; so is the run of the code of `POUR -2147483648 / -1;`, with
nothing written. -/
theorem print_leaves_value (keyword : Token) (e : Expr) (he : isArith e = true) :
    (∀ g : CodeGenerator,
      visitStmt (.Print keyword e) g =
        { g with bytecode_ := g.bytecode_ ++ (exprCode e ++ ["PRINT".toList]) }) ∧
    (∀ (pre post : List Str) (vm : VM), vm.pc = pre.length → divDefined vm.vars e = true →
      stateAfter (pre ++ (exprCode e ++ ["PRINT".toList]) ++ post) ((exprCode e).length + 1) vm =
        some { vm with stack := vm.stack ++ [specValue vm.vars e],
                       out := vm.out ++ [to_string (specValue vm.vars e)],
                       pc := vm.pc + ((exprCode e).length + 1) } ∧
      (vm.stack ++ [specValue vm.vars e]).length = vm.stack.length + 1) ∧
    (∀ (pre post : List Str) (vm : VM) (k : Nat), vm.pc = pre.length →
      divDefined vm.vars e = false →
      ∃ vm1, runLoop (pre ++ (exprCode e ++ ["PRINT".toList]) ++ post)
        ((exprCode e).length + k) vm = .aborted Fault.arithmetic_signal vm1) ∧
    (Compiler.compile 64 overflowPrintSource Compiler.new).map Compiler.bytecode_ =
      some ["PUSH -2147483648".toList, "PUSH -1".toList, "DIV".toList, "PRINT".toList,
        "HALT:".toList] ∧
    run 10 ["PUSH -2147483648".toList, "PUSH -1".toList, "DIV".toList, "PRINT".toList,
        "HALT:".toList] (VM.new []) =
      .aborted Fault.arithmetic_signal
        { stack := [], vars := [], pc := 2, labels := [("HALT".toList, 4)],
          callstack := [], out := [], env := [] } := by
  refine ⟨?_, ?_, ?_, overflow_print_aborts.1, overflow_print_aborts.2⟩
  · intro g
    rw [visitStmt, visitExpr_arith e he g]
    simp [emit]
  rotate_left
  · intro pre post vm k hpc hdef
    exact arith_overflow_aborts e he _ pre ("PRINT".toList :: post) vm (by simp) hpc hdef k
  · intro pre post vm hpc hdef
    refine ⟨?_, by simp⟩
    have hprog : pre ++ (exprCode e ++ ["PRINT".toList]) ++ post =
        pre ++ exprCode e ++ ("PRINT".toList :: post) := by simp
    have h1 := arith_run e he _ pre ("PRINT".toList :: post) vm hprog hpc hdef
    rw [stateAfter_add _ _ 1 _ _ h1]
    refine stateAfter_step _ 0 _ _ "PRINT".toList _ ?_
      (execute_PRINT _ _ vm.stack (specValue vm.vars e) rfl) ?_
    · rw [hprog]
      show (pre ++ exprCode e ++ "PRINT".toList :: post)[vm.pc + (exprCode e).length]? = _
      exact getElem?_pre_cons _ _ _ _ (by simp [hpc])
    · show some _ = some _
      simp [Nat.add_assoc]

/-- C34, instance: `POUR x * 2;` with `x = 21` on a stack holding 7. -/
theorem print_leaves_value_witness :
    divDefined [("x".toList, 21)]
      (.Binary (.Variable (identifier "x" 1)) ⟨.STAR, "*".toList, [], 1⟩
        (.Literal ⟨.NUMBER, "2".toList, "2".toList, 1⟩ "2".toList)) = true ∧
    stateAfter ["LOAD x".toList, "PUSH 2".toList, "MUL".toList, "PRINT".toList] 4
        (VM.mk [7] [("x".toList, 21)] 0 [] [] [] []) =
      some (VM.mk [7, 42] [("x".toList, 21)] 4 [] [] ["42".toList] []) :=
  ⟨by decide,
   ((print_leaves_value ⟨.POUR, "POUR".toList, [], 1⟩
    (.Binary (.Variable (identifier "x" 1)) ⟨.STAR, "*".toList, [], 1⟩
      (.Literal ⟨.NUMBER, "2".toList, "2".toList, 1⟩ "2".toList)) (by decide)).2.1 [] []
    (VM.mk [7] [("x".toList, 21)] 0 [] [] [] []) rfl (by decide)).1⟩


/-! ## C37: errors accumulate -/

/-- What one operation does to the symbol table, and the messages it adds, do not
depend on the errors recorded before. -/
theorem apply_withoutErrors (a : SemanticAnalyzer) (v : Visit) :
    (Visit.apply a v).symbols_ = (Visit.apply a.withoutErrors v).symbols_ ∧
    (Visit.apply a v).errors_ = a.errors_ ++ (Visit.apply a.withoutErrors v).errors_ ∧
    (Visit.apply a v).hadError_ = (a.hadError_ || (Visit.apply a.withoutErrors v).hadError_) := by
  obtain ⟨symbols, errors, hadError⟩ := a
  cases v with
  | declare name type p =>
    simp only [Visit.apply, SemanticAnalyzer.declare, SemanticAnalyzer.withoutErrors,
      SemanticAnalyzer.error]
    cases mapFind symbols name.lexeme <;> simp
  | use name =>
    simp only [Visit.apply, SemanticAnalyzer.resolve, SemanticAnalyzer.withoutErrors,
      SemanticAnalyzer.error]
    cases mapFind symbols name.lexeme with
    | none => simp
    | some symbol => by_cases ht : symbol.type = .VARIABLE <;> simp [ht]
  | call callee k =>
    simp only [Visit.apply, SemanticAnalyzer.checkCall, SemanticAnalyzer.resolve,
      SemanticAnalyzer.withoutErrors, SemanticAnalyzer.error]
    by_cases hb : isBuiltin callee.lexeme = true
    · by_cases hk : k = getParamCount callee.lexeme <;> simp [hb, hk]
    · simp only [hb, if_false, Bool.false_eq_true]
      cases mapFind symbols callee.lexeme with
      | none => simp
      | some symbol =>
        by_cases ht : symbol.type = .FUNCTION
        · by_cases hk : k = symbol.paramCount <;> simp [ht, hk]
        · simp [ht]

/-- The operations that follow an error are carried out as if there had been none. -/
theorem foldl_withoutErrors (xs : List Visit) : ∀ a : SemanticAnalyzer,
    (xs.foldl Visit.apply a).symbols_ = (xs.foldl Visit.apply a.withoutErrors).symbols_ ∧
    (xs.foldl Visit.apply a).errors_ =
      a.errors_ ++ (xs.foldl Visit.apply a.withoutErrors).errors_ ∧
    (xs.foldl Visit.apply a).hadError_ =
      (a.hadError_ || (xs.foldl Visit.apply a.withoutErrors).hadError_) := by
  induction xs with
  | nil => intro a; simp [SemanticAnalyzer.withoutErrors]
  | cons v xs ih =>
    intro a
    obtain ⟨s1, e1, h1⟩ := apply_withoutErrors a v
    have hclean : (Visit.apply a v).withoutErrors =
        (Visit.apply a.withoutErrors v).withoutErrors := by
      show SemanticAnalyzer.mk (Visit.apply a v).symbols_ [] false =
        SemanticAnalyzer.mk (Visit.apply a.withoutErrors v).symbols_ [] false
      rw [s1]
    obtain ⟨s2, e2, h2⟩ := ih (Visit.apply a v)
    obtain ⟨s3, e3, h3⟩ := ih (Visit.apply a.withoutErrors v)
    simp only [List.foldl_cons]
    rw [hclean] at s2 e2 h2
    refine ⟨by rw [s2, s3], ?_, ?_⟩
    · rw [e2, e3, e1, List.append_assoc]
    · rw [h2, h3, h1, Bool.or_assoc]

theorem programVisits_printProgram (names : List (Token × Token)) :
    programVisits (printProgram names) = names.map fun p => Visit.use p.2 := by
  have hf : ∀ ns : List (Token × Token),
      functionVisits (ns.map fun p => Stmt.Print p.1 (.Variable p.2)) = [] := by
    intro ns
    induction ns with
    | nil => rfl
    | cons p rest ih => simpa [functionVisits] using ih
  have hb : ∀ ns : List (Token × Token),
      blockVisits (ns.map fun p => Stmt.Print p.1 (.Variable p.2)) =
        ns.map fun p => Visit.use p.2 := by
    intro ns
    induction ns with
    | nil => rfl
    | cons p rest ih => simp [blockVisits, stmtVisits, exprVisits, ih]
  unfold programVisits printProgram
  rw [hf, hb, List.nil_append]

theorem foldl_uses (names : List (Token × Token)) : ∀ (a : SemanticAnalyzer),
    a.symbols_ = [] →
    (names.map fun p => Visit.use p.2).foldl Visit.apply a =
      { a with errors_ := a.errors_ ++ names.map fun p => undefinedError p.2 .VARIABLE,
               hadError_ := a.hadError_ || !names.isEmpty } := by
  induction names with
  | nil => intro a _; simp
  | cons p rest ih =>
    intro a ha
    have hstep : Visit.apply a (.use p.2) =
        { a with errors_ := a.errors_ ++ [undefinedError p.2 .VARIABLE], hadError_ := true } := by
      simp [Visit.apply, SemanticAnalyzer.resolve, ha, mapFind, SemanticAnalyzer.error,
        undefinedError]
    rw [List.map_cons, List.foldl_cons, hstep]
    have h2 := ih { a with errors_ := a.errors_ ++ [undefinedError p.2 .VARIABLE],
                           hadError_ := true } ha
    rw [h2]
    simp


/-- C37. For every list of names, the analysis of the program `POUR v1; … POUR vn;`
reports exactly one error for each statement, the undefined variable it names, in
the order of the statements (no name is declared, so each is undeclared; the names
need not even differ). In general an error never suppresses a later check: for
every program and every point of the walk, the operations after that point change
the symbol table and add the messages they would add if no error had been recorded
before. Through the whole compiler, three prints of undeclared variables give three
errors, and an undeclared variable in the first statement does not hide the
redeclaration in the third. -/
theorem errors_accumulate (names : List (Token × Token)) (a : SemanticAnalyzer) :
    (SemanticAnalyzer.analyze (printProgram names) a).errors_ =
      names.map (fun p => undefinedError p.2 .VARIABLE) ∧
    (SemanticAnalyzer.analyze (printProgram names) a).errors_.length = names.length ∧
    (SemanticAnalyzer.analyze (printProgram names) a).hadError_ = !names.isEmpty ∧
    (∀ (program : Program) (j : Nat),
      (SemanticAnalyzer.analyze program a).symbols_ =
        (((programVisits program).drop j).foldl Visit.apply
          (analyzerAfter program j).withoutErrors).symbols_ ∧
      (SemanticAnalyzer.analyze program a).errors_ =
        (analyzerAfter program j).errors_ ++
          (((programVisits program).drop j).foldl Visit.apply
            (analyzerAfter program j).withoutErrors).errors_) ∧
    (Compiler.compile 64 threeUndeclaredSource Compiler.new).map Compiler.errors_ =
      some ["Line 1: Undefined variable: 'a'".toList, "Line 2: Undefined variable: 'b'".toList,
        "Line 3: Undefined variable: 'c'".toList] ∧
    (Compiler.compile 64 errorThenRedeclarationSource Compiler.new).map Compiler.errors_ =
      some ["Line 1: Undefined variable: 'a'".toList,
        "Line 3: Redeclaration of 'x' (first declared at line 2)".toList] := by
  have hmain : SemanticAnalyzer.analyze (printProgram names) a =
      { symbols_ := [], errors_ := names.map (fun p => undefinedError p.2 .VARIABLE),
        hadError_ := !names.isEmpty } := by
    rw [analyze_eq_foldl, programVisits_printProgram, foldl_uses names _ rfl]
    simp [SemanticAnalyzer.new]
  refine ⟨by rw [hmain], by rw [hmain]; simp, by rw [hmain], fun program j => ?_,
    by decide, by decide⟩
  have hsplit : SemanticAnalyzer.analyze program a =
      ((programVisits program).drop j).foldl Visit.apply (analyzerAfter program j) := by
    rw [analyze_eq_foldl]
    unfold analyzerAfter
    rw [← List.foldl_append, List.take_append_drop]
  obtain ⟨hs, he, _⟩ := foldl_withoutErrors ((programVisits program).drop j)
    (analyzerAfter program j)
  rw [hsplit]
  exact ⟨hs, he⟩

/-! ## The label lines and the jumps of the generated code -/

theorem labelText_injective4 (s1 s2 : Str) (k1 k2 : Int) (h1 : s1 ∈ labelStems)
    (h2 : s2 ∈ labelStems) (h : labelText s1 k1 = labelText s2 k2) : s1 = s2 ∧ k1 = k2 := by
  simp only [labelStems, List.mem_cons, List.mem_singleton, List.not_mem_nil, or_false]
    at h1 h2
  rcases h1 with rfl | rfl | rfl | rfl <;> rcases h2 with rfl | rfl | rfl | rfl <;>
    first
    | exact ⟨rfl, to_string_injective _ _ (by simpa [labelText] using h)⟩
    | exact absurd h (by simp [labelText])

theorem labelText_head (stem : Str) (k : Int) (hs : stem ∈ labelStems) :
    (labelText stem k).head? = some 'e' ∨ (labelText stem k).head? = some 'l' := by
  simp only [labelStems, List.mem_cons, List.mem_singleton, List.not_mem_nil, or_false] at hs
  rcases hs with rfl | rfl | rfl | rfl
  · exact Or.inl rfl
  · exact Or.inl rfl
  · exact Or.inr rfl
  · exact Or.inl rfl

/-- A label line of a generated label starts with `e` or `l`. -/
theorem labelLine_head (stem : Str) (k : Int) (hs : stem ∈ labelStems) :
    (labelText stem k ++ [':']).head? = some 'e' ∨
      (labelText stem k ++ [':']).head? = some 'l' := by
  simp only [labelStems, List.mem_cons, List.mem_singleton, List.not_mem_nil, or_false] at hs
  rcases hs with rfl | rfl | rfl | rfl
  · exact Or.inl rfl
  · exact Or.inl rfl
  · exact Or.inr rfl
  · exact Or.inl rfl

theorem jump_head (line L : Str) (h : isJumpTo line L) : line.head? = some 'J' := by
  rcases h with rfl | rfl <;> rfl

theorem neutral_of_head (line : Str) (c : Char) (h : line.head? = some c) (he : c ≠ 'e')
    (hl : c ≠ 'l') (hj : c ≠ 'J') : NeutralLine line := by
  constructor
  · intro stem hs k heq
    rcases labelLine_head stem k hs with h1 | h1
    · rw [← heq, h] at h1
      exact he (Option.some.inj h1)
    · rw [← heq, h] at h1
      exact hl (Option.some.inj h1)
  · intro L hL
    have h1 := jump_head line L hL
    rw [h] at h1
    exact hj (Option.some.inj h1)

theorem neutral_of_plain (line : Str) (h : isPlainLine line = true) : NeutralLine line := by
  cases line with
  | nil => exact absurd h (by decide)
  | cons c r =>
    simp only [isPlainLine, Bool.and_eq_true, decide_eq_true_eq, bne_iff_ne, ne_eq] at h
    refine neutral_of_head _ c rfl ?_ ?_ h.2
    · intro hc; rw [hc] at h; exact absurd h.1.2 (by decide)
    · intro hc; rw [hc] at h; exact absurd h.1.2 (by decide)

/-- The label line of a function whose name is not of the form of a generated label
and holds no blank. -/
theorem neutral_of_name (f : Str) (h1 : ¬ isGeneratedLabel f) (h2 : ' ' ∉ f) :
    NeutralLine (f ++ [':']) := by
  constructor
  · intro stem hs k heq
    exact h1 ⟨stem, hs, k, List.append_cancel_right heq⟩
  · intro L hL
    have hmem : ' ' ∈ f ++ [':'] := by
      rcases hL with h | h <;> (rw [h]; simp)
    rcases List.mem_append.mp hmem with h | h
    · exact h2 h
    · simp at h

theorem jump_not_labelLine (line L : Str) (h : isJumpTo line L) (stem : Str) (k : Int)
    (hs : stem ∈ labelStems) : line ≠ labelText stem k ++ [':'] := by
  intro heq
  have h1 := jump_head line L h
  rcases labelLine_head stem k hs with h2 | h2 <;>
    (rw [← heq, h1] at h2; exact absurd (Option.some.inj h2) (by decide))

theorem labelLine_not_jump (stem : Str) (k : Int) (hs : stem ∈ labelStems) (L : Str) :
    ¬ isJumpTo (labelText stem k ++ [':']) L :=
  fun h => jump_not_labelLine _ L h stem k hs rfl

theorem PlainCode.none (vs : List Visit) (g : CodeGenerator) : PlainCode vs g g [] :=
  ⟨by simp, rfl, fun l hl => by simp at hl⟩

theorem PlainCode.append {vs : List Visit} {g g1 g2 : CodeGenerator} {c1 c2 : List Str}
    (h1 : PlainCode vs g g1 c1) (h2 : PlainCode vs g1 g2 c2) : PlainCode vs g g2 (c1 ++ c2) := by
  obtain ⟨b1, l1, n1⟩ := h1
  obtain ⟨b2, l2, n2⟩ := h2
  refine ⟨by rw [b2, b1, List.append_assoc], by rw [l2, l1], ?_⟩
  intro line hl
  rcases List.mem_append.mp hl with h | h
  · exact n1 line h
  · exact n2 line h

theorem PlainCode.mono {vs ws : List Visit} {g g1 : CodeGenerator} {c : List Str}
    (h : PlainCode vs g g1 c) (hsub : ∀ v ∈ vs, v ∈ ws) : PlainCode ws g g1 c := by
  obtain ⟨b, l, n⟩ := h
  refine ⟨b, l, fun line hl => ⟨(n line hl).1, fun hc => ?_⟩⟩
  obtain ⟨callee, k, hv, he⟩ := (n line hl).2 hc
  exact ⟨callee, k, hsub _ hv, he⟩

/-- One emitted line that starts with an upper-case letter other than `C` and `J`. -/
theorem PlainCode.one_line (vs : List Visit) (g : CodeGenerator) (line : Str)
    (hp : isPlainLine line = true) (hc : line.head? ≠ some 'C') :
    PlainCode vs g (emit g line) [line] :=
  ⟨rfl, rfl, fun l hl => by
    rw [List.mem_singleton.mp hl]
    exact ⟨hp, fun h => absurd h hc⟩⟩

theorem PlainCode.failure (vs : List Visit) (g : CodeGenerator) (m : Str) :
    PlainCode vs g (cgError g m) [] :=
  ⟨by simp [cgError], rfl, fun l hl => by simp at hl⟩

theorem PlainCode.choice {vs : List Visit} {g x y : CodeGenerator} (p : Prop) [Decidable p]
    (hx : ∃ c, PlainCode vs g x c) (hy : ∃ c, PlainCode vs g y c) :
    ∃ c, PlainCode vs g (if p then x else y) c := by
  split
  · exact hx
  · exact hy

theorem plainCode_emitBinaryOp (vs : List Visit) (op : Str) (g : CodeGenerator) :
    ∃ c, PlainCode vs g (emitBinaryOp op g) c := by
  unfold emitBinaryOp
  repeat' (with_reducible apply PlainCode.choice)
  all_goals first
    | exact ⟨_, PlainCode.failure _ _ _⟩
    | exact ⟨_, PlainCode.one_line _ _ _ (by decide) (by decide)⟩
    | exact ⟨_, ((PlainCode.one_line _ _ _ (by decide) (by decide)).append
        (PlainCode.one_line _ _ _ (by decide) (by decide))).append
        (PlainCode.one_line _ _ _ (by decide) (by decide))⟩

theorem plainCode_emitUnaryOp (vs : List Visit) (op : Str) (g : CodeGenerator) :
    ∃ c, PlainCode vs g (emitUnaryOp op g) c := by
  unfold emitUnaryOp
  repeat' (with_reducible apply PlainCode.choice)
  all_goals first
    | exact ⟨_, PlainCode.failure _ _ _⟩
    | exact ⟨_, (PlainCode.one_line _ _ _ (by decide) (by decide)).append
        (PlainCode.one_line _ _ _ (by decide) (by decide))⟩

mutual
/-- The code of an expression: plain lines, no label allocated, and every CALL line is
the call of a call expression in it. -/
theorem plainCode_visitExpr : ∀ (e : Expr) (g : CodeGenerator),
    ∃ c, PlainCode (exprVisits e) g (visitExpr e g) c
  | .Literal _ value, g => by
    rw [visitExpr]
    exact ⟨_, PlainCode.one_line _ _ _ rfl (by simp)⟩
  | .Variable name, g => by
    rw [visitExpr]
    exact ⟨_, PlainCode.one_line _ _ _ rfl (by simp)⟩
  | .Binary left op right, g => by
    rw [visitExpr, exprVisits]
    obtain ⟨c1, h1⟩ := plainCode_visitExpr left g
    obtain ⟨c2, h2⟩ := plainCode_visitExpr right (visitExpr left g)
    obtain ⟨c3, h3⟩ := plainCode_emitBinaryOp (exprVisits left ++ exprVisits right) op.lexeme
      (visitExpr right (visitExpr left g))
    exact ⟨_, ((h1.mono (fun v hv => List.mem_append_left _ hv)).append
      (h2.mono (fun v hv => List.mem_append_right _ hv))).append h3⟩
  | .Unary op right, g => by
    rw [visitExpr, exprVisits]
    obtain ⟨c1, h1⟩ := plainCode_visitExpr right g
    obtain ⟨c2, h2⟩ := plainCode_emitUnaryOp (exprVisits right) op.lexeme (visitExpr right g)
    exact ⟨_, h1.append h2⟩
  | .Call callee arguments, g => by
    rw [visitExpr, exprVisits]
    obtain ⟨c1, h1⟩ := plainCode_visitArguments arguments g
    refine ⟨c1 ++ [callLine callee.lexeme arguments.length],
      (h1.mono (fun v hv => List.mem_cons_of_mem _ hv)).append ⟨rfl, rfl, fun l hl => ?_⟩⟩
    rw [List.mem_singleton.mp hl]
    exact ⟨rfl, fun _ => ⟨callee, arguments.length, List.mem_cons_self _ _, rfl⟩⟩
/-- The code of the arguments of a call. -/
theorem plainCode_visitArguments : ∀ (es : List Expr) (g : CodeGenerator),
    ∃ c, PlainCode (argumentVisits es) g (visitArguments es g) c
  | [], g => by
    rw [visitArguments]
    exact ⟨[], PlainCode.none _ g⟩
  | arg :: rest, g => by
    rw [visitArguments, argumentVisits]
    obtain ⟨c1, h1⟩ := plainCode_visitExpr arg g
    obtain ⟨c2, h2⟩ := plainCode_visitArguments rest (visitExpr arg g)
    exact ⟨_, (h1.mono (fun v hv => List.mem_append_left _ hv)).append
      (h2.mono (fun v hv => List.mem_append_right _ hv))⟩
end


theorem GenLabels.nothing (g : CodeGenerator) : GenLabels g g [] [] 0 :=
  ⟨by simp, fun _ _ => ⟨Int.le_refl _, by simp⟩, fun _ _ _ h => by simp at h,
    fun _ _ _ => by simp, fun _ h => by simp at h⟩

theorem GenLabels.bytecode {g g1 : CodeGenerator} {c U : List Str} {n : Nat}
    (h : GenLabels g g1 c U n) : g1.bytecode_ = g.bytecode_ ++ c := h.1

theorem GenLabels.counter {g g1 : CodeGenerator} {c U : List Str} {n : Nat}
    (h : GenLabels g g1 c U n) (stem : Str) (hs : stem ∈ labelStems) :
    labelCount g stem ≤ labelCount g1 stem ∧ labelCount g1 stem ≤ labelCount g stem + n :=
  h.2.1 stem hs

theorem GenLabels.range {g g1 : CodeGenerator} {c U : List Str} {n : Nat}
    (h : GenLabels g g1 c U n) (stem : Str) (hs : stem ∈ labelStems) (k : Int)
    (hk : (labelText stem k ++ [':']) ∈ c) :
    labelCount g stem ≤ k ∧ k < labelCount g1 stem :=
  h.2.2.1 stem hs k hk

theorem GenLabels.more_room {g g1 : CodeGenerator} {c U : List Str} {n m : Nat}
    (h : GenLabels g g1 c U n) (hnm : n ≤ m) : GenLabels g g1 c U m := by
  obtain ⟨hb, hc, hr, hn, hj⟩ := h
  refine ⟨hb, fun stem hs => ⟨(hc stem hs).1, ?_⟩, hr, hn, hj⟩
  have := (hc stem hs).2
  omega

/-- The list of unresolved labels may drop every label that the code defines. -/
theorem GenLabels.resolve {g g1 : CodeGenerator} {c U V : List Str} {n : Nat}
    (h : GenLabels g g1 c U n) (hU : ∀ x ∈ U, (x ++ [':']) ∈ c ∨ x ∈ V) :
    GenLabels g g1 c V n := by
  obtain ⟨hb, hc, hr, hn, hj⟩ := h
  refine ⟨hb, hc, hr, hn, fun line hl L hL => ⟨(hj line hl L hL).1, ?_⟩⟩
  rcases (hj line hl L hL).2 with h1 | h1
  · exact Or.inl h1
  · exact hU L h1

theorem GenLabels.followed {g g1 g2 : CodeGenerator} {c1 c2 U1 U2 : List Str} {n1 n2 : Nat}
    (h1 : GenLabels g g1 c1 U1 n1) (h2 : GenLabels g1 g2 c2 U2 n2) :
    GenLabels g g2 (c1 ++ c2) (U1 ++ U2) (n1 + n2) := by
  obtain ⟨hb1, hc1, hr1, hn1, hj1⟩ := h1
  obtain ⟨hb2, hc2, hr2, hn2, hj2⟩ := h2
  refine ⟨by rw [hb2, hb1, List.append_assoc], ?_, ?_, ?_, ?_⟩
  · intro stem hs
    have a := hc1 stem hs
    have b := hc2 stem hs
    constructor
    · omega
    · push_cast; omega
  · intro stem hs k hk
    have a := hc1 stem hs
    have b := hc2 stem hs
    rcases List.mem_append.mp hk with h | h
    · have := hr1 stem hs k h
      omega
    · have := hr2 stem hs k h
      omega
  · intro stem hs k
    rw [List.count_append]
    have a := hn1 stem hs k
    have b := hn2 stem hs k
    by_cases hm1 : (labelText stem k ++ [':']) ∈ c1
    · by_cases hm2 : (labelText stem k ++ [':']) ∈ c2
      · have r1 := hr1 stem hs k hm1
        have r2 := hr2 stem hs k hm2
        omega
      · rw [List.count_eq_zero_of_not_mem hm2]
        omega
    · rw [List.count_eq_zero_of_not_mem hm1]
      omega
  · intro line hl L hL
    rcases List.mem_append.mp hl with h | h
    · obtain ⟨hg, hd⟩ := hj1 line h L hL
      refine ⟨hg, ?_⟩
      rcases hd with h' | h'
      · exact Or.inl (List.mem_append_left _ h')
      · exact Or.inr (List.mem_append_left _ h')
    · obtain ⟨hg, hd⟩ := hj2 line h L hL
      refine ⟨hg, ?_⟩
      rcases hd with h' | h'
      · exact Or.inl (List.mem_append_right _ h')
      · exact Or.inr (List.mem_append_right _ h')

/-- One step that appends one line and leaves the counters. -/
theorem GenLabels.neutral (g : CodeGenerator) (line : Str) (h : NeutralLine line) :
    GenLabels g (emit g line) [line] [] 0 := by
  refine ⟨rfl, fun _ _ => ⟨Int.le_refl _, by simp [labelCount_emit]⟩, ?_, ?_, ?_⟩
  · intro stem hs k hk
    exact absurd (List.mem_singleton.mp hk).symm (h.1 stem hs k)
  · intro stem hs k
    rw [List.count_eq_zero_of_not_mem]
    · exact Nat.zero_le _
    · intro hk
      exact h.1 stem hs k (List.mem_singleton.mp hk).symm
  · intro l hl L hL
    rw [List.mem_singleton.mp hl] at hL
    exact absurd hL (h.2 L)

theorem GenLabels.plain_code {vs : List Visit} {g g1 : CodeGenerator} {c : List Str}
    (h : PlainCode vs g g1 c) : GenLabels g g1 c [] 0 := by
  obtain ⟨hb, hl, hp⟩ := h
  have hcount : ∀ stem, labelCount g1 stem = labelCount g stem := by
    intro stem
    unfold labelCount
    rw [hl]
  refine ⟨hb, fun stem _ => by rw [hcount]; simp, ?_, ?_, ?_⟩
  · intro stem hs k hk
    exact absurd rfl ((neutral_of_plain _ (hp _ hk).1).1 stem hs k)
  · intro stem hs k
    rw [List.count_eq_zero_of_not_mem]
    · exact Nat.zero_le _
    · intro hk
      exact (neutral_of_plain _ (hp _ hk).1).1 stem hs k rfl
  · intro l hl L hL
    exact absurd hL ((neutral_of_plain _ (hp _ hl).1).2 L)

/-- One step that appends a JMP or a JZ to a generated label. -/
theorem GenLabels.jump_line (g : CodeGenerator) (line L : Str) (hL : isJumpTo line L)
    (hg : isGeneratedLabel L) : GenLabels g (emit g line) [line] [L] 0 := by
  refine ⟨rfl, fun _ _ => ⟨Int.le_refl _, by simp [labelCount_emit]⟩, ?_, ?_, ?_⟩
  · intro stem hs k hk
    exact absurd (List.mem_singleton.mp hk).symm (jump_not_labelLine line L hL stem k hs)
  · intro stem hs k
    rw [List.count_eq_zero_of_not_mem]
    · exact Nat.zero_le _
    · intro hk
      exact jump_not_labelLine line L hL stem k hs (List.mem_singleton.mp hk).symm
  · intro l hl L1 hL1
    rw [List.mem_singleton.mp hl] at hL1
    have hsame : L1 = L := by
      have h1 := jump_head line L hL
      rcases hL with rfl | rfl <;> rcases hL1 with h | h
      · exact (List.append_cancel_left h).symm
      · exact absurd h (by simp)
      · exact absurd h (by simp)
      · exact (List.append_cancel_left h).symm
    rw [hsame]
    exact ⟨hg, Or.inr (List.mem_singleton_self _)⟩

/-- Appending the label line of a generated label whose number lies between the
counters and that the code does not hold yet. -/
theorem GenLabels.label {g g1 : CodeGenerator} {c U : List Str} {n : Nat}
    (h : GenLabels g g1 c U n) (stem : Str) (k : Int) (hs : stem ∈ labelStems)
    (hr : labelCount g stem ≤ k ∧ k < labelCount g1 stem)
    (hnew : (labelText stem k ++ [':']) ∉ c) :
    GenLabels g (emit g1 (labelText stem k ++ [':'])) (c ++ [labelText stem k ++ [':']]) U n := by
  obtain ⟨hb, hc, hrange, hn, hj⟩ := h
  refine ⟨by simp [emit, hb], hc, ?_, ?_, ?_⟩
  · intro s1 hs1 k1 hk
    rcases List.mem_append.mp hk with h' | h'
    · exact hrange s1 hs1 k1 h'
    · have heq := List.append_cancel_right (List.mem_singleton.mp h')
      obtain ⟨e1, e2⟩ := labelText_injective4 _ _ _ _ hs1 hs heq
      rw [e1, e2]
      exact hr
  · intro s1 hs1 k1
    rw [List.count_append]
    by_cases heq : labelText s1 k1 ++ [':'] = labelText stem k ++ [':']
    · rw [heq, List.count_eq_zero_of_not_mem hnew]
      simp
    · have : List.count (labelText s1 k1 ++ [':']) [labelText stem k ++ [':']] = 0 := by
        rw [List.count_eq_zero_of_not_mem]
        intro hm
        exact heq (List.mem_singleton.mp hm)
      rw [this]
      exact hn s1 hs1 k1
  · intro line hl L hL
    rcases List.mem_append.mp hl with h' | h'
    · obtain ⟨hg, hd⟩ := hj line h' L hL
      refine ⟨hg, ?_⟩
      rcases hd with h1 | h1
      · exact Or.inl (List.mem_append_left _ h1)
      · exact Or.inr h1
    · rw [List.mem_singleton.mp h'] at hL
      exact absurd hL (labelLine_not_jump stem k hs L)

/-- Allocating one label. -/
theorem GenLabels.alloc (g : CodeGenerator) (stem : Str) (hroom : LabelSpace g 1) :
    GenLabels g (newLabel g stem).2 [] [] 1 := by
  refine ⟨by simp [newLabel_bytecode], ?_, fun _ _ _ h => by simp at h, fun _ _ _ => by simp,
    fun _ h => by simp at h⟩
  intro s hs
  by_cases he : stem = s
  · subst he
    have hr := hroom stem hs
    rw [labelCount_newLabel_same, wrap32_succ _ hr.1 (by exact_mod_cast hr.2)]
    constructor <;> omega
  · rw [labelCount_newLabel_other g stem s he]
    constructor <;> omega

/-- Allocating two labels of different stems, as `visitIf` and `visitLoop` do. -/
theorem GenLabels.alloc_pair (g : CodeGenerator) (s1 s2 : Str) (hne : s1 ≠ s2)
    (hroom : LabelSpace g 1) :
    GenLabels g (newLabel (newLabel g s1).2 s2).2 [] [] 1 := by
  refine ⟨by simp [newLabel_bytecode], ?_, fun _ _ _ h => by simp at h, fun _ _ _ => by simp,
    fun _ h => by simp at h⟩
  intro s hs
  have hr := hroom s hs
  by_cases h2 : s2 = s
  · subst h2
    rw [labelCount_newLabel_same, labelCount_newLabel_other g s1 s2 hne,
      wrap32_succ _ hr.1 (by exact_mod_cast hr.2)]
    constructor <;> omega
  · rw [labelCount_newLabel_other _ s2 s h2]
    by_cases h1 : s1 = s
    · subst h1
      rw [labelCount_newLabel_same, wrap32_succ _ hr.1 (by exact_mod_cast hr.2)]
      constructor <;> omega
    · rw [labelCount_newLabel_other g s1 s h1]
      constructor <;> omega

theorem LabelSpace.after {g g1 : CodeGenerator} {c U : List Str} {n1 n2 : Nat}
    (h : GenLabels g g1 c U n1) (hr : LabelSpace g (n1 + n2)) : LabelSpace g1 n2 := by
  intro stem hs
  have a := h.counter stem hs
  have b := hr stem hs
  push_cast at b
  constructor <;> omega

theorem LabelSpace.less {g : CodeGenerator} {n m : Nat} (hr : LabelSpace g n) (h : m ≤ n) :
    LabelSpace g m := by
  intro stem hs
  have b := hr stem hs
  constructor <;> omega

theorem PlainNames.left {a b : List Str} (h : PlainNames (a ++ b)) : PlainNames a :=
  fun f hf => h f (List.mem_append_left _ hf)

theorem PlainNames.right {a b : List Str} (h : PlainNames (a ++ b)) : PlainNames b :=
  fun f hf => h f (List.mem_append_right _ hf)


theorem GenLabels.same {g g1 : CodeGenerator} {c U V : List Str} {n : Nat}
    (h : GenLabels g g1 c U n) (e : U = V) : GenLabels g g1 c V n := e ▸ h

theorem plainCode_counts {vs : List Visit} {g g1 : CodeGenerator} {c : List Str}
    (h : PlainCode vs g g1 c) (stem : Str) : labelCount g1 stem = labelCount g stem := by
  unfold labelCount
  rw [h.2.1]

theorem labelCount_alloc_pair (g : CodeGenerator) (s1 s2 : Str) (hne : s1 ≠ s2)
    (h1 : s1 ∈ labelStems) (h2 : s2 ∈ labelStems) (hroom : LabelSpace g 1) :
    labelCount (newLabel (newLabel g s1).2 s2).2 s1 = labelCount g s1 + 1 ∧
    labelCount (newLabel (newLabel g s1).2 s2).2 s2 = labelCount g s2 + 1 := by
  have r1 := hroom s1 h1
  have r2 := hroom s2 h2
  constructor
  · rw [labelCount_newLabel_other _ s2 s1 (Ne.symm hne), labelCount_newLabel_same,
      wrap32_succ _ r1.1 (by exact_mod_cast r1.2)]
  · rw [labelCount_newLabel_same, labelCount_newLabel_other g s1 s2 hne,
      wrap32_succ _ r2.1 (by exact_mod_cast r2.2)]

theorem plain_not_labelLine {vs : List Visit} {g g1 : CodeGenerator} {c : List Str}
    (h : PlainCode vs g g1 c) (stem : Str) (k : Int) (hs : stem ∈ labelStems) :
    (labelText stem k ++ [':']) ∉ c :=
  fun hm => (neutral_of_plain _ (h.2.2 _ hm).1).1 stem hs k rfl

mutual
/-- The label lines and the jumps of the code of a statement. -/
theorem genLabels_stmt : ∀ (s : Stmt) (g : CodeGenerator),
    PlainNames (stmtFunctions s) → LabelSpace g (stmtSize s) →
    ∃ code, GenLabels g (visitStmt s g) code (breakLabelsStmt s g) (stmtSize s)
  | .Declaration _ name initializer, g, _, _ => by
    rw [visitStmt, breakLabelsStmt, stmtSize]
    obtain ⟨c, hc⟩ := plainCode_visitExpr initializer g
    exact ⟨_, (((GenLabels.plain_code hc).followed
      (GenLabels.neutral _ _ (neutral_of_plain ("STORE ".toList ++ name.lexeme) rfl))).same
      rfl).more_room (Nat.zero_le _)⟩
  | .Assignment name value, g, _, _ => by
    rw [visitStmt, breakLabelsStmt, stmtSize]
    obtain ⟨c, hc⟩ := plainCode_visitExpr value g
    exact ⟨_, (((GenLabels.plain_code hc).followed
      (GenLabels.neutral _ _ (neutral_of_plain ("STORE ".toList ++ name.lexeme) rfl))).same
      rfl).more_room (Nat.zero_le _)⟩
  | .Print _ expression, g, _, _ => by
    rw [visitStmt, breakLabelsStmt, stmtSize]
    obtain ⟨c, hc⟩ := plainCode_visitExpr expression g
    exact ⟨_, (((GenLabels.plain_code hc).followed
      (GenLabels.neutral _ _ (neutral_of_plain "PRINT".toList rfl))).same
      rfl).more_room (Nat.zero_le _)⟩
  | .Expression expression, g, _, _ => by
    rw [visitStmt, breakLabelsStmt, stmtSize]
    obtain ⟨c, hc⟩ := plainCode_visitExpr expression g
    exact ⟨_, (GenLabels.plain_code hc).more_room (Nat.zero_le _)⟩
  | .Return _ (some value), g, _, _ => by
    rw [visitStmt, breakLabelsStmt, stmtSize]
    obtain ⟨c, hc⟩ := plainCode_visitExpr value g
    exact ⟨_, (((GenLabels.plain_code hc).followed
      (GenLabels.neutral _ _ (neutral_of_plain "RET".toList rfl))).same
      rfl).more_room (Nat.zero_le _)⟩
  | .Return _ none, g, _, _ => by
    rw [visitStmt, breakLabelsStmt, stmtSize]
    exact ⟨_, (((GenLabels.neutral g _ (neutral_of_plain "PUSH 0".toList rfl)).followed
      (GenLabels.neutral _ _ (neutral_of_plain "RET".toList rfl))).same
      rfl).more_room (Nat.zero_le _)⟩
  | .Break _, g, _, hr => by
    rw [visitStmt, breakLabelsStmt, stmtSize]
    rw [stmtSize] at hr
    exact ⟨_, ((GenLabels.alloc g "end_loop".toList hr).followed
      (GenLabels.jump_line _ _ (newLabel g "end_loop".toList).1 (Or.inl rfl)
        ⟨"end_loop".toList, by decide, _, rfl⟩)).same rfl⟩
  | .Continue _, g, _, hr => by
    rw [visitStmt, breakLabelsStmt, stmtSize]
    rw [stmtSize] at hr
    exact ⟨_, ((GenLabels.alloc g "loop".toList hr).followed
      (GenLabels.jump_line _ _ (newLabel g "loop".toList).1 (Or.inl rfl)
        ⟨"loop".toList, by decide, _, rfl⟩)).same rfl⟩
  | .Block statements, g, hf, hr => by
    rw [visitStmt, breakLabelsStmt, stmtSize]
    rw [stmtSize] at hr
    rw [stmtFunctions] at hf
    obtain ⟨c, hc⟩ := genLabels_block statements g hf (hr.less (by omega))
    exact ⟨c, hc.more_room (by omega)⟩
  | .Function _ name _ body, g, hf, hr => by
    rw [visitStmt, breakLabelsStmt, stmtSize]
    rw [stmtSize] at hr
    rw [stmtFunctions] at hf
    have hname := hf name.lexeme (List.mem_cons_self _ _)
    have h1 := GenLabels.neutral g (name.lexeme ++ ":".toList)
      (neutral_of_name _ hname.1 hname.2)
    obtain ⟨c, hc⟩ := genLabels_block body (emit g (name.lexeme ++ ":".toList))
      (fun f hm => hf f (List.mem_cons_of_mem _ hm))
      (LabelSpace.after h1 (hr.less (by omega)))
    exact ⟨_, ((((h1.followed hc).followed
      (GenLabels.neutral _ _ (neutral_of_plain "PUSH 0".toList rfl))).followed
      (GenLabels.neutral _ _ (neutral_of_plain "RET".toList rfl))).same
      (by simp)).more_room (by omega)⟩
  | .If _ condition thenBranch elseBranch, g, hf, hr => by
    rw [visitStmt, breakLabelsStmt, stmtSize]
    rw [stmtSize] at hr
    rw [stmtFunctions] at hf
    obtain ⟨cc, hcc⟩ := plainCode_visitExpr condition g
    generalize visitExpr condition g = g1 at hcc ⊢
    have hplain := plainCode_counts hcc
    have H0 := GenLabels.plain_code hcc
    have room1 : LabelSpace g1 1 :=
      LabelSpace.after H0 ((hr.less (by omega) : LabelSpace g (0 + 1)))
    obtain ⟨hke, hkn⟩ := labelCount_alloc_pair g1 "else".toList "end_if".toList (by decide)
      (by decide) (by decide) room1
    have He : isGeneratedLabel (newLabel g1 "else".toList).1 :=
      ⟨"else".toList, by decide, _, rfl⟩
    have Hn : isGeneratedLabel (newLabel (newLabel g1 "else".toList).2 "end_if".toList).1 :=
      ⟨"end_if".toList, by decide, _, rfl⟩
    have H2 := (H0.followed (GenLabels.alloc_pair g1 "else".toList "end_if".toList (by decide)
      room1)).followed (GenLabels.jump_line _ ("JZ ".toList ++ (newLabel g1 "else".toList).1)
        _ (Or.inr rfl) He)
    obtain ⟨cT, hT⟩ := genLabels_block thenBranch _ hf.left
      (LabelSpace.after H2 (hr.less (by omega)))
    have H4 := (H2.followed hT).followed (GenLabels.jump_line _
      ("JMP ".toList ++ (newLabel (newLabel g1 "else".toList).2 "end_if".toList).1) _
      (Or.inl rfl) Hn)
    have hcT_else := hT.range "else".toList (by decide)
    have hcT_end := hT.range "end_if".toList (by decide)
    have hcT_count := hT.counter
    simp only [labelCount_emit] at hcT_else hcT_end hcT_count
    have H5 := H4.label "else".toList (labelCount g1 "else".toList) (by decide)
      (by
        have a := H4.counter "else".toList (by decide)
        have b := hcT_count "else".toList (by decide)
        simp only [labelCount_emit] at a ⊢
        rw [hplain]
        rw [hke] at b
        rw [hplain] at b
        constructor <;> omega)
      (by
        intro hm
        simp only [List.mem_append, List.mem_singleton, List.not_mem_nil, or_false,
          false_or] at hm
        rcases hm with ((hm | hm) | hm) | hm
        · exact plain_not_labelLine hcc _ _ (by decide) hm
        · exact jump_not_labelLine _ _ (Or.inr rfl) _ _ (by decide) hm.symm
        · have := hcT_else _ hm
          rw [hke] at this
          omega
        · exact jump_not_labelLine _ _ (Or.inl rfl) _ _ (by decide) hm.symm)
    obtain ⟨cE, hE⟩ := genLabels_else elseBranch _ hf.right
      (LabelSpace.after H5 (hr.less (by omega)))
    have hcE_end := hE.range "end_if".toList (by decide)
    simp only [labelCount_emit] at hcE_end
    have H7 := (H5.followed hE).label "end_if".toList
      (labelCount (newLabel g1 "else".toList).2 "end_if".toList) (by decide)
      (by
        have a := (H5.followed hE).counter "end_if".toList (by decide)
        have b := hcT_count "end_if".toList (by decide)
        have c := hE.counter "end_if".toList (by decide)
        simp only [labelCount_emit] at a c ⊢
        rw [labelCount_newLabel_other _ _ _ (by decide), hplain]
        rw [hkn, hplain] at b
        constructor <;> omega)
      (by
        intro hm
        simp only [List.mem_append, List.mem_singleton, List.not_mem_nil, or_false,
          false_or] at hm
        rcases hm with (((((hm | hm) | hm) | hm) | hm) | hm)
        · exact plain_not_labelLine hcc _ _ (by decide) hm
        · exact jump_not_labelLine _ _ (Or.inr rfl) _ _ (by decide) hm.symm
        · have := hcT_end _ hm
          rw [hkn, labelCount_newLabel_other _ _ _ (by decide)] at this
          omega
        · exact jump_not_labelLine _ _ (Or.inl rfl) _ _ (by decide) hm.symm
        · have := (labelText_injective4 _ _ _ _ (by decide) (by decide)
            (List.append_cancel_right hm)).1
          exact absurd this (by decide)
        · have := hcE_end _ hm
          have b := hcT_count "end_if".toList (by decide)
          rw [hkn] at b
          rw [labelCount_newLabel_other _ _ _ (by decide)] at this
          omega)
    refine ⟨_, (H7.resolve ?_).more_room (by omega)⟩
    intro x hx
    simp only [List.mem_append, List.mem_singleton, List.not_mem_nil, or_false,
      false_or] at hx
    rcases hx with ((hx | hx) | hx) | hx
    · left
      rw [hx]
      simp [newLabel_fst]
    · exact Or.inr (List.mem_append_left _ hx)
    · left
      rw [hx]
      simp [newLabel_fst]
    · exact Or.inr (List.mem_append_right _ hx)
  | .Loop _ condition body, g, hf, hr => by
    rw [visitStmt, breakLabelsStmt, stmtSize]
    rw [stmtSize] at hr
    rw [stmtFunctions] at hf
    have room1 : LabelSpace g 1 := hr.less (by omega)
    obtain ⟨hkl, hke⟩ := labelCount_alloc_pair g "loop".toList "end_loop".toList (by decide)
      (by decide) (by decide) room1
    have Hl : isGeneratedLabel (newLabel g "loop".toList).1 :=
      ⟨"loop".toList, by decide, _, rfl⟩
    have He : isGeneratedLabel (newLabel (newLabel g "loop".toList).2 "end_loop".toList).1 :=
      ⟨"end_loop".toList, by decide, _, rfl⟩
    have K2 := (GenLabels.alloc_pair g "loop".toList "end_loop".toList (by decide)
      room1).label "loop".toList (labelCount g "loop".toList) (by decide)
      (by rw [hkl]; constructor <;> omega) (by simp)
    obtain ⟨cc, hcc⟩ := plainCode_visitExpr condition
      (emit (newLabel (newLabel g "loop".toList).2 "end_loop".toList).2
        ((newLabel g "loop".toList).1 ++ ":".toList))
    have hplain := plainCode_counts hcc
    have K4 := (K2.followed (GenLabels.plain_code hcc)).followed (GenLabels.jump_line _
      ("JZ ".toList ++ (newLabel (newLabel g "loop".toList).2 "end_loop".toList).1) _
      (Or.inr rfl) He)
    obtain ⟨cB, hB⟩ := genLabels_block body _ hf (LabelSpace.after K4 (hr.less (by omega)))
    have hcB_end := hB.range "end_loop".toList (by decide)
    simp only [labelCount_emit] at hcB_end
    have K6 := (K4.followed hB).followed (GenLabels.jump_line _
      ("JMP ".toList ++ (newLabel g "loop".toList).1) _ (Or.inl rfl) Hl)
    have K7 := K6.label "end_loop".toList
      (labelCount (newLabel g "loop".toList).2 "end_loop".toList) (by decide)
      (by
        have a := K6.counter "end_loop".toList (by decide)
        have b := hB.counter "end_loop".toList (by decide)
        simp only [labelCount_emit] at a b ⊢
        rw [hplain, labelCount_emit, hke] at b
        rw [labelCount_newLabel_other _ _ _ (by decide)]
        constructor <;> omega)
      (by
        intro hm
        simp only [List.mem_append, List.mem_singleton, List.not_mem_nil, or_false,
          false_or, List.nil_append] at hm
        rcases hm with ((((hm | hm) | hm) | hm) | hm)
        · have := (labelText_injective4 _ _ _ _ (by decide) (by decide)
            (List.append_cancel_right hm)).1
          exact absurd this (by decide)
        · exact plain_not_labelLine hcc _ _ (by decide) hm
        · exact jump_not_labelLine _ _ (Or.inr rfl) _ _ (by decide) hm.symm
        · have := hcB_end _ hm
          rw [hplain, labelCount_emit, hke, labelCount_newLabel_other _ _ _ (by decide)] at this
          omega
        · exact jump_not_labelLine _ _ (Or.inl rfl) _ _ (by decide) hm.symm)
    refine ⟨_, (K7.resolve ?_).more_room (by omega)⟩
    intro x hx
    simp only [List.mem_append, List.mem_singleton, List.not_mem_nil, or_false,
      false_or, List.nil_append] at hx
    rcases hx with (hx | hx) | hx
    · left
      rw [hx]
      simp [newLabel_fst]
    · exact Or.inr hx
    · left
      rw [hx]
      simp [newLabel_fst]
/-- The label lines and the jumps of the code of a block. -/
theorem genLabels_block : ∀ (ss : List Stmt) (g : CodeGenerator),
    PlainNames (blockFunctions ss) → LabelSpace g (blockSize ss) →
    ∃ code, GenLabels g (visitBlock ss g) code (breakLabelsBlock ss g) (blockSize ss)
  | [], g, _, _ => by
    rw [visitBlock, breakLabelsBlock, blockSize]
    exact ⟨[], GenLabels.nothing g⟩
  | stmt :: rest, g, hf, hr => by
    rw [visitBlock, breakLabelsBlock, blockSize]
    rw [blockSize] at hr
    rw [blockFunctions] at hf
    obtain ⟨c1, h1⟩ := genLabels_stmt stmt g hf.left (hr.less (by omega))
    obtain ⟨c2, h2⟩ := genLabels_block rest _ hf.right (LabelSpace.after h1 hr)
    exact ⟨_, h1.followed h2⟩
/-- The label lines and the jumps of the code of an else branch. -/
theorem genLabels_else : ∀ (b : Option (List Stmt)) (g : CodeGenerator),
    PlainNames (elseFunctions b) → LabelSpace g (elseSize b) →
    ∃ code, GenLabels g (visitElse b g) code (breakLabelsElse b g) (elseSize b)
  | none, g, _, _ => by
    rw [visitElse, breakLabelsElse, elseSize]
    exact ⟨[], GenLabels.nothing g⟩
  | some block, g, hf, hr => by
    rw [visitElse, breakLabelsElse, elseSize]
    rw [elseSize] at hr
    rw [elseFunctions] at hf
    exact genLabels_block block g hf hr
end

/-! ## The code of an IF statement and the place of its labels -/

theorem emit_extends (g : CodeGenerator) (line : Str) :
    g.bytecode_ <+: (emit g line).bytecode_ := List.prefix_append _ _

theorem visitExpr_extends (e : Expr) (g : CodeGenerator) :
    g.bytecode_ <+: (visitExpr e g).bytecode_ := by
  obtain ⟨c, hc⟩ := plainCode_visitExpr e g
  rw [hc.1]
  exact List.prefix_append _ _

mutual
/-- A statement only appends to the bytecode. -/
theorem appends_stmt : ∀ (s : Stmt) (g : CodeGenerator),
    g.bytecode_ <+: (visitStmt s g).bytecode_
  | .Declaration _ name initializer, g => by
    rw [visitStmt]
    exact (visitExpr_extends _ _).trans (emit_extends _ _)
  | .Assignment name value, g => by
    rw [visitStmt]
    exact (visitExpr_extends _ _).trans (emit_extends _ _)
  | .Print _ expression, g => by
    rw [visitStmt]
    exact (visitExpr_extends _ _).trans (emit_extends _ _)
  | .Expression expression, g => by
    rw [visitStmt]
    exact visitExpr_extends _ _
  | .Return _ (some value), g => by
    rw [visitStmt]
    exact (visitExpr_extends _ _).trans (emit_extends _ _)
  | .Return _ none, g => by
    rw [visitStmt]
    exact (emit_extends _ _).trans (emit_extends _ _)
  | .Break _, g => by
    rw [visitStmt]
    exact emit_extends (newLabel g "end_loop".toList).2 _
  | .Continue _, g => by
    rw [visitStmt]
    exact emit_extends (newLabel g "loop".toList).2 _
  | .Block statements, g => by
    rw [visitStmt]
    exact appends_block statements g
  | .Function _ name _ body, g => by
    rw [visitStmt]
    exact (((emit_extends _ _).trans (appends_block body _)).trans (emit_extends _ _)).trans
      (emit_extends _ _)
  | .If _ condition thenBranch elseBranch, g => by
    rw [visitStmt]
    exact ((((((visitExpr_extends condition g).trans
      (emit_extends (newLabel (newLabel (visitExpr condition g) "else".toList).2
        "end_if".toList).2 _)).trans
      (appends_block thenBranch _)).trans (emit_extends _ _)).trans (emit_extends _ _)).trans
      (appends_else elseBranch _)).trans (emit_extends _ _)
  | .Loop _ condition body, g => by
    rw [visitStmt]
    exact ((((((emit_extends (newLabel (newLabel g "loop".toList).2 "end_loop".toList).2
      _).trans (visitExpr_extends condition _)).trans (emit_extends _ _)).trans
      (appends_block body _)).trans (emit_extends _ _)).trans (emit_extends _ _))
/-- A block only appends to the bytecode. -/
theorem appends_block : ∀ (ss : List Stmt) (g : CodeGenerator),
    g.bytecode_ <+: (visitBlock ss g).bytecode_
  | [], g => by rw [visitBlock]
  | stmt :: rest, g => by
    rw [visitBlock]
    exact (appends_stmt stmt g).trans (appends_block rest _)
/-- An else branch only appends to the bytecode. -/
theorem appends_else : ∀ (b : Option (List Stmt)) (g : CodeGenerator),
    g.bytecode_ <+: (visitElse b g).bytecode_
  | none, g => by rw [visitElse]
  | some block, g => by
    rw [visitElse]
    exact appends_block block g
end

theorem visitBlock_thenCode (condition : Expr) (thenBranch : List Stmt) :
    (visitBlock thenBranch (ifThenState condition)).bytecode_ =
      (ifThenState condition).bytecode_ ++ thenCode condition thenBranch := by
  obtain ⟨c, hc⟩ := appends_block thenBranch (ifThenState condition)
  rw [thenCode, ← hc, List.drop_left]

theorem visitElse_elseCode (condition : Expr) (thenBranch : List Stmt)
    (elseBranch : Option (List Stmt)) :
    (visitElse elseBranch (ifElseState condition thenBranch)).bytecode_ =
      (ifElseState condition thenBranch).bytecode_ ++
        elseCode condition thenBranch elseBranch := by
  obtain ⟨c, hc⟩ := appends_else elseBranch (ifElseState condition thenBranch)
  rw [elseCode, ← hc, List.drop_left]

theorem newLabel_else_fresh (condition : Expr) :
    (newLabel (visitExpr condition CodeGenerator.new) "else".toList).1 = "else_0".toList ∧
    (newLabel (newLabel (visitExpr condition CodeGenerator.new) "else".toList).2
      "end_if".toList).1 = "end_if_0".toList := by
  obtain ⟨c, hc⟩ := plainCode_visitExpr condition CodeGenerator.new
  have h0 : (visitExpr condition CodeGenerator.new).labelCounter_ = [] := hc.2.1
  constructor
  · simp only [newLabel, h0]
    decide
  · simp only [newLabel, h0]
    decide

/-- The bytecode of a program that is one IF statement. -/
theorem generate_ifProgram (keyword : Token) (condition : Expr) (thenBranch : List Stmt)
    (elseBranch : Option (List Stmt)) (g : CodeGenerator) :
    (generate (ifProgram keyword condition thenBranch elseBranch) g).bytecode_ =
      exprCode condition ++ ["JZ else_0".toList] ++ thenCode condition thenBranch ++
        ["JMP end_if_0".toList, "else_0:".toList] ++
        elseCode condition thenBranch elseBranch ++ ["end_if_0:".toList, "HALT:".toList] := by
  have hg : generate (ifProgram keyword condition thenBranch elseBranch) g =
      emit (visitStmt (.If keyword condition thenBranch elseBranch) CodeGenerator.new)
        "HALT:".toList := by
    simp only [generate, visitProgram, ifProgram, visitBlock]
    rfl
  obtain ⟨he, hn⟩ := newLabel_else_fresh condition
  have hs : visitStmt (.If keyword condition thenBranch elseBranch) CodeGenerator.new =
      emit (visitElse elseBranch (ifElseState condition thenBranch)) "end_if_0:".toList := by
    rw [visitStmt]
    simp only [he, hn]
    rfl
  have h1 : (ifThenState condition).bytecode_ = exprCode condition ++ ["JZ else_0".toList] :=
    rfl
  have h2 : (ifElseState condition thenBranch).bytecode_ =
      (visitBlock thenBranch (ifThenState condition)).bytecode_ ++
        ["JMP end_if_0".toList] ++ ["else_0:".toList] := rfl
  rw [hg, hs]
  show (visitElse elseBranch (ifElseState condition thenBranch)).bytecode_ ++
    ["end_if_0:".toList] ++ ["HALT:".toList] = _
  rw [visitElse_elseCode, h2, visitBlock_thenCode, h1]
  simp only [List.append_assoc, List.cons_append, List.nil_append]


theorem lastLabelFrom_at (A B : List Str) (i : Nat) (L : Str) (hB : (L ++ [':']) ∉ B) :
    lastLabelFrom (A ++ (L ++ [':']) :: B) i L = some (i + A.length) := by
  induction A generalizing i with
  | nil =>
    rw [List.nil_append, lastLabelFrom, lastLabelFrom_absent B (i + 1) L hB]
    have h1 : isLabelLine (L ++ [':']) = true := by simp [isLabelLine]
    have h2 : (L ++ [':']).dropLast = L := by simp
    simp [h1, h2]
  | cons a A ih =>
    rw [List.cons_append, lastLabelFrom, ih (i + 1)]
    simp only [List.length_cons]
    congr 1
    omega

/-- The index `VM::run` records for a label defined by one line of the program. -/
theorem labels_at (A B : List Str) (L : Str) (vm : VM) (hB : (L ++ [':']) ∉ B) :
    mapFind (runInit (A ++ (L ++ [':']) :: B) vm).labels L = some A.length := by
  show mapFind (preprocessLoop (A ++ (L ++ [':']) :: B) 0 []) L = _
  rw [mapFind_preprocessLoop, lastLabelFrom_at A B 0 L hB]
  simp

theorem not_mem_of_count_le_one (X Y : List Str) (l : Str) (h : (X ++ l :: Y).count l ≤ 1) :
    l ∉ Y := by
  rw [List.count_append, List.count_cons_self] at h
  exact List.count_eq_zero.mp (by omega)

theorem labelSpace_new (n : Nat) (h : n ≤ 2147483647) : LabelSpace CodeGenerator.new n := by
  intro stem _
  have h0 : labelCount CodeGenerator.new stem = 0 := rfl
  rw [h0]
  constructor <;> omega

/-- The label lines of a program that is one IF statement: `else_0` and `end_if_0`
are each defined once, at the places where `visitIf` emits them. -/
theorem ifProgram_labels (keyword : Token) (condition : Expr) (thenBranch : List Stmt)
    (elseBranch : Option (List Stmt)) (g : CodeGenerator) (vm : VM)
    (hnames : PlainNames (blockFunctions thenBranch ++ elseFunctions elseBranch))
    (hsize : 1 + blockSize thenBranch + elseSize elseBranch ≤ 2147483647) :
    mapFind (runInit (generate (ifProgram keyword condition thenBranch elseBranch) g).bytecode_
        vm).labels "else_0".toList =
      some ((exprCode condition).length + 1 + (thenCode condition thenBranch).length + 1) ∧
    mapFind (runInit (generate (ifProgram keyword condition thenBranch elseBranch) g).bytecode_
        vm).labels "end_if_0".toList =
      some ((exprCode condition).length + 1 + (thenCode condition thenBranch).length + 2 +
        (elseCode condition thenBranch elseBranch).length) := by
  obtain ⟨code, hcode⟩ := genLabels_stmt (.If keyword condition thenBranch elseBranch)
    CodeGenerator.new (by rw [stmtFunctions]; exact hnames)
    (labelSpace_new _ (by rw [stmtSize]; exact hsize))
  have hshape := generate_ifProgram keyword condition thenBranch elseBranch g
  have hgen : (generate (ifProgram keyword condition thenBranch elseBranch) g).bytecode_ =
      code ++ ["HALT:".toList] := by
    have hg : generate (ifProgram keyword condition thenBranch elseBranch) g =
        emit (visitStmt (.If keyword condition thenBranch elseBranch) CodeGenerator.new)
          "HALT:".toList := by
      simp only [generate, visitProgram, ifProgram, visitBlock]
      rfl
    rw [hg]
    show (visitStmt (.If keyword condition thenBranch elseBranch) CodeGenerator.new).bytecode_
      ++ ["HALT:".toList] = _
    rw [hcode.bytecode]
    rfl
  have hc : code = exprCode condition ++ ["JZ else_0".toList] ++ thenCode condition thenBranch ++
      ["JMP end_if_0".toList, "else_0:".toList] ++
      elseCode condition thenBranch elseBranch ++ ["end_if_0:".toList] := by
    have h := hgen.symm.trans hshape
    have h2 : exprCode condition ++ ["JZ else_0".toList] ++ thenCode condition thenBranch ++
        ["JMP end_if_0".toList, "else_0:".toList] ++
        elseCode condition thenBranch elseBranch ++ ["end_if_0:".toList, "HALT:".toList] =
      (exprCode condition ++ ["JZ else_0".toList] ++ thenCode condition thenBranch ++
        ["JMP end_if_0".toList, "else_0:".toList] ++
        elseCode condition thenBranch elseBranch ++ ["end_if_0:".toList]) ++ ["HALT:".toList] := by
      simp
    rw [h2] at h
    exact List.append_cancel_right h
  have hcount := hcode.2.2.2.1
  have hElse := hcount "else".toList (by decide) 0
  have e1 : labelText "else".toList 0 ++ [':'] = "else_0:".toList := by decide
  rw [e1, hc] at hElse
  rw [hshape]
  constructor
  · have hs : exprCode condition ++ ["JZ else_0".toList] ++ thenCode condition thenBranch ++
        ["JMP end_if_0".toList, "else_0:".toList] ++
        elseCode condition thenBranch elseBranch ++ ["end_if_0:".toList, "HALT:".toList] =
      (exprCode condition ++ ["JZ else_0".toList] ++ thenCode condition thenBranch ++
        ["JMP end_if_0".toList]) ++ ("else_0".toList ++ [':']) ::
        (elseCode condition thenBranch elseBranch ++ ["end_if_0:".toList, "HALT:".toList]) := by
      simp
    have hs1 : exprCode condition ++ ["JZ else_0".toList] ++ thenCode condition thenBranch ++
        ["JMP end_if_0".toList, "else_0:".toList] ++
        elseCode condition thenBranch elseBranch ++ ["end_if_0:".toList] =
      (exprCode condition ++ ["JZ else_0".toList] ++ thenCode condition thenBranch ++
        ["JMP end_if_0".toList]) ++ "else_0:".toList ::
        (elseCode condition thenBranch elseBranch ++ ["end_if_0:".toList]) := by
      simp
    rw [hs1] at hElse
    have hnot := not_mem_of_count_le_one _ _ _ hElse
    rw [hs, labels_at]
    · simp only [List.length_append, List.length_singleton]
    · intro hm
      have e3 : "else_0".toList ++ [':'] = "else_0:".toList := rfl
      rw [e3] at hm
      have hsplit : elseCode condition thenBranch elseBranch ++
          ["end_if_0:".toList, "HALT:".toList] =
          (elseCode condition thenBranch elseBranch ++ ["end_if_0:".toList]) ++
            ["HALT:".toList] := by simp
      rw [hsplit] at hm
      rcases List.mem_append.mp hm with h | h
      · exact hnot h
      · exact absurd (List.mem_singleton.mp h) (by decide)
  · have hs : exprCode condition ++ ["JZ else_0".toList] ++ thenCode condition thenBranch ++
        ["JMP end_if_0".toList, "else_0:".toList] ++
        elseCode condition thenBranch elseBranch ++ ["end_if_0:".toList, "HALT:".toList] =
      (exprCode condition ++ ["JZ else_0".toList] ++ thenCode condition thenBranch ++
        ["JMP end_if_0".toList, "else_0:".toList] ++
        elseCode condition thenBranch elseBranch) ++ ("end_if_0".toList ++ [':']) ::
        ["HALT:".toList] := by
      simp
    rw [hs, labels_at]
    · simp only [List.length_append, List.length_singleton, List.length_cons, List.length_nil]
    · intro hm
      exact absurd (List.mem_singleton.mp hm) (by decide)


/-! ## C40: the literals `true` and `false` -/

theorem execute_JMP_present (L : Str) (hL : isOperand L) (program : List Str) (vm : VM)
    (i : Nat) (h : mapFind vm.labels L = some i) :
    execute ("JMP ".toList ++ L) program vm = .ok { vm with pc := i } := by
  have hform : "JMP ".toList ++ L = instr1 "JMP".toList L := rfl
  rw [hform]
  unfold execute
  rw [isEmpty_instr1, isLabelLine_instr1 _ _ hL, split_instr1 _ _ (by decide) hL.1]
  simp [execJMP, jumpTo, h]

/-- A PUSH of a text followed by a line that is neither a label line nor a PRINT
pushes 0. -/
theorem execute_push_text_zero (s : Str) (next : Str) (rest : List Str) (vm : VM)
    (hq : '"' ∉ s) (hne : s ≠ []) (hhead : isspace (s.headD ' ') = false)
    (hlast : isspace (s.getLastD ' ') = false) (hcolon : s.getLast? ≠ some ':')
    (hnum : startsWithNumber s = false) (hpc : vm.pc = 0)
    (hlabel : isLabelLine next = false) (hprint : firstWordIsPrint next = false) :
    execute ("PUSH ".toList ++ s) (("PUSH ".toList ++ s) :: next :: rest) vm =
      .ok { vm with stack := vm.stack ++ [0], pc := vm.pc + 1 } := by
  rw [execute_push_nonnumeric s _ vm hq hne hhead hlast hcolon hnum]
  have hnext := nextNonLabel_skip [] [] (next :: rest) ("PUSH ".toList ++ s)
    (fun l hl => absurd hl (List.not_mem_nil l))
    (fun line hline => by
      simp only [List.head?_cons, Option.mem_def, Option.some.injEq] at hline
      rw [← hline]
      exact hlabel)
  simp only [List.nil_append, List.length_nil, Nat.zero_add, Nat.add_zero] at hnext
  rw [hpc, Nat.zero_add, hnext, isPrintAt_eq]
  simp [hprint]

/-! ## C33: IF on a comparison -/

theorem wrap32_small (r : Int) (h : r = 0 ∨ r = 1) :
    wrap32 (r - 1) = r - 1 := by
  rcases h with rfl | rfl <;> decide

theorem ite_zero_one (p : Prop) [Decidable p] :
    (if p then (1 : Int) else 0) = 0 ∨ (if p then (1 : Int) else 0) = 1 := by
  split <;> simp

/-- The code of a comparison of two 32-bit literals leaves one value, which is 0
exactly when the comparison does not hold. -/
theorem comparison_run (ta tb op : Token) (a b : Str)
    (ha : isNumberLexeme a = true) (ha2 : isInt32 (litValue a))
    (hb : isNumberLexeme b = true) (hb2 : isInt32 (litValue b))
    (hop : op.lexeme ∈ comparisonOperators)
    (program pre post : List Str) (vm : VM)
    (hprog : program = pre ++ exprCode (comparison ta tb a b op) ++ post)
    (hpc : vm.pc = pre.length) :
    ∃ v : Int,
      stateAfter program (exprCode (comparison ta tb a b op)).length vm =
        some { vm with stack := vm.stack ++ [v],
                       pc := vm.pc + (exprCode (comparison ta tb a b op)).length } ∧
      (v = 0 ↔ compareHolds op.lexeme (litValue a) (litValue b) = false) := by
  -- the comparison instruction of the operator and the value it leaves
  have key : ∃ (base : Token) (f : Int → Int → Int) (flip : Bool),
      base.lexeme ∈ ["==".toList, ">".toList, "<".toList] ∧
      (∀ x y, specBinary base.lexeme x y = f x y) ∧
      (∀ x y, f x y = 0 ∨ f x y = 1) ∧
      exprCode (comparison ta tb a b op) =
        exprCode (comparison ta tb a b base) ++
          (if flip then ["PUSH 1".toList, "SUB".toList] else []) ∧
      (∀ x y, ((if flip then f x y - 1 else f x y) = 0 ↔
        compareHolds op.lexeme x y = false)) := by
    simp only [comparisonOperators, List.mem_cons, List.mem_singleton, List.not_mem_nil,
      or_false] at hop
    have hcode : ∀ base : Token, exprCode (comparison ta tb a b base) =
        (emitBinaryOp base.lexeme (visitExpr (.Literal tb b)
          (visitExpr (.Literal ta a) CodeGenerator.new))).bytecode_ := fun base => by
      simp only [exprCode, comparison, visitExpr]
    rcases hop with h | h | h | h | h | h
    · refine ⟨op, fun x y => if x = y then 1 else 0, false, by simp [h], fun x y => by
        rw [h]; rfl, fun x y => ite_zero_one _, by simp, fun x y => ?_⟩
      rw [h]
      by_cases hxy : x = y <;> simp [compareHolds, hxy]
    · refine ⟨{ op with lexeme := "==".toList }, fun x y => if x = y then 1 else 0, true,
        by simp, fun x y => rfl, fun x y => ite_zero_one _, ?_, fun x y => ?_⟩
      · rw [hcode, hcode, h]
        rfl
      · rw [h]
        by_cases hxy : x = y <;> simp [compareHolds, hxy]
    · refine ⟨op, fun x y => if x > y then 1 else 0, false, by simp [h], fun x y => by
        rw [h]; rfl, fun x y => ite_zero_one _, by simp, fun x y => ?_⟩
      rw [h]
      by_cases hxy : x > y <;> simp [compareHolds, hxy]
    · refine ⟨op, fun x y => if x < y then 1 else 0, false, by simp [h], fun x y => by
        rw [h]; rfl, fun x y => ite_zero_one _, by simp, fun x y => ?_⟩
      rw [h]
      by_cases hxy : x < y <;> simp [compareHolds, hxy]
    · refine ⟨{ op with lexeme := "<".toList }, fun x y => if x < y then 1 else 0, true,
        by simp, fun x y => rfl, fun x y => ite_zero_one _, ?_, fun x y => ?_⟩
      · rw [hcode, hcode, h]
        rfl
      · rw [h]
        by_cases hxy : x < y
        · have : ¬ y ≤ x := by omega
          simp [compareHolds, hxy, this]
        · have : y ≤ x := by omega
          simp [compareHolds, hxy, this]
    · refine ⟨{ op with lexeme := ">".toList }, fun x y => if x > y then 1 else 0, true,
        by simp, fun x y => rfl, fun x y => ite_zero_one _, ?_, fun x y => ?_⟩
      · rw [hcode, hcode, h]
        rfl
      · rw [h]
        by_cases hxy : x > y
        · have : ¬ x ≤ y := by omega
          simp [compareHolds, hxy, this]
        · have : x ≤ y := by omega
          simp [compareHolds, hxy, this]
  obtain ⟨base, f, flip, hbase, hspec, hrange, hcode, hiff⟩ := key
  have harith : isArith (comparison ta tb a b base) = true := by
    simp only [comparison, isArith, ha, hb, Bool.and_eq_true, decide_eq_true_eq, true_and]
    refine ⟨⟨ha2, hb2⟩, ?_⟩
    simp only [List.mem_cons, List.mem_singleton, List.not_mem_nil, or_false] at hbase ⊢
    rcases hbase with h | h | h <;> simp [h]
  have hval : specValue vm.vars (comparison ta tb a b base) = f (litValue a) (litValue b) := by
    simp only [comparison, specValue]
    exact hspec _ _
  have hdefd : divDefined vm.vars (comparison ta tb a b base) = true := by
    simp only [List.mem_cons, List.mem_singleton, List.not_mem_nil, or_false] at hbase
    rcases hbase with h | h | h <;> simp [comparison, divDefined, h]
  cases flip with
  | false =>
    simp only [Bool.false_eq_true, if_false, List.append_nil] at hcode hiff
    refine ⟨f (litValue a) (litValue b), ?_, hiff _ _⟩
    rw [hcode] at hprog ⊢
    rw [arith_run _ harith program pre post vm hprog hpc hdefd, hval]
  | true =>
    simp only [if_true] at hcode hiff
    refine ⟨f (litValue a) (litValue b) - 1, ?_, hiff _ _⟩
    rw [hcode] at hprog ⊢
    have hprog1 : program = pre ++ exprCode (comparison ta tb a b base) ++
        ("PUSH 1".toList :: "SUB".toList :: post) := by
      rw [hprog]; simp
    have h1 := arith_run _ harith program pre _ vm hprog1 hpc hdefd
    rw [hval] at h1
    rw [List.length_append, stateAfter_add _ _ _ _ _ h1]
    have hps := push_sub "1" 1 (by decide) (by decide)
      (VM.mk vm.stack vm.vars (vm.pc + (exprCode (comparison ta tb a b base)).length)
        vm.labels vm.callstack vm.out vm.env) program vm.stack (f (litValue a) (litValue b))
    refine stateAfter_step program 1 _ _ "PUSH 1".toList _ ?_ hps.1 ?_
    · rw [hprog1]
      exact getElem?_pre_cons _ _ _ _ (by simp [hpc])
    refine stateAfter_step program 0 _ _ "SUB".toList _ ?_ hps.2 ?_
    · rw [hprog1]
      have : pre ++ exprCode (comparison ta tb a b base) ++
          ("PUSH 1".toList :: "SUB".toList :: post) =
          (pre ++ exprCode (comparison ta tb a b base) ++ ["PUSH 1".toList]) ++
            ("SUB".toList :: post) := by simp
      rw [this]
      exact getElem?_pre_cons _ _ _ _ (by simp [hpc]; omega)
    · show some _ = some _
      rw [wrap32_small _ (hrange _ _)]
      simp [Nat.add_assoc]


/-! ## C38: the targets of the jumps and calls of the generated bytecode -/

mutual
theorem breakFree_stmt : ∀ (s : Stmt) (g : CodeGenerator), breakFreeStmt s = true →
    breakLabelsStmt s g = []
  | .Declaration _ _ _, g, _ => by rw [breakLabelsStmt]
  | .Assignment _ _, g, _ => by rw [breakLabelsStmt]
  | .Print _ _, g, _ => by rw [breakLabelsStmt]
  | .Expression _, g, _ => by rw [breakLabelsStmt]
  | .Return _ _, g, _ => by rw [breakLabelsStmt]
  | .Break _, g, h => by simp [breakFreeStmt] at h
  | .Continue _, g, h => by simp [breakFreeStmt] at h
  | .Block statements, g, h => by
    rw [breakLabelsStmt]
    rw [breakFreeStmt] at h
    exact breakFree_block statements g h
  | .Function _ name _ body, g, h => by
    rw [breakLabelsStmt]
    rw [breakFreeStmt] at h
    exact breakFree_block body _ h
  | .Loop _ condition body, g, h => by
    rw [breakLabelsStmt]
    rw [breakFreeStmt] at h
    exact breakFree_block body _ h
  | .If _ condition thenBranch elseBranch, g, h => by
    rw [breakLabelsStmt]
    rw [breakFreeStmt, Bool.and_eq_true] at h
    simp only [breakFree_block thenBranch _ h.1, breakFree_else elseBranch _ h.2,
      List.append_nil]
theorem breakFree_block : ∀ (ss : List Stmt) (g : CodeGenerator), breakFreeBlock ss = true →
    breakLabelsBlock ss g = []
  | [], g, _ => by rw [breakLabelsBlock]
  | stmt :: rest, g, h => by
    rw [breakLabelsBlock]
    rw [breakFreeBlock, Bool.and_eq_true] at h
    rw [breakFree_stmt stmt g h.1, breakFree_block rest _ h.2]
    rfl
theorem breakFree_else : ∀ (b : Option (List Stmt)) (g : CodeGenerator),
    breakFreeElse b = true → breakLabelsElse b g = []
  | none, g, _ => by rw [breakLabelsElse]
  | some block, g, h => by
    rw [breakLabelsElse]
    rw [breakFreeElse] at h
    exact breakFree_block block g h
end

/-! ### What the analyzer knows of a call that it accepts -/

theorem checkCall_accepts (a : SemanticAnalyzer) (callee : Token) (n : Int)
    (h : (a.checkCall callee n).hadError_ = false) (hb : isBuiltin callee.lexeme = false) :
    ∃ sym, mapFind a.symbols_ callee.lexeme = some sym ∧ sym.type = .FUNCTION := by
  unfold SemanticAnalyzer.checkCall at h
  rw [if_neg (by rw [hb]; decide)] at h
  unfold SemanticAnalyzer.resolve at h
  cases hf : mapFind a.symbols_ callee.lexeme with
  | none =>
    rw [hf] at h
    simp [SemanticAnalyzer.error] at h
  | some sym =>
    rw [hf] at h
    by_cases ht : sym.type = .FUNCTION
    · exact ⟨sym, rfl, ht⟩
    · simp [ht, SemanticAnalyzer.error] at h

theorem apply_hadError_false (a : SemanticAnalyzer) (v : Visit)
    (h : (Visit.apply a v).hadError_ = false) : a.hadError_ = false := by
  cases ha : a.hadError_ with
  | false => rfl
  | true => rw [apply_hadError_mono a v ha] at h; exact absurd h (by decide)

theorem foldl_hadError_false (xs : List Visit) (a : SemanticAnalyzer)
    (h : (xs.foldl Visit.apply a).hadError_ = false) : a.hadError_ = false := by
  cases ha : a.hadError_ with
  | false => rfl
  | true => rw [foldl_hadError_mono xs a ha] at h; exact absurd h (by decide)

/-- A call that an analysis without error has checked names a built-in or a symbol
that is in the table as a function at the end. -/
theorem foldl_call_accepted (xs : List Visit) (a : SemanticAnalyzer)
    (h : (xs.foldl Visit.apply a).hadError_ = false) (callee : Token) (n : Int)
    (hmem : Visit.call callee n ∈ xs) (hb : isBuiltin callee.lexeme = false) :
    ∃ sym, mapFind (xs.foldl Visit.apply a).symbols_ callee.lexeme = some sym ∧
      sym.type = .FUNCTION := by
  induction xs generalizing a with
  | nil => exact absurd hmem (List.not_mem_nil _)
  | cons v xs ih =>
    rw [List.foldl_cons] at h ⊢
    rcases List.mem_cons.mp hmem with hv | hv
    · subst hv
      have h1 := foldl_hadError_false xs _ h
      obtain ⟨sym, hs, ht⟩ := checkCall_accepts a callee n h1 hb
      exact ⟨sym, foldl_entry xs _ _ sym (apply_entry a _ _ sym hs), ht⟩
    · exact ih _ h hv

/-- Every function in the table was declared as a function by one of the
operations. -/
theorem foldl_function_declared (xs : List Visit) (a : SemanticAnalyzer) (F : List Str)
    (ha : ∀ k sym, mapFind a.symbols_ k = some sym → sym.type = .FUNCTION → k ∈ F)
    (hxs : ∀ name p, Visit.declare name .FUNCTION p ∈ xs → name.lexeme ∈ F) :
    ∀ k sym, mapFind (xs.foldl Visit.apply a).symbols_ k = some sym →
      sym.type = .FUNCTION → k ∈ F := by
  induction xs generalizing a with
  | nil => exact ha
  | cons v xs ih =>
    rw [List.foldl_cons]
    refine ih _ ?_ (fun name p hm => hxs name p (List.mem_cons_of_mem _ hm))
    intro k sym hk ht
    rcases apply_grows a v with e | ⟨m1, e⟩ | ⟨name, type, p, hv, hnone, e⟩
    · rw [e] at hk; exact ha k sym hk ht
    · rw [e] at hk; exact ha k sym hk ht
    · rw [e] at hk
      by_cases hkn : name.lexeme = k
      · rw [← hkn] at hk
        have hk' : mapFind (mapSet a.symbols_ name.lexeme
            ⟨type, name.lexeme, name.line, p⟩) name.lexeme = some sym := hk
        rw [mapFind_mapSet_same] at hk'
        have hs : sym = ⟨type, name.lexeme, name.line, p⟩ := (Option.some.inj hk').symm
        rw [hs] at ht
        have htype : type = .FUNCTION := ht
        rw [← hkn]
        exact hxs name p (by rw [hv, htype]; exact List.mem_cons_self _ _)
      · have hk' : mapFind (mapSet a.symbols_ name.lexeme
            ⟨type, name.lexeme, name.line, p⟩) k = some sym := hk
        rw [mapFind_mapSet_other _ _ _ _ hkn] at hk'
        exact ha k sym hk' ht

mutual
theorem exprVisits_no_declare : ∀ (e : Expr) (name : Token) (type : SymbolType) (p : Int),
    Visit.declare name type p ∉ exprVisits e
  | .Literal _ _, name, type, p => by simp [exprVisits]
  | .Variable _, name, type, p => by simp [exprVisits]
  | .Binary left _ right, name, type, p => by
    rw [exprVisits, List.mem_append]
    exact fun h => h.elim (exprVisits_no_declare left name type p)
      (exprVisits_no_declare right name type p)
  | .Unary _ right, name, type, p => by
    rw [exprVisits]
    exact exprVisits_no_declare right name type p
  | .Call callee arguments, name, type, p => by
    rw [exprVisits, List.mem_cons]
    exact fun h => h.elim (fun h1 => by cases h1)
      (argumentVisits_no_declare arguments name type p)
theorem argumentVisits_no_declare : ∀ (args : List Expr) (name : Token) (type : SymbolType)
    (p : Int), Visit.declare name type p ∉ argumentVisits args
  | [], name, type, p => by simp [argumentVisits]
  | arg :: rest, name, type, p => by
    rw [argumentVisits, List.mem_append]
    exact fun h => h.elim (exprVisits_no_declare arg name type p)
      (argumentVisits_no_declare rest name type p)
end

mutual
theorem stmtVisits_declare : ∀ (s : Stmt) (name : Token) (type : SymbolType) (p : Int),
    Visit.declare name type p ∈ stmtVisits s → type = .VARIABLE
  | .Declaration _ n initializer, name, type, p, h => by
    rw [stmtVisits, List.mem_append] at h
    rcases h with h | h
    · exact absurd h (exprVisits_no_declare _ _ _ _)
    · simp only [List.mem_singleton, Visit.declare.injEq] at h
      exact h.2.1
  | .Assignment n value, name, type, p, h => by
    rw [stmtVisits, List.mem_cons] at h
    rcases h with h | h
    · cases h
    · exact absurd h (exprVisits_no_declare _ _ _ _)
  | .Print _ expression, name, type, p, h => by
    rw [stmtVisits] at h
    exact absurd h (exprVisits_no_declare _ _ _ _)
  | .Expression expression, name, type, p, h => by
    rw [stmtVisits] at h
    exact absurd h (exprVisits_no_declare _ _ _ _)
  | .Return _ (some value), name, type, p, h => by
    rw [stmtVisits] at h
    exact absurd h (exprVisits_no_declare _ _ _ _)
  | .Return _ none, name, type, p, h => by
    rw [stmtVisits] at h
    exact absurd h (List.not_mem_nil _)
  | .Break _, name, type, p, h => by
    rw [stmtVisits] at h
    exact absurd h (List.not_mem_nil _)
  | .Continue _, name, type, p, h => by
    rw [stmtVisits] at h
    exact absurd h (List.not_mem_nil _)
  | .Block statements, name, type, p, h => by
    rw [stmtVisits] at h
    exact blockVisits_declare statements name type p h
  | .Function _ _ _ body, name, type, p, h => by
    rw [stmtVisits] at h
    exact blockVisits_declare body name type p h
  | .Loop _ condition body, name, type, p, h => by
    rw [stmtVisits, List.mem_append] at h
    rcases h with h | h
    · exact absurd h (exprVisits_no_declare _ _ _ _)
    · exact blockVisits_declare body name type p h
  | .If _ condition thenBranch elseBranch, name, type, p, h => by
    rw [stmtVisits, List.mem_append, List.mem_append] at h
    rcases h with (h | h) | h
    · exact absurd h (exprVisits_no_declare _ _ _ _)
    · exact blockVisits_declare thenBranch name type p h
    · exact elseVisits_declare elseBranch name type p h
theorem blockVisits_declare : ∀ (ss : List Stmt) (name : Token) (type : SymbolType) (p : Int),
    Visit.declare name type p ∈ blockVisits ss → type = .VARIABLE
  | [], name, type, p, h => by
    rw [blockVisits] at h
    exact absurd h (List.not_mem_nil _)
  | stmt :: rest, name, type, p, h => by
    rw [blockVisits, List.mem_append] at h
    rcases h with h | h
    · exact stmtVisits_declare stmt name type p h
    · exact blockVisits_declare rest name type p h
theorem elseVisits_declare : ∀ (b : Option (List Stmt)) (name : Token) (type : SymbolType)
    (p : Int), Visit.declare name type p ∈ elseVisits b → type = .VARIABLE
  | none, name, type, p, h => by
    rw [elseVisits] at h
    exact absurd h (List.not_mem_nil _)
  | some block, name, type, p, h => by
    rw [elseVisits] at h
    exact blockVisits_declare block name type p h
end

theorem functionVisits_names : ∀ (ss : List Stmt) (name : Token) (type : SymbolType) (p : Int),
    Visit.declare name type p ∈ functionVisits ss → name.lexeme ∈ blockFunctions ss
  | [], name, type, p, h => by
    rw [functionVisits] at h
    exact absurd h (List.not_mem_nil _)
  | .Function _ n parameters body :: rest, name, type, p, h => by
    rw [functionVisits, List.mem_cons] at h
    rw [blockFunctions, stmtFunctions]
    rcases h with h | h
    · simp only [Visit.declare.injEq] at h
      rw [h.1]
      exact List.mem_append_left _ (List.mem_cons_self _ _)
    · exact List.mem_append_right _ (functionVisits_names rest name type p h)
  | .Declaration _ _ _ :: rest, name, type, p, h => by
    simp only [functionVisits] at h
    rw [blockFunctions]
    exact List.mem_append_right _ (functionVisits_names rest name type p h)
  | .Assignment _ _ :: rest, name, type, p, h => by
    simp only [functionVisits] at h
    rw [blockFunctions]
    exact List.mem_append_right _ (functionVisits_names rest name type p h)
  | .Expression _ :: rest, name, type, p, h => by
    simp only [functionVisits] at h
    rw [blockFunctions]
    exact List.mem_append_right _ (functionVisits_names rest name type p h)
  | .Print _ _ :: rest, name, type, p, h => by
    simp only [functionVisits] at h
    rw [blockFunctions]
    exact List.mem_append_right _ (functionVisits_names rest name type p h)
  | .If _ _ _ _ :: rest, name, type, p, h => by
    simp only [functionVisits] at h
    rw [blockFunctions]
    exact List.mem_append_right _ (functionVisits_names rest name type p h)
  | .Loop _ _ _ :: rest, name, type, p, h => by
    simp only [functionVisits] at h
    rw [blockFunctions]
    exact List.mem_append_right _ (functionVisits_names rest name type p h)
  | .Break _ :: rest, name, type, p, h => by
    simp only [functionVisits] at h
    rw [blockFunctions]
    exact List.mem_append_right _ (functionVisits_names rest name type p h)
  | .Continue _ :: rest, name, type, p, h => by
    simp only [functionVisits] at h
    rw [blockFunctions]
    exact List.mem_append_right _ (functionVisits_names rest name type p h)
  | .Return _ _ :: rest, name, type, p, h => by
    simp only [functionVisits] at h
    rw [blockFunctions]
    exact List.mem_append_right _ (functionVisits_names rest name type p h)
  | .Block _ :: rest, name, type, p, h => by
    simp only [functionVisits] at h
    rw [blockFunctions]
    exact List.mem_append_right _ (functionVisits_names rest name type p h)

/-- A call of a name that is not a built-in's, in a program that passes the
analysis, names a function that the program defines. -/
theorem accepted_call_defined (program : Program) (a : SemanticAnalyzer)
    (hpass : (SemanticAnalyzer.analyze program a).hadError_ = false)
    (callee : Token) (n : Int) (hmem : Visit.call callee n ∈ blockVisits program.statements)
    (hb : isBuiltin callee.lexeme = false) :
    callee.lexeme ∈ blockFunctions program.statements := by
  rw [analyze_eq_foldl] at hpass
  obtain ⟨sym, hs, ht⟩ := foldl_call_accepted _ _ hpass callee n
    (by rw [programVisits]; exact List.mem_append_right _ hmem) hb
  refine foldl_function_declared (programVisits program) SemanticAnalyzer.new
    (blockFunctions program.statements) (fun k sym hk _ => by cases hk) ?_ _ sym hs ht
  intro name p hm
  rw [programVisits, List.mem_append] at hm
  rcases hm with hm | hm
  · exact functionVisits_names _ _ _ _ hm
  · exact absurd (blockVisits_declare _ _ _ _ hm) (by decide)


/-! ### The CALL lines and the function labels of the code of a statement -/

theorem head_append_ne (w tail : Str) (c : Char) (hw : w ≠ []) (h : w.head? ≠ some c) :
    (w ++ tail).head? ≠ some c := by
  cases w with
  | nil => exact absurd rfl hw
  | cons d r => simpa using h

theorem CodeOf.no_code (g : CodeGenerator) : CodeOf [] [] g g [] :=
  ⟨by simp, fun _ h => absurd h (List.not_mem_nil _), fun _ h => absurd h (List.not_mem_nil _)⟩

theorem CodeOf.then_code {v1 v2 : List Visit} {f1 f2 : List Str} {g g1 g2 : CodeGenerator}
    {c1 c2 : List Str} (h1 : CodeOf v1 f1 g g1 c1) (h2 : CodeOf v2 f2 g1 g2 c2) :
    CodeOf (v1 ++ v2) (f1 ++ f2) g g2 (c1 ++ c2) := by
  refine ⟨by rw [h2.1, h1.1, List.append_assoc], ?_, ?_⟩
  · intro line hl hC hlab
    rcases List.mem_append.mp hl with h | h
    · obtain ⟨callee, n, hv, e⟩ := h1.2.1 line h hC hlab
      exact ⟨callee, n, List.mem_append_left _ hv, e⟩
    · obtain ⟨callee, n, hv, e⟩ := h2.2.1 line h hC hlab
      exact ⟨callee, n, List.mem_append_right _ hv, e⟩
  · intro f hf
    rcases List.mem_append.mp hf with h | h
    · exact List.mem_append_left _ (h1.2.2 f h)
    · exact List.mem_append_right _ (h2.2.2 f h)

theorem CodeOf.recast {v1 v2 : List Visit} {f1 f2 : List Str} {g g1 : CodeGenerator}
    {c : List Str} (h : CodeOf v1 f1 g g1 c) (hv : ∀ x ∈ v1, x ∈ v2) (hf : ∀ x ∈ f2, x ∈ f1) :
    CodeOf v2 f2 g g1 c := by
  refine ⟨h.1, ?_, fun f hm => h.2.2 f (hf f hm)⟩
  intro line hl hC hlab
  obtain ⟨callee, n, hm, e⟩ := h.2.1 line hl hC hlab
  exact ⟨callee, n, hv _ hm, e⟩

theorem CodeOf.other_line (g : CodeGenerator) (line : Str)
    (h : line.head? ≠ some 'C' ∨ isLabelLine line = true) :
    CodeOf [] [] g (emit g line) [line] := by
  refine ⟨rfl, ?_, fun _ hm => absurd hm (List.not_mem_nil _)⟩
  intro l hl hC hlab
  rw [List.mem_singleton.mp hl] at hC hlab
  rcases h with h | h
  · exact absurd hC h
  · rw [h] at hlab
    exact absurd hlab (by decide)

theorem CodeOf.function_line (g : CodeGenerator) (f : Str) :
    CodeOf [] [f] g (emit g (f ++ ":".toList)) [f ++ ":".toList] := by
  refine ⟨rfl, ?_, fun x hm => by rw [List.mem_singleton.mp hm]; exact List.mem_singleton_self _⟩
  intro l hl hC hlab
  rw [List.mem_singleton.mp hl] at hlab
  have : isLabelLine (f ++ ":".toList) = true := by simp [isLabelLine]
  rw [this] at hlab
  exact absurd hlab (by decide)

theorem CodeOf.label_line (g : CodeGenerator) (L : Str) :
    CodeOf [] [] g (emit g (L ++ ":".toList)) [L ++ ":".toList] :=
  CodeOf.other_line g _ (Or.inr (by simp [isLabelLine]))

theorem CodeOf.new_label (g : CodeGenerator) (stem : Str) :
    CodeOf [] [] g (newLabel g stem).2 [] :=
  ⟨by simp [newLabel], fun _ h => absurd h (List.not_mem_nil _),
    fun _ h => absurd h (List.not_mem_nil _)⟩

theorem CodeOf.expression (e : Expr) (g : CodeGenerator) :
    ∃ c, CodeOf (exprVisits e) [] g (visitExpr e g) c := by
  obtain ⟨c, hc⟩ := plainCode_visitExpr e g
  exact ⟨c, hc.1, fun line hl hC _ => (hc.2.2 line hl).2 hC,
    fun _ h => absurd h (List.not_mem_nil _)⟩

mutual
theorem codeOf_stmt : ∀ (s : Stmt) (g : CodeGenerator),
    ∃ code, CodeOf (stmtVisits s) (stmtFunctions s) g (visitStmt s g) code
  | .Declaration _ name initializer, g => by
    rw [visitStmt, stmtVisits, stmtFunctions]
    obtain ⟨c, hc⟩ := CodeOf.expression initializer g
    exact ⟨_, (hc.then_code (CodeOf.other_line _ ("STORE ".toList ++ name.lexeme)
      (Or.inl (head_append_ne _ _ _ (by decide) (by decide))))).recast (fun x hx => by aesop) (fun x hx => by aesop)⟩
  | .Assignment name value, g => by
    rw [visitStmt, stmtVisits, stmtFunctions]
    obtain ⟨c, hc⟩ := CodeOf.expression value g
    exact ⟨_, (hc.then_code (CodeOf.other_line _ ("STORE ".toList ++ name.lexeme)
      (Or.inl (head_append_ne _ _ _ (by decide) (by decide))))).recast (fun x hx => by aesop) (fun x hx => by aesop)⟩
  | .Print _ expression, g => by
    rw [visitStmt, stmtVisits, stmtFunctions]
    obtain ⟨c, hc⟩ := CodeOf.expression expression g
    exact ⟨_, (hc.then_code (CodeOf.other_line _ "PRINT".toList
      (Or.inl (by decide)))).recast (fun x hx => by aesop) (fun x hx => by aesop)⟩
  | .Expression expression, g => by
    rw [visitStmt, stmtVisits, stmtFunctions]
    exact CodeOf.expression expression g
  | .Return _ (some value), g => by
    rw [visitStmt, stmtVisits, stmtFunctions]
    obtain ⟨c, hc⟩ := CodeOf.expression value g
    exact ⟨_, (hc.then_code (CodeOf.other_line _ "RET".toList
      (Or.inl (by decide)))).recast (fun x hx => by aesop) (fun x hx => by aesop)⟩
  | .Return _ none, g => by
    rw [visitStmt, stmtVisits, stmtFunctions]
    exact ⟨_, ((CodeOf.other_line g "PUSH 0".toList (Or.inl (by decide))).then_code
      (CodeOf.other_line _ "RET".toList (Or.inl (by decide)))).recast (fun x hx => by aesop) (fun x hx => by aesop)⟩
  | .Break _, g => by
    rw [visitStmt, stmtVisits, stmtFunctions]
    exact ⟨_, ((CodeOf.new_label g "end_loop".toList).then_code
      (CodeOf.other_line _ ("JMP ".toList ++ (newLabel g "end_loop".toList).1)
        (Or.inl (head_append_ne _ _ _ (by decide) (by decide))))).recast (fun x hx => by aesop) (fun x hx => by aesop)⟩
  | .Continue _, g => by
    rw [visitStmt, stmtVisits, stmtFunctions]
    exact ⟨_, ((CodeOf.new_label g "loop".toList).then_code
      (CodeOf.other_line _ ("JMP ".toList ++ (newLabel g "loop".toList).1)
        (Or.inl (head_append_ne _ _ _ (by decide) (by decide))))).recast (fun x hx => by aesop) (fun x hx => by aesop)⟩
  | .Block statements, g => by
    rw [visitStmt, stmtVisits, stmtFunctions]
    exact codeOf_block statements g
  | .Function _ name _ body, g => by
    rw [visitStmt, stmtVisits, stmtFunctions]
    obtain ⟨c, hc⟩ := codeOf_block body (emit g (name.lexeme ++ ":".toList))
    exact ⟨_, ((((CodeOf.function_line g name.lexeme).then_code hc).then_code
      (CodeOf.other_line _ "PUSH 0".toList (Or.inl (by decide)))).then_code
      (CodeOf.other_line _ "RET".toList (Or.inl (by decide)))).recast (fun x hx => by aesop) (fun x hx => by aesop)⟩
  | .If _ condition thenBranch elseBranch, g => by
    rw [visitStmt, stmtVisits, stmtFunctions]
    obtain ⟨cc, hcc⟩ := CodeOf.expression condition g
    have h2 := ((hcc.then_code (CodeOf.new_label _ "else".toList)).then_code
      (CodeOf.new_label _ "end_if".toList)).then_code
      (CodeOf.other_line _ ("JZ ".toList ++ (newLabel (visitExpr condition g) "else".toList).1)
        (Or.inl (head_append_ne _ _ _ (by decide) (by decide))))
    obtain ⟨cT, hT⟩ := codeOf_block thenBranch
      (emit (newLabel (newLabel (visitExpr condition g) "else".toList).2 "end_if".toList).2
        ("JZ ".toList ++ (newLabel (visitExpr condition g) "else".toList).1))
    have h5 := ((h2.then_code hT).then_code
      (CodeOf.other_line _ ("JMP ".toList ++ (newLabel (newLabel (visitExpr condition g)
        "else".toList).2 "end_if".toList).1)
        (Or.inl (head_append_ne _ _ _ (by decide) (by decide))))).then_code
      (CodeOf.label_line _ (newLabel (visitExpr condition g) "else".toList).1)
    obtain ⟨cE, hE⟩ := codeOf_else elseBranch
      (emit (emit (visitBlock thenBranch
        (emit (newLabel (newLabel (visitExpr condition g) "else".toList).2 "end_if".toList).2
          ("JZ ".toList ++ (newLabel (visitExpr condition g) "else".toList).1)))
        ("JMP ".toList ++ (newLabel (newLabel (visitExpr condition g) "else".toList).2
          "end_if".toList).1))
        ((newLabel (visitExpr condition g) "else".toList).1 ++ ":".toList))
    exact ⟨_, ((h5.then_code hE).then_code (CodeOf.label_line _
      (newLabel (newLabel (visitExpr condition g) "else".toList).2 "end_if".toList).1)).recast
      (fun x hx => by aesop) (fun x hx => by aesop)⟩
  | .Loop _ condition body, g => by
    rw [visitStmt, stmtVisits, stmtFunctions]
    have h1 := ((CodeOf.new_label g "loop".toList).then_code
      (CodeOf.new_label _ "end_loop".toList)).then_code
      (CodeOf.label_line _ (newLabel g "loop".toList).1)
    obtain ⟨cc, hcc⟩ := CodeOf.expression condition
      (emit (newLabel (newLabel g "loop".toList).2 "end_loop".toList).2
        ((newLabel g "loop".toList).1 ++ ":".toList))
    have h3 := (h1.then_code hcc).then_code (CodeOf.other_line _
      ("JZ ".toList ++ (newLabel (newLabel g "loop".toList).2 "end_loop".toList).1)
      (Or.inl (head_append_ne _ _ _ (by decide) (by decide))))
    obtain ⟨cB, hB⟩ := codeOf_block body
      (emit (visitExpr condition
        (emit (newLabel (newLabel g "loop".toList).2 "end_loop".toList).2
          ((newLabel g "loop".toList).1 ++ ":".toList)))
        ("JZ ".toList ++ (newLabel (newLabel g "loop".toList).2 "end_loop".toList).1))
    exact ⟨_, (((h3.then_code hB).then_code (CodeOf.other_line _
      ("JMP ".toList ++ (newLabel g "loop".toList).1)
      (Or.inl (head_append_ne _ _ _ (by decide) (by decide))))).then_code
      (CodeOf.label_line _ (newLabel (newLabel g "loop".toList).2 "end_loop".toList).1)).recast
      (fun x hx => by aesop) (fun x hx => by aesop)⟩
theorem codeOf_block : ∀ (ss : List Stmt) (g : CodeGenerator),
    ∃ code, CodeOf (blockVisits ss) (blockFunctions ss) g (visitBlock ss g) code
  | [], g => by
    rw [visitBlock, blockVisits, blockFunctions]
    exact ⟨[], CodeOf.no_code g⟩
  | stmt :: rest, g => by
    rw [visitBlock, blockVisits, blockFunctions]
    obtain ⟨c1, h1⟩ := codeOf_stmt stmt g
    obtain ⟨c2, h2⟩ := codeOf_block rest (visitStmt stmt g)
    exact ⟨_, h1.then_code h2⟩
theorem codeOf_else : ∀ (b : Option (List Stmt)) (g : CodeGenerator),
    ∃ code, CodeOf (elseVisits b) (elseFunctions b) g (visitElse b g) code
  | none, g => by
    rw [visitElse, elseVisits, elseFunctions]
    exact ⟨[], CodeOf.no_code g⟩
  | some block, g => by
    rw [visitElse, elseVisits, elseFunctions]
    exact codeOf_block block g
end


/-! ### The label table of a run holds every label line -/

theorem lastLabelFrom_present (program : List Str) (i : Nat) (L : Str)
    (h : (L ++ [':']) ∈ program) : ∃ v, lastLabelFrom program i L = some v := by
  induction program generalizing i with
  | nil => exact absurd h (List.not_mem_nil _)
  | cons line rest ih =>
    rw [lastLabelFrom]
    cases hr : lastLabelFrom rest (i + 1) L with
    | some v => exact ⟨v, rfl⟩
    | none =>
      rcases List.mem_cons.mp h with h1 | h1
      · refine ⟨i, ?_⟩
        have h2 : isLabelLine line = true := by rw [← h1]; simp [isLabelLine]
        have h3 : line.dropLast = L := by rw [← h1]; simp
        simp [h2, h3]
      · obtain ⟨v, hv⟩ := ih (i + 1) h1
        rw [hv] at hr
        cases hr

theorem lastLabelFrom_line (program : List Str) (i : Nat) (L : Str) (v : Nat)
    (h : lastLabelFrom program i L = some v) :
    i ≤ v ∧ program[v - i]? = some (L ++ [':']) := by
  induction program generalizing i with
  | nil => simp [lastLabelFrom] at h
  | cons line rest ih =>
    rw [lastLabelFrom] at h
    cases hr : lastLabelFrom rest (i + 1) L with
    | some w =>
      rw [hr] at h
      have hw : w = v := Option.some.inj h
      subst hw
      obtain ⟨h1, h2⟩ := ih (i + 1) hr
      refine ⟨by omega, ?_⟩
      have : w - i = (w - (i + 1)) + 1 := by omega
      rw [this, List.getElem?_cons_succ]
      exact h2
    | none =>
      rw [hr] at h
      by_cases hc : isLabelLine line = true ∧ line.dropLast = L
      · simp only [hc, and_self, if_true, Option.some.injEq] at h
        subst h
        refine ⟨Nat.le_refl _, ?_⟩
        rw [Nat.sub_self, List.getElem?_cons_zero, ← hc.2]
        exact congrArg some (eq_of_isLabelLine hc.1)
      · rw [if_neg hc] at h
        cases h

/-- A label that a line of the program defines is in the table of the run, with the
index of a line that defines it. -/
theorem labels_present (program : List Str) (L : Str) (vm : VM)
    (h : (L ++ [':']) ∈ program) :
    ∃ i, mapFind (runInit program vm).labels L = some i ∧
      program[i]? = some (L ++ [':']) := by
  obtain ⟨v, hv⟩ := lastLabelFrom_present program 0 L h
  refine ⟨v, ?_, ?_⟩
  · show mapFind (preprocessLoop program 0 []) L = _
    rw [mapFind_preprocessLoop, hv]
  · exact (lastLabelFrom_line program 0 L v hv).2

/-! ### The names in CALL lines -/

theorem append_space_cancel : ∀ (a b x y : Str), ' ' ∉ a → ' ' ∉ b →
    a ++ ' ' :: x = b ++ ' ' :: y → a = b
  | [], [], _, _, _, _, _ => rfl
  | [], d :: b, x, y, _, hb, h => by
    simp only [List.nil_append, List.cons_append, List.cons.injEq] at h
    exact absurd (by rw [← h.1]; exact List.mem_cons_self _ _) hb
  | c :: a, [], x, y, ha, _, h => by
    simp only [List.nil_append, List.cons_append, List.cons.injEq] at h
    exact absurd (by rw [h.1]; exact List.mem_cons_self _ _) ha
  | c :: a, d :: b, x, y, ha, hb, h => by
    simp only [List.cons_append, List.cons.injEq] at h
    rw [h.1, append_space_cancel a b x y (fun hm => ha (List.mem_cons_of_mem _ hm))
      (fun hm => hb (List.mem_cons_of_mem _ hm)) h.2]

theorem callLine_name (a b : Str) (k n : Int) (ha : ' ' ∉ a) (hb : ' ' ∉ b)
    (h : callLine a k = callLine b n) : a = b := by
  unfold callLine at h
  have h1 : "CALL ".toList ++ (a ++ ' ' :: to_string k) =
      "CALL ".toList ++ (b ++ ' ' :: to_string n) := by
    simpa using h
  exact append_space_cancel a b _ _ ha hb (List.append_cancel_left h1)

theorem no_space_of_isWord (w : Str) (h : isWord w) : ' ' ∉ w :=
  fun hm => absurd (h.2 ' ' hm).1 (by decide)

theorem callLine_not_label (name : Str) (k : Int) : isLabelLine (callLine name k) = false := by
  have h := (isOperand_to_string k).2
  have hne : to_string k ≠ [] := (isOperand_to_string k).1.1
  unfold isLabelLine callLine
  rw [List.getLast?_append_of_ne_nil _ hne]
  simpa using h

theorem not_generated_of_head (f : Str) (c : Char) (h : f.head? = some c) (he : c ≠ 'e')
    (hl : c ≠ 'l') : ¬ isGeneratedLabel f := by
  rintro ⟨stem, hs, k, rfl⟩
  rcases labelText_head stem k hs with h1 | h1
  · rw [h1] at h
    exact he (Option.some.inj h).symm
  · rw [h1] at h
    exact hl (Option.some.inj h).symm

/-- C38. For a program that passes the semantic analysis, contains no BREAK and no
CONTINUE and defines no function named like a generated label (function names hold
no blank, and the program has fewer than 2^31 statements): every label named by a
line `JMP L` or `JZ L` of the generated bytecode is defined by exactly one line
`L:` of the bytecode; every line `CALL name k` whose name is not a built-in's has
its label line `name:` in the bytecode; and in both cases the table of labels that
`VM::run` builds maps the label to the index of such a line. -/
theorem jump_and_call_targets_defined (program : Program) (a : SemanticAnalyzer)
    (g : CodeGenerator)
    (hpass : (SemanticAnalyzer.analyze program a).hadError_ = false)
    (hbreak : breakFreeBlock program.statements = true)
    (hnames : PlainNames (blockFunctions program.statements))
    (hsize : blockSize program.statements ≤ 2147483647) :
    (∀ line ∈ (generate program g).bytecode_, ∀ L : Str, isJumpTo line L →
      (generate program g).bytecode_.count (L ++ [':']) = 1 ∧
      ∀ vm : VM, ∃ i, mapFind (runInit (generate program g).bytecode_ vm).labels L = some i ∧
        (generate program g).bytecode_[i]? = some (L ++ [':'])) ∧
    (∀ line ∈ (generate program g).bytecode_, ∀ (name : Str) (k : Int),
      line = callLine name k → ' ' ∉ name → isBuiltin name = false →
      (name ++ [':']) ∈ (generate program g).bytecode_ ∧
      ∀ vm : VM, ∃ i, mapFind (runInit (generate program g).bytecode_ vm).labels name = some i ∧
        (generate program g).bytecode_[i]? = some (name ++ [':'])) := by
  obtain ⟨code, hcode⟩ := genLabels_block program.statements CodeGenerator.new hnames
    (labelSpace_new _ hsize)
  rw [breakFree_block _ _ hbreak] at hcode
  obtain ⟨code2, hcode2⟩ := codeOf_block program.statements CodeGenerator.new
  have hsame : code2 = code := by
    have h1 := hcode.1
    rw [hcode2.1] at h1
    exact List.append_cancel_left h1
  rw [hsame] at hcode2
  have hB : (generate program g).bytecode_ = code ++ ["HALT:".toList] := by
    show (visitBlock program.statements CodeGenerator.new).bytecode_ ++ ["HALT:".toList] = _
    rw [hcode.1]
    rfl
  rw [hB]
  constructor
  · intro line hl L hj
    have hline : line ∈ code := by
      rcases List.mem_append.mp hl with h | h
      · exact h
      · rw [List.mem_singleton.mp h] at hj
        exact absurd (jump_head _ L hj) (by decide)
    obtain ⟨hgen, hdef⟩ := hcode.2.2.2.2 line hline L hj
    have hin : (L ++ [':']) ∈ code := hdef.elim id (fun h => absurd h (List.not_mem_nil _))
    obtain ⟨stem, hs, k, rfl⟩ := hgen
    have hle := hcode.2.2.2.1 stem hs k
    have hpos : 0 < code.count (labelText stem k ++ [':']) := List.count_pos_iff.mpr hin
    have hhalt : ("HALT:".toList : Str) ≠ labelText stem k ++ [':'] := by
      intro heq
      rcases labelLine_head stem k hs with h2 | h2 <;>
        (rw [← heq] at h2; exact absurd h2 (by decide))
    refine ⟨?_, fun vm => labels_present _ _ vm (List.mem_append_left _ hin)⟩
    rw [List.count_append, List.count_singleton]
    have : ("HALT:".toList == labelText stem k ++ [':']) = false := by
      simpa using hhalt
    rw [this]
    simp only [Bool.false_eq_true, if_false]
    omega
  · intro line hl name k hline hsp hb
    have hmem : line ∈ code := by
      rcases List.mem_append.mp hl with h | h
      · exact h
      · rw [List.mem_singleton.mp h] at hline
        have h1 : ("HALT:".toList : Str).head? = some 'C' := by rw [hline]; rfl
        exact absurd h1 (by decide)
    have hC : line.head? = some 'C' := by rw [hline]; rfl
    have hlab : isLabelLine line = false := by rw [hline]; exact callLine_not_label name k
    obtain ⟨callee, n, hv, e⟩ := hcode2.2.1 line hmem hC hlab
    have hcallee : ' ' ∉ callee.lexeme := by
      cases hcb : isBuiltin callee.lexeme with
      | true => exact no_space_of_isWord _ (isWord_of_isBuiltin _ hcb)
      | false => exact (hnames _ (accepted_call_defined program a hpass callee n hv hcb)).2
    have hname : name = callee.lexeme :=
      callLine_name name callee.lexeme k n hsp hcallee (hline.symm.trans e)
    have hdefined : name ∈ blockFunctions program.statements := by
      rw [hname]
      exact accepted_call_defined program a hpass callee n hv (by rw [← hname]; exact hb)
    have hin : (name ++ [':']) ∈ code := hcode2.2.2 name hdefined
    exact ⟨List.mem_append_left _ hin, fun vm => labels_present _ _ vm (List.mem_append_left _ hin)⟩


/-- C38, instance: the program `labelsSource` passes the analysis; the label of its
`JZ end_loop_0` is defined by one line, and its `CALL f 0` has the label line `f:`. -/
theorem jump_and_call_targets_defined_witness :
    (generate (programOf labelsSource) CodeGenerator.new).bytecode_ =
      ["f:".toList, "PUSH 0".toList, "RET".toList, "loop_0:".toList, "PUSH 1".toList,
        "PUSH 2".toList, "GT".toList, "JZ end_loop_0".toList, "CALL f 0".toList,
        "PUSH 1".toList, "CALL abs 1".toList, "JMP loop_0".toList, "end_loop_0:".toList, "HALT:".toList] ∧
    (generate (programOf labelsSource) CodeGenerator.new).bytecode_.count
      ("end_loop_0".toList ++ [':']) = 1 ∧
    ("f".toList ++ [':']) ∈ (generate (programOf labelsSource) CodeGenerator.new).bytecode_ :=
  ⟨by decide,
   ((jump_and_call_targets_defined (programOf labelsSource) SemanticAnalyzer.new
      CodeGenerator.new (by decide) (by decide)
      (fun f hf => by
        have e : blockFunctions (programOf labelsSource).statements = ["f".toList] := by
          decide
        rw [e] at hf
        rw [List.mem_singleton.mp hf]
        exact ⟨not_generated_of_head _ 'f' rfl (by decide) (by decide), by decide⟩)
      (by decide)).1 "JZ end_loop_0".toList (by decide) "end_loop_0".toList (Or.inr rfl)).1,
   ((jump_and_call_targets_defined (programOf labelsSource) SemanticAnalyzer.new
      CodeGenerator.new (by decide) (by decide)
      (fun f hf => by
        have e : blockFunctions (programOf labelsSource).statements = ["f".toList] := by
          decide
        rw [e] at hf
        rw [List.mem_singleton.mp hf]
        exact ⟨not_generated_of_head _ 'f' rfl (by decide) (by decide), by decide⟩)
      (by decide)).2 "CALL f 0".toList (by decide) "f".toList 0 (by decide) (by decide)
      (by decide)).1⟩


/-! ## Straight-line function bodies -/

theorem straight_stmtCode (s : Stmt) (h : isStraight s = true) (g : CodeGenerator) :
    visitStmt s g = { g with bytecode_ := g.bytecode_ ++ stmtCode s } := by
  cases s with
  | Declaration kw name e =>
    simp only [isStraight, Bool.and_eq_true] at h
    rw [stmtCode, visitStmt, visitStmt, visitExpr_arith e h.2 g,
      visitExpr_arith e h.2 CodeGenerator.new]
    simp [emit, CodeGenerator.new]
  | Assignment name e =>
    simp only [isStraight, Bool.and_eq_true] at h
    rw [stmtCode, visitStmt, visitStmt, visitExpr_arith e h.2 g,
      visitExpr_arith e h.2 CodeGenerator.new]
    simp [emit, CodeGenerator.new]
  | Print kw e =>
    simp only [isStraight] at h
    rw [stmtCode, visitStmt, visitStmt, visitExpr_arith e h g,
      visitExpr_arith e h CodeGenerator.new]
    simp [emit, CodeGenerator.new]
  | Expression e =>
    simp only [isStraight] at h
    rw [stmtCode, visitStmt, visitStmt, visitExpr_arith e h g,
      visitExpr_arith e h CodeGenerator.new]
    simp [CodeGenerator.new]
  | If _ _ _ _ => simp [isStraight] at h
  | Loop _ _ _ => simp [isStraight] at h
  | Break _ => simp [isStraight] at h
  | Continue _ => simp [isStraight] at h
  | Return _ _ => simp [isStraight] at h
  | Function _ _ _ _ => simp [isStraight] at h
  | Block _ => simp [isStraight] at h

theorem returnCode_emitted (kw : Token) (v : Option Expr)
    (hv : ∀ e, v = some e → isArith e = true) (g : CodeGenerator) :
    visitStmt (.Return kw v) g = { g with bytecode_ := g.bytecode_ ++ returnCode v } := by
  cases v with
  | none =>
    rw [visitStmt, returnCode]
    simp [emit]
  | some e =>
    rw [visitStmt, returnCode, visitExpr_arith e (hv e rfl) g]
    simp [emit]

theorem returnOf_some (s : Stmt) (v : Option Expr) (h : returnOf s = some v) :
    ∃ kw, s = .Return kw v := by
  cases s <;> simp only [returnOf, Option.some.injEq, reduceCtorEq] at h
  exact ⟨_, by rw [h]⟩

/-- The bytecode of a straight-line body starts with the code up to its first RET. -/
theorem bodyCode_emitted : ∀ (body : List Stmt), isStraightBody body = true →
    ∀ g : CodeGenerator,
      (g.bytecode_ ++ bodyCode body) <+:
        (emit (emit (visitBlock body g) "PUSH 0".toList) "RET".toList).bytecode_
  | [], _, g => by
    rw [visitBlock, bodyCode, returnCode]
    simp [emit]
  | s :: rest, h, g => by
    rw [visitBlock, bodyCode]
    rw [isStraightBody] at h
    cases hr : returnOf s with
    | some v =>
      rw [hr] at h
      obtain ⟨kw, rfl⟩ := returnOf_some s v hr
      have hv : ∀ e, v = some e → isArith e = true := by
        intro e he
        rw [he] at h
        exact h
      simp only []
      rw [returnCode_emitted kw v hv g]
      exact ((appends_block rest (CodeGenerator.mk (g.bytecode_ ++ returnCode v)
        g.labelCounter_ g.hadError_ g.errorMessage_)).trans (emit_extends _ _)).trans
        (emit_extends _ _)
    | none =>
      rw [hr] at h
      simp only [Bool.and_eq_true] at h
      simp only []
      rw [straight_stmtCode s h.1 g]
      have := bodyCode_emitted rest h.2 { g with bytecode_ := g.bytecode_ ++ stmtCode s }
      simpa [List.append_assoc] using this


theorem specStmt_pc (vm : VM) (s : Stmt) (p : Nat) :
    specStmt { vm with pc := p } s = { specStmt vm s with pc := p } := by
  cases s <;> rfl

theorem specStmt_callstack (vm : VM) (s : Stmt) : (specStmt vm s).callstack = vm.callstack := by
  cases s <;> rfl

theorem specBody_pc : ∀ (body : List Stmt) (vm : VM) (p : Nat),
    specBody { vm with pc := p } body = { specBody vm body with pc := p }
  | [], vm, p => rfl
  | s :: rest, vm, p => by
    rw [specBody, specBody]
    cases hr : returnOf s with
    | some v => rfl
    | none =>
      simp only []
      rw [specStmt_pc, specBody_pc rest]

theorem specBody_callstack : ∀ (body : List Stmt) (vm : VM),
    (specBody vm body).callstack = vm.callstack
  | [], vm => rfl
  | s :: rest, vm => by
    rw [specBody]
    cases hr : returnOf s with
    | some v => rfl
    | none =>
      simp only []
      rw [specBody_callstack rest, specStmt_callstack]

theorem specStmt_vars (vm vm1 : VM) (s : Stmt) (h : vm.vars = vm1.vars) :
    (specStmt vm s).vars = (specStmt vm1 s).vars := by
  cases s <;> simp [specStmt, h]

theorem blockDefined_congr : ∀ (ss : List Stmt) (vm vm1 : VM), vm.vars = vm1.vars →
    blockDefined vm ss = blockDefined vm1 ss
  | [], _, _, _ => rfl
  | s :: rest, vm, vm1, h => by
    rw [blockDefined, blockDefined, h,
      blockDefined_congr rest (specStmt vm s) (specStmt vm1 s) (specStmt_vars vm vm1 s h)]

theorem bodyDefined_congr : ∀ (body : List Stmt) (vm vm1 : VM), vm.vars = vm1.vars →
    bodyDefined vm body = bodyDefined vm1 body
  | [], _, _, _ => rfl
  | s :: rest, vm, vm1, h => by
    rw [bodyDefined, bodyDefined, h,
      bodyDefined_congr rest (specStmt vm s) (specStmt vm1 s) (specStmt_vars vm vm1 s h)]

/-- The code of a straight-line statement, run anywhere in a program from a state in
which its expression divides -2147483648 by -1 nowhere, does what the statement
says. -/
theorem straight_run (s : Stmt) (h : isStraight s = true) (program pre post : List Str)
    (vm : VM) (hprog : program = pre ++ stmtCode s ++ post) (hpc : vm.pc = pre.length)
    (hdef : stmtDefined vm.vars s = true) :
    stateAfter program (stmtCode s).length vm =
      some { specStmt vm s with pc := vm.pc + (stmtCode s).length } := by
  cases s with
  | Declaration kw name e =>
    simp only [isStraight, Bool.and_eq_true] at h
    have hc : stmtCode (.Declaration kw name e) =
        exprCode e ++ [instr1 "STORE".toList name.lexeme] := by
      rw [stmtCode, visitStmt]; rfl
    rw [hc] at hprog ⊢
    have hprog1 : program = pre ++ exprCode e ++ (instr1 "STORE".toList name.lexeme :: post) := by
      rw [hprog]; simp
    have h1 := arith_run e h.2 program pre _ vm hprog1 hpc hdef
    rw [List.length_append, stateAfter_add _ _ _ _ _ h1]
    refine stateAfter_step program 0 _ _ _ _ ?_
      (execute_STORE name.lexeme (isOperand_of_isIdentifier h.1) program _ vm.stack
        (specValue vm.vars e) rfl) ?_
    · rw [hprog1]
      exact getElem?_pre_cons _ _ _ _ (by simp [hpc])
    · show some _ = some _
      simp [specStmt, Nat.add_assoc]
  | Assignment name e =>
    simp only [isStraight, Bool.and_eq_true] at h
    have hc : stmtCode (.Assignment name e) =
        exprCode e ++ [instr1 "STORE".toList name.lexeme] := by
      rw [stmtCode, visitStmt]; rfl
    rw [hc] at hprog ⊢
    have hprog1 : program = pre ++ exprCode e ++ (instr1 "STORE".toList name.lexeme :: post) := by
      rw [hprog]; simp
    have h1 := arith_run e h.2 program pre _ vm hprog1 hpc hdef
    rw [List.length_append, stateAfter_add _ _ _ _ _ h1]
    refine stateAfter_step program 0 _ _ _ _ ?_
      (execute_STORE name.lexeme (isOperand_of_isIdentifier h.1) program _ vm.stack
        (specValue vm.vars e) rfl) ?_
    · rw [hprog1]
      exact getElem?_pre_cons _ _ _ _ (by simp [hpc])
    · show some _ = some _
      simp [specStmt, Nat.add_assoc]
  | Print kw e =>
    simp only [isStraight] at h
    have hc : stmtCode (.Print kw e) = exprCode e ++ ["PRINT".toList] := by
      rw [stmtCode, visitStmt]; rfl
    rw [hc] at hprog ⊢
    have hprog1 : program = pre ++ exprCode e ++ ("PRINT".toList :: post) := by
      rw [hprog]; simp
    have h1 := arith_run e h program pre _ vm hprog1 hpc hdef
    rw [List.length_append, stateAfter_add _ _ _ _ _ h1]
    refine stateAfter_step program 0 _ _ _ _ ?_
      (execute_PRINT program _ vm.stack (specValue vm.vars e) rfl) ?_
    · rw [hprog1]
      exact getElem?_pre_cons _ _ _ _ (by simp [hpc])
    · show some _ = some _
      simp [specStmt, Nat.add_assoc]
  | Expression e =>
    simp only [isStraight] at h
    have hc : stmtCode (.Expression e) = exprCode e := by
      rw [stmtCode, visitStmt]; rfl
    rw [hc] at hprog ⊢
    rw [arith_run e h program pre post vm hprog hpc hdef]
    rfl
  | If _ _ _ _ => simp [isStraight] at h
  | Loop _ _ _ => simp [isStraight] at h
  | Break _ => simp [isStraight] at h
  | Continue _ => simp [isStraight] at h
  | Return _ _ => simp [isStraight] at h
  | Function _ _ _ _ => simp [isStraight] at h
  | Block _ => simp [isStraight] at h

theorem execute_RET_top (program : List Str) (vm : VM) (h : vm.callstack = []) :
    execute "RET".toList program vm = .ok { vm with pc := program.length } := by
  have hx : execute "RET".toList program vm = execRET program vm := rfl
  rw [hx, execRET, h]
  rfl

/-- The code that returns a value, run with an empty call stack, pushes the value
and sets `pc` to the end of the program. -/
theorem return_run (v : Option Expr) (hv : ∀ e, v = some e → isArith e = true)
    (program pre post : List Str) (vm : VM)
    (hprog : program = pre ++ returnCode v ++ post) (hpc : vm.pc = pre.length)
    (hcs : vm.callstack = []) (hdef : ∀ e, v = some e → divDefined vm.vars e = true) :
    stateAfter program (returnCode v).length vm =
      some { vm with stack := vm.stack ++ [returnValue vm.vars v], pc := program.length } := by
  cases v with
  | none =>
    have hprog1 : program = pre ++ ("PUSH 0".toList :: "RET".toList :: post) := by
      rw [hprog]; simp [returnCode]
    refine stateAfter_step program 1 _ _ "PUSH 0".toList _ ?_
      (execute_PUSH "0".toList 0 (by decide) (by decide) program vm) ?_
    · rw [hprog1]
      exact getElem?_pre_cons _ _ _ _ hpc
    refine stateAfter_step program 0 _ _ "RET".toList _ ?_
      (execute_RET_top program _ hcs) ?_
    · rw [hprog1]
      have : pre ++ ("PUSH 0".toList :: "RET".toList :: post) =
          (pre ++ ["PUSH 0".toList]) ++ ("RET".toList :: post) := by simp
      rw [this]
      exact getElem?_pre_cons _ _ _ _ (by simp [hpc])
    · rfl
  | some e =>
    have he := hv e rfl
    have hprog1 : program = pre ++ exprCode e ++ ("RET".toList :: post) := by
      rw [hprog]; simp [returnCode]
    have h1 := arith_run e he program pre _ vm hprog1 hpc (hdef e rfl)
    have hlen : (returnCode (some e)).length = (exprCode e).length + 1 := by
      simp [returnCode]
    rw [hlen, stateAfter_add _ _ _ _ _ h1]
    refine stateAfter_step program 0 _ _ "RET".toList _ ?_
      (execute_RET_top program _ hcs) ?_
    · rw [hprog1]
      exact getElem?_pre_cons _ _ _ _ (by simp [hpc])
    · rfl

/-- A straight-line function body, run with an empty call stack from a state in
which it divides -2147483648 by -1 nowhere, ends the run at its first RET. -/
theorem body_run : ∀ (body : List Stmt), isStraightBody body = true →
    ∀ (program pre post : List Str) (vm : VM),
      program = pre ++ bodyCode body ++ post → vm.pc = pre.length → vm.callstack = [] →
      bodyDefined vm body = true →
      stateAfter program (bodyCode body).length vm =
        some { specBody vm body with pc := program.length }
  | [], _, program, pre, post, vm, hprog, hpc, hcs, _ => by
    rw [bodyCode] at hprog ⊢
    rw [return_run none (fun e he => by cases he) program pre post vm hprog hpc hcs
      (fun e he => by cases he)]
    rfl
  | s :: rest, h, program, pre, post, vm, hprog, hpc, hcs, hdef => by
    rw [isStraightBody] at h
    rw [bodyDefined] at hdef
    rw [bodyCode] at hprog ⊢
    rw [specBody]
    cases hr : returnOf s with
    | some v =>
      rw [hr] at h hprog hdef
      simp only [] at hprog hdef ⊢
      have hv : ∀ e, v = some e → isArith e = true := by
        intro e he
        rw [he] at h
        exact h
      obtain ⟨kw, rfl⟩ := returnOf_some s v hr
      have hd : ∀ e, v = some e → divDefined vm.vars e = true := by
        intro e he
        rw [he] at hdef
        exact hdef
      rw [return_run v hv program pre post vm hprog hpc hcs hd]
    | none =>
      rw [hr] at h hprog hdef
      simp only [Bool.and_eq_true] at h hdef
      simp only [] at hprog ⊢
      have hprog1 : program = pre ++ stmtCode s ++ (bodyCode rest ++ post) := by
        rw [hprog]; simp
      have h1 := straight_run s h.1 program pre _ vm hprog1 hpc hdef.1
      rw [List.length_append, stateAfter_add _ _ _ _ _ h1]
      have hprog2 : program = (pre ++ stmtCode s) ++ bodyCode rest ++ post := by
        rw [hprog]; simp
      rw [body_run rest h.2 program (pre ++ stmtCode s) post _ hprog2 (by simp [hpc])
        (by rw [← hcs]; exact specStmt_callstack vm s)
        ((bodyDefined_congr rest { specStmt vm s with pc := vm.pc + (stmtCode s).length }
          (specStmt vm s) rfl).trans hdef.2)]
      rw [specBody_pc]


theorem execute_labelLine (line : Str) (program : List Str) (vm : VM)
    (h : isLabelLine line = true) : execute line program vm = .ok (incPc vm) := by
  unfold execute
  by_cases he : line.isEmpty = true
  · rw [if_pos he]
  · rw [if_neg he, if_pos h]

set_option maxRecDepth 4000 in
theorem execute_CALL_f_0 (program : List Str) (vm : VM) :
    execute "CALL f 0".toList program vm = execCALLwith "f".toList (0 : Nat) vm := rfl

/-- The program of `recursiveBodySource` never leaves the function: every two
instructions the run is back at line 0 with one more frame on the call stack. -/
theorem recursive_body_loops : ∀ (fuel : Nat) (cs : List Frame),
    ∃ vm1, runLoop ["f:".toList, "CALL f 0".toList, "PUSH 0".toList, "RET".toList,
        "PUSH 1".toList, "PRINT".toList, "HALT:".toList] fuel
      (VM.mk [] [] 0 [("f".toList, 0), ("HALT".toList, 6)] cs [] []) = .out_of_fuel vm1
  | 0, cs => ⟨_, rfl⟩
  | 1, cs => ⟨_, rfl⟩
  | fuel + 2, cs => by
    obtain ⟨vm1, h⟩ := recursive_body_loops fuel (cs ++ [Frame.mk 2 0 0])
    refine ⟨vm1, ?_⟩
    rw [← h]
    refine runLoop_of_stateAfter _ 2 _ _ fuel ?_
    refine stateAfter_step _ 1 _ (VM.mk [] [] 1 [("f".toList, 0), ("HALT".toList, 6)] cs [] [])
      "f:".toList _ rfl (execute_labelLine _ _ _ (by decide)) ?_
    refine stateAfter_step _ 0 _
      (VM.mk [] [] 0 [("f".toList, 0), ("HALT".toList, 6)] (cs ++ [Frame.mk 2 0 0]) [] [])
      "CALL f 0".toList _ rfl ?_ rfl
    rw [execute_CALL_f_0, execCALLwith_user "f".toList
      (VM.mk [] [] 1 [("f".toList, 0), ("HALT".toList, 6)] cs [] []) 0 0 (by decide) rfl rfl]
    rfl


/-! ## An IF with straight-line blocks, run to its end -/

theorem straight_blockCode : ∀ (ss : List Stmt), isStraightBlock ss = true →
    ∀ g : CodeGenerator, visitBlock ss g = { g with bytecode_ := g.bytecode_ ++ blockCode ss }
  | [], _, g => by
    rw [visitBlock, blockCode, visitBlock]
    simp [CodeGenerator.new]
  | s :: rest, h, g => by
    simp only [isStraightBlock, List.all_cons, Bool.and_eq_true] at h
    rw [visitBlock, blockCode, visitBlock, straight_stmtCode s h.1 g,
      straight_stmtCode s h.1 CodeGenerator.new, straight_blockCode rest h.2,
      straight_blockCode rest h.2
        { CodeGenerator.new with bytecode_ := CodeGenerator.new.bytecode_ ++ stmtCode s }]
    simp [CodeGenerator.new]

theorem blockCode_cons (s : Stmt) (rest : List Stmt) (h : isStraightBlock (s :: rest) = true) :
    blockCode (s :: rest) = stmtCode s ++ blockCode rest := by
  simp only [isStraightBlock, List.all_cons, Bool.and_eq_true] at h
  rw [blockCode, visitBlock, straight_stmtCode s h.1 CodeGenerator.new,
    straight_blockCode rest h.2]
  simp [CodeGenerator.new]

theorem specBlock_pc (ss : List Stmt) : ∀ (vm : VM) (p : Nat),
    specBlock { vm with pc := p } ss = { specBlock vm ss with pc := p } := by
  induction ss with
  | nil => intro vm p; rfl
  | cons s rest ih =>
    intro vm p
    simp only [specBlock, List.foldl_cons] at ih ⊢
    rw [specStmt_pc, ih]

theorem specStmt_labels (vm : VM) (s : Stmt) : (specStmt vm s).labels = vm.labels := by
  cases s <;> rfl

theorem specBlock_labels (ss : List Stmt) : ∀ vm : VM, (specBlock vm ss).labels = vm.labels := by
  induction ss with
  | nil => intro vm; rfl
  | cons s rest ih =>
    intro vm
    simp only [specBlock, List.foldl_cons] at ih ⊢
    rw [ih, specStmt_labels]

/-- The code of a block of straight-line statements, run anywhere in a program from
a state in which the block divides -2147483648 by -1 nowhere, does what the
statements say, in order. -/
theorem straight_block_run : ∀ (ss : List Stmt), isStraightBlock ss = true →
    ∀ (program pre post : List Str) (vm : VM),
      program = pre ++ blockCode ss ++ post → vm.pc = pre.length →
      blockDefined vm ss = true →
      stateAfter program (blockCode ss).length vm =
        some { specBlock vm ss with pc := vm.pc + (blockCode ss).length }
  | [], _, program, pre, post, vm, _, _, _ => by
    have h0 : blockCode [] = [] := rfl
    rw [h0]
    rfl
  | s :: rest, h, program, pre, post, vm, hprog, hpc, hdef => by
    have hs := h
    simp only [isStraightBlock, List.all_cons, Bool.and_eq_true] at hs
    simp only [blockDefined, Bool.and_eq_true] at hdef
    rw [blockCode_cons s rest h] at hprog ⊢
    have hprog1 : program = pre ++ stmtCode s ++ (blockCode rest ++ post) := by
      rw [hprog]; simp
    have h1 := straight_run s hs.1 program pre _ vm hprog1 hpc hdef.1
    rw [List.length_append, stateAfter_add _ _ _ _ _ h1]
    have hprog2 : program = (pre ++ stmtCode s) ++ blockCode rest ++ post := by
      rw [hprog]; simp
    rw [straight_block_run rest hs.2 program (pre ++ stmtCode s) post _ hprog2
      (by simp [hpc])
      ((blockDefined_congr rest { specStmt vm s with pc := vm.pc + (stmtCode s).length }
        (specStmt vm s) rfl).trans hdef.2)]
    rw [specBlock_pc]
    show some _ = some _
    simp [specBlock, Nat.add_assoc]

theorem thenCode_straight (condition : Expr) (thenBranch : List Stmt)
    (h : isStraightBlock thenBranch = true) :
    thenCode condition thenBranch = blockCode thenBranch := by
  rw [thenCode, straight_blockCode thenBranch h]
  simp

theorem elseCode_straight (condition : Expr) (thenBranch : List Stmt)
    (elseBranch : Option (List Stmt)) (h : isStraightBlock (elseBranch.getD []) = true) :
    elseCode condition thenBranch elseBranch = blockCode (elseBranch.getD []) := by
  cases elseBranch with
  | none =>
    rw [elseCode, visitElse]
    simp [blockCode, visitBlock, CodeGenerator.new]
  | some block =>
    rw [elseCode, visitElse, straight_blockCode block h]
    simp

/-- A program that is one IF statement with straight-line blocks, from the state in
which the code of the condition has left the value `v`: when the block that `v`
selects, the else-block when `v` is 0 and the then-block otherwise, divides
-2147483648 by -1 nowhere, the run ends after that block, with the effects of that
block only. -/
theorem if_straight_run (keyword : Token) (condition : Expr) (thenBranch : List Stmt)
    (elseBranch : Option (List Stmt)) (g : CodeGenerator) (vm : VM) (v : Int)
    (hnames : PlainNames (blockFunctions thenBranch ++ elseFunctions elseBranch))
    (hsize : 1 + blockSize thenBranch + elseSize elseBranch ≤ 2147483647)
    (hT : isStraightBlock thenBranch = true)
    (hE : isStraightBlock (elseBranch.getD []) = true)
    (hcond : stateAfter
        (generate (ifProgram keyword condition thenBranch elseBranch) g).bytecode_
        (exprCode condition).length
        (runInit (generate (ifProgram keyword condition thenBranch elseBranch) g).bytecode_
          vm) =
      some { runInit (generate (ifProgram keyword condition thenBranch elseBranch)
          g).bytecode_ vm with stack := [v], pc := (exprCode condition).length })
    (hdef : blockDefined (VM.new []) (if v = 0 then elseBranch.getD [] else thenBranch) = true)
    (k : Nat) :
    run ((exprCode condition).length + 1 +
          (blockCode (if v = 0 then elseBranch.getD [] else thenBranch)).length + 3 + k)
        (generate (ifProgram keyword condition thenBranch elseBranch) g).bytecode_ vm =
      .finished { specBlock
          (runInit (generate (ifProgram keyword condition thenBranch elseBranch) g).bytecode_
            vm) (if v = 0 then elseBranch.getD [] else thenBranch) with
        pc := (generate (ifProgram keyword condition thenBranch elseBranch)
          g).bytecode_.length } := by
  have hshape := generate_ifProgram keyword condition thenBranch elseBranch g
  obtain ⟨hElse, hEnd⟩ := ifProgram_labels keyword condition thenBranch elseBranch g vm
    hnames hsize
  simp only [thenCode_straight condition thenBranch hT,
    elseCode_straight condition thenBranch elseBranch hE] at hshape hElse hEnd
  generalize (generate (ifProgram keyword condition thenBranch elseBranch) g).bytecode_ = P
    at hshape hElse hEnd hcond ⊢
  generalize hn : (exprCode condition).length = n at hElse hEnd hcond ⊢
  generalize hcT : blockCode thenBranch = cT at hshape hElse hEnd ⊢
  generalize hcE : blockCode (elseBranch.getD []) = cE at hshape hElse hEnd ⊢
  have hlen : P.length = n + 1 + cT.length + 2 + cE.length + 2 := by
    rw [hshape]
    simp only [List.length_append, List.length_cons, List.length_nil, hn]
  have hJZ : P[n]? = some "JZ else_0".toList := by
    rw [hshape]
    have : exprCode condition ++ ["JZ else_0".toList] ++ cT ++
        ["JMP end_if_0".toList, "else_0:".toList] ++ cE ++
        ["end_if_0:".toList, "HALT:".toList] =
        exprCode condition ++ "JZ else_0".toList :: (cT ++
        ["JMP end_if_0".toList, "else_0:".toList] ++ cE ++
        ["end_if_0:".toList, "HALT:".toList]) := by simp
    rw [this]
    exact getElem?_pre_cons _ _ _ _ hn.symm
  have hEndLine : P[n + 1 + cT.length + 2 + cE.length]? = some "end_if_0:".toList := by
    rw [hshape]
    have : exprCode condition ++ ["JZ else_0".toList] ++ cT ++
        ["JMP end_if_0".toList, "else_0:".toList] ++ cE ++
        ["end_if_0:".toList, "HALT:".toList] =
        (exprCode condition ++ ["JZ else_0".toList] ++ cT ++
        ["JMP end_if_0".toList, "else_0:".toList] ++ cE) ++
        "end_if_0:".toList :: ["HALT:".toList] := by simp
    rw [this]
    exact getElem?_pre_cons _ _ _ _ (by
      simp only [List.length_append, List.length_cons, List.length_nil, hn])
  have hHalt : P[n + 1 + cT.length + 2 + cE.length + 1]? = some "HALT:".toList := by
    rw [hshape]
    have : exprCode condition ++ ["JZ else_0".toList] ++ cT ++
        ["JMP end_if_0".toList, "else_0:".toList] ++ cE ++
        ["end_if_0:".toList, "HALT:".toList] =
        (exprCode condition ++ ["JZ else_0".toList] ++ cT ++
        ["JMP end_if_0".toList, "else_0:".toList] ++ cE ++ ["end_if_0:".toList]) ++
        "HALT:".toList :: [] := by simp
    rw [this]
    exact getElem?_pre_cons _ _ _ _ (by
      simp only [List.length_append, List.length_cons, List.length_nil, hn])
  -- the two label lines at the end, from any state
  have htail : ∀ s : VM, s.pc = n + 1 + cT.length + 2 + cE.length →
      stateAfter P 2 s = some { s with pc := P.length } := by
    intro s hs
    refine stateAfter_step P 1 s (incPc s) "end_if_0:".toList _ (by rw [hs]; exact hEndLine)
      (execute_labelLine _ _ _ (by decide)) ?_
    refine stateAfter_step P 0 (incPc s) (incPc (incPc s)) "HALT:".toList _
      (by show P[s.pc + 1]? = _; rw [hs]; exact hHalt)
      (execute_labelLine _ _ _ (by decide)) ?_
    show some _ = some _
    simp only [incPc, hs, hlen]
  have hjz := (execute_JZ_JNZ (VM.mk [v] (runInit P vm).vars n (runInit P vm).labels
      (runInit P vm).callstack (runInit P vm).out (runInit P vm).env) P [] v "else_0".toList
      _ rfl (by decide) hElse).1
  by_cases hv : v = 0
  · -- the else-block
    simp only [hv, if_true] at hjz hdef ⊢
    rw [hcE]
    have hElseLine : P[n + 1 + cT.length + 1]? = some "else_0:".toList := by
      rw [hshape]
      have : exprCode condition ++ ["JZ else_0".toList] ++ cT ++
          ["JMP end_if_0".toList, "else_0:".toList] ++ cE ++
          ["end_if_0:".toList, "HALT:".toList] =
          (exprCode condition ++ ["JZ else_0".toList] ++ cT ++ ["JMP end_if_0".toList]) ++
          "else_0:".toList :: (cE ++ ["end_if_0:".toList, "HALT:".toList]) := by simp
      rw [this]
      exact getElem?_pre_cons _ _ _ _ (by
      simp only [List.length_append, List.length_cons, List.length_nil, hn])
    have hPE : P = (exprCode condition ++ ["JZ else_0".toList] ++ cT ++
        ["JMP end_if_0".toList, "else_0:".toList]) ++ blockCode (elseBranch.getD []) ++
        ["end_if_0:".toList, "HALT:".toList] := by
      rw [hshape, hcE]
    have hsteps : stateAfter P (n + 1 + cE.length + 3) (runInit P vm) =
        some { specBlock (runInit P vm) (elseBranch.getD []) with pc := P.length } := by
      have e : n + 1 + cE.length + 3 = n + (cE.length + 2 + 1 + 1) := by omega
      rw [e, stateAfter_add _ _ _ _ _ hcond]
      rw [hv]
      refine stateAfter_step P _ _ _ _ _ hJZ hjz ?_
      refine stateAfter_step P _ _ (VM.mk [] (runInit P vm).vars (n + 1 + cT.length + 1 + 1)
        (runInit P vm).labels (runInit P vm).callstack (runInit P vm).out (runInit P vm).env)
        "else_0:".toList _ hElseLine (execute_labelLine _ _ _ (by decide)) ?_
      have hrunE := straight_block_run (elseBranch.getD []) hE P _ _
        (VM.mk [] (runInit P vm).vars (n + 1 + cT.length + 1 + 1)
          (runInit P vm).labels (runInit P vm).callstack (runInit P vm).out (runInit P vm).env)
        hPE (by
          simp only [List.length_append, List.length_cons, List.length_nil, hn])
        ((blockDefined_congr _ (VM.mk [] (runInit P vm).vars (n + 1 + cT.length + 1 + 1)
          (runInit P vm).labels (runInit P vm).callstack (runInit P vm).out (runInit P vm).env)
          (VM.new []) rfl).trans hdef)
      rw [hcE] at hrunE
      rw [stateAfter_add _ _ _ _ _ hrunE, htail _ (by show n + 1 + cT.length + 1 + 1 + cE.length = _; omega)]
      have hinit : (VM.mk [] (runInit P vm).vars (n + 1 + cT.length + 1 + 1)
          (runInit P vm).labels (runInit P vm).callstack (runInit P vm).out
          (runInit P vm).env) = { runInit P vm with pc := n + 1 + cT.length + 1 + 1 } := rfl
      rw [hinit, specBlock_pc]
    exact run_finished P _ k vm _ hsteps (Nat.le_refl _)
  · -- the then-block
    simp only [hv, if_false] at hjz hdef ⊢
    rw [hcT]
    have hJmpLine : P[n + 1 + cT.length]? = some "JMP end_if_0".toList := by
      rw [hshape]
      have : exprCode condition ++ ["JZ else_0".toList] ++ cT ++
          ["JMP end_if_0".toList, "else_0:".toList] ++ cE ++
          ["end_if_0:".toList, "HALT:".toList] =
          (exprCode condition ++ ["JZ else_0".toList] ++ cT) ++
          "JMP end_if_0".toList :: ("else_0:".toList :: cE ++
            ["end_if_0:".toList, "HALT:".toList]) := by simp
      rw [this]
      exact getElem?_pre_cons _ _ _ _ (by
      simp only [List.length_append, List.length_cons, List.length_nil, hn])
    have hPT : P = (exprCode condition ++ ["JZ else_0".toList]) ++ blockCode thenBranch ++
        (["JMP end_if_0".toList, "else_0:".toList] ++ cE ++
        ["end_if_0:".toList, "HALT:".toList]) := by
      rw [hshape, hcT]
      simp
    have hsteps : stateAfter P (n + 1 + cT.length + 3) (runInit P vm) =
        some { specBlock (runInit P vm) thenBranch with pc := P.length } := by
      have e : n + 1 + cT.length + 3 = n + (cT.length + 3 + 1) := by omega
      rw [e, stateAfter_add _ _ _ _ _ hcond]
      refine stateAfter_step P _ _ _ _ _ hJZ hjz ?_
      have hrunT := straight_block_run thenBranch hT P _ _
        (VM.mk [] (runInit P vm).vars (n + 1)
          (runInit P vm).labels (runInit P vm).callstack (runInit P vm).out (runInit P vm).env)
        hPT (by
          simp only [List.length_append, List.length_cons, List.length_nil, hn])
        ((blockDefined_congr _ (VM.mk [] (runInit P vm).vars (n + 1)
          (runInit P vm).labels (runInit P vm).callstack (runInit P vm).out (runInit P vm).env)
          (VM.new []) rfl).trans hdef)
      rw [hcT] at hrunT
      rw [stateAfter_add _ _ _ _ _ hrunT]
      have hinit : (VM.mk [] (runInit P vm).vars (n + 1)
          (runInit P vm).labels (runInit P vm).callstack (runInit P vm).out
          (runInit P vm).env) = { runInit P vm with pc := n + 1 } := rfl
      rw [hinit, specBlock_pc]
      have hjmp := execute_JMP_present "end_if_0".toList (by decide) P
        (VM.mk (specBlock (runInit P vm) thenBranch).stack
          (specBlock (runInit P vm) thenBranch).vars (n + 1 + cT.length)
          (specBlock (runInit P vm) thenBranch).labels
          (specBlock (runInit P vm) thenBranch).callstack
          (specBlock (runInit P vm) thenBranch).out
          (specBlock (runInit P vm) thenBranch).env) _
        (by show mapFind (specBlock (runInit P vm) thenBranch).labels _ = _
            rw [specBlock_labels]; exact hEnd)
      refine stateAfter_step P _ _ _ _ _ hJmpLine hjmp ?_
      rw [htail _ rfl]
    exact run_finished P _ k vm _ hsteps (Nat.le_refl _)

/-! ## C40: the IF on a literal `true` or `false` -/

/-- The first instruction of a program that is an IF on `true` or `false`: the PUSH
leaves 0. -/
theorem boolean_literal_first_step (b : Str) (keyword token : Token)
    (thenBranch : List Stmt) (elseBranch : Option (List Stmt)) (g : CodeGenerator) (vm : VM)
    (hb : b = "true".toList ∨ b = "false".toList) :
    stateAfter (generate (ifProgram keyword (.Literal token b) thenBranch elseBranch) g).bytecode_
        (exprCode (.Literal token b)).length
        (runInit (generate (ifProgram keyword (.Literal token b) thenBranch elseBranch)
          g).bytecode_ vm) =
      some { runInit (generate (ifProgram keyword (.Literal token b) thenBranch elseBranch)
          g).bytecode_ vm with stack := [0], pc := (exprCode (.Literal token b)).length } := by
  have hside : '"' ∉ b ∧ b ≠ [] ∧ isspace (b.headD ' ') = false ∧
      isspace (b.getLastD ' ') = false ∧ b.getLast? ≠ some ':' ∧
      startsWithNumber b = false := by
    rcases hb with rfl | rfl <;> decide
  obtain ⟨hq, hne, hhead, hlast, hcolon, hnum⟩ := hside
  have hshape := generate_ifProgram keyword (.Literal token b) thenBranch elseBranch g
  have hcond : exprCode (.Literal token b) = ["PUSH ".toList ++ b] := rfl
  rw [hcond] at hshape ⊢
  generalize (generate (ifProgram keyword (.Literal token b) thenBranch elseBranch) g).bytecode_
    = P at hshape ⊢
  have hP2 : P = ("PUSH ".toList ++ b) :: "JZ else_0".toList ::
      (thenCode (.Literal token b) thenBranch ++
      ["JMP end_if_0".toList, "else_0:".toList] ++
      elseCode (.Literal token b) thenBranch elseBranch ++
      ["end_if_0:".toList, "HALT:".toList]) := by
    rw [hshape]
    simp
  have h0 : P[0]? = some ("PUSH ".toList ++ b) := by
    rw [hP2]; rfl
  have e1 : execute ("PUSH ".toList ++ b) P (runInit P vm) =
      .ok { runInit P vm with stack := (runInit P vm).stack ++ [0],
                              pc := (runInit P vm).pc + 1 } := by
    conv => lhs; rw [hP2]
    rw [execute_push_text_zero b _ _ _ hq hne hhead hlast hcolon hnum rfl (by decide)
      (by decide)]
    rw [← hP2]
  exact stateAfter_step P 0 _ _ _ _ h0 e1 rfl

/-- C40 fails on the code for an else-block that defines a function whose name is the
else label of the IF: compiled without error and run,
`IF true { POUR 1; } ELSE { POUR 2; SCENE else_0() { } }` writes nothing. The
table of labels keeps the last line `else_0:`, the one of the function, so the JZ
jumps past `POUR 2` into the function, whose RET ends the run. -/
theorem if_true_shadowed_else_counterexample :
    Compiler.compile 64 ifTrueShadowSource Compiler.new =
      some { errors_ := [],
             bytecode_ := ["PUSH true".toList, "JZ else_0".toList, "PUSH 1".toList,
               "PRINT".toList, "JMP end_if_0".toList, "else_0:".toList, "PUSH 2".toList,
               "PRINT".toList, "else_0:".toList, "PUSH 0".toList, "RET".toList,
               "end_if_0:".toList, "HALT:".toList],
             hadError_ := false } ∧
    stateAfter ["PUSH true".toList, "JZ else_0".toList, "PUSH 1".toList,
        "PRINT".toList, "JMP end_if_0".toList, "else_0:".toList, "PUSH 2".toList,
        "PRINT".toList, "else_0:".toList, "PUSH 0".toList, "RET".toList,
        "end_if_0:".toList, "HALT:".toList] 2
      (runInit ["PUSH true".toList, "JZ else_0".toList, "PUSH 1".toList,
        "PRINT".toList, "JMP end_if_0".toList, "else_0:".toList, "PUSH 2".toList,
        "PRINT".toList, "else_0:".toList, "PUSH 0".toList, "RET".toList,
        "end_if_0:".toList, "HALT:".toList] (VM.new [])) =
      some { stack := [], vars := [], pc := 8,
             labels := [("else_0".toList, 8), ("end_if_0".toList, 11), ("HALT".toList, 12)],
             callstack := [], out := [], env := [] } ∧
    run 20 ["PUSH true".toList, "JZ else_0".toList, "PUSH 1".toList,
        "PRINT".toList, "JMP end_if_0".toList, "else_0:".toList, "PUSH 2".toList,
        "PRINT".toList, "else_0:".toList, "PUSH 0".toList, "RET".toList,
        "end_if_0:".toList, "HALT:".toList] (VM.new []) =
      .finished { stack := [0], vars := [], pc := 13,
                  labels := [("else_0".toList, 8), ("end_if_0".toList, 11),
                    ("HALT".toList, 12)],
                  callstack := [], out := [], env := [] } := by
  refine ⟨by decide, by decide, by decide⟩

/-- C40, amended. The literals `true` and `false` compile to `PUSH true` and
`PUSH false`, and each pushes 0 when the next line that is not a label line is not a
PRINT: `TAKE x = true;` stores 0 in x. For an IF on such a literal whose blocks
define no function named like a generated label (and have fewer than 2^31
statements), the bytecode is the PUSH, `JZ else_0`, the code of T, `JMP end_if_0`,
`else_0:`, the code of E, `end_if_0:`, `HALT:`; the two first instructions of a run
leave an empty stack and the program counter on the line `else_0:` that precedes the
code of E, so no line of T is executed; this is so for `true` exactly as for `false`.
Compiled and run, `IF true { POUR 1; } ELSE { POUR 2; }` writes 2, as the same
statement with `false` does. When T and E are blocks of straight-line statements
(declarations, assignments, prints and expression statements over the expressions of
C1) and E, run from the empty variable store, divides -2147483648 by -1 nowhere, the
run ends with the effects of E and of nothing else. -/
theorem boolean_literal_pushes_zero (b : Str) (keyword token : Token)
    (thenBranch : List Stmt) (elseBranch : Option (List Stmt)) (g : CodeGenerator) (vm : VM)
    (hb : b = "true".toList ∨ b = "false".toList)
    (hnames : PlainNames (blockFunctions thenBranch ++ elseFunctions elseBranch))
    (hsize : 1 + blockSize thenBranch + elseSize elseBranch ≤ 2147483647) :
    (∀ g1 : CodeGenerator, visitExpr (.Literal token b) g1 = emit g1 ("PUSH ".toList ++ b)) ∧
    (∀ (program : List Str) (vm1 : VM),
      isPrintAt program (nextNonLabel program (vm1.pc + 1)) = false →
      execute ("PUSH ".toList ++ b) program vm1 =
        .ok { vm1 with stack := vm1.stack ++ [0], pc := vm1.pc + 1 }) ∧
    (generate (ifProgram keyword (.Literal token b) thenBranch elseBranch) g).bytecode_ =
      ["PUSH ".toList ++ b, "JZ else_0".toList] ++ thenCode (.Literal token b) thenBranch ++
        ["JMP end_if_0".toList, "else_0:".toList] ++
        elseCode (.Literal token b) thenBranch elseBranch ++
        ["end_if_0:".toList, "HALT:".toList] ∧
    stateAfter (generate (ifProgram keyword (.Literal token b) thenBranch elseBranch) g).bytecode_
        2 (runInit
          (generate (ifProgram keyword (.Literal token b) thenBranch elseBranch) g).bytecode_
          vm) =
      some { runInit
          (generate (ifProgram keyword (.Literal token b) thenBranch elseBranch) g).bytecode_
          vm with pc := 2 + (thenCode (.Literal token b) thenBranch).length + 1 } ∧
    (Compiler.compile 64 takeTrueSource Compiler.new).map Compiler.bytecode_ =
      some ["PUSH true".toList, "STORE x".toList, "HALT:".toList] ∧
    run 10 ["PUSH true".toList, "STORE x".toList, "HALT:".toList] (VM.new []) =
      .finished { stack := [], vars := [("x".toList, 0)], pc := 3,
                  labels := [("HALT".toList, 2)], callstack := [], out := [], env := [] } ∧
    (Compiler.compile 64 ifTrueSource Compiler.new).map Compiler.bytecode_ =
      some ["PUSH true".toList, "JZ else_0".toList, "PUSH 1".toList, "PRINT".toList,
        "JMP end_if_0".toList, "else_0:".toList, "PUSH 2".toList, "PRINT".toList,
        "end_if_0:".toList, "HALT:".toList] ∧
    run 20 ["PUSH true".toList, "JZ else_0".toList, "PUSH 1".toList, "PRINT".toList,
        "JMP end_if_0".toList, "else_0:".toList, "PUSH 2".toList, "PRINT".toList,
        "end_if_0:".toList, "HALT:".toList] (VM.new []) =
      .finished { stack := [2], vars := [], pc := 10,
                  labels := [("else_0".toList, 5), ("end_if_0".toList, 8), ("HALT".toList, 9)],
                  callstack := [], out := ["2".toList], env := [] } ∧
    (Compiler.compile 64 ifFalseSource Compiler.new).map Compiler.bytecode_ =
      some ["PUSH false".toList, "JZ else_0".toList, "PUSH 1".toList, "PRINT".toList,
        "JMP end_if_0".toList, "else_0:".toList, "PUSH 2".toList, "PRINT".toList,
        "end_if_0:".toList, "HALT:".toList] ∧
    run 20 ["PUSH false".toList, "JZ else_0".toList, "PUSH 1".toList, "PRINT".toList,
        "JMP end_if_0".toList, "else_0:".toList, "PUSH 2".toList, "PRINT".toList,
        "end_if_0:".toList, "HALT:".toList] (VM.new []) =
      .finished { stack := [2], vars := [], pc := 10,
                  labels := [("else_0".toList, 5), ("end_if_0".toList, 8), ("HALT".toList, 9)],
                  callstack := [], out := ["2".toList], env := [] } ∧
    (isStraightBlock thenBranch = true → isStraightBlock (elseBranch.getD []) = true →
      blockDefined (VM.new []) (elseBranch.getD []) = true →
      ∀ k : Nat,
        run (1 + 1 + (blockCode (elseBranch.getD [])).length + 3 + k)
            (generate (ifProgram keyword (.Literal token b) thenBranch elseBranch)
              g).bytecode_ vm =
          .finished { specBlock
              (runInit (generate (ifProgram keyword (.Literal token b) thenBranch elseBranch)
                g).bytecode_ vm) (elseBranch.getD []) with
            pc := (generate (ifProgram keyword (.Literal token b) thenBranch elseBranch)
              g).bytecode_.length }) := by
  have hside : '"' ∉ b ∧ b ≠ [] ∧ isspace (b.headD ' ') = false ∧
      isspace (b.getLastD ' ') = false ∧ b.getLast? ≠ some ':' ∧
      startsWithNumber b = false := by
    rcases hb with rfl | rfl <;> decide
  obtain ⟨hq, hne, hhead, hlast, hcolon, hnum⟩ := hside
  have hshape := generate_ifProgram keyword (.Literal token b) thenBranch elseBranch g
  have hcond : exprCode (.Literal token b) = ["PUSH ".toList ++ b] := rfl
  rw [hcond] at hshape
  have hlabels := (ifProgram_labels keyword (.Literal token b) thenBranch elseBranch g vm
    hnames hsize).1
  rw [hcond] at hlabels
  have hfirst := boolean_literal_first_step b keyword token thenBranch elseBranch g vm hb
  refine ⟨fun g1 => by rw [visitExpr], fun program vm1 hp => ?_, hshape, ?_, by decide,
    by decide, by decide, by decide, by decide, by decide, fun hT hE hdef k => ?_⟩

  · rw [execute_push_nonnumeric b program vm1 hq hne hhead hlast hcolon hnum, hp]
    rfl
  · generalize hP :
      (generate (ifProgram keyword (.Literal token b) thenBranch elseBranch) g).bytecode_ = P
      at hshape hlabels ⊢
    have hP2 : P = ("PUSH ".toList ++ b) :: "JZ else_0".toList ::
        (thenCode (.Literal token b) thenBranch ++
        ["JMP end_if_0".toList, "else_0:".toList] ++
        elseCode (.Literal token b) thenBranch elseBranch ++
        ["end_if_0:".toList, "HALT:".toList]) := by
      rw [hshape]
      simp
    have h0 : P[0]? = some ("PUSH ".toList ++ b) := by
      rw [hP2]; rfl
    have e1 : execute ("PUSH ".toList ++ b) P (runInit P vm) =
        .ok { runInit P vm with stack := (runInit P vm).stack ++ [0],
                                pc := (runInit P vm).pc + 1 } := by
      conv => lhs; rw [hP2]
      rw [execute_push_text_zero b _ _ _ hq hne hhead hlast hcolon hnum rfl (by decide)
        (by decide)]
      rw [← hP2]
    refine stateAfter_step P 1 _ _ _ _ h0 e1 ?_
    have h1 : P[0 + 1]? = some "JZ else_0".toList := by
      rw [hP2]; simp
    have e2 := (execute_JZ_JNZ (VM.mk ((runInit P vm).stack ++ [0]) (runInit P vm).vars
        ((runInit P vm).pc + 1) (runInit P vm).labels (runInit P vm).callstack
        (runInit P vm).out (runInit P vm).env) P [] 0 "else_0".toList
        (1 + 1 + (thenCode (.Literal token b) thenBranch).length + 1) rfl (by decide)
        hlabels).1
    refine stateAfter_step P 0 _ _ _ _ h1 e2 ?_
    show some _ = some _
    simp only [List.length_singleton] at *
    rfl
  · have h := if_straight_run keyword (.Literal token b) thenBranch elseBranch g vm 0 hnames
      hsize hT hE hfirst (by simpa using hdef) k
    simp only [↓reduceIte] at h
    exact h


/-- C40, instance: `IF true { POUR 1; } ELSE { POUR 2; }`; after the PUSH and the JZ
the program counter is on `else_0:`, line 5. -/
theorem boolean_literal_pushes_zero_witness :
    stateAfter ["PUSH true".toList, "JZ else_0".toList, "PUSH 1".toList, "PRINT".toList,
        "JMP end_if_0".toList, "else_0:".toList, "PUSH 2".toList, "PRINT".toList,
        "end_if_0:".toList, "HALT:".toList] 2
      (runInit ["PUSH true".toList, "JZ else_0".toList, "PUSH 1".toList, "PRINT".toList,
        "JMP end_if_0".toList, "else_0:".toList, "PUSH 2".toList, "PRINT".toList,
        "end_if_0:".toList, "HALT:".toList] (VM.new [])) =
      some { stack := [], vars := [], pc := 5,
             labels := [("else_0".toList, 5), ("end_if_0".toList, 8), ("HALT".toList, 9)],
             callstack := [], out := [], env := [] } :=
  (boolean_literal_pushes_zero "true".toList ⟨.IF, "IF".toList, [], 1⟩
    ⟨.TRUE_KW, "true".toList, [], 1⟩
    [.Print ⟨.POUR, "POUR".toList, [], 1⟩ (.Literal ⟨.NUMBER, "1".toList, "1".toList, 1⟩ "1".toList)]
    (some [.Print ⟨.POUR, "POUR".toList, [], 1⟩
      (.Literal ⟨.NUMBER, "2".toList, "2".toList, 1⟩ "2".toList)])
    CodeGenerator.new (VM.new []) (Or.inl rfl)
    (fun f hf => absurd hf (List.not_mem_nil f)) (by decide)).2.2.2.1


/-! ## C33: the IF on a comparison -/

/-- C33 fails on the code for a literal outside the 32-bit range and for an
else-block that defines a function named like the else label. Compiled without
error, `IF 99999999999 > 0 { POUR 1; } ELSE { POUR 2; }` is aborted by the
`out_of_range` exception of its first PUSH, so neither block is executed although
the comparison is true; and `IF 1 < 0 { POUR 1; } ELSE { POUR 2; SCENE else_0() { } }`
writes nothing although the comparison is false: the JZ jumps to the last line
`else_0:`, the one of the function, past `POUR 2`. -/
theorem if_comparison_counterexample :
    Compiler.compile 64 ifLargeLiteralSource Compiler.new =
      some { errors_ := [],
             bytecode_ := ["PUSH 99999999999".toList, "PUSH 0".toList, "GT".toList,
               "JZ else_0".toList, "PUSH 1".toList, "PRINT".toList, "JMP end_if_0".toList,
               "else_0:".toList, "PUSH 2".toList, "PRINT".toList, "end_if_0:".toList,
               "HALT:".toList],
             hadError_ := false } ∧
    (∀ fuel : Nat,
      run (fuel + 1) ["PUSH 99999999999".toList, "PUSH 0".toList, "GT".toList,
          "JZ else_0".toList, "PUSH 1".toList, "PRINT".toList, "JMP end_if_0".toList,
          "else_0:".toList, "PUSH 2".toList, "PRINT".toList, "end_if_0:".toList,
          "HALT:".toList] (VM.new []) =
        .aborted .out_of_range
          { stack := [], vars := [], pc := 0,
            labels := [("else_0".toList, 7), ("end_if_0".toList, 10), ("HALT".toList, 11)],
            callstack := [], out := [], env := [] }) ∧
    compareHolds ">".toList 99999999999 0 = true ∧
    Compiler.compile 64 ifFalseShadowSource Compiler.new =
      some { errors_ := [],
             bytecode_ := ["PUSH 1".toList, "PUSH 0".toList, "LT".toList, "JZ else_0".toList,
               "PUSH 1".toList, "PRINT".toList, "JMP end_if_0".toList, "else_0:".toList,
               "PUSH 2".toList, "PRINT".toList, "else_0:".toList, "PUSH 0".toList,
               "RET".toList, "end_if_0:".toList, "HALT:".toList],
             hadError_ := false } ∧
    writtenBy ifFalseShadowSource = some [] ∧
    compareHolds "<".toList 1 0 = false := by
  refine ⟨by decide, fun fuel => ?_, by decide, by decide, by decide, by decide⟩
  rfl

set_option maxRecDepth 100000 in
theorem writtenBy_sixComparisons :
    writtenBy sixComparisonsSource =
      some ["1".toList, "0".toList, "1".toList, "0".toList, "1".toList, "0".toList,
        "1".toList, "0".toList, "1".toList, "0".toList, "1".toList, "0".toList] := by
  decide

/-- C33, amended. For literals `a` and `b` with 32-bit values, each of the six
comparison operators, and blocks T and E that define no function named like a
generated label (and have fewer than 2^31 statements): the bytecode of
`IF a op b { T } ELSE { E }` is the code of the comparison, `JZ else_0`, the code
of T, `JMP end_if_0`, `else_0:`, the code of E, `end_if_0:`, `HALT:`. When `a op b`
holds, the run reaches the first line of the code of T with an empty stack, and the
`JMP end_if_0` that follows the code of T jumps to `end_if_0:`, past the code of E.
When `a op b` does not hold, the run reaches `else_0:`, the line before the code of
E, with an empty stack, without having executed a line of T. Compiled and run,
twelve such statements, a true and a false one for each operator, write 1 from the
then-block and 0 from the else-block as expected. When T and E are blocks of
straight-line statements (declarations, assignments, prints and expression
statements over the expressions of C1) and the selected block, run from the empty
variable store, divides -2147483648 by -1 nowhere, the run ends with the effects of
T and of nothing else when `a op b` holds, and with those of E and of nothing else
when it does not. -/
theorem if_comparison_control (keyword ta tb op : Token) (a b : Str)
    (thenBranch elseBranch : List Stmt) (g : CodeGenerator) (vm : VM)
    (ha : isNumberLexeme a = true) (ha2 : isInt32 (litValue a))
    (hb : isNumberLexeme b = true) (hb2 : isInt32 (litValue b))
    (hop : op.lexeme ∈ comparisonOperators)
    (hnames : PlainNames (blockFunctions thenBranch ++ blockFunctions elseBranch))
    (hsize : 1 + blockSize thenBranch + blockSize elseBranch ≤ 2147483647) :
    (generate (comparisonIf keyword ta tb op a b thenBranch elseBranch) g).bytecode_ =
      exprCode (comparison ta tb a b op) ++ ["JZ else_0".toList] ++
        thenCode (comparison ta tb a b op) thenBranch ++
        ["JMP end_if_0".toList, "else_0:".toList] ++
        elseCode (comparison ta tb a b op) thenBranch (some elseBranch) ++
        ["end_if_0:".toList, "HALT:".toList] ∧
    (compareHolds op.lexeme (litValue a) (litValue b) = true →
      stateAfter (generate (comparisonIf keyword ta tb op a b thenBranch elseBranch) g).bytecode_
          ((exprCode (comparison ta tb a b op)).length + 1)
          (runInit (generate (comparisonIf keyword ta tb op a b thenBranch elseBranch)
            g).bytecode_ vm) =
        some { runInit (generate (comparisonIf keyword ta tb op a b thenBranch elseBranch)
            g).bytecode_ vm with pc := (exprCode (comparison ta tb a b op)).length + 1 }) ∧
    (∀ vm1 : VM,
      vm1.labels = (runInit (generate (comparisonIf keyword ta tb op a b thenBranch elseBranch)
        g).bytecode_ vm).labels →
      execute "JMP end_if_0".toList
          (generate (comparisonIf keyword ta tb op a b thenBranch elseBranch) g).bytecode_ vm1 =
        .ok { vm1 with pc := (exprCode (comparison ta tb a b op)).length + 1 +
          (thenCode (comparison ta tb a b op) thenBranch).length + 2 +
          (elseCode (comparison ta tb a b op) thenBranch (some elseBranch)).length }) ∧
    (compareHolds op.lexeme (litValue a) (litValue b) = false →
      stateAfter (generate (comparisonIf keyword ta tb op a b thenBranch elseBranch) g).bytecode_
          ((exprCode (comparison ta tb a b op)).length + 1)
          (runInit (generate (comparisonIf keyword ta tb op a b thenBranch elseBranch)
            g).bytecode_ vm) =
        some { runInit (generate (comparisonIf keyword ta tb op a b thenBranch elseBranch)
            g).bytecode_ vm with
          pc := (exprCode (comparison ta tb a b op)).length + 1 +
            (thenCode (comparison ta tb a b op) thenBranch).length + 1 }) ∧
    writtenBy sixComparisonsSource =
      some ["1".toList, "0".toList, "1".toList, "0".toList, "1".toList, "0".toList,
        "1".toList, "0".toList, "1".toList, "0".toList, "1".toList, "0".toList] ∧
    (isStraightBlock thenBranch = true → isStraightBlock elseBranch = true →
      blockDefined (VM.new []) (if compareHolds op.lexeme (litValue a) (litValue b) = true
        then thenBranch else elseBranch) = true →
      ∀ k : Nat,
        run ((exprCode (comparison ta tb a b op)).length + 1 +
              (blockCode (if compareHolds op.lexeme (litValue a) (litValue b) = true
                then thenBranch else elseBranch)).length + 3 + k)
            (generate (comparisonIf keyword ta tb op a b thenBranch elseBranch) g).bytecode_
            vm =
          .finished { specBlock
              (runInit (generate (comparisonIf keyword ta tb op a b thenBranch elseBranch)
                g).bytecode_ vm)
              (if compareHolds op.lexeme (litValue a) (litValue b) = true
                then thenBranch else elseBranch) with
            pc := (generate (comparisonIf keyword ta tb op a b thenBranch elseBranch)
              g).bytecode_.length }) := by
  have hends : ∀ v : Int,
      stateAfter
          (generate (ifProgram keyword (comparison ta tb a b op) thenBranch (some elseBranch))
            g).bytecode_ (exprCode (comparison ta tb a b op)).length
          (runInit (generate (ifProgram keyword (comparison ta tb a b op) thenBranch
            (some elseBranch)) g).bytecode_ vm) =
        some { runInit (generate (ifProgram keyword (comparison ta tb a b op) thenBranch
            (some elseBranch)) g).bytecode_ vm with
          stack := [v], pc := (exprCode (comparison ta tb a b op)).length } →
      (v = 0 ↔ compareHolds op.lexeme (litValue a) (litValue b) = false) →
      isStraightBlock thenBranch = true → isStraightBlock elseBranch = true →
      blockDefined (VM.new []) (if compareHolds op.lexeme (litValue a) (litValue b) = true
        then thenBranch else elseBranch) = true → ∀ k : Nat,
        run ((exprCode (comparison ta tb a b op)).length + 1 +
              (blockCode (if compareHolds op.lexeme (litValue a) (litValue b) = true
                then thenBranch else elseBranch)).length + 3 + k)
            (generate (ifProgram keyword (comparison ta tb a b op) thenBranch
              (some elseBranch)) g).bytecode_ vm =
          .finished { specBlock
              (runInit (generate (ifProgram keyword (comparison ta tb a b op) thenBranch
                (some elseBranch)) g).bytecode_ vm)
              (if compareHolds op.lexeme (litValue a) (litValue b) = true
                then thenBranch else elseBranch) with
            pc := (generate (ifProgram keyword (comparison ta tb a b op) thenBranch
              (some elseBranch)) g).bytecode_.length } := by
    intro v hcond hv hT hE hdef k
    by_cases hv0 : v = 0
    · rw [hv.mp hv0] at hdef ⊢
      simp only [↓reduceIte, Bool.false_eq_true] at hdef ⊢
      have h := if_straight_run keyword (comparison ta tb a b op) thenBranch (some elseBranch)
        g vm v hnames hsize hT hE hcond (by simpa [hv0] using hdef) k
      simp only [hv0, ↓reduceIte, Option.getD_some] at h
      exact h
    · have hholds : compareHolds op.lexeme (litValue a) (litValue b) = true := by
        cases hc : compareHolds op.lexeme (litValue a) (litValue b) with
        | true => rfl
        | false => exact absurd (hv.mpr hc) hv0
      rw [hholds] at hdef ⊢
      simp only [↓reduceIte] at hdef ⊢
      have h := if_straight_run keyword (comparison ta tb a b op) thenBranch (some elseBranch)
        g vm v hnames hsize hT hE hcond (by simpa [hv0] using hdef) k
      simp only [hv0, ↓reduceIte, Option.getD_some] at h
      exact h
  have hshape := generate_ifProgram keyword (comparison ta tb a b op) thenBranch
    (some elseBranch) g
  obtain ⟨hElse, hEnd⟩ := ifProgram_labels keyword (comparison ta tb a b op) thenBranch
    (some elseBranch) g vm hnames hsize
  have hP : generate (comparisonIf keyword ta tb op a b thenBranch elseBranch) g =
      generate (ifProgram keyword (comparison ta tb a b op) thenBranch (some elseBranch)) g :=
    rfl
  rw [hP]
  generalize (generate (ifProgram keyword (comparison ta tb a b op) thenBranch
    (some elseBranch)) g).bytecode_ = P at hshape hElse hEnd hends ⊢
  have hP2 : P = [] ++ exprCode (comparison ta tb a b op) ++ ("JZ else_0".toList ::
      (thenCode (comparison ta tb a b op) thenBranch ++
      ["JMP end_if_0".toList, "else_0:".toList] ++
      elseCode (comparison ta tb a b op) thenBranch (some elseBranch) ++
      ["end_if_0:".toList, "HALT:".toList])) := by
    rw [hshape]
    simp
  obtain ⟨v, hrun, hv⟩ := comparison_run ta tb op a b ha ha2 hb hb2 hop P [] _ (runInit P vm)
    hP2 rfl
  have hfetch : P[0 + (exprCode (comparison ta tb a b op)).length]? =
      some "JZ else_0".toList := by
    conv => lhs; rw [hP2]
    exact getElem?_pre_cons _ _ _ _ (by simp)
  have hjz := (execute_JZ_JNZ (VM.mk ((runInit P vm).stack ++ [v]) (runInit P vm).vars
      ((runInit P vm).pc + (exprCode (comparison ta tb a b op)).length) (runInit P vm).labels
      (runInit P vm).callstack (runInit P vm).out (runInit P vm).env) P [] v "else_0".toList
      _ rfl (by decide) hElse).1
  have hstep : stateAfter P ((exprCode (comparison ta tb a b op)).length + 1)
      (runInit P vm) = some { runInit P vm with
        pc := if v = 0 then (exprCode (comparison ta tb a b op)).length + 1 +
            (thenCode (comparison ta tb a b op) thenBranch).length + 1
          else (exprCode (comparison ta tb a b op)).length + 1 } := by
    rw [stateAfter_add _ _ 1 _ _ hrun]
    refine stateAfter_step P 0 _ _ _ _ hfetch hjz ?_
    show some _ = some _
    by_cases h0 : v = 0
    · simp only [h0, if_true]
      rfl
    · simp only [h0, if_false]
      show some _ = some _
      simp only [show (runInit P vm).pc = 0 from rfl, Nat.zero_add]
      rfl
  have hcond : stateAfter P (exprCode (comparison ta tb a b op)).length (runInit P vm) =
      some { runInit P vm with
        stack := [v], pc := (exprCode (comparison ta tb a b op)).length } := by
    rw [hrun]
    show some _ = some _
    simp only [show (runInit P vm).pc = 0 from rfl, Nat.zero_add]
    rfl
  refine ⟨hshape, fun hT => ?_, fun vm1 hl => ?_, fun hF => ?_, writtenBy_sixComparisons,
    hends v hcond hv⟩
  · have h0 : v ≠ 0 := fun h => by
      rw [hv.mp h] at hT
      exact Bool.false_ne_true hT
    rw [hstep, if_neg h0]
  · exact execute_JMP_present "end_if_0".toList (by decide) P vm1 _ (by rw [hl]; exact hEnd)
  · rw [hstep, if_pos (hv.mpr hF)]

/-- C33, instance: `IF 3 >= 3 { POUR 1; } ELSE { POUR 0; }`; the comparison holds
and after its code and the JZ the program counter is on line 6, the first line of
the then-block. -/
theorem if_comparison_control_witness :
    stateAfter ["PUSH 3".toList, "PUSH 3".toList, "LT".toList, "PUSH 1".toList, "SUB".toList,
        "JZ else_0".toList, "PUSH 1".toList, "PRINT".toList, "JMP end_if_0".toList,
        "else_0:".toList, "PUSH 0".toList, "PRINT".toList, "end_if_0:".toList,
        "HALT:".toList] 6
      (runInit ["PUSH 3".toList, "PUSH 3".toList, "LT".toList, "PUSH 1".toList, "SUB".toList,
        "JZ else_0".toList, "PUSH 1".toList, "PRINT".toList, "JMP end_if_0".toList,
        "else_0:".toList, "PUSH 0".toList, "PRINT".toList, "end_if_0:".toList,
        "HALT:".toList] (VM.new [])) =
      some { stack := [], vars := [], pc := 6,
             labels := [("else_0".toList, 9), ("end_if_0".toList, 12), ("HALT".toList, 13)],
             callstack := [], out := [], env := [] } :=
  (if_comparison_control ⟨.IF, "IF".toList, [], 1⟩ ⟨.NUMBER, "3".toList, "3".toList, 1⟩
    ⟨.NUMBER, "3".toList, "3".toList, 1⟩ ⟨.GREATER_EQUAL, ">=".toList, [], 1⟩ "3".toList
    "3".toList
    [.Print ⟨.POUR, "POUR".toList, [], 1⟩ (.Literal ⟨.NUMBER, "1".toList, "1".toList, 1⟩ "1".toList)]
    [.Print ⟨.POUR, "POUR".toList, [], 1⟩ (.Literal ⟨.NUMBER, "0".toList, "0".toList, 1⟩ "0".toList)]
    CodeGenerator.new (VM.new []) (by decide) (by decide) (by decide) (by decide) (by decide)
    (fun f hf => absurd hf (List.not_mem_nil f)) (by decide)).2.1 (by decide)

/-! ## C39: code without backward jumps -/

theorem split_at_append {α : Type} (c1 c2 pre post : List α) (x : α)
    (h : c1 ++ c2 = pre ++ x :: post) :
    (∃ post1, c1 = pre ++ x :: post1 ∧ post = post1 ++ c2) ∨
    (∃ pre1, c2 = pre1 ++ x :: post ∧ pre = c1 ++ pre1) := by
  rcases List.append_eq_append_iff.mp h with ⟨a, ha, hb⟩ | ⟨c, hc, hd⟩
  · exact Or.inr ⟨a, hb, ha⟩
  · cases c with
    | nil =>
      simp only [List.nil_append] at hd
      simp only [List.append_nil] at hc
      exact Or.inr ⟨[], by simp [hd], by simp [hc]⟩
    | cons y c =>
      simp only [List.cons_append, List.cons.injEq] at hd
      exact Or.inl ⟨c, by rw [hc, hd.1], hd.2⟩

theorem ForwardCode.no_lines (U : List Str) : ForwardCode [] U := by
  intro pre line post h
  simp at h

theorem ForwardCode.more_labels {c U U1 : List Str} (h : ForwardCode c U) (hU : ∀ L ∈ U, L ∈ U1) :
    ForwardCode c U1 := by
  intro pre line post hc
  rcases h pre line post hc with h1 | h1 | ⟨L, hj, hm | hm⟩
  · exact Or.inl h1
  · exact Or.inr (Or.inl h1)
  · exact Or.inr (Or.inr ⟨L, hj, Or.inl hm⟩)
  · exact Or.inr (Or.inr ⟨L, hj, Or.inr (hU L hm)⟩)

theorem ForwardCode.concat {c1 c2 U : List Str} (h1 : ForwardCode c1 U)
    (h2 : ForwardCode c2 U) : ForwardCode (c1 ++ c2) U := by
  intro pre line post hc
  rcases split_at_append c1 c2 pre post line hc with ⟨post1, e1, e2⟩ | ⟨pre1, e1, _⟩
  · rcases h1 pre line post1 e1 with h | h | ⟨L, hj, hm | hm⟩
    · exact Or.inl h
    · exact Or.inr (Or.inl h)
    · exact Or.inr (Or.inr ⟨L, hj, Or.inl (by rw [e2]; exact List.mem_append_left _ hm)⟩)
    · exact Or.inr (Or.inr ⟨L, hj, Or.inr hm⟩)
  · exact h2 pre1 line post e1

theorem ForwardCode.single (line : Str) (U : List Str)
    (h : isLabelLine line = true ∨ PlainBuiltin line ∨ ∃ L, isJumpTo line L ∧ L ∈ U) :
    ForwardCode [line] U := by
  intro pre l post hc
  have hl : l = line ∧ post = [] := by
    cases pre with
    | nil =>
      simp only [List.nil_append, List.cons.injEq] at hc
      exact ⟨hc.1.symm, hc.2.symm⟩
    | cons a pre =>
      simp only [List.cons_append, List.cons.injEq] at hc
      have := congrArg List.length hc.2
      simp at this
      omega
  rw [hl.1]
  rcases h with h | h | ⟨L, hj, hm⟩
  · exact Or.inl h
  · exact Or.inr (Or.inl h)
  · exact Or.inr (Or.inr ⟨L, hj, Or.inr hm⟩)

/-- A jump in front of a stretch that holds its label line. -/
theorem ForwardCode.jump_first {c U : List Str} (line L : Str) (h : ForwardCode c U)
    (hj : isJumpTo line L) (hm : (L ++ [':']) ∈ c) : ForwardCode (line :: c) U := by
  intro pre l post hc
  cases pre with
  | nil =>
    simp only [List.nil_append, List.cons.injEq] at hc
    rw [← hc.1, ← hc.2]
    exact Or.inr (Or.inr ⟨L, hj, Or.inl hm⟩)
  | cons a pre =>
    simp only [List.cons_append, List.cons.injEq] at hc
    exact h pre l post hc.2

theorem ForwardCode.plain_lines {c : List Str} (U : List Str) (h : ∀ line ∈ c, PlainBuiltin line) :
    ForwardCode c U := by
  intro pre line post hc
  exact Or.inr (Or.inl (h line (by rw [hc]; simp)))

theorem PlainBuiltin.of_head (line : Str) (h : isPlainLine line = true)
    (hc : line.head? ≠ some 'C') : PlainBuiltin line :=
  ⟨h, fun h1 => absurd h1 hc⟩

theorem plainBuiltin_of_plainCode {g g1 : CodeGenerator} {c : List Str}
    (h : PlainCode [] g g1 c) : ∀ line ∈ c, PlainBuiltin line := by
  intro line hl
  refine ⟨(h.2.2 line hl).1, fun hc => ?_⟩
  obtain ⟨callee, n, hm, -⟩ := (h.2.2 line hl).2 hc
  exact absurd hm (List.not_mem_nil _)

mutual
/-- The code of an expression whose calls name built-ins. -/
theorem plainBuiltin_visitExpr : ∀ (e : Expr) (g : CodeGenerator), callsBuiltins e = true →
    ∃ c, (visitExpr e g).bytecode_ = g.bytecode_ ++ c ∧ ∀ line ∈ c, PlainBuiltin line
  | .Literal _ value, g, _ => by
    rw [visitExpr]
    refine ⟨["PUSH ".toList ++ value], rfl, fun line hl => ?_⟩
    rw [List.mem_singleton.mp hl]
    exact PlainBuiltin.of_head _ rfl (by simp)
  | .Variable name, g, _ => by
    rw [visitExpr]
    refine ⟨["LOAD ".toList ++ name.lexeme], rfl, fun line hl => ?_⟩
    rw [List.mem_singleton.mp hl]
    exact PlainBuiltin.of_head _ rfl (by simp)
  | .Binary left op right, g, h => by
    rw [callsBuiltins, Bool.and_eq_true] at h
    rw [visitExpr]
    obtain ⟨c1, e1, h1⟩ := plainBuiltin_visitExpr left g h.1
    obtain ⟨c2, e2, h2⟩ := plainBuiltin_visitExpr right (visitExpr left g) h.2
    obtain ⟨c3, h3⟩ := plainCode_emitBinaryOp [] op.lexeme (visitExpr right (visitExpr left g))
    refine ⟨c1 ++ c2 ++ c3, by rw [h3.1, e2, e1]; simp, fun line hl => ?_⟩
    rcases List.mem_append.mp hl with hl | hl
    · rcases List.mem_append.mp hl with hl | hl
      · exact h1 line hl
      · exact h2 line hl
    · exact plainBuiltin_of_plainCode h3 line hl
  | .Unary op right, g, h => by
    rw [callsBuiltins] at h
    rw [visitExpr]
    obtain ⟨c1, e1, h1⟩ := plainBuiltin_visitExpr right g h
    obtain ⟨c2, h2⟩ := plainCode_emitUnaryOp [] op.lexeme (visitExpr right g)
    refine ⟨c1 ++ c2, by rw [h2.1, e1]; simp, fun line hl => ?_⟩
    rcases List.mem_append.mp hl with hl | hl
    · exact h1 line hl
    · exact plainBuiltin_of_plainCode h2 line hl
  | .Call callee arguments, g, h => by
    rw [callsBuiltins, Bool.and_eq_true] at h
    rw [visitExpr]
    obtain ⟨c1, e1, h1⟩ := plainBuiltin_visitArguments arguments g h.2
    refine ⟨c1 ++ [callLine callee.lexeme arguments.length], ?_, fun line hl => ?_⟩
    · show (visitArguments arguments g).bytecode_ ++ _ = _
      rw [e1]
      simp [callLine]
    rcases List.mem_append.mp hl with hl | hl
    · exact h1 line hl
    · rw [List.mem_singleton.mp hl]
      exact ⟨rfl, fun _ => ⟨callee.lexeme, arguments.length, h.1, rfl⟩⟩
/-- The code of the arguments of a call. -/
theorem plainBuiltin_visitArguments : ∀ (es : List Expr) (g : CodeGenerator),
    callsBuiltinsArguments es = true →
    ∃ c, (visitArguments es g).bytecode_ = g.bytecode_ ++ c ∧ ∀ line ∈ c, PlainBuiltin line
  | [], g, _ => by
    rw [visitArguments]
    exact ⟨[], by simp, fun line hl => absurd hl (List.not_mem_nil _)⟩
  | e :: es, g, h => by
    rw [callsBuiltinsArguments, Bool.and_eq_true] at h
    rw [visitArguments]
    obtain ⟨c1, e1, h1⟩ := plainBuiltin_visitExpr e g h.1
    obtain ⟨c2, e2, h2⟩ := plainBuiltin_visitArguments es (visitExpr e g) h.2
    refine ⟨c1 ++ c2, by rw [e2, e1]; simp, fun line hl => ?_⟩
    rcases List.mem_append.mp hl with hl | hl
    · exact h1 line hl
    · exact h2 line hl
end

theorem isLabelLine_colon (L : Str) : isLabelLine (L ++ ":".toList) = true := by
  simp [isLabelLine]

theorem forwardCode_expr (e : Expr) (g : CodeGenerator) (h : callsBuiltins e = true)
    (U : List Str) :
    ∃ c, (visitExpr e g).bytecode_ = g.bytecode_ ++ c ∧ ForwardCode c U := by
  obtain ⟨c, e1, h1⟩ := plainBuiltin_visitExpr e g h
  exact ⟨c, e1, ForwardCode.plain_lines U h1⟩

theorem forwardCode_plain_line (line : Str) (U : List Str) (h : isPlainLine line = true)
    (hc : line.head? ≠ some 'C') : ForwardCode [line] U :=
  ForwardCode.single line U (Or.inr (Or.inl (PlainBuiltin.of_head line h hc)))

mutual
/-- The code of a statement without LOOP and without calls of user functions has no
backward jump. -/
theorem forwardCode_stmt : ∀ (s : Stmt) (g : CodeGenerator), loopFreeStmt s = true →
    ∃ c, (visitStmt s g).bytecode_ = g.bytecode_ ++ c ∧ ForwardCode c (breakLabelsStmt s g)
  | .Declaration _ name initializer, g, h => by
    rw [loopFreeStmt] at h
    rw [visitStmt, breakLabelsStmt]
    obtain ⟨c, e1, h1⟩ := forwardCode_expr initializer g h []
    exact ⟨c ++ ["STORE ".toList ++ name.lexeme], by simp [emit, e1],
      h1.concat (forwardCode_plain_line _ _ rfl (by simp))⟩
  | .Assignment name value, g, h => by
    rw [loopFreeStmt] at h
    rw [visitStmt, breakLabelsStmt]
    obtain ⟨c, e1, h1⟩ := forwardCode_expr value g h []
    exact ⟨c ++ ["STORE ".toList ++ name.lexeme], by simp [emit, e1],
      h1.concat (forwardCode_plain_line _ _ rfl (by simp))⟩
  | .Print _ expression, g, h => by
    rw [loopFreeStmt] at h
    rw [visitStmt, breakLabelsStmt]
    obtain ⟨c, e1, h1⟩ := forwardCode_expr expression g h []
    exact ⟨c ++ ["PRINT".toList], by simp [emit, e1],
      h1.concat (forwardCode_plain_line _ _ (by decide) (by decide))⟩
  | .Expression expression, g, h => by
    rw [loopFreeStmt] at h
    rw [visitStmt, breakLabelsStmt]
    exact forwardCode_expr expression g h []
  | .If _ condition thenBranch elseBranch, g, h => by
    rw [loopFreeStmt, Bool.and_eq_true, Bool.and_eq_true] at h
    rw [visitStmt, breakLabelsStmt]
    obtain ⟨c, e1, h1⟩ := forwardCode_expr condition g h.1.1
      (breakLabelsBlock thenBranch
        (emit (newLabel (newLabel (visitExpr condition g) "else".toList).2 "end_if".toList).2
          ("JZ ".toList ++ (newLabel (visitExpr condition g) "else".toList).1)) ++
       breakLabelsElse elseBranch
        (emit (emit (visitBlock thenBranch
          (emit (newLabel (newLabel (visitExpr condition g) "else".toList).2
            "end_if".toList).2
            ("JZ ".toList ++ (newLabel (visitExpr condition g) "else".toList).1)))
          ("JMP ".toList ++ (newLabel (newLabel (visitExpr condition g) "else".toList).2
            "end_if".toList).1))
          ((newLabel (visitExpr condition g) "else".toList).1 ++ ":".toList)))
    generalize hU : (breakLabelsBlock thenBranch _ ++ breakLabelsElse elseBranch _) = U at h1 ⊢
    obtain ⟨cT, eT, hT⟩ := forwardCode_block thenBranch
      (emit (newLabel (newLabel (visitExpr condition g) "else".toList).2 "end_if".toList).2
        ("JZ ".toList ++ (newLabel (visitExpr condition g) "else".toList).1)) h.1.2
    obtain ⟨cE, eE, hE⟩ := forwardCode_else elseBranch
      (emit (emit (visitBlock thenBranch
        (emit (newLabel (newLabel (visitExpr condition g) "else".toList).2
          "end_if".toList).2
          ("JZ ".toList ++ (newLabel (visitExpr condition g) "else".toList).1)))
        ("JMP ".toList ++ (newLabel (newLabel (visitExpr condition g) "else".toList).2
          "end_if".toList).1))
        ((newLabel (visitExpr condition g) "else".toList).1 ++ ":".toList)) h.2
    generalize hLe : (newLabel (visitExpr condition g) "else".toList).1 = Le at *
    generalize hLd : (newLabel (newLabel (visitExpr condition g) "else".toList).2
          "end_if".toList).1 = Ld at *
    have hT1 : ForwardCode cT U := hT.more_labels (fun L hL => by
      rw [← hU]; exact List.mem_append_left _ hL)
    have hE1 : ForwardCode cE U := hE.more_labels (fun L hL => by
      rw [← hU]; exact List.mem_append_right _ hL)
    have x1 : ForwardCode ([Le ++ ":".toList] ++ cE ++ [Ld ++ ":".toList]) U :=
      ((ForwardCode.single _ U (Or.inl (isLabelLine_colon Le))).concat hE1).concat
        (ForwardCode.single _ U (Or.inl (isLabelLine_colon Ld)))
    have x2 : ForwardCode (("JMP ".toList ++ Ld) ::
        ([Le ++ ":".toList] ++ cE ++ [Ld ++ ":".toList])) U :=
      ForwardCode.jump_first _ Ld x1 (Or.inl rfl) (by simp)
    have x3 : ForwardCode (cT ++ (("JMP ".toList ++ Ld) ::
        ([Le ++ ":".toList] ++ cE ++ [Ld ++ ":".toList]))) U := hT1.concat x2
    have x4 : ForwardCode (("JZ ".toList ++ Le) :: (cT ++ (("JMP ".toList ++ Ld) ::
        ([Le ++ ":".toList] ++ cE ++ [Ld ++ ":".toList])))) U :=
      ForwardCode.jump_first _ Le x3 (Or.inr rfl) (by simp)
    refine ⟨c ++ (("JZ ".toList ++ Le) :: (cT ++ (("JMP ".toList ++ Ld) ::
        ([Le ++ ":".toList] ++ cE ++ [Ld ++ ":".toList])))), ?_, h1.concat x4⟩
    simp only [emit] at eT eE ⊢
    rw [eE, eT, newLabel_bytecode, newLabel_bytecode, e1]
    simp
  | .Loop _ _ _, g, h => by simp [loopFreeStmt] at h
  | .Break _, g, _ => by
    rw [visitStmt, breakLabelsStmt]
    exact ⟨["JMP ".toList ++ (newLabel g "end_loop".toList).1], rfl,
      ForwardCode.single _ _ (Or.inr (Or.inr ⟨_, Or.inl rfl, List.mem_singleton.mpr rfl⟩))⟩
  | .Continue _, g, _ => by
    rw [visitStmt, breakLabelsStmt]
    exact ⟨["JMP ".toList ++ (newLabel g "loop".toList).1], rfl,
      ForwardCode.single _ _ (Or.inr (Or.inr ⟨_, Or.inl rfl, List.mem_singleton.mpr rfl⟩))⟩
  | .Return _ (some value), g, h => by
    rw [loopFreeStmt] at h
    rw [visitStmt, breakLabelsStmt]
    obtain ⟨c, e1, h1⟩ := forwardCode_expr value g h []
    exact ⟨c ++ ["RET".toList], by simp [emit, e1],
      h1.concat (forwardCode_plain_line _ _ (by decide) (by decide))⟩
  | .Return _ none, g, _ => by
    rw [visitStmt, breakLabelsStmt]
    exact ⟨["PUSH 0".toList] ++ ["RET".toList], by simp [emit],
      (forwardCode_plain_line _ _ (by decide) (by decide)).concat
        (forwardCode_plain_line _ _ (by decide) (by decide))⟩
  | .Function _ name _ body, g, h => by
    rw [loopFreeStmt] at h
    rw [visitStmt, breakLabelsStmt]
    obtain ⟨c, e1, h1⟩ := forwardCode_block body (emit g (name.lexeme ++ ":".toList)) h
    refine ⟨[name.lexeme ++ ":".toList] ++ c ++ ["PUSH 0".toList] ++ ["RET".toList], ?_,
      (((ForwardCode.single _ _ (Or.inl (isLabelLine_colon _))).concat h1).concat
        (forwardCode_plain_line _ _ (by decide) (by decide))).concat
        (forwardCode_plain_line _ _ (by decide) (by decide))⟩
    simp only [emit] at e1 ⊢
    rw [e1]
    simp
  | .Block statements, g, h => by
    rw [loopFreeStmt] at h
    rw [visitStmt, breakLabelsStmt]
    exact forwardCode_block statements g h
/-- The code of a block without LOOP and without calls of user functions. -/
theorem forwardCode_block : ∀ (ss : List Stmt) (g : CodeGenerator), loopFreeBlock ss = true →
    ∃ c, (visitBlock ss g).bytecode_ = g.bytecode_ ++ c ∧ ForwardCode c (breakLabelsBlock ss g)
  | [], g, _ => by
    rw [visitBlock, breakLabelsBlock]
    exact ⟨[], by simp, ForwardCode.no_lines _⟩
  | stmt :: rest, g, h => by
    rw [loopFreeBlock, Bool.and_eq_true] at h
    rw [visitBlock, breakLabelsBlock]
    obtain ⟨c1, e1, h1⟩ := forwardCode_stmt stmt g h.1
    obtain ⟨c2, e2, h2⟩ := forwardCode_block rest (visitStmt stmt g) h.2
    exact ⟨c1 ++ c2, by rw [e2, e1]; simp,
      (h1.more_labels (fun L hL => List.mem_append_left _ hL)).concat
        (h2.more_labels (fun L hL => List.mem_append_right _ hL))⟩
/-- The code of an else branch without LOOP and without calls of user functions. -/
theorem forwardCode_else : ∀ (b : Option (List Stmt)) (g : CodeGenerator),
    loopFreeElse b = true →
    ∃ c, (visitElse b g).bytecode_ = g.bytecode_ ++ c ∧ ForwardCode c (breakLabelsElse b g)
  | none, g, _ => by
    rw [visitElse, breakLabelsElse]
    exact ⟨[], by simp, ForwardCode.no_lines _⟩
  | some block, g, h => by
    rw [loopFreeElse] at h
    rw [visitElse, breakLabelsElse]
    exact forwardCode_block block g h
end

/-! ## C39: what one instruction does to `pc`, label table and call stack -/

theorem pop_error {vm vm1 : VM} {fault : Fault} (h : pop vm = .error (fault, vm1)) :
    vm1 = vm := by
  unfold pop at h
  split at h
  · simp only [Except.error.injEq, Prod.mk.injEq] at h
    exact h.2.symm
  · cases h

theorem pop_ok {vm vm1 : VM} {v : Int} (h : pop vm = .ok (v, vm1)) :
    vm1 = { vm with stack := vm.stack.dropLast } := by
  unfold pop at h
  split at h
  · cases h
  · simp only [Except.ok.injEq, Prod.mk.injEq] at h
    exact h.2.symm

theorem Advanced.still (vm : VM) : Advanced vm vm 0 := ⟨rfl, rfl, rfl⟩

theorem StepsOn.fault (vm vm1 : VM) (fault : Fault) (h : Advanced vm vm1 0) :
    StepsOn (.error (fault, vm1)) vm :=
  ⟨fun _ h1 => (by cases h1), fun _ _ h1 => (by cases h1; exact h)⟩

theorem StepsOn.proceeds (vm vm1 : VM) (h : Advanced vm vm1 1) : StepsOn (.ok vm1) vm :=
  ⟨fun _ h1 => (by cases h1; exact h), fun _ _ h1 => (by cases h1)⟩

theorem binop_stepsOn (f : Int → Int → Int) (vm : VM) : StepsOn (binop f vm) vm := by
  unfold binop
  split
  · rename_i e h
    obtain ⟨fault, vm1⟩ := e
    rw [pop_error h]
    exact StepsOn.fault _ _ _ (Advanced.still vm)
  · rename_i b vm1 h
    rw [pop_ok h]
    split
    · rename_i e h2
      obtain ⟨fault, vm2⟩ := e
      rw [pop_error h2]
      exact StepsOn.fault _ _ _ ⟨rfl, rfl, rfl⟩
    · rename_i a vm2 h2
      rw [pop_ok h2]
      exact StepsOn.proceeds _ _ ⟨rfl, rfl, rfl⟩

theorem execDIV_stepsOn (vm : VM) : StepsOn (execDIV vm) vm := by
  unfold execDIV
  split
  · rename_i e h
    obtain ⟨fault, vm1⟩ := e
    rw [pop_error h]
    exact StepsOn.fault _ _ _ (Advanced.still vm)
  · rename_i b vm1 h
    rw [pop_ok h]
    split
    · rename_i e h2
      obtain ⟨fault, vm2⟩ := e
      rw [pop_error h2]
      exact StepsOn.fault _ _ _ ⟨rfl, rfl, rfl⟩
    · rename_i a vm2 h2
      rw [pop_ok h2]
      split
      · exact StepsOn.proceeds _ _ ⟨rfl, rfl, rfl⟩
      · split
        · exact StepsOn.fault _ _ _ ⟨rfl, rfl, rfl⟩
        · exact StepsOn.proceeds _ _ ⟨rfl, rfl, rfl⟩

theorem execSTORE_stepsOn (parts : List Str) (vm : VM) : StepsOn (execSTORE parts vm) vm := by
  unfold execSTORE
  split
  · split
    · rename_i e h
      obtain ⟨fault, vm1⟩ := e
      rw [pop_error h]
      exact StepsOn.fault _ _ _ (Advanced.still vm)
    · rename_i v vm1 h
      rw [pop_ok h]
      exact StepsOn.proceeds _ _ ⟨rfl, rfl, rfl⟩
  · exact StepsOn.proceeds _ _ ⟨rfl, rfl, rfl⟩

theorem execLOAD_stepsOn (parts : List Str) (vm : VM) : StepsOn (execLOAD parts vm) vm := by
  unfold execLOAD
  split
  · split <;> exact StepsOn.proceeds _ _ ⟨rfl, rfl, rfl⟩
  · exact StepsOn.proceeds _ _ ⟨rfl, rfl, rfl⟩

theorem execLOADARG_stepsOn (parts : List Str) (vm : VM) :
    StepsOn (execLOADARG parts vm) vm := by
  unfold execLOADARG
  repeat' split
  all_goals try simp only []
  all_goals repeat' split
  all_goals first
    | exact StepsOn.proceeds _ _ ⟨rfl, rfl, rfl⟩
    | exact StepsOn.fault _ _ _ (Advanced.still vm)

theorem execPRINT_stepsOn (vm : VM) : StepsOn (execPRINT vm) vm := by
  unfold execPRINT
  split <;> exact StepsOn.proceeds _ _ ⟨rfl, rfl, rfl⟩

theorem popArgs_advanced : ∀ (n : Nat) (acc : List Int) (vm : VM),
    (∀ args vm1, popArgs n acc vm = .ok (args, vm1) →
      Advanced vm vm1 0) ∧
    (∀ fault vm1, popArgs n acc vm = .error (fault, vm1) → Advanced vm vm1 0)
  | 0, acc, vm => by
    rw [popArgs]
    exact ⟨fun args vm1 h => (by cases h; exact Advanced.still vm), fun _ _ h => (by cases h)⟩
  | n + 1, acc, vm => by
    rw [popArgs]
    split
    · rename_i e h
      obtain ⟨fault, vm1⟩ := e
      rw [pop_error h]
      exact ⟨fun _ _ h1 => (by cases h1), fun _ _ h1 => (by cases h1; exact Advanced.still vm)⟩
    · rename_i v vm1 h
      rw [pop_ok h]
      have ih := popArgs_advanced n (v :: acc) { vm with stack := vm.stack.dropLast }
      exact ⟨fun args vm2 h1 => ih.1 args vm2 h1, fun fault vm2 h1 => ih.2 fault vm2 h1⟩

theorem execCALLwith_builtin_stepsOn (label : Str) (argc : Int) (vm : VM)
    (h : isBuiltin label = true) : StepsOn (execCALLwith label argc vm) vm := by
  unfold execCALLwith
  simp only [h, if_true]
  split
  · rename_i e h1
    obtain ⟨fault, vm1⟩ := e
    exact StepsOn.fault _ _ _ ((popArgs_advanced _ _ _).2 fault vm1 h1)
  · rename_i args vm1 h1
    have ha := (popArgs_advanced _ _ _).1 args vm1 h1
    have hf := runtimeCall_frame label args vm1
    refine StepsOn.proceeds _ _ ?_
    rw [hf]
    exact ⟨by show vm1.pc + 1 = _; rw [ha.1], ha.2.1, ha.2.2⟩

theorem StepsOn.local {r : Result} {vm : VM} (program : List Str) (h : StepsOn r vm)
    (hcs : vm.callstack = []) : LocalStep program r vm :=
  ⟨fun vm1 h1 => ⟨(h.1 vm1 h1).2.1, by rw [(h.1 vm1 h1).2.2, hcs], Or.inl (h.1 vm1 h1).1⟩,
   fun fault vm1 h1 => ⟨(h.2 fault vm1 h1).2.1, by rw [(h.2 fault vm1 h1).2.2, hcs],
     (h.2 fault vm1 h1).1⟩⟩

theorem execPUSH_local (instruction : Str) (parts program : List Str) (vm : VM)
    (hcs : vm.callstack = []) : LocalStep program (execPUSH instruction parts program vm) vm := by
  unfold execPUSH
  split
  · split
    · exact StepsOn.local program (StepsOn.proceeds _ _ ⟨rfl, rfl, rfl⟩) hcs
    · exact StepsOn.local program (StepsOn.fault _ _ _ (Advanced.still vm)) hcs
    · split
      · rename_i hprint
        refine ⟨fun vm1 h1 => ?_, fun _ _ h1 => (by cases h1)⟩
        cases h1
        exact ⟨rfl, hcs, Or.inr (Or.inr ⟨hprint, rfl⟩)⟩
      · exact StepsOn.local program (StepsOn.proceeds _ _ ⟨rfl, rfl, rfl⟩) hcs
  · exact StepsOn.local program (StepsOn.proceeds _ _ ⟨rfl, rfl, rfl⟩) hcs

theorem execRET_local (program : List Str) (vm : VM) (hcs : vm.callstack = []) :
    LocalStep program (execRET program vm) vm := by
  unfold execRET
  rw [hcs]
  refine ⟨fun vm1 h1 => ?_, fun _ _ h1 => (by cases h1)⟩
  simp only [List.getLast?_nil] at h1
  cases h1
  exact ⟨rfl, rfl, Or.inr (Or.inl rfl)⟩

theorem execCALL_builtin_stepsOn (callee count : Str) (vm : VM)
    (h : isBuiltin callee = true) :
    StepsOn (execCALL ["CALL".toList, callee, count] vm) vm := by
  unfold execCALL
  simp only []
  split
  · exact execCALLwith_builtin_stepsOn _ _ _ h
  · exact StepsOn.fault _ _ _ (Advanced.still vm)
  · exact StepsOn.fault _ _ _ (Advanced.still vm)

/-- The first word of a line that starts with a character other than white space and
the double quote starts with that character. -/
theorem splitLoop_first : ∀ (s : Str) (cur : Str) (q : Bool), cur ≠ [] →
    ∃ w ws, splitLoop s [] cur q = (cur ++ w) :: ws
  | [], cur, q, h => by
    rw [splitLoop]
    have : cur.isEmpty = false := by
      cases cur with
      | nil => exact absurd rfl h
      | cons _ _ => rfl
    rw [this]
    exact ⟨[], [], by simp⟩
  | c :: s, cur, q, h => by
    rw [splitLoop]
    have hne : cur.isEmpty = false := by
      cases cur with
      | nil => exact absurd rfl h
      | cons _ _ => rfl
    split
    · obtain ⟨w, ws, hw⟩ := splitLoop_first s (cur ++ [c]) (!q) (by simp)
      exact ⟨c :: w, ws, by rw [hw]; simp⟩
    · split
      · simp only [hne, Bool.not_false, if_true]
        obtain ⟨l, hl⟩ := splitLoop_parts s ([] ++ [cur]) [] q
        exact ⟨[], l, by rw [hl]; simp⟩
      · obtain ⟨w, ws, hw⟩ := splitLoop_first s (cur ++ [c]) q (by simp)
        exact ⟨c :: w, ws, by rw [hw]; simp⟩

theorem split_first (c : Char) (s : Str) (hs : isspace c = false) (hq : c ≠ '"') :
    ∃ w ws, split (c :: s) = (c :: w) :: ws := by
  unfold split
  rw [splitLoop]
  simp only [hq, if_false, hs, Bool.false_and, Bool.false_eq_true]
  obtain ⟨w, ws, h⟩ := splitLoop_first s ([] ++ [c]) false (by simp)
  exact ⟨w, ws, by rw [h]; simp⟩

theorem plain_first_char {line : Str} (h : isPlainLine line = true) :
    ∃ c s, line = c :: s ∧ isspace c = false ∧ c ≠ '"' ∧ c ≠ 'J' := by
  cases line with
  | nil => simp [isPlainLine] at h
  | cons c s =>
    simp only [isPlainLine, Bool.and_eq_true, decide_eq_true_eq, bne_iff_ne, ne_eq] at h
    refine ⟨c, s, rfl, ?_, ?_, h.2⟩
    · have h1 := h.1.1
      have h2 := h.1.2
      simp only [isspace, Bool.or_eq_false_iff, decide_eq_false_iff_not]
      have hc : ∀ d : Char, d.toNat < 65 → c ≠ d := fun d hd he => by
        rw [he] at h1
        have : 'A'.toNat = 65 := rfl
        omega
      exact ⟨⟨⟨⟨⟨hc _ (by decide), hc _ (by decide)⟩, hc _ (by decide)⟩, hc _ (by decide)⟩,
        hc _ (by decide)⟩, hc _ (by decide)⟩
    · intro he
      rw [he] at h
      exact absurd h.1.1 (by decide)

theorem callLine_eq_instr2 (callee : Str) (n : Int) :
    callLine callee n = instr2 "CALL".toList callee (to_string n) := by
  simp [callLine, instr2]

/-- One step on a line that starts with an upper-case letter other than `J` and is
not the CALL of a user function, with an empty call stack. -/
theorem execute_plain (line : Str) (program : List Str) (vm : VM) (hp : PlainBuiltin line)
    (hl : isLabelLine line = false) (hcs : vm.callstack = []) :
    LocalStep program (execute line program vm) vm := by
  obtain ⟨c, s, rfl, hs, hq, hJ⟩ := plain_first_char hp.1
  obtain ⟨w, ws, hsplit⟩ := split_first c s hs hq
  have hcall : c :: w = "CALL".toList →
      LocalStep program (execCALL ((c :: w) :: ws) vm) vm := by
    intro h
    have hc : c = 'C' := by
      simp only [String.toList, List.cons.injEq] at h
      exact h.1
    obtain ⟨callee, n, hb, hline⟩ := hp.2 (by rw [hc]; rfl)
    have hs2 := split_instr2 "CALL".toList callee (to_string n) (by decide)
      (isWord_of_isBuiltin callee hb) (isOperand_to_string n).1
    rw [← callLine_eq_instr2, ← hline, hsplit] at hs2
    rw [hs2]
    exact StepsOn.local program (execCALL_builtin_stepsOn callee _ vm hb) hcs
  have hj : ∀ t : Str, t.head? = some 'J' → c :: w ≠ t := by
    intro t ht h
    rw [← h] at ht
    simp only [List.head?_cons, Option.some.injEq] at ht
    exact hJ ht
  unfold execute
  rw [show (c :: s).isEmpty = false from rfl, hl, hsplit, if_neg Bool.false_ne_true,
    if_neg Bool.false_ne_true]
  show LocalStep program (if c :: w = "PUSH".toList then _ else _) vm
  by_cases h : c :: w = "PUSH".toList
  · rw [if_pos h]
    exact execPUSH_local _ _ _ _ hcs
  rw [if_neg h]
  clear h
  by_cases h : c :: w = "ADD".toList
  · rw [if_pos h]
    exact StepsOn.local program (binop_stepsOn _ _) hcs
  rw [if_neg h]
  clear h
  by_cases h : c :: w = "SUB".toList
  · rw [if_pos h]
    exact StepsOn.local program (binop_stepsOn _ _) hcs
  rw [if_neg h]
  clear h
  by_cases h : c :: w = "MUL".toList
  · rw [if_pos h]
    exact StepsOn.local program (binop_stepsOn _ _) hcs
  rw [if_neg h]
  clear h
  by_cases h : c :: w = "DIV".toList
  · rw [if_pos h]
    exact StepsOn.local program (execDIV_stepsOn _) hcs
  rw [if_neg h]
  clear h
  by_cases h : c :: w = "STORE".toList
  · rw [if_pos h]
    exact StepsOn.local program (execSTORE_stepsOn _ _) hcs
  rw [if_neg h]
  clear h
  by_cases h : c :: w = "LOAD".toList
  · rw [if_pos h]
    exact StepsOn.local program (execLOAD_stepsOn _ _) hcs
  rw [if_neg h]
  clear h
  by_cases h : c :: w = "EQ".toList
  · rw [if_pos h]
    exact StepsOn.local program (binop_stepsOn _ _) hcs
  rw [if_neg h]
  clear h
  by_cases h : c :: w = "GT".toList
  · rw [if_pos h]
    exact StepsOn.local program (binop_stepsOn _ _) hcs
  rw [if_neg h]
  clear h
  by_cases h : c :: w = "LT".toList
  · rw [if_pos h]
    exact StepsOn.local program (binop_stepsOn _ _) hcs
  rw [if_neg h]
  clear h
  by_cases h : c :: w = "NE".toList
  · rw [if_pos h]
    exact StepsOn.local program (binop_stepsOn _ _) hcs
  rw [if_neg h]
  clear h
  by_cases h : c :: w = "JMP".toList
  · rw [if_pos h]
    exact absurd h (hj _ rfl)
  rw [if_neg h]
  clear h
  by_cases h : c :: w = "JZ".toList
  · rw [if_pos h]
    exact absurd h (hj _ rfl)
  rw [if_neg h]
  clear h
  by_cases h : c :: w = "JNZ".toList
  · rw [if_pos h]
    exact absurd h (hj _ rfl)
  rw [if_neg h]
  clear h
  by_cases h : c :: w = "CALL".toList
  · rw [if_pos h]
    exact hcall h
  rw [if_neg h]
  clear h
  by_cases h : c :: w = "LOADARG".toList
  · rw [if_pos h]
    exact StepsOn.local program (execLOADARG_stepsOn _ _) hcs
  rw [if_neg h]
  clear h
  by_cases h : c :: w = "RET".toList
  · rw [if_pos h]
    exact execRET_local _ _ hcs
  rw [if_neg h]
  clear h
  by_cases h : c :: w = "PRINT".toList
  · rw [if_pos h]
    exact StepsOn.local program (execPRINT_stepsOn _) hcs
  rw [if_neg h]
  clear h
  exact StepsOn.local program (StepsOn.proceeds _ _ ⟨rfl, rfl, rfl⟩) hcs

/-- One step on a label line. -/
theorem execute_label_local (line : Str) (program : List Str) (vm : VM)
    (hl : isLabelLine line = true) (hcs : vm.callstack = []) :
    LocalStep program (execute line program vm) vm := by
  rw [execute_labelLine line program vm hl]
  exact StepsOn.local program (StepsOn.proceeds _ _ ⟨rfl, rfl, rfl⟩) hcs

theorem jump_instr1 (line L : Str) (h : isJumpTo line L) :
    line = instr1 "JMP".toList L ∨ line = instr1 "JZ".toList L := by
  rcases h with h | h
  · exact Or.inl h
  · exact Or.inr h

/-- One step on a JMP or JZ: the next line, the line of the label, or a fault at the
instruction. -/
theorem execute_jump (line L : Str) (program : List Str) (vm : VM) (hj : isJumpTo line L)
    (hL : isOperand L) :
    (∀ vm1, execute line program vm = .ok vm1 →
      vm1.labels = vm.labels ∧ vm1.callstack = vm.callstack ∧
      (vm1.pc = vm.pc + 1 ∨ mapFind vm.labels L = some vm1.pc)) ∧
    (∀ fault vm1, execute line program vm = .error (fault, vm1) →
      vm1.labels = vm.labels ∧ vm1.callstack = vm.callstack ∧ vm1.pc = vm.pc) := by
  have hjump : ∀ vm0 : VM, (jumpTo L vm0).labels = vm0.labels ∧
      (jumpTo L vm0).callstack = vm0.callstack ∧
      ((jumpTo L vm0).pc = vm0.pc + 1 ∨ mapFind vm0.labels L = some (jumpTo L vm0).pc) := by
    intro vm0
    unfold jumpTo
    cases hm : mapFind vm0.labels L with
    | none => exact ⟨rfl, rfl, Or.inl rfl⟩
    | some t => exact ⟨rfl, rfl, Or.inr rfl⟩
  rcases jump_instr1 line L hj with rfl | rfl
  · unfold execute
    rw [isEmpty_instr1, isLabelLine_instr1 _ _ hL, split_instr1 _ _ (by decide) hL.1]
    simp only [Bool.false_eq_true, if_false,
      show ("JMP".toList = "PUSH".toList) = False from by decide,
      show ("JMP".toList = "ADD".toList) = False from by decide,
      show ("JMP".toList = "SUB".toList) = False from by decide,
      show ("JMP".toList = "MUL".toList) = False from by decide,
      show ("JMP".toList = "DIV".toList) = False from by decide,
      show ("JMP".toList = "STORE".toList) = False from by decide,
      show ("JMP".toList = "LOAD".toList) = False from by decide,
      show ("JMP".toList = "EQ".toList) = False from by decide,
      show ("JMP".toList = "GT".toList) = False from by decide,
      show ("JMP".toList = "LT".toList) = False from by decide,
      show ("JMP".toList = "NE".toList) = False from by decide, if_true, execJMP]
    refine ⟨fun vm1 h => ?_, fun _ _ h => (by cases h)⟩
    cases h
    exact hjump vm
  · unfold execute
    rw [isEmpty_instr1, isLabelLine_instr1 _ _ hL, split_instr1 _ _ (by decide) hL.1]
    simp only [Bool.false_eq_true, if_false,
      show ("JZ".toList = "PUSH".toList) = False from by decide,
      show ("JZ".toList = "ADD".toList) = False from by decide,
      show ("JZ".toList = "SUB".toList) = False from by decide,
      show ("JZ".toList = "MUL".toList) = False from by decide,
      show ("JZ".toList = "DIV".toList) = False from by decide,
      show ("JZ".toList = "STORE".toList) = False from by decide,
      show ("JZ".toList = "LOAD".toList) = False from by decide,
      show ("JZ".toList = "EQ".toList) = False from by decide,
      show ("JZ".toList = "GT".toList) = False from by decide,
      show ("JZ".toList = "LT".toList) = False from by decide,
      show ("JZ".toList = "NE".toList) = False from by decide,
      show ("JZ".toList = "JMP".toList) = False from by decide, if_true, execJZ]
    split
    · rename_i e h
      obtain ⟨fault, vm0⟩ := e
      rw [pop_error h]
      exact ⟨fun _ h1 => (by cases h1), fun _ _ h1 => (by cases h1; exact ⟨rfl, rfl, rfl⟩)⟩
    · rename_i v vm0 h
      rw [pop_ok h]
      split
      · refine ⟨fun vm1 h1 => ?_, fun _ _ h1 => (by cases h1)⟩
        cases h1
        exact hjump _
      · refine ⟨fun vm1 h1 => ?_, fun _ _ h1 => (by cases h1)⟩
        cases h1
        exact ⟨rfl, rfl, Or.inl rfl⟩

/-! ## C39: where a forward jump lands -/

theorem last_occurrence (x : Str) : ∀ (l : List Str), x ∈ l →
    ∃ A B, l = A ++ x :: B ∧ x ∉ B
  | [], h => absurd h (List.not_mem_nil _)
  | a :: r, h => by
    by_cases hr : x ∈ r
    · obtain ⟨A, B, e, hB⟩ := last_occurrence x r hr
      exact ⟨a :: A, B, by rw [e]; rfl, hB⟩
    · rcases List.mem_cons.mp h with rfl | h1
      · exact ⟨[], r, rfl, hr⟩
      · exact absurd h1 hr

theorem takeWhile_length_le (p : Str → Bool) : ∀ (l : List Str) (k : Nat) (x : Str),
    l[k]? = some x → p x = false → (l.takeWhile p).length ≤ k
  | [], k, x, h, _ => by simp at h
  | a :: r, 0, x, h, hp => by
    simp only [List.getElem?_cons_zero, Option.some.injEq] at h
    rw [h, List.takeWhile_cons, hp]
    simp
  | a :: r, k + 1, x, h, hp => by
    simp only [List.getElem?_cons_succ] at h
    have ih := takeWhile_length_le p r k x h hp
    rw [List.takeWhile_cons]
    split
    · simp only [List.length_cons]
      omega
    · simp

theorem nextNonLabel_le (program : List Str) (start m : Nat) (line : Str) (hs : start ≤ m)
    (hm : program[m]? = some line) (hl : isLabelLine line = false) :
    nextNonLabel program start ≤ m := by
  unfold nextNonLabel
  have h1 : (program.drop start)[m - start]? = some line := by
    rw [List.getElem?_drop]
    rw [show start + (m - start) = m from by omega]
    exact hm
  have := takeWhile_length_le isLabelLine (program.drop start) (m - start) line h1 hl
  omega

theorem nextNonLabel_ge (program : List Str) (start : Nat) :
    start ≤ nextNonLabel program start := by
  unfold nextNonLabel
  omega

theorem isOperand_generated (L : Str) (h : isGeneratedLabel L) : isOperand L := by
  obtain ⟨stem, hs, k, rfl⟩ := h
  have hk := isOperand_to_string k
  have hstem : isWord (stem ++ "_".toList) := by
    simp only [labelStems, List.mem_cons, List.mem_singleton, List.not_mem_nil, or_false] at hs
    rcases hs with rfl | rfl | rfl | rfl <;> decide
  refine ⟨isWord_append hstem hk.1, ?_⟩
  unfold labelText
  rw [List.getLast?_append_of_ne_nil _ hk.1.1]
  exact hk.2

/-- The label table of a run maps a label to its line when no later line defines the
label again. -/
theorem labels_at_index (A B : List Str) (L : Str) (vm : VM) (hB : (L ++ [':']) ∉ B)
    (t : Nat)
    (h : mapFind (runInit (A ++ (L ++ [':']) :: B) vm).labels L = some t) : t = A.length := by
  rw [labels_at A B L vm hB] at h
  exact (Option.some.inj h).symm

theorem labels_absent (program : List Str) (L : Str) (vm : VM)
    (h : (L ++ [':']) ∉ program) : mapFind (runInit program vm).labels L = none := by
  show mapFind (preprocessLoop program 0 []) L = _
  rw [mapFind_preprocessLoop, lastLabelFrom_absent program 0 L h]
  rfl

theorem split_at_index (F : List Str) (i : Nat) (h : i < F.length) :
    ∃ pre line post, F = pre ++ line :: post ∧ pre.length = i := by
  refine ⟨F.take i, F[i], F.drop (i + 1), ?_, ?_⟩
  · rw [List.getElem_cons_drop, List.take_append_drop]
  · rw [List.length_take]
    omega

/-- One step of a run inside a stretch of code without backward jumps that ends with
RET, from a state with an empty call stack: a fault at the instruction, or a state
with an empty call stack that is further on in the stretch or, after a RET, at the
end of the program. -/
theorem forward_step (P F tail U : List Str) (vm0 vm : VM) (hP : P = F ++ tail)
    (hF : ForwardCode F U) (hlast : ∃ F0, F = F0 ++ ["RET".toList])
    (hgen : ∀ line ∈ F, ∀ L, isJumpTo line L → isOperand L)
    (hdead : ∀ L ∈ U, (L ++ [':']) ∉ P)
    (htail : ∀ line ∈ F, ∀ L, isJumpTo line L → (L ++ [':']) ∈ F → (L ++ [':']) ∉ tail)
    (hcs : vm.callstack = []) (hlab : vm.labels = (runInit P vm0).labels)
    (hpc : vm.pc < F.length) :
    ∃ line, P[vm.pc]? = some line ∧
      (∀ vm1, execute line P vm = .ok vm1 →
        vm1.callstack = [] ∧ vm1.labels = (runInit P vm0).labels ∧
        (vm.pc < vm1.pc ∧ vm1.pc < F.length ∨ vm1.pc = P.length)) ∧
      (∀ fault vm1, execute line P vm = .error (fault, vm1) →
        vm1.callstack = [] ∧ vm1.labels = (runInit P vm0).labels ∧ vm1.pc = vm.pc) := by
  obtain ⟨pre, line, post, hsplit, hlen⟩ := split_at_index F vm.pc hpc
  have hfetch : P[vm.pc]? = some line := by
    rw [hP, hsplit, List.append_assoc]
    exact getElem?_pre_cons _ _ _ _ hlen.symm
  have hFlen : F.length = vm.pc + 1 + post.length := by
    rw [hsplit, List.length_append, List.length_cons, hlen]
    omega
  obtain ⟨F0, hF0⟩ := hlast
  refine ⟨line, hfetch, ?_⟩
  -- the last line of the stretch
  have hret : P[F.length - 1]? = some "RET".toList := by
    rw [hP, hF0, List.append_assoc]
    exact getElem?_pre_cons _ _ _ _ (by simp)
  by_cases hpost : post = []
  · -- the RET that ends the stretch
    have hline : line = "RET".toList := by
      rw [hpost] at hFlen
      have := hret
      rw [hFlen] at this
      simp only [List.length_nil, Nat.add_zero, Nat.add_sub_cancel] at this
      rw [hfetch] at this
      exact Option.some.inj this
    rw [hline, execute_RET_top P vm hcs]
    refine ⟨fun vm1 h => ?_, fun _ _ h => (by cases h)⟩
    cases h
    exact ⟨hcs, hlab, Or.inr rfl⟩
  have hpl : 0 < post.length := List.length_pos.mpr hpost
  -- a step of the kind that labels and plain lines make
  have hlocal : LocalStep P (execute line P vm) vm →
      (∀ vm1, execute line P vm = .ok vm1 →
        vm1.callstack = [] ∧ vm1.labels = (runInit P vm0).labels ∧
        (vm.pc < vm1.pc ∧ vm1.pc < F.length ∨ vm1.pc = P.length)) ∧
      (∀ fault vm1, execute line P vm = .error (fault, vm1) →
        vm1.callstack = [] ∧ vm1.labels = (runInit P vm0).labels ∧ vm1.pc = vm.pc) := by
    intro hl
    refine ⟨fun vm1 h => ?_, fun fault vm1 h => ?_⟩
    · obtain ⟨h1, h2, h3⟩ := hl.1 vm1 h
      refine ⟨h2, by rw [h1, hlab], ?_⟩
      rcases h3 with h3 | h3 | ⟨hprint, h3⟩
      · exact Or.inl ⟨by omega, by omega⟩
      · exact Or.inr h3
      · have hle : nextNonLabel P (vm.pc + 1) ≤ F.length - 1 :=
          nextNonLabel_le P (vm.pc + 1) (F.length - 1) "RET".toList (by omega) hret (by decide)
        have hne : nextNonLabel P (vm.pc + 1) ≠ F.length - 1 := by
          intro he
          rw [he, isPrintAt_eq, hret] at hprint
          exact absurd hprint (by decide)
        have hge := nextNonLabel_ge P (vm.pc + 1)
        exact Or.inl ⟨by omega, by omega⟩
    · obtain ⟨h1, h2, h3⟩ := hl.2 fault vm1 h
      exact ⟨h2, by rw [h1, hlab], h3⟩
  have hmem : line ∈ F := by rw [hsplit]; simp
  rcases hF pre line post hsplit with hl | hp | ⟨L, hj, htarget⟩
  · exact hlocal (execute_label_local line P vm hl hcs)
  · by_cases hl : isLabelLine line = true
    · exact hlocal (execute_label_local line P vm hl hcs)
    · exact hlocal (execute_plain line P vm hp (by simpa using hl) hcs)
  · have hL := hgen line hmem L hj
    obtain ⟨hok, herr⟩ := execute_jump line L P vm hj hL
    refine ⟨fun vm1 h => ?_, fun fault vm1 h => ?_⟩
    · obtain ⟨h1, h2, h3⟩ := hok vm1 h
      refine ⟨by rw [h2, hcs], by rw [h1, hlab], ?_⟩
      rcases h3 with h3 | h3
      · exact Or.inl ⟨by omega, by omega⟩
      · rw [hlab] at h3
        rcases htarget with hin | hin
        · obtain ⟨A, B, hA, hB⟩ := last_occurrence _ post hin
          have hnt : (L ++ [':']) ∉ tail :=
            htail line hmem L hj (by rw [hsplit, hA]; simp)
          have hPs : P = (pre ++ line :: A) ++ (L ++ [':']) :: (B ++ tail) := by
            rw [hP, hsplit, hA]
            simp
          have hB2 : (L ++ [':']) ∉ B ++ tail := by
            intro hm
            rcases List.mem_append.mp hm with hm | hm
            · exact hB hm
            · exact hnt hm
          have ht : vm1.pc = (pre ++ line :: A).length := by
            have h4 := h3
            rw [hPs] at h4
            exact labels_at_index _ _ L vm0 hB2 _ h4
          have hpl2 : post.length = A.length + 1 + B.length := by
            rw [hA, List.length_append, List.length_cons]
            omega
          rw [List.length_append, List.length_cons, hlen] at ht
          exact Or.inl ⟨by omega, by omega⟩
        · rw [labels_absent P L vm0 (hdead L hin)] at h3
          cases h3
    · obtain ⟨h1, h2, h3⟩ := herr fault vm1 h
      exact ⟨by rw [h2, hcs], by rw [h1, hlab], h3⟩

/-! ## C39: a run that only moves forward ends -/

/-- The states of a run whose every step, from an empty call stack and a program
counter below `n`, is a fault or leads further on below `n` or to the end of the
program: each has an empty call stack and a program counter below `n` or at the end
of the program. -/
theorem forward_states (P : List Str) (n : Nat) (T : List (Str × Nat))
    (hstep : ∀ vm : VM, vm.callstack = [] → vm.labels = T → vm.pc < n →
      ∃ line, P[vm.pc]? = some line ∧
        (∀ vm1, execute line P vm = .ok vm1 →
          vm1.callstack = [] ∧ vm1.labels = T ∧
          (vm.pc < vm1.pc ∧ vm1.pc < n ∨ vm1.pc = P.length)) ∧
        (∀ fault vm1, execute line P vm = .error (fault, vm1) →
          vm1.callstack = [] ∧ vm1.labels = T ∧ vm1.pc = vm.pc)) :
    ∀ (k : Nat) (vm vm1 : VM), vm.callstack = [] → vm.labels = T → vm.pc < n →
      stateAfter P k vm = some vm1 →
      vm1.callstack = [] ∧ (vm1.pc < n ∨ vm1.pc = P.length)
  | 0, vm, vm1, hcs, _, hpc, h => by
    rw [stateAfter] at h
    cases h
    exact ⟨hcs, Or.inl hpc⟩
  | k + 1, vm, vm1, hcs, hlab, hpc, h => by
    obtain ⟨line, hfetch, hok, -⟩ := hstep vm hcs hlab hpc
    rw [stateAfter, hfetch] at h
    cases hx : execute line P vm with
    | error e =>
      simp [hx] at h
    | ok vm2 =>
      simp only [hx] at h
      obtain ⟨h1, h2, h3⟩ := hok vm2 hx
      rcases h3 with h3 | h3
      · exact forward_states P n T hstep k vm2 vm1 h1 h2 h3.2 h
      · cases k with
        | zero =>
          rw [stateAfter] at h
          cases h
          exact ⟨h1, Or.inr h3⟩
        | succ k =>
          rw [stateAfter, h3, List.getElem?_eq_none (Nat.le_refl _)] at h
          cases h

/-- Such a run ends within `n` instructions: at the end of the program, or by a fault
at an instruction below `n`; the call stack is empty then. -/
theorem forward_ends (P : List Str) (n : Nat) (T : List (Str × Nat))
    (hstep : ∀ vm : VM, vm.callstack = [] → vm.labels = T → vm.pc < n →
      ∃ line, P[vm.pc]? = some line ∧
        (∀ vm1, execute line P vm = .ok vm1 →
          vm1.callstack = [] ∧ vm1.labels = T ∧
          (vm.pc < vm1.pc ∧ vm1.pc < n ∨ vm1.pc = P.length)) ∧
        (∀ fault vm1, execute line P vm = .error (fault, vm1) →
          vm1.callstack = [] ∧ vm1.labels = T ∧ vm1.pc = vm.pc)) :
    ∀ (m : Nat) (vm : VM), vm.callstack = [] → vm.labels = T → vm.pc < n → n - vm.pc ≤ m →
      ∀ k : Nat,
        (∃ vm1, runLoop P (m + k) vm = .finished vm1 ∧ vm1.pc = P.length ∧
          vm1.callstack = []) ∨
        (∃ fault vm1, runLoop P (m + k) vm = .aborted fault vm1 ∧ vm1.pc < n ∧
          vm1.callstack = [])
  | 0, vm, _, _, hpc, hm, _ => by omega
  | m + 1, vm, hcs, hlab, hpc, hm, k => by
    obtain ⟨line, hfetch, hok, herr⟩ := hstep vm hcs hlab hpc
    have e : m + 1 + k = (m + k) + 1 := by omega
    rw [e]
    cases hx : execute line P vm with
    | error e1 =>
      obtain ⟨fault, vm2⟩ := e1
      obtain ⟨h1, _, h3⟩ := herr fault vm2 hx
      exact Or.inr ⟨fault, vm2, runLoop_fault P _ vm _ _ _ hfetch hx, by omega, h1⟩
    | ok vm2 =>
      obtain ⟨h1, h2, h3⟩ := hok vm2 hx
      rw [runLoop_step P _ vm _ _ hfetch hx]
      rcases h3 with h3 | h3
      · exact forward_ends P n T hstep m vm2 h1 h2 h3.2 (by omega) k
      · exact Or.inl ⟨vm2, runLoop_done P _ vm2 (by omega), h3, h1⟩

/-! ## C39: the run of a program that starts with a function definition -/

theorem functionCode_eq (keyword name : Token) (parameters : List Token) (body : List Stmt) :
    functionCode keyword name parameters body =
      (visitBlock body (emit CodeGenerator.new (name.lexeme ++ ":".toList))).bytecode_ ++
        ["PUSH 0".toList] ++ ["RET".toList] := by
  rw [functionCode, visitStmt]
  rfl

theorem generate_functionFirst (keyword name : Token) (parameters : List Token)
    (body rest : List Stmt) (g : CodeGenerator) :
    (generate (functionFirst keyword name parameters body rest) g).bytecode_ =
      (visitBlock rest (visitStmt (.Function keyword name parameters body)
        CodeGenerator.new)).bytecode_ ++ ["HALT:".toList] := by
  simp only [generate, visitProgram, functionFirst, visitBlock]
  rfl

/-- In a program that starts with the definition of a function whose body has no
LOOP and calls built-ins only, and in which no function is named like a generated
label: the bytecode starts with the code of the function, and each step of a run
inside that code, from an empty call stack, is a fault or leads further on inside it
or, after a RET, to the end of the program. -/
theorem function_first_step (keyword name : Token) (parameters : List Token)
    (body rest : List Stmt) (g : CodeGenerator) (vm0 : VM)
    (hbody : loopFreeBlock body = true)
    (hnames : PlainNames (name.lexeme :: (blockFunctions body ++ blockFunctions rest)))
    (hsize : 1 + blockSize body + blockSize rest ≤ 2147483647) :
    (∃ tail, (generate (functionFirst keyword name parameters body rest) g).bytecode_ =
      functionCode keyword name parameters body ++ tail ∧ tail ≠ []) ∧
    ∀ vm : VM, vm.callstack = [] →
      vm.labels = (runInit (generate (functionFirst keyword name parameters body rest)
        g).bytecode_ vm0).labels →
      vm.pc < (functionCode keyword name parameters body).length →
      ∃ line, (generate (functionFirst keyword name parameters body rest) g).bytecode_[vm.pc]? =
          some line ∧
        (∀ vm1, execute line (generate (functionFirst keyword name parameters body rest)
            g).bytecode_ vm = .ok vm1 →
          vm1.callstack = [] ∧
          vm1.labels = (runInit (generate (functionFirst keyword name parameters body rest)
            g).bytecode_ vm0).labels ∧
          (vm.pc < vm1.pc ∧ vm1.pc < (functionCode keyword name parameters body).length ∨
            vm1.pc = (generate (functionFirst keyword name parameters body rest)
              g).bytecode_.length)) ∧
        (∀ fault vm1, execute line (generate (functionFirst keyword name parameters body rest)
            g).bytecode_ vm = .error (fault, vm1) →
          vm1.callstack = [] ∧
          vm1.labels = (runInit (generate (functionFirst keyword name parameters body rest)
            g).bytecode_ vm0).labels ∧ vm1.pc = vm.pc) := by
  -- the label lines and the jumps of the function and of the statements after it
  have hn1 : PlainNames (stmtFunctions (.Function keyword name parameters body)) := by
    intro f hf
    rw [stmtFunctions] at hf
    refine hnames f ?_
    rcases List.mem_cons.mp hf with h | h
    · rw [h]; exact List.mem_cons_self _ _
    · exact List.mem_cons_of_mem _ (List.mem_append_left _ h)
  have hn2 : PlainNames (blockFunctions rest) := fun f hf =>
    hnames f (List.mem_cons_of_mem _ (List.mem_append_right _ hf))
  have hroom : LabelSpace CodeGenerator.new
      (stmtSize (.Function keyword name parameters body) + blockSize rest) :=
    labelSpace_new _ (by rw [stmtSize]; exact hsize)
  obtain ⟨cF, hcF⟩ := genLabels_stmt (.Function keyword name parameters body)
    CodeGenerator.new hn1 (hroom.less (Nat.le_add_right _ _))
  obtain ⟨cS, hcS⟩ := genLabels_block rest _ hn2 (LabelSpace.after hcF hroom)
  have hcF1 : cF = functionCode keyword name parameters body := by
    have := hcF.bytecode
    rw [functionCode, this]
    rfl
  rw [hcF1] at hcF
  obtain ⟨c, hc, hfw⟩ := forwardCode_stmt (.Function keyword name parameters body)
    CodeGenerator.new (by rw [loopFreeStmt]; exact hbody)
  have hc1 : c = functionCode keyword name parameters body := by
    rw [functionCode, hc]
    rfl
  rw [hc1] at hfw
  have hP : (generate (functionFirst keyword name parameters body rest) g).bytecode_ =
      functionCode keyword name parameters body ++ (cS ++ ["HALT:".toList]) := by
    rw [generate_functionFirst, hcS.bytecode, List.append_assoc]
    rfl
  refine ⟨⟨_, hP, by simp⟩, fun vm hcs hlab hpc => ?_⟩
  refine forward_step _ _ _ _ vm0 vm hP hfw ⟨_, functionCode_eq keyword name parameters body⟩
    ?_ ?_ ?_ hcs hlab hpc
  · intro line hl L hj
    exact isOperand_generated L (hcF.2.2.2.2 line hl L hj).1
  · intro L hL
    have hdead := breakLabels_dead (functionFirst keyword name parameters body rest) g
      (fun f hf => by
        have hf1 : f ∈ name.lexeme :: (blockFunctions body ++ blockFunctions rest) := by
          simpa [functionFirst, blockFunctions, stmtFunctions] using hf
        intro hloop
        obtain ⟨stem, hs, k, hk⟩ := hloop
        refine (hnames f hf1).1 ⟨stem, ?_, k, hk⟩
        simp only [loopStems, List.mem_cons, List.mem_singleton, List.not_mem_nil,
          or_false] at hs
        rcases hs with rfl | rfl <;> decide)
      (by simpa [functionFirst, blockSize, stmtSize, Nat.add_assoc] using hsize) L
      (by
        rw [breakLabels, functionFirst, breakLabelsBlock]
        exact List.mem_append_left _ hL)
    exact hdead.2.1
  · intro line hl L hj hin hm
    obtain ⟨stem, hs, k, rfl⟩ := (hcF.2.2.2.2 line hl L hj).1
    have hr1 := hcF.range stem hs k hin
    rcases List.mem_append.mp hm with hm | hm
    · have hr2 := hcS.range stem hs k hm
      omega
    · rcases labelLine_head stem k hs with h | h
      · rw [List.mem_singleton.mp hm] at h
        exact absurd h (by decide)
      · rw [List.mem_singleton.mp hm] at h
        exact absurd h (by decide)

/-! ## C39: a run falls into the first function and ends there -/

/-- C39 fails on the code for a body that calls a function, and for a program with a
function named like a generated label. Compiled without error,
`SCENE f() { g(); } SCENE g() { POUR 7; }` runs into the body of `f`, whose CALL
enters the code of `g`, a statement that follows the definition of `f`: after two
instructions the run is on line 4, `g:`, with a frame on the call stack; the first
RET reached, the one of `g` on line 8, does not end the run but returns to line 2;
7 is written. `SCENE f() { f(); } POUR 1;` never reaches a RET: every two
instructions the run is back at line 0 with one more frame on the call stack. In
`SCENE f() { IF 1 < 0 { } ELSE { } } SCENE else_0() { POUR 7; }` the JZ of the IF
jumps to the last line `else_0:`, the label line of the function that follows `f`,
and 7 is written. `SCENE end_loop_0() { BREAK; } POUR 1;` never reaches a RET: the
JMP of the BREAK jumps to line 0, and after two instructions the machine is in its
initial state again. -/
theorem function_body_call_counterexample :
    Compiler.compile 64 callerBodySource Compiler.new =
      some { errors_ := [],
             bytecode_ := ["f:".toList, "CALL g 0".toList, "PUSH 0".toList, "RET".toList,
               "g:".toList, "PUSH 7".toList, "PRINT".toList, "PUSH 0".toList, "RET".toList,
               "HALT:".toList],
             hadError_ := false } ∧
    stateAfter ["f:".toList, "CALL g 0".toList, "PUSH 0".toList, "RET".toList,
        "g:".toList, "PUSH 7".toList, "PRINT".toList, "PUSH 0".toList, "RET".toList,
        "HALT:".toList] 2
      (runInit ["f:".toList, "CALL g 0".toList, "PUSH 0".toList, "RET".toList,
        "g:".toList, "PUSH 7".toList, "PRINT".toList, "PUSH 0".toList, "RET".toList,
        "HALT:".toList] (VM.new [])) =
      some { stack := [], vars := [], pc := 4,
             labels := [("f".toList, 0), ("g".toList, 4), ("HALT".toList, 9)],
             callstack := [⟨2, 0, 0⟩], out := [], env := [] } ∧
    stateAfter ["f:".toList, "CALL g 0".toList, "PUSH 0".toList, "RET".toList,
        "g:".toList, "PUSH 7".toList, "PRINT".toList, "PUSH 0".toList, "RET".toList,
        "HALT:".toList] 7
      (runInit ["f:".toList, "CALL g 0".toList, "PUSH 0".toList, "RET".toList,
        "g:".toList, "PUSH 7".toList, "PRINT".toList, "PUSH 0".toList, "RET".toList,
        "HALT:".toList] (VM.new [])) =
      some { stack := [0], vars := [], pc := 2,
             labels := [("f".toList, 0), ("g".toList, 4), ("HALT".toList, 9)],
             callstack := [], out := ["7".toList], env := [] } ∧
    run 20 ["f:".toList, "CALL g 0".toList, "PUSH 0".toList, "RET".toList,
        "g:".toList, "PUSH 7".toList, "PRINT".toList, "PUSH 0".toList, "RET".toList,
        "HALT:".toList] (VM.new []) =
      .finished { stack := [0, 0], vars := [], pc := 10,
                  labels := [("f".toList, 0), ("g".toList, 4), ("HALT".toList, 9)],
                  callstack := [], out := ["7".toList], env := [] } ∧
    Compiler.compile 64 recursiveBodySource Compiler.new =
      some { errors_ := [],
             bytecode_ := ["f:".toList, "CALL f 0".toList, "PUSH 0".toList, "RET".toList,
               "PUSH 1".toList, "PRINT".toList, "HALT:".toList],
             hadError_ := false } ∧
    (∀ fuel : Nat, ∃ vm1,
      run fuel ["f:".toList, "CALL f 0".toList, "PUSH 0".toList, "RET".toList,
        "PUSH 1".toList, "PRINT".toList, "HALT:".toList] (VM.new []) = .out_of_fuel vm1) ∧
    Compiler.compile 64 shadowedBodySource Compiler.new =
      some { errors_ := [],
             bytecode_ := ["f:".toList, "PUSH 1".toList, "PUSH 0".toList, "LT".toList,
               "JZ else_0".toList, "JMP end_if_0".toList, "else_0:".toList,
               "end_if_0:".toList, "PUSH 0".toList, "RET".toList, "else_0:".toList,
               "PUSH 7".toList, "PRINT".toList, "PUSH 0".toList, "RET".toList,
               "HALT:".toList],
             hadError_ := false } ∧
    run 20 ["f:".toList, "PUSH 1".toList, "PUSH 0".toList, "LT".toList,
        "JZ else_0".toList, "JMP end_if_0".toList, "else_0:".toList,
        "end_if_0:".toList, "PUSH 0".toList, "RET".toList, "else_0:".toList,
        "PUSH 7".toList, "PRINT".toList, "PUSH 0".toList, "RET".toList,
        "HALT:".toList] (VM.new []) =
      .finished { stack := [7, 0], vars := [], pc := 16,
                  labels := [("f".toList, 0), ("else_0".toList, 10), ("end_if_0".toList, 7),
                    ("HALT".toList, 15)],
                  callstack := [], out := ["7".toList], env := [] } ∧
    Compiler.compile 64 breakNameSource Compiler.new =
      some { errors_ := [],
             bytecode_ := ["end_loop_0:".toList, "JMP end_loop_0".toList, "PUSH 0".toList,
               "RET".toList, "PUSH 1".toList, "PRINT".toList, "HALT:".toList],
             hadError_ := false } ∧
    stateAfter ["end_loop_0:".toList, "JMP end_loop_0".toList, "PUSH 0".toList,
        "RET".toList, "PUSH 1".toList, "PRINT".toList, "HALT:".toList] 2
      (runInit ["end_loop_0:".toList, "JMP end_loop_0".toList, "PUSH 0".toList,
        "RET".toList, "PUSH 1".toList, "PRINT".toList, "HALT:".toList] (VM.new [])) =
      some (runInit ["end_loop_0:".toList, "JMP end_loop_0".toList, "PUSH 0".toList,
        "RET".toList, "PUSH 1".toList, "PRINT".toList, "HALT:".toList] (VM.new [])) := by
  refine ⟨by decide, by decide, by decide, by decide, by decide, fun fuel => ?_, by decide,
    by decide, by decide, by decide⟩
  exact recursive_body_loops fuel []

/-- C39, amended. A function definition at the start of a program is emitted at the
start of the bytecode, with no jump around it: line 0 is its label line, whatever
the body. When the body contains no LOOP and no call of a function other than a
built-in, no function of the program is named like a generated label, and the
program has fewer than 2^31 statements: the bytecode starts with the code of the
function (label line, code of the body, `PUSH 0`, `RET`); every state that a run
reaches has an empty call stack and its program counter on a line of that code or,
after a RET, at the end of the program, so no line of the statements that follow the
function is executed; and the run ends within as many instructions as that code has
lines, at the end of the program or by a fault at a line of that code. A RET executed
with an empty call stack sets `pc` to the end of the program. When moreover the body
consists of straight-line statements (declarations, assignments, prints and
expression statements over the expressions of C1) up to its first SHOT and divides
-2147483648 by -1 nowhere, the run executes exactly the label line and the code of
the body up to its first RET and ends there with the effects of the body and nothing
else. Compiled and run, `SCENE f() { } POUR 1;` writes nothing. -/
theorem function_body_runs_first (keyword name : Token) (parameters : List Token)
    (body rest : List Stmt) (g : CodeGenerator) (vm : VM)
    (hbody : loopFreeBlock body = true)
    (hnames : PlainNames (name.lexeme :: (blockFunctions body ++ blockFunctions rest)))
    (hsize : 1 + blockSize body + blockSize rest ≤ 2147483647) :
    (∀ body1 : List Stmt,
      (generate (functionFirst keyword name parameters body1 rest) g).bytecode_[0]? =
        some (name.lexeme ++ ":".toList)) ∧
    (∃ code, (generate (functionFirst keyword name parameters body rest) g).bytecode_ =
      functionCode keyword name parameters body ++ code) ∧
    functionCode keyword name parameters body =
      (visitBlock body (emit CodeGenerator.new (name.lexeme ++ ":".toList))).bytecode_ ++
        ["PUSH 0".toList] ++ ["RET".toList] ∧
    (∀ (k : Nat) (vm1 : VM),
      stateAfter (generate (functionFirst keyword name parameters body rest) g).bytecode_ k
          (runInit (generate (functionFirst keyword name parameters body rest) g).bytecode_
            vm) = some vm1 →
        vm1.callstack = [] ∧
        (vm1.pc < (functionCode keyword name parameters body).length ∨
          vm1.pc =
            (generate (functionFirst keyword name parameters body rest) g).bytecode_.length)) ∧
    (∀ k : Nat,
      (∃ vm1,
        run ((functionCode keyword name parameters body).length + k)
            (generate (functionFirst keyword name parameters body rest) g).bytecode_ vm =
          .finished vm1 ∧
        vm1.pc =
          (generate (functionFirst keyword name parameters body rest) g).bytecode_.length ∧
        vm1.callstack = []) ∨
      (∃ fault vm1,
        run ((functionCode keyword name parameters body).length + k)
            (generate (functionFirst keyword name parameters body rest) g).bytecode_ vm =
          .aborted fault vm1 ∧
        vm1.pc < (functionCode keyword name parameters body).length ∧
        vm1.callstack = [])) ∧
    (∀ (program : List Str) (vm1 : VM), vm1.callstack = [] →
      execute "RET".toList program vm1 = .ok { vm1 with pc := program.length }) ∧
    (isStraightBody body = true → bodyDefined (VM.new []) body = true → ∀ k : Nat,
      run (1 + (bodyCode body).length + k)
          (generate (functionFirst keyword name parameters body rest) g).bytecode_ vm =
        .finished { specBody
            (runInit (generate (functionFirst keyword name parameters body rest) g).bytecode_
              vm) body with
          pc := (generate (functionFirst keyword name parameters body rest)
            g).bytecode_.length }) ∧
    Compiler.compile 64 emptyBodySource Compiler.new =
      some { errors_ := [],
             bytecode_ := ["f:".toList, "PUSH 0".toList, "RET".toList, "PUSH 1".toList,
               "PRINT".toList, "HALT:".toList],
             hadError_ := false } ∧
    run 20 ["f:".toList, "PUSH 0".toList, "RET".toList, "PUSH 1".toList, "PRINT".toList,
        "HALT:".toList] (VM.new []) =
      .finished { stack := [0], vars := [], pc := 6,
                  labels := [("f".toList, 0), ("HALT".toList, 5)],
                  callstack := [], out := [], env := [] } := by
  have hgen : ∀ body1 : List Stmt,
      (generate (functionFirst keyword name parameters body1 rest) g).bytecode_ =
        (visitBlock rest (emit (emit (visitBlock body1
          (emit CodeGenerator.new (name.lexeme ++ ":".toList))) "PUSH 0".toList)
          "RET".toList)).bytecode_ ++ ["HALT:".toList] := by
    intro body1
    simp only [generate, visitProgram, functionFirst, visitBlock, visitStmt]
    rfl
  have hfirst : ∀ body1 : List Stmt,
      [name.lexeme ++ ":".toList] <+:
        (generate (functionFirst keyword name parameters body1 rest) g).bytecode_ := by
    intro body1
    rw [hgen]
    have h0 : [name.lexeme ++ ":".toList] <+:
        (visitBlock body1 (emit CodeGenerator.new (name.lexeme ++ ":".toList))).bytecode_ :=
      appends_block body1 (emit CodeGenerator.new (name.lexeme ++ ":".toList))
    exact (((h0.trans (emit_extends _ _)).trans (emit_extends _ _)).trans
      (appends_block rest _)).trans (List.prefix_append _ _)
  obtain ⟨⟨tail, hP, -⟩, hstep⟩ := function_first_step keyword name parameters body rest g vm
    hbody hnames hsize
  have hpos : 0 < (functionCode keyword name parameters body).length := by
    rw [functionCode_eq]
    simp
  refine ⟨fun body1 => ?_, ⟨tail, hP⟩, functionCode_eq keyword name parameters body,
    fun k vm1 h => ?_, fun k => ?_, fun program vm1 h => execute_RET_top program vm1 h,
    fun hstraight hdef k => ?_, by decide, by decide⟩
  · obtain ⟨t, ht⟩ := hfirst body1
    rw [← ht]
    simp
  · exact forward_states _ _ _ hstep k _ vm1 rfl rfl hpos h
  · exact forward_ends _ _ _ hstep _ _ rfl rfl hpos (Nat.sub_le _ _) k
  · have hshape : ∃ code,
        (generate (functionFirst keyword name parameters body rest) g).bytecode_ =
          (name.lexeme ++ ":".toList) :: (bodyCode body ++ code) := by
      have h1 := bodyCode_emitted body hstraight
        (emit CodeGenerator.new (name.lexeme ++ ":".toList))
      have h2 := (h1.trans (appends_block rest _)).trans
        (List.prefix_append _ ["HALT:".toList])
      rw [← hgen] at h2
      obtain ⟨code, hcode⟩ := h2
      refine ⟨code, ?_⟩
      rw [← hcode]
      rfl
    obtain ⟨code, hP1⟩ := hshape
    generalize (generate (functionFirst keyword name parameters body rest) g).bytecode_ = P
      at hP1 ⊢
    have hrun : stateAfter P (1 + (bodyCode body).length) (runInit P vm) =
        some { specBody (runInit P vm) body with pc := P.length } := by
      rw [Nat.add_comm]
      refine stateAfter_step P _ _ (incPc (runInit P vm)) (name.lexeme ++ ":".toList) _ ?_
        (execute_labelLine _ _ _ (by simp [isLabelLine])) ?_
      · rw [hP1]
        show ((name.lexeme ++ ":".toList) :: (bodyCode body ++ code))[0]? = _
        simp
      have hP2 : P = [name.lexeme ++ ":".toList] ++ bodyCode body ++ code := by
        rw [hP1]; rfl
      rw [body_run body hstraight P _ code (incPc (runInit P vm)) hP2 rfl rfl
        ((bodyDefined_congr body (incPc (runInit P vm)) (VM.new []) rfl).trans hdef)]
      exact congrArg some (by rw [incPc, specBody_pc])
    exact run_finished P _ k vm _ hrun (Nat.le_refl _)

/-- C39, instance: `SCENE f() { IF 2 >= 1 { POUR abs(-5); } } POUR 1;`. The body has
an IF on a comparison and the call of a built-in; the run ends within the 15
instructions of the function, and it writes 5 and not the 1 of the statement that
follows the function. -/
theorem function_body_runs_first_witness :
    loopFreeBlock
      [.If ⟨.IF, "IF".toList, [], 1⟩
        (.Binary (.Literal ⟨.NUMBER, "2".toList, "2".toList, 1⟩ "2".toList)
          ⟨.GREATER_EQUAL, ">=".toList, [], 1⟩
          (.Literal ⟨.NUMBER, "1".toList, "1".toList, 1⟩ "1".toList))
        [.Print ⟨.POUR, "POUR".toList, [], 1⟩
          (.Call (identifier "abs" 1)
            [.Literal ⟨.NUMBER, "-5".toList, "-5".toList, 1⟩ "-5".toList])]
        none] = true ∧
    ((∃ vm1,
        run ((functionCode ⟨.SCENE, "SCENE".toList, [], 1⟩ (identifier "f" 1) []
            [.If ⟨.IF, "IF".toList, [], 1⟩
              (.Binary (.Literal ⟨.NUMBER, "2".toList, "2".toList, 1⟩ "2".toList)
                ⟨.GREATER_EQUAL, ">=".toList, [], 1⟩
                (.Literal ⟨.NUMBER, "1".toList, "1".toList, 1⟩ "1".toList))
              [.Print ⟨.POUR, "POUR".toList, [], 1⟩
                (.Call (identifier "abs" 1)
                  [.Literal ⟨.NUMBER, "-5".toList, "-5".toList, 1⟩ "-5".toList])]
              none]).length + 0)
          (generate (functionFirst ⟨.SCENE, "SCENE".toList, [], 1⟩ (identifier "f" 1) []
            [.If ⟨.IF, "IF".toList, [], 1⟩
              (.Binary (.Literal ⟨.NUMBER, "2".toList, "2".toList, 1⟩ "2".toList)
                ⟨.GREATER_EQUAL, ">=".toList, [], 1⟩
                (.Literal ⟨.NUMBER, "1".toList, "1".toList, 1⟩ "1".toList))
              [.Print ⟨.POUR, "POUR".toList, [], 1⟩
                (.Call (identifier "abs" 1)
                  [.Literal ⟨.NUMBER, "-5".toList, "-5".toList, 1⟩ "-5".toList])]
              none]
            [.Print ⟨.POUR, "POUR".toList, [], 1⟩
              (.Literal ⟨.NUMBER, "1".toList, "1".toList, 1⟩ "1".toList)])
            CodeGenerator.new).bytecode_ (VM.new []) = .finished vm1 ∧
        vm1.pc = 18 ∧ vm1.callstack = []) ∨
      (∃ fault vm1,
        run ((functionCode ⟨.SCENE, "SCENE".toList, [], 1⟩ (identifier "f" 1) []
            [.If ⟨.IF, "IF".toList, [], 1⟩
              (.Binary (.Literal ⟨.NUMBER, "2".toList, "2".toList, 1⟩ "2".toList)
                ⟨.GREATER_EQUAL, ">=".toList, [], 1⟩
                (.Literal ⟨.NUMBER, "1".toList, "1".toList, 1⟩ "1".toList))
              [.Print ⟨.POUR, "POUR".toList, [], 1⟩
                (.Call (identifier "abs" 1)
                  [.Literal ⟨.NUMBER, "-5".toList, "-5".toList, 1⟩ "-5".toList])]
              none]).length + 0)
          (generate (functionFirst ⟨.SCENE, "SCENE".toList, [], 1⟩ (identifier "f" 1) []
            [.If ⟨.IF, "IF".toList, [], 1⟩
              (.Binary (.Literal ⟨.NUMBER, "2".toList, "2".toList, 1⟩ "2".toList)
                ⟨.GREATER_EQUAL, ">=".toList, [], 1⟩
                (.Literal ⟨.NUMBER, "1".toList, "1".toList, 1⟩ "1".toList))
              [.Print ⟨.POUR, "POUR".toList, [], 1⟩
                (.Call (identifier "abs" 1)
                  [.Literal ⟨.NUMBER, "-5".toList, "-5".toList, 1⟩ "-5".toList])]
              none]
            [.Print ⟨.POUR, "POUR".toList, [], 1⟩
              (.Literal ⟨.NUMBER, "1".toList, "1".toList, 1⟩ "1".toList)])
            CodeGenerator.new).bytecode_ (VM.new []) = .aborted fault vm1 ∧
        vm1.pc < 15 ∧ vm1.callstack = [])) ∧
    run 15 ["f:".toList, "PUSH 2".toList, "PUSH 1".toList, "LT".toList, "PUSH 1".toList,
        "SUB".toList, "JZ else_0".toList, "PUSH -5".toList, "CALL abs 1".toList,
        "PRINT".toList, "JMP end_if_0".toList, "else_0:".toList, "end_if_0:".toList,
        "PUSH 0".toList, "RET".toList, "PUSH 1".toList, "PRINT".toList, "HALT:".toList]
        (VM.new []) =
      .finished { stack := [5, 0], vars := [], pc := 18,
                  labels := [("f".toList, 0), ("else_0".toList, 11),
                    ("end_if_0".toList, 12), ("HALT".toList, 17)],
                  callstack := [], out := ["5".toList], env := [] } :=
  ⟨by decide,
   (function_body_runs_first ⟨.SCENE, "SCENE".toList, [], 1⟩ (identifier "f" 1) []
      [.If ⟨.IF, "IF".toList, [], 1⟩
        (.Binary (.Literal ⟨.NUMBER, "2".toList, "2".toList, 1⟩ "2".toList)
          ⟨.GREATER_EQUAL, ">=".toList, [], 1⟩
          (.Literal ⟨.NUMBER, "1".toList, "1".toList, 1⟩ "1".toList))
        [.Print ⟨.POUR, "POUR".toList, [], 1⟩
          (.Call (identifier "abs" 1)
            [.Literal ⟨.NUMBER, "-5".toList, "-5".toList, 1⟩ "-5".toList])]
        none]
      [.Print ⟨.POUR, "POUR".toList, [], 1⟩
        (.Literal ⟨.NUMBER, "1".toList, "1".toList, 1⟩ "1".toList)]
      CodeGenerator.new (VM.new []) (by decide)
      (fun f hf => by
        have hf1 : f = "f".toList := by
          simpa [blockFunctions, stmtFunctions, elseFunctions, identifier] using hf
        rw [hf1]
        exact ⟨not_generated_of_head _ 'f' rfl (by decide) (by decide), by decide⟩)
      (by decide)).2.2.2.2.1 0,
   by decide⟩

end Cinebrew
